import Mathlib

/-! # MatrixGenerator: the discriminator-construction engine

A shallow embedding of the memoizing cache (`Cache.h`), the dependency graph
(`AdjacencyList.h`), the table pruner (`TablePruner.cpp`) and the evaluation
caches of the invariant functions (`LookupTable.h`, `AnchorSet.cpp`,
`Taxonomy2.cpp`, `Discriminator.cpp`), followed by the properties established
about them.

Conventions of the embedding:

* a C++ object is a structure; a member function takes the object and returns
  its result together with the object afterwards;
* a call that may raise returns `Except`;
* loops whose termination depends on the input take a step budget; exhausting
  it is a result of its own (`none`, or the error `budget`).
-/

namespace MatrixGenerator

deriving instance DecidableEq for Except

/-! ## Cache.h -/

/-- The backing associative container of a cache (`std::map` or
`boost::unordered_map`), as the list of its entries. Only `count`, `insert`
and `operator[]` are used by the cache, none of which observes the order. -/
structure MapType (K V : Type) where
  entries : List (K × V)

namespace MapType

variable {K V : Type} [DecidableEq K]

/-- The empty container, `MapType()`. -/
def empty : MapType K V := ⟨[]⟩

/-- Entry lookup, the common core of `count` and `operator[]`. -/
def findIn : List (K × V) → K → Option V
  | [], _ => none
  | (a, b) :: t, key => if a = key then some b else findIn t key

/-- Lookup of the value stored under `key`. -/
def find (m : MapType K V) (key : K) : Option V := findIn m.entries key

/-- Embedding of `m.count(key)`: 1 when the key is present, else 0. -/
def count (m : MapType K V) (key : K) : Nat :=
  match m.find key with
  | some _ => 1
  | none => 0

/-- Embedding of `m.insert(value_type(key, value))`: adds the entry unless the key is
already present, in which case the container is left as it is. -/
def insert (m : MapType K V) (kv : K × V) : MapType K V :=
  if m.count kv.1 = 0 then ⟨kv :: m.entries⟩ else m

/-- Embedding of `m[key]`: the stored value; a missing key is first inserted with a
default-constructed value. Returns the value and the container afterwards. -/
def index [Inhabited V] (m : MapType K V) (key : K) : V × MapType K V :=
  match m.find key with
  | some v => (v, m)
  | none => (default, ⟨(key, default) :: m.entries⟩)

/-- The assignment `m[key] = value`: the entry is created if the key is
missing, and its value is overwritten. -/
def assign (m : MapType K V) (key : K) (value : V) : MapType K V :=
  match m.find key with
  | some _ => ⟨m.entries.map (fun p => if p.1 = key then (p.1, value) else p)⟩
  | none => ⟨(key, value) :: m.entries⟩

end MapType

/-- A `MapCache<MapType, Delegate>`: the backing map and the insert delegate.
The delegate is an object of type `D`; calling it is the function `call`
passed to `query`, which returns either the produced value or the failure it
raised, together with the delegate afterwards (a delegate may be stateful). -/
structure MapCache (K V D : Type) where
  cache : MapType K V
  delegate : D

namespace MapCache

variable {K V D E : Type} [DecidableEq K] [Inhabited V]

/-- Embedding of `MapCache::contains`. -/
def contains (c : MapCache K V D) (key : K) : Bool × MapCache K V D :=
  (c.cache.count key != 0, c)

/-- Embedding of `MapCache::query` in a sequential execution: the second `count` test
(made under the upgrade lock) sees the same map as the first. A failure of
the delegate leaves `cache.insert` unexecuted and propagates. -/
def query (call : D → K → Except E V × D) (c : MapCache K V D) (key : K) :
    Except E V × MapCache K V D :=
  if c.cache.count key = 0 then
    if c.cache.count key = 0 then
      match call c.delegate key with
      | (Except.error e, d) => (Except.error e, { c with delegate := d })
      | (Except.ok v, d) =>
        let r := (c.cache.insert (key, v)).index key
        (Except.ok r.1, { cache := r.2, delegate := d })
    else
      let r := c.cache.index key
      (Except.ok r.1, { c with cache := r.2 })
  else
    let r := c.cache.index key
    (Except.ok r.1, { c with cache := r.2 })

end MapCache

/-- A call made on a cache. -/
inductive CacheOp (K : Type) where
  | contains (key : K)
  | query (key : K)
  deriving DecidableEq, Repr

/-- The response to a call: the boolean of `contains`, the value returned by
`query`, or the failure `query` propagated. -/
inductive CacheRes (V E : Type) where
  | found (b : Bool)
  | value (v : V)
  | raised (e : E)
  deriving DecidableEq, Repr

namespace MapCache

variable {K V D E : Type} [DecidableEq K] [Inhabited V]

/-- One call of a sequential history. -/
def step (call : D → K → Except E V × D) (c : MapCache K V D) :
    CacheOp K → CacheRes V E × MapCache K V D
  | CacheOp.contains key => (CacheRes.found (c.contains key).1, (c.contains key).2)
  | CacheOp.query key =>
    match c.query call key with
    | (Except.ok v, c1) => (CacheRes.value v, c1)
    | (Except.error e, c1) => (CacheRes.raised e, c1)

/-- A sequential history: the calls are made one after the other; the result
pairs every call with its response and gives the cache afterwards. -/
def run (call : D → K → Except E V × D) :
    MapCache K V D → List (CacheOp K) → List (CacheOp K × CacheRes V E) × MapCache K V D
  | c, [] => ([], c)
  | c, op :: ops =>
    ((op, (c.step call op).1) :: (run call (c.step call op).2 ops).1,
      (run call (c.step call op).2 ops).2)

end MapCache

/-- A delegate `f` that always returns a value, instrumented to record every
invocation (key and produced value) in order. The delegate state `D` is
threaded through unchanged, so `f` may be stateful. -/
def recording {K V D E : Type} (f : D → K → V × D) :
    D × List (K × V) → K → Except E V × (D × List (K × V)) :=
  fun s key => (Except.ok (f s.1 key).1, ((f s.1 key).2, s.2 ++ [(key, (f s.1 key).1)]))

/-- The recorded invocations of the delegate for one key. -/
def invocationsFor {K V : Type} [DecidableEq K] (key : K) (log : List (K × V)) : List (K × V) :=
  log.filter (fun p => decide (p.1 = key))

/-! ## AdjacencyList.h -/

/-- A vertex of `boost::adjacency_list<vecS, vecS, directedS, T>`: its bundled
property (the label) and the vector of targets of its out-edges. A vertex
descriptor is the position of the vertex in the vertex vector. -/
structure StoredVertex (T : Type) where
  property : T
  outEdges : List Nat

/-- The `internalGraph`: the vector of stored vertices. -/
abbrev InternalGraph (T : Type) := List (StoredVertex T)

namespace InternalGraph

variable {T : Type}

/-- Embedding of `boost::add_vertex(label, G)`: appends the vertex; its descriptor is the
previous number of vertices. -/
def add_vertex (label : T) (G : InternalGraph T) : Nat × InternalGraph T :=
  (G.length, G ++ [⟨label, []⟩])

/-- Embedding of `boost::edge(u, v, G).second`: whether `v` is a target in the out-edge
vector of `u`. -/
def edge (u v : Nat) (G : InternalGraph T) : Bool :=
  match G[u]? with
  | some sv => decide (v ∈ sv.outEdges)
  | none => false

/-- Embedding of `boost::add_edge(u, v, G)` for descriptors of existing vertices: appends
`v` to the out-edge vector of `u`. -/
def add_edge : Nat → Nat → InternalGraph T → InternalGraph T
  | _, _, [] => []
  | 0, v, sv :: t => { sv with outEdges := sv.outEdges ++ [v] } :: t
  | u + 1, v, sv :: t => sv :: add_edge u v t

/-- Embedding of `boost::num_vertices(G)`. -/
def num_vertices (G : InternalGraph T) : Nat := G.length

/-- Embedding of `boost::num_edges(G)`: the total number of stored out-edges. -/
def num_edges (G : InternalGraph T) : Nat := (G.map (fun sv => sv.outEdges.length)).sum

/-- The out-edge targets of a descriptor (none for a descriptor out of range). -/
def out_edges (G : InternalGraph T) (u : Nat) : List Nat :=
  match G[u]? with
  | some sv => sv.outEdges
  | none => []

end InternalGraph

/-- The colours of `boost::default_color_type` used by depth-first search. -/
inductive Color where
  | white
  | gray
  | black
  deriving DecidableEq, Repr

/-- How `boost::topological_sort` can fail: `not_a_dag` is the exception the
library raises on a back edge; `budget` is the exhaustion of the step budget
of this embedding (shown below never to happen). -/
inductive DfsError where
  | not_a_dag
  | budget
  deriving DecidableEq, Repr

/-- The state of a depth-first search: the colour map and what has been
written through the output iterator so far. -/
structure DfsState (O : Type) where
  color : Nat → Color
  output : O

namespace DfsState

variable {O : Type}

/-- Embedding of `put(color, u, c)`. -/
def paint (s : DfsState O) (u : Nat) (c : Color) : DfsState O :=
  { s with color := fun w => if w = u then c else s.color w }

/-- The `finish_vertex` event of `topo_sort_visitor`: `*m_iter++ = u`. -/
def finish (emit : Nat → O → O) (s : DfsState O) (u : Nat) : DfsState O :=
  { color := fun w => if w = u then Color.black else s.color w, output := emit u s.output }

end DfsState

/-- The out-edge loop of `depth_first_visit` of the Boost Graph Library with
`topo_sort_visitor`: for each target in turn, a white target is discovered
(painted gray), its own out-edges are examined, and it is finished (painted
black and written to the output); a gray target is a back edge, on which the
visitor raises `not_a_dag`; a black target is skipped. -/
def dfsEdges {O : Type} (emit : Nat → O → O) (out : Nat → List Nat) :
    Nat → List Nat → DfsState O → Except DfsError (DfsState O)
  | _, [], s => Except.ok s
  | 0, _ :: _, _ => Except.error DfsError.budget
  | fuel + 1, v :: vs, s =>
    match s.color v with
    | Color.white =>
      match dfsEdges emit out fuel (out v) (s.paint v Color.gray) with
      | Except.ok s1 => dfsEdges emit out fuel vs (s1.finish emit v)
      | Except.error e => Except.error e
    | Color.gray => Except.error DfsError.not_a_dag
    | Color.black => dfsEdges emit out fuel vs s

/-- Embedding of `depth_first_visit` from a white vertex `u`. -/
def dfsVisit {O : Type} (emit : Nat → O → O) (out : Nat → List Nat) (fuel : Nat) (u : Nat)
    (s : DfsState O) : Except DfsError (DfsState O) :=
  match dfsEdges emit out fuel (out u) (s.paint u Color.gray) with
  | Except.ok s1 => Except.ok (s1.finish emit u)
  | Except.error e => Except.error e

/-- The main loop of `boost::depth_first_search`: every vertex that is still
white is visited, in the order of the vertex vector. -/
def depth_first_search {O : Type} (emit : Nat → O → O) (out : Nat → List Nat) (fuel : Nat) :
    List Nat → DfsState O → Except DfsError (DfsState O)
  | [], s => Except.ok s
  | u :: us, s =>
    match s.color u with
    | Color.white =>
      match dfsVisit emit out fuel u s with
      | Except.ok s1 => depth_first_search emit out fuel us s1
      | Except.error e => Except.error e
    | _ => depth_first_search emit out fuel us s

/-- Embedding of `std::deque::push_front`, the write made through `std::front_inserter`. -/
def push_front (v : Nat) (descriptors : List Nat) : List Nat := v :: descriptors

/-- Embedding of `boost::topological_sort(G, it)`: a depth-first search of the whole graph
from an all-white colour map. The step budget is the number of vertices plus
the number of edges plus one, which always suffices. -/
def boost_topological_sort {T O : Type} (emit : Nat → O → O) (G : InternalGraph T) (o : O) :
    Except DfsError O :=
  match depth_first_search emit G.out_edges (G.num_vertices + G.num_edges + 1)
      (List.range G.num_vertices) ⟨fun _ => Color.white, o⟩ with
  | Except.ok s => Except.ok s.output
  | Except.error e => Except.error e

/-- The class `Graph<T>`: the internal graph and the map from labels to vertex
descriptors. The mutexes, which do not influence a sequential execution, are
left out. -/
structure Graph (T : Type) where
  G : InternalGraph T
  descriptorMap : MapType T Nat

namespace Graph

variable {T : Type} [DecidableEq T]

/-- Embedding of `Graph()`. -/
def empty : Graph T := ⟨[], MapType.empty⟩

/-- Embedding of `Graph::containsVertex`. -/
def containsVertex (g : Graph T) (vertex : T) : Bool :=
  g.descriptorMap.count vertex != 0

/-- Embedding of `Graph::addVertex`. -/
def addVertex (g : Graph T) (vertex : T) : Graph T :=
  if g.containsVertex vertex then g
  else if g.descriptorMap.count vertex = 0 then
    let r := InternalGraph.add_vertex vertex g.G
    { G := r.2, descriptorMap := g.descriptorMap.assign vertex r.1 }
  else g

/-- Embedding of `Graph::getDescriptor`: `descriptorMap[vertex]`. -/
def getDescriptor (g : Graph T) (vertex : T) : Nat × Graph T :=
  ((g.descriptorMap.index vertex).1, { g with descriptorMap := (g.descriptorMap.index vertex).2 })

/-- Embedding of `Graph::addEdge`. -/
def addEdge (g : Graph T) (from_v to_v : T) : Graph T :=
  let g1 := if !g.containsVertex from_v then g.addVertex from_v else g
  let g2 := if !g1.containsVertex to_v then g1.addVertex to_v else g1
  let from_d := g2.getDescriptor from_v
  let to_d := from_d.2.getDescriptor to_v
  if !InternalGraph.edge from_d.1 to_d.1 to_d.2.G then
    { to_d.2 with G := InternalGraph.add_edge from_d.1 to_d.1 to_d.2.G }
  else to_d.2

/-- Embedding of `Graph::containsEdge`. -/
def containsEdge (g : Graph T) (from_v to_v : T) : Bool :=
  if !g.containsVertex from_v then false
  else if !g.containsVertex to_v then false
  else
    InternalGraph.edge (g.getDescriptor from_v).1 ((g.getDescriptor from_v).2.getDescriptor to_v).1 g.G

/-- Embedding of `Graph::numVertices`. -/
def numVertices (g : Graph T) : Nat := g.G.num_vertices

/-- Embedding of `Graph::numEdges`. -/
def numEdges (g : Graph T) : Nat := g.G.num_edges

/-- The `Transformer` functor: `G[v]`, the label of a descriptor. -/
def Transformer [Inhabited T] (G : InternalGraph T) (v : Nat) : T :=
  match G[v]? with
  | some sv => sv.property
  | none => default

/-- Embedding of `Graph::topological_sort`: the library writes the vertices through
`std::front_inserter(descriptors)`, so every written descriptor is pushed at
the front of the deque; the deque is then mapped to labels. -/
def topological_sort [Inhabited T] (g : Graph T) : Except DfsError (List T) :=
  match boost_topological_sort push_front g.G [] with
  | Except.ok descriptors => Except.ok (descriptors.map (Transformer g.G))
  | Except.error e => Except.error e

end Graph

/-- A mutating call on a graph. -/
inductive GraphOp (T : Type) where
  | addVertex (vertex : T)
  | addEdge (from_v to_v : T)
  deriving DecidableEq, Repr

namespace Graph

variable {T : Type} [DecidableEq T]

/-- The graph after one call. -/
def apply (g : Graph T) : GraphOp T → Graph T
  | GraphOp.addVertex vertex => g.addVertex vertex
  | GraphOp.addEdge from_v to_v => g.addEdge from_v to_v

/-- The graph built from the empty graph by a sequence of calls. -/
def build (ops : List (GraphOp T)) : Graph T := ops.foldl apply empty

end Graph

/-! ## TablePruner.cpp: dependency discovery -/

namespace GraphPopulationTask

variable {T : Type} [DecidableEq T]

/-- The inner loop of `GraphPopulationTask::operator()`: for each dependent,
`G.addEdge(task, dependent)`. -/
def addEdges (G : Graph T) (task : T) : List T → Graph T
  | [] => G
  | d :: ds => addEdges (G.addEdge task d) task ds

/-- Embedding of `GraphPopulationTask::operator()`: while the deque `tasks` is not empty,
its front task is removed and added to the graph, and each of its dependents
is linked by an edge from the task and pushed at the back of the deque.
`getDependents` is `GInvariantEvaluationTask::getDependents`. The loop has no
bound of its own, so the embedding counts iterations: `none` means that the
deque was still not empty after `fuel` iterations. -/
def run (getDependents : T → List T) : Nat → Graph T → List T → Option (Graph T)
  | _, G, [] => some G
  | 0, _, _ :: _ => none
  | fuel + 1, G, task :: tasks =>
    run getDependents fuel (addEdges (G.addVertex task) task (getDependents task))
      (tasks ++ getDependents task)

/-- Embedding of `GraphPopulationTask::create(G, startingTask)` run to completion: the
deque starts with the starting task alone. -/
def populate (getDependents : T → List T) (fuel : Nat) (G : Graph T) (startingTask : T) :
    Option (Graph T) :=
  run getDependents fuel G [startingTask]

end GraphPopulationTask

/-- The dependency search of `TablePruner::addGInvariant` for one root task:
the graph is populated from an empty `dependencyGraph` and then sorted. -/
def sortedTasks {T : Type} [DecidableEq T] [Inhabited T] (getDependents : T → List T)
    (fuel : Nat) (root : T) : Option (Except DfsError (List T)) :=
  match GraphPopulationTask.populate getDependents fuel Graph.empty root with
  | some G => some G.topological_sort
  | none => none

/-! ## utils.cpp, Discriminator.cpp, TablePruner.cpp -/

/-- A `Subset` (`std::set<unsigned long>`), as the increasing list of its
elements. -/
abbrev Subset := List Nat

/-- Embedding of `generateX(v)`: the set of the points `0, ..., v - 1`. -/
def generateX (v : Nat) : Subset := List.range v

/-- A `std::set`, as the list of its (pairwise different) elements. -/
structure SetType (A : Type) where
  elems : List A

namespace SetType

variable {A : Type} [DecidableEq A]

/-- The empty set. -/
def empty : SetType A := ⟨[]⟩

/-- Embedding of `s.insert(x)`: adds `x` unless an equal element is present. -/
def insert (s : SetType A) (x : A) : SetType A :=
  if x ∈ s.elems then s else ⟨s.elems ++ [x]⟩

/-- Embedding of `s.size()`. -/
def size (s : SetType A) : Nat := s.elems.length

/-- Embedding of `s.count(x)`. -/
def count (s : SetType A) (x : A) : Nat := if x ∈ s.elems then 1 else 0

/-- Embedding of `s.erase(s.find(x))` for an element that is present. -/
def erase (s : SetType A) (x : A) : SetType A := ⟨s.elems.erase x⟩

end SetType

/-- How a call on a pruner or a discriminator can fail: with the exception
`PrunerNotReady`, with a failure `e` raised by the evaluation of an invariant
function, or by running into undefined behaviour (dereferencing the end
iterator of the translation table, or an empty optional). -/
inductive Failure (E : Type) where
  | PrunerNotReady
  | raised (e : E)
  | undefined
  deriving DecidableEq, Repr

/-- A `Discriminator` built by the pruner: the function list, the translation
table, the starting evaluation cache and, once it has been evaluated for the
first time, its entry in the `DiscriminatorEvalCache`. That cache is keyed by the
address of the discriminator, so the entry belongs to this object alone and
is kept with it. -/
structure Discriminator (Fn : Type) where
  functions : List Fn
  lookupTable : MapType (List Nat) Nat
  newCache : MapType Subset Nat
  resultCache : Option (MapType Subset Nat)

/-- Embedding of `DiscriminatorEvaluator::operator()`: the vector of the values of the
functions on `B`, in the order of the function list. `evaluate` is
`GInvariant::evaluate`, which acts on the state `W` of the evaluation caches
and may raise. -/
def DiscriminatorEvaluator {Fn W E : Type} (evaluate : W → Fn → Subset → Except E Nat × W) :
    List Fn → W → Subset → Except E (List Nat) × W
  | [], w, _ => (Except.ok [], w)
  | f :: fs, w, B =>
    match evaluate w f B with
    | (Except.error e, w1) => (Except.error e, w1)
    | (Except.ok c, w1) =>
      match DiscriminatorEvaluator evaluate fs w1 B with
      | (Except.error e, w2) => (Except.error e, w2)
      | (Except.ok cs, w2) => (Except.ok (c :: cs), w2)

/-- Embedding of `EvaluationDelegate<DiscriminatorEvaluator>::operator()`: the frequency
vector of the key is looked up in the translation table;
`translator.find(fv)->second` is undefined when the vector is not in the
table. -/
def DiscriminatorEvaluationDelegate {Fn W E : Type}
    (evaluate : W → Fn → Subset → Except E Nat × W)
    (fns : List Fn) (translator : MapType (List Nat) Nat) (w : W) (key : Subset) :
    Except (Failure E) Nat × W :=
  match DiscriminatorEvaluator evaluate fns w key with
  | (Except.error e, w1) => (Except.error (Failure.raised e), w1)
  | (Except.ok fv, w1) =>
    match translator.find fv with
    | some code => (Except.ok code, w1)
    | none => (Except.error Failure.undefined, w1)

namespace Discriminator

variable {Fn W E : Type}

/-- Embedding of `Discriminator::numOutputs`. -/
def numOutputs (d : Discriminator Fn) : Nat := d.lookupTable.entries.length

/-- Embedding of `Discriminator::evaluate`: the cache entry of the discriminator is created
on first use, its result cache starting from `newCache`; the result cache is
then queried for `B`. -/
def evaluate (evaluate : W → Fn → Subset → Except E Nat × W) (d : Discriminator Fn) (w : W)
    (B : Subset) : Except (Failure E) Nat × Discriminator Fn × W :=
  let entry : MapType Subset Nat :=
    match d.resultCache with
    | some m => m
    | none => d.newCache
  let r := MapCache.query (DiscriminatorEvaluationDelegate evaluate d.functions d.lookupTable)
    ⟨entry, w⟩ B
  (r.1, { d with resultCache := some r.2.cache }, r.2.delegate)

end Discriminator

/-- The `GInvariant` a `TablePrunerData` points to: a `TrivialDiscriminator` or a
`Discriminator`. -/
inductive DiscriminatorPtr (Fn : Type) where
  | TrivialDiscriminator
  | Discriminator (d : Discriminator Fn)

namespace DiscriminatorPtr

variable {Fn W E : Type}

/-- The virtual call `discriminator->evaluate(B)`; `TrivialDiscriminator::evaluate`
returns 0. -/
def evaluate (evaluate : W → Fn → Subset → Except E Nat × W) (d : DiscriminatorPtr Fn) (w : W)
    (B : Subset) : Except (Failure E) Nat × DiscriminatorPtr Fn × W :=
  match d with
  | TrivialDiscriminator => (Except.ok 0, TrivialDiscriminator, w)
  | Discriminator d0 =>
    ((d0.evaluate evaluate w B).1, Discriminator (d0.evaluate evaluate w B).2.1,
      (d0.evaluate evaluate w B).2.2)

end DiscriminatorPtr

/-- Embedding of `TablePrunerData`. -/
structure TablePrunerData (Fn : Type) where
  discriminator : DiscriminatorPtr Fn
  trivial : Bool

/-- The table `F` (`boost::multi_array<unsigned long, 2>`): its rows. -/
structure Table where
  rows : List (List Nat)
  deriving DecidableEq, Repr

namespace Table

/-- Embedding of `F.resize(boost::extents[r][c])`: the cells whose indices exist in both
shapes keep their values, the new cells are 0. -/
def resize (t : Table) (r c : Nat) : Table :=
  ⟨(List.range r).map (fun i => (List.range c).map (fun j => (t.rows.getD i []).getD j 0))⟩

/-- The view `F[boost::indices[Table::index_range()][i]]`: column `i`. -/
def column (t : Table) (i : Nat) : List Nat := t.rows.map (fun row => row.getD i 0)

/-- Writing `values` into the first cells of a row, as `std::transform` does
from `row.begin()` on. -/
def writeCells (row values : List Nat) : List Nat := values ++ row.drop values.length

/-- Writing `values` into the first cells of row `rowIdx`. -/
def writeRow : List (List Nat) → Nat → List Nat → List (List Nat)
  | [], _, _ => []
  | row :: rest, 0, values => writeCells row values :: rest
  | row :: rest, rowIdx + 1, values => row :: writeRow rest rowIdx values

end Table

/-- The loop variables of `TablePruner::initOutputs`. -/
structure InitOutputsState where
  newReps : List Subset
  lookupTable : MapType (List Nat) Nat
  newCache : MapType Subset Nat
  candidateMap : MapType Subset Nat
  nextIdx : Nat
  columnsToProcess : SetType (List Nat)

/-- The `TablePruner`. The candidate list is the one held by the base class
`Pruner` (`getCandidates()`), whose declaration is not among the sources. -/
structure TablePruner (Fn : Type) where
  candidates : List Subset
  prunerData : Option (TablePrunerData Fn)
  F : Table
  ready : Bool
  fns : List Fn
  k : Nat
  rho : Nat
  newReps : Option (List Subset)
  newPrunerData : Option (TablePrunerData Fn)
  candidateMap : Option (MapType Subset Nat)

namespace TablePruner

variable {Fn W E : Type}

/-- Embedding of `TablePruner::TablePruner`. With `rho == 1` the pruner is ready at once.
Otherwise the constructor leaves the member `ready` without a value; `ready0`
is the indeterminate value it then holds. -/
def create (candidates : List Subset) (k rho : Nat) (prunerData : Option (TablePrunerData Fn))
    (ready0 : Bool) : TablePruner Fn :=
  if rho = 1 then
    { candidates := candidates, prunerData := none, F := ⟨[]⟩, ready := true, fns := [],
      k := k, rho := rho, newReps := none, newPrunerData := none, candidateMap := none }
  else
    { candidates := candidates, prunerData := prunerData,
      F := (Table.mk []).resize 0 candidates.length, ready := ready0, fns := [],
      k := k, rho := rho, newReps := none, newPrunerData := none, candidateMap := none }

/-- The evaluation tasks of `addGInvariant` in direct mode, one per candidate,
all of which run: the outcome of each and the state afterwards. -/
def evaluateAll (evaluate : W → Fn → Subset → Except E Nat × W) (fn : Fn) :
    List Subset → W → List (Except E Nat) × W
  | [], w => ([], w)
  | B :: Bs, w =>
    ((evaluate w fn B).1 :: (evaluateAll evaluate fn Bs (evaluate w fn B).2).1,
      (evaluateAll evaluate fn Bs (evaluate w fn B).2).2)

/-- The `std::transform` over the futures with `shared_future::get`: the
values are taken in order up to the first future that holds a failure, which
`get` raises again. -/
def getAll : List (Except E Nat) → List Nat × Option E
  | [] => ([], none)
  | Except.ok v :: rest => (v :: (getAll rest).1, (getAll rest).2)
  | Except.error e :: _ => ([], some e)

/-- The set of the columns of `F`, as inserted one candidate index after the
other. -/
def columnSet (F : Table) : List Nat → SetType (List Nat) → SetType (List Nat)
  | [], s => s
  | i :: is, s => columnSet F is (s.insert (F.column i))

/-- Embedding of `TablePruner::addGInvariant`, as compiled (concurrent evaluation, direct
mode). A failure of an evaluation leaves through `get`, after `fns` and `F`
have been extended. -/
def addGInvariant (evaluate : W → Fn → Subset → Except E Nat × W) (p : TablePruner Fn) (w : W)
    (fn : Fn) : Except E Unit × TablePruner Fn × W :=
  if p.ready then (Except.ok (), p, w)
  else
    let rowIdx := p.fns.length
    let fns := p.fns ++ [fn]
    let F1 := p.F.resize fns.length p.candidates.length
    let futures := evaluateAll evaluate fn p.candidates w
    let got := getAll futures.1
    let F2 : Table := ⟨Table.writeRow F1.rows rowIdx got.1⟩
    match got.2 with
    | some e => (Except.error e, { p with fns := fns, F := F2 }, futures.2)
    | none =>
      let columns := columnSet F2 (List.range p.candidates.length) SetType.empty
      if columns.size = p.rho then
        (Except.ok (), { p with fns := fns, F := F2, ready := true }, futures.2)
      else (Except.ok (), { p with fns := fns, F := F2 }, futures.2)

/-- One iteration of the second loop of `initOutputs`, for the candidate
`candidate` with column `fv`. -/
def initOutputsStep (st : InitOutputsState) (candidate : Subset) (fv : List Nat) :
    InitOutputsState :=
  let st1 : InitOutputsState :=
    if st.columnsToProcess.count fv != 0 then
      { st with
        newReps := st.newReps ++ [candidate],
        lookupTable := st.lookupTable.assign fv st.nextIdx,
        nextIdx := st.nextIdx + 1,
        columnsToProcess := st.columnsToProcess.erase fv }
    else st
  let idx := st1.lookupTable.index fv
  { st1 with
    lookupTable := idx.2,
    newCache := st1.newCache.assign candidate idx.1,
    candidateMap := st1.candidateMap.assign candidate idx.1 }

/-- The second loop of `initOutputs` over the candidates and their columns. -/
def initOutputsLoop : List (Subset × List Nat) → InitOutputsState → InitOutputsState
  | [], st => st
  | (candidate, fv) :: rest, st => initOutputsLoop rest (initOutputsStep st candidate fv)

/-- Embedding of `TablePruner::initOutputs`. -/
def initOutputs (p : TablePruner Fn) : TablePruner Fn :=
  if p.rho = 1 then
    { p with
      newReps := some [generateX p.k],
      candidateMap := some MapType.empty,
      newPrunerData := some ⟨DiscriminatorPtr.TrivialDiscriminator, true⟩ }
  else
    let columns := (List.range p.candidates.length).map p.F.column
    let columnsToProcess := columns.foldl SetType.insert SetType.empty
    let st := initOutputsLoop (p.candidates.zip columns)
      ⟨[], MapType.empty, MapType.empty, MapType.empty, 0, columnsToProcess⟩
    { p with
      newReps := some st.newReps,
      candidateMap := some st.candidateMap,
      newPrunerData :=
        some ⟨DiscriminatorPtr.Discriminator ⟨p.fns, st.lookupTable, st.newCache, none⟩, false⟩ }

/-- Embedding of `TablePruner::getNewReps`. -/
def getNewReps (p : TablePruner Fn) : Except (Failure E) (List Subset) × TablePruner Fn :=
  if !p.ready then (Except.error Failure.PrunerNotReady, p)
  else
    let p1 := if p.newReps.isNone then p.initOutputs else p
    match p1.newReps with
    | some reps => (Except.ok reps, p1)
    | none => (Except.error Failure.undefined, p1)

/-- Embedding of `TablePruner::getNewData`. -/
def getNewData (p : TablePruner Fn) :
    Except (Failure E) (TablePrunerData Fn) × TablePruner Fn :=
  if !p.ready then (Except.error Failure.PrunerNotReady, p)
  else
    let p1 := if p.newPrunerData.isNone then p.initOutputs else p
    match p1.newPrunerData with
    | some data => (Except.ok data, p1)
    | none => (Except.error Failure.undefined, p1)

/-- Embedding of `TablePruner::getColumn`. In the assignment
`(*candidateMap)[candidate] = discriminator->evaluate(candidate)` the right
side is evaluated first. -/
def getColumn (evaluate : W → Fn → Subset → Except E Nat × W) (p : TablePruner Fn) (w : W)
    (candidate : Subset) : Except (Failure E) Nat × TablePruner Fn × W :=
  if !p.ready then (Except.error Failure.PrunerNotReady, p, w)
  else
    let p1 := if p.candidateMap.isNone then p.initOutputs else p
    match p1.candidateMap with
    | none => (Except.error Failure.undefined, p1, w)
    | some cm =>
      if cm.count candidate = 0 then
        match p1.newPrunerData with
        | none => (Except.error Failure.undefined, p1, w)
        | some data =>
          match data.discriminator.evaluate evaluate w candidate with
          | (Except.error e, d, w1) =>
            (Except.error e, { p1 with newPrunerData := some { data with discriminator := d } }, w1)
          | (Except.ok v, d, w1) =>
            let r := (cm.assign candidate v).index candidate
            (Except.ok r.1,
              { p1 with
                newPrunerData := some { data with discriminator := d },
                candidateMap := some r.2 }, w1)
      else
        let r := cm.index candidate
        (Except.ok r.1, { p1 with candidateMap := some r.2 }, w)

end TablePruner

namespace TablePruner

variable {Fn W E S : Type}

/-- The loop of `TablePruner::prune`: while the pruner is not ready, the next
function of the initial list is added, or, once that list is used up, a
function newly created by the strategy. `createNewGInvariant` is the call
`strategy->createNewGInvariant(*G, k)`, which acts on the state `S` of the
strategy (its random generator). A failure raised by `addGInvariant` leaves
the loop. The loop has no bound of its own, so the embedding counts
iterations: `none` means that the pruner was still not ready after `fuel`
iterations. -/
def pruneLoop (evaluate : W → Fn → Subset → Except E Nat × W)
    (createNewGInvariant : S → Nat → Fn × S) :
    Nat → List Fn → TablePruner Fn → W → S → Option (Except E Unit × TablePruner Fn × W × S)
  | fuel, it, p, w, s =>
    if p.ready then some (Except.ok (), p, w, s)
    else
      match fuel with
      | 0 => none
      | fuel + 1 =>
        match it with
        | fn :: rest =>
          match p.addGInvariant evaluate w fn with
          | (Except.error e, p1, w1) => some (Except.error e, p1, w1, s)
          | (Except.ok _, p1, w1) =>
            pruneLoop evaluate createNewGInvariant fuel rest p1 w1 s
        | [] =>
          match p.addGInvariant evaluate w (createNewGInvariant s p.k).1 with
          | (Except.error e, p1, w1) => some (Except.error e, p1, w1, (createNewGInvariant s p.k).2)
          | (Except.ok _, p1, w1) =>
            pruneLoop evaluate createNewGInvariant fuel [] p1 w1 (createNewGInvariant s p.k).2

/-- Embedding of `TablePruner::prune`: the initial functions are those the strategy
derives from the data of the previous round (`createInitialGInvariants`), if
there is such data, and none otherwise. -/
def prune (evaluate : W → Fn → Subset → Except E Nat × W)
    (createInitialGInvariants : S → Nat → TablePrunerData Fn → List Fn × S)
    (createNewGInvariant : S → Nat → Fn × S) (fuel : Nat) (p : TablePruner Fn) (w : W) (s : S) :
    Option (Except E Unit × TablePruner Fn × W × S) :=
  match p.prunerData with
  | some data =>
    pruneLoop evaluate createNewGInvariant fuel (createInitialGInvariants s p.k data).1 p w
      (createInitialGInvariants s p.k data).2
  | none => pruneLoop evaluate createNewGInvariant fuel [] p w s

end TablePruner

namespace TablePruner

variable {Fn W E : Type}

/-- The evaluation tasks of `addGInvariant` in direct mode as the thread pool
runs them: one after the other, in the order `order` of their indices, which
the code leaves open. The task with index `i` evaluates the function on the
candidate `i` and stores the outcome in its own future. -/
def runTasks (evaluate : W → Fn → Subset → Except E Nat × W) (fn : Fn) (candidates : List Subset) :
    List Nat → (Nat → Option (Except E Nat)) × W → (Nat → Option (Except E Nat)) × W
  | [], st => st
  | i :: order, st =>
    runTasks evaluate fn candidates order
      (Function.update st.1 i (some (evaluate st.2 fn (candidates.getD i [])).1),
        (evaluate st.2 fn (candidates.getD i [])).2)

/-- The call `boost::wait_for_all` over the futures with the indices `is`: the
outcomes they hold, in the order of the indices; `none` when one of them is
never made ready. -/
def waitForAll (futures : Nat → Option (Except E Nat)) : List Nat → Option (List (Except E Nat))
  | [] => some []
  | i :: is =>
    match futures i, waitForAll futures is with
    | some r, some rs => some (r :: rs)
    | _, _ => none

/-- Embedding of `TablePruner::addGInvariant` in direct mode with the order in which the
evaluation tasks run made explicit: the futures are created and collected in
the order of the candidates, whatever the order in which the tasks run.
The result is `none` when a future is never made ready (the wait does not
end). -/
def addGInvariantScheduled (evaluate : W → Fn → Subset → Except E Nat × W) (p : TablePruner Fn)
    (w : W) (fn : Fn) (order : List Nat) : Option (Except E Unit × TablePruner Fn × W) :=
  if p.ready then some (Except.ok (), p, w)
  else
    let rowIdx := p.fns.length
    let fns := p.fns ++ [fn]
    let F1 := p.F.resize fns.length p.candidates.length
    let ran := runTasks evaluate fn p.candidates order (fun _ => none, w)
    match waitForAll ran.1 (List.range p.candidates.length) with
    | none => none
    | some futures =>
      let got := getAll futures
      let F2 : Table := ⟨Table.writeRow F1.rows rowIdx got.1⟩
      match got.2 with
      | some e => some (Except.error e, { p with fns := fns, F := F2 }, ran.2)
      | none =>
        let columns := columnSet F2 (List.range p.candidates.length) SetType.empty
        if columns.size = p.rho then
          some (Except.ok (), { p with fns := fns, F := F2, ready := true }, ran.2)
        else some (Except.ok (), { p with fns := fns, F := F2 }, ran.2)

end TablePruner

/-- A call made on a pruner. -/
inductive PrunerOp (Fn : Type) where
  | addGInvariant (fn : Fn)
  | getNewReps
  | getNewData
  | getColumn (candidate : Subset)

namespace TablePruner

variable {Fn W E : Type}

/-- The pruner and the state of the evaluation caches after one call, whatever
the call returned. -/
def step (evaluate : W → Fn → Subset → Except E Nat × W) (s : TablePruner Fn × W) :
    PrunerOp Fn → TablePruner Fn × W
  | PrunerOp.addGInvariant fn => (s.1.addGInvariant evaluate s.2 fn).2
  | PrunerOp.getNewReps => ((s.1.getNewReps (E := E)).2, s.2)
  | PrunerOp.getNewData => ((s.1.getNewData (E := E)).2, s.2)
  | PrunerOp.getColumn candidate => (s.1.getColumn evaluate s.2 candidate).2

/-- The pruner and the state of the evaluation caches after a sequence of
calls. -/
def after (evaluate : W → Fn → Subset → Except E Nat × W) (p : TablePruner Fn) (w : W)
    (ops : List (PrunerOp Fn)) : TablePruner Fn × W :=
  ops.foldl (step evaluate) (p, w)

end TablePruner

/-! ## LookupTable.h, AnchorSet.cpp, Taxonomy2.cpp, Discriminator.cpp: the evaluation caches -/

instance {K V : Type} : Inhabited (MapType K V) := ⟨⟨[]⟩⟩

/-- Embedding of `MapCache::query` for an insert delegate that has no state and cannot
fail (`HeapValueFromKeyInsertDelegate`, `EvaluatorInsertDelegate`,
`DiscriminatorInsertDelegate`): the value stored under the key, which the
delegate `make` creates when the key is missing, and the map afterwards. -/
def MapCache.queryTotal {K V : Type} [DecidableEq K] [Inhabited V] (make : K → V)
    (m : MapType K V) (key : K) : V × MapType K V :=
  match MapCache.query (fun (d : Unit) (k : K) => ((Except.ok (make k) : Except Empty V), d))
      ⟨m, ()⟩ key with
  | (Except.ok v, c) => (v, c.cache)
  | (Except.error e, _) => nomatch e

/-- Embedding of `EvaluationDelegate<Evaluator>`: the translation table from frequency
vectors to codes and the next code. -/
structure EvaluationDelegate (FV : Type) where
  translator : MapType FV Nat
  nextIdx : Nat

instance {FV : Type} : Inhabited (EvaluationDelegate FV) := ⟨⟨⟨[]⟩, 0⟩⟩

/-- Embedding of `EvaluationDelegate<Evaluator>::operator()`: the evaluator `eval` computes
the frequency vector of the key, acting on the state `W`; a vector that is
not in the translation table gets the next code, and `nextIdx++` on the
`unsigned long` counter wraps around at `2 ^ 64`. -/
def EvaluationDelegate.call {FV W E : Type} [DecidableEq FV]
    (eval : W → Subset → Except E FV × W) (d : EvaluationDelegate FV × W) (key : Subset) :
    Except E Nat × (EvaluationDelegate FV × W) :=
  match eval d.2 key with
  | (Except.error e, w1) => (Except.error e, (d.1, w1))
  | (Except.ok fv, w1) =>
    let d1 : EvaluationDelegate FV :=
      if d.1.translator.count fv = 0 then
        ⟨d.1.translator.assign fv d.1.nextIdx, (d.1.nextIdx + 1) % 2 ^ 64⟩
      else d.1
    (Except.ok (d1.translator.index fv).1, (⟨(d1.translator.index fv).2, d1.nextIdx⟩, w1))

/-- The type `LookupTable<Evaluator>::type`: a `MapCache` from subsets to codes whose delegate is
an `EvaluationDelegate`. -/
abbrev LookupTable (FV : Type) := MapCache Subset Nat (EvaluationDelegate FV)

instance {FV : Type} : Inhabited (LookupTable FV) := ⟨⟨⟨[]⟩, default⟩⟩

namespace LookupTable

variable {FV W E : Type} [DecidableEq FV]

/-- A newly constructed table. The constructor of `EvaluationDelegate` gives `nextIdx`
no value; `nextIdx0` is the value it then holds. -/
def create (nextIdx0 : Nat) : LookupTable FV := ⟨MapType.empty, ⟨MapType.empty, nextIdx0⟩⟩

/-- Embedding of `table.query(B)`. -/
def query (eval : W → Subset → Except E FV × W) (t : LookupTable FV) (w : W) (B : Subset) :
    Except E Nat × LookupTable FV × W :=
  let r := MapCache.query (EvaluationDelegate.call eval) ⟨t.cache, (t.delegate, w)⟩ B
  (r.1, ⟨r.2.cache, r.2.delegate.1⟩, r.2.delegate.2)

end LookupTable

/-- An `AnchorSet` object: where it lives, the `Group` object it is over, and its
anchor set. The image set is determined by the group and the anchor set. -/
structure AnchorSet where
  addr : Nat
  G : Nat
  anchorSet : Subset
  deriving DecidableEq, Inhabited

/-- An `AnchorSetLookupTable` (a `SizeIndependentLookupTable`): one lookup table for every
subset size. The evaluator of the tables is the one of the `AnchorSet` the
entry was created from. -/
structure AnchorSetLookupTable (FV : Type) where
  creator : AnchorSet
  tables : MapType Nat (LookupTable FV)

instance {FV : Type} : Inhabited (AnchorSetLookupTable FV) := ⟨⟨default, default⟩⟩

/-- The `AnchorSetEvalCache`: a `std::map` whose keys are `AnchorSet` objects ordered by
`AnchorSetWeakOrdering`, which reads the group and the anchor set. For keys over
one group the ordering is the order of the anchor sets, so that two keys are
equivalent when they have the same anchor set; the embedding keys the map by
the pair of the group and the anchor set. -/
abbrev AnchorSetEvalCache (FV : Type) := MapType (Nat × Subset) (AnchorSetLookupTable FV)

namespace AnchorSet

variable {FV W E : Type} [DecidableEq FV]

/-- Embedding of `AnchorSet::equals`: the same group object (`GInvariant::equals`) and equal
anchor sets. -/
def equals (f g : AnchorSet) : Bool := decide (f.G = g.G) && decide (f.anchorSet = g.anchorSet)

/-- What the cache reads of an `AnchorSet` used as a key. -/
def key (f : AnchorSet) : Nat × Subset := (f.G, f.anchorSet)

/-- Embedding of `AnchorSet::evaluate`: the entry of the function in the `AnchorSetEvalCache`,
in it the table for the size of `B`, and in it the code of `B`; what is
missing is created. `eval f` is the evaluator `f.createEvaluator()`. -/
def evaluate (eval : AnchorSet → W → Subset → Except E FV × W) (nextIdx0 : Nat)
    (c : AnchorSetEvalCache FV) (f : AnchorSet) (w : W) (B : Subset) :
    Except E Nat × AnchorSetEvalCache FV × W :=
  let cache := MapCache.queryTotal (fun _ => (⟨f, MapType.empty⟩ : AnchorSetLookupTable FV))
    c f.key
  let table := MapCache.queryTotal (fun _ => (LookupTable.create nextIdx0 : LookupTable FV))
    cache.1.tables B.length
  let r := table.1.query (eval cache.1.creator) w B
  (r.1, cache.2.assign f.key ⟨cache.1.creator, table.2.assign B.length r.2.1⟩, r.2.2)

/-- Embedding of `AnchorSet::hasCachedResult`. -/
def hasCachedResult (nextIdx0 : Nat) (c : AnchorSetEvalCache FV) (f : AnchorSet) (B : Subset) :
    Bool × AnchorSetEvalCache FV :=
  let cache := MapCache.queryTotal (fun _ => (⟨f, MapType.empty⟩ : AnchorSetLookupTable FV))
    c f.key
  let table := MapCache.queryTotal (fun _ => (LookupTable.create nextIdx0 : LookupTable FV))
    cache.1.tables B.length
  (table.1.cache.count B != 0, cache.2.assign f.key ⟨cache.1.creator, table.2⟩)

end AnchorSet

/-- A `Discriminator` object: where it lives, and its members. The entry of the
object in the `DiscriminatorEvalCache` is held by the cache here, and the field
`resultCache` of the members is not used. -/
structure DiscriminatorObject (Fn : Type) where
  addr : Nat
  members : Discriminator Fn

instance {Fn : Type} : Inhabited (DiscriminatorObject Fn) := ⟨⟨0, ⟨[], ⟨[]⟩, ⟨[]⟩, none⟩⟩⟩

/-- Embedding of `Discriminator::equals`: the same group (`GInvariant::equals`) and function
lists of the same length whose functions are pairwise `equals`. The
discriminators of a run are over one group, and the equality of `Fn` stands
for `equals` of the functions. The translation table and the starting cache
are not compared. -/
def Discriminator.equals {Fn : Type} [DecidableEq Fn] (f g : Discriminator Fn) : Bool :=
  decide (f.functions = g.functions)

/-- Embedding of `DiscriminatorEvalCacheEntry`, without its `Taxonomy2`: the result cache, a
`MapCache` whose delegate evaluates the function list `functions` and translates
with `translator`. -/
structure DiscriminatorEvalCacheEntry (Fn : Type) where
  functions : List Fn
  translator : MapType (List Nat) Nat
  resultCache : MapType Subset Nat

instance {Fn : Type} : Inhabited (DiscriminatorEvalCacheEntry Fn) := ⟨⟨[], ⟨[]⟩, ⟨[]⟩⟩⟩

/-- Embedding of `DiscriminatorEvalCacheEntry::DiscriminatorEvalCacheEntry(fn)`: the delegate gets the
evaluator and the translation table of `fn`, and the map of the result cache
starts as `fn.newCache`. -/
def DiscriminatorEvalCacheEntry.create {Fn : Type} (fn : Discriminator Fn) :
    DiscriminatorEvalCacheEntry Fn :=
  ⟨fn.functions, fn.lookupTable, fn.newCache⟩

/-- The `DiscriminatorEvalCache`, a `HeapKeyHeapValueCache`: its `SharedPtrMapper` maps a
discriminator to the `shared_ptr` of the object, and the `std::map` orders these
pointers with `std::less`. The key is the address of the object. -/
abbrev DiscriminatorEvalCache (Fn : Type) := MapType Nat (DiscriminatorEvalCacheEntry Fn)

namespace DiscriminatorEvalCache

variable {Fn W E : Type}

/-- Embedding of `Discriminator::evaluate` with the `DiscriminatorEvalCache` explicit: the entry
of the object is looked up under its address, and created from the object
when there is none; the result cache of the entry is then queried for `B`. -/
def evaluate (evaluate : W → Fn → Subset → Except E Nat × W) (c : DiscriminatorEvalCache Fn)
    (x : DiscriminatorObject Fn) (w : W) (B : Subset) :
    Except (Failure E) Nat × DiscriminatorEvalCache Fn × W :=
  let cache := MapCache.queryTotal (fun _ => DiscriminatorEvalCacheEntry.create x.members)
    c x.addr
  let r := MapCache.query
    (DiscriminatorEvaluationDelegate evaluate cache.1.functions cache.1.translator)
    ⟨cache.1.resultCache, w⟩ B
  (r.1, cache.2.assign x.addr { cache.1 with resultCache := r.2.cache }, r.2.delegate)

/-- Embedding of `Discriminator::hasCachedResult`. -/
def hasCachedResult (c : DiscriminatorEvalCache Fn) (x : DiscriminatorObject Fn) (B : Subset) :
    Bool × DiscriminatorEvalCache Fn :=
  let cache := MapCache.queryTotal (fun _ => DiscriminatorEvalCacheEntry.create x.members)
    c x.addr
  (cache.1.resultCache.count B != 0, cache.2)

end DiscriminatorEvalCache

/-- A `Taxonomy2` object: where it lives, and the discriminator `phi` it points
to. -/
structure Taxonomy2 (Fn : Type) where
  addr : Nat
  phi : DiscriminatorObject Fn

instance {Fn : Type} : Inhabited (Taxonomy2 Fn) := ⟨⟨0, default⟩⟩

/-- A `Taxonomy2LookupTable`: a lookup table whose evaluator is the one of the
`Taxonomy2` the entry was created from. -/
structure Taxonomy2LookupTable (Fn FV : Type) where
  creator : Taxonomy2 Fn
  table : LookupTable FV

instance {Fn FV : Type} : Inhabited (Taxonomy2LookupTable Fn FV) := ⟨⟨default, default⟩⟩

/-- The `Taxonomy2EvalCache`: a `boost::unordered_map` whose keys are `Taxonomy2` objects,
hashed with `hash()` and compared with `equals`, both of which read the group
and the function list of `*phi`. The embedding keys the map by that function
list. -/
abbrev Taxonomy2EvalCache (Fn FV : Type) := MapType (List Fn) (Taxonomy2LookupTable Fn FV)

namespace Taxonomy2

variable {Fn FV W E : Type} [DecidableEq Fn] [DecidableEq FV]

/-- Embedding of `Taxonomy2::equals`: the same group and `*phi == *other.phi`. -/
def equals (f g : Taxonomy2 Fn) : Bool := f.phi.members.equals g.phi.members

/-- Embedding of `Taxonomy2::evaluate`: the table of the function in the `Taxonomy2EvalCache`,
created if missing, is queried for `B`. `eval f` is the evaluator
`f.createEvaluator()`. -/
def evaluate (eval : Taxonomy2 Fn → W → Subset → Except E FV × W) (nextIdx0 : Nat)
    (c : Taxonomy2EvalCache Fn FV) (f : Taxonomy2 Fn) (w : W) (B : Subset) :
    Except E Nat × Taxonomy2EvalCache Fn FV × W :=
  let table := MapCache.queryTotal
    (fun _ => (⟨f, LookupTable.create nextIdx0⟩ : Taxonomy2LookupTable Fn FV))
    c f.phi.members.functions
  let r := table.1.table.query (eval table.1.creator) w B
  (r.1, table.2.assign f.phi.members.functions ⟨table.1.creator, r.2.1⟩, r.2.2)

/-- Embedding of `Taxonomy2::hasCachedResult`. -/
def hasCachedResult (nextIdx0 : Nat) (c : Taxonomy2EvalCache Fn FV) (f : Taxonomy2 Fn)
    (B : Subset) : Bool × Taxonomy2EvalCache Fn FV :=
  let table := MapCache.queryTotal
    (fun _ => (⟨f, LookupTable.create nextIdx0⟩ : Taxonomy2LookupTable Fn FV))
    c f.phi.members.functions
  (table.1.table.cache.count B != 0, table.2)

end Taxonomy2

/-! ## utils.h, AnchorSet.cpp, Taxonomy2.cpp: the evaluators -/

/-- A `Permutation` of permlib, in list notation: the entry at the position `i` is
the image of the point `i`. -/
abbrev Permutation := List Nat

/-- Embedding of `g.at(i)`: the image of the point `i`. -/
def Permutation.at (g : Permutation) (i : Nat) : Nat := g.getD i 0

/-- Embedding of `B.insert(x)` on a `Subset`: `x` is put at its place in the
increasing list unless it is present. -/
def Subset.insert (B : Subset) (x : Nat) : Subset :=
  if x ∈ B then B else B.orderedInsert (fun a b => a ≤ b) x

/-- Embedding of `setIntersection(A, B)`: the elements of `A` that are in `B`, in
increasing order as they are in `A` (the result of `std::set_intersection`
on two sets). -/
def setIntersection (A B : Subset) : Subset := A.filter (fun x => x ∈ B)

/-- The image of the anchor set under `g` computed in the body of the loop of
`AnchorSet::AnchorSet`: the points `g.at(x)` for `x` in the anchor set are
inserted into a set. -/
def AnchorSet.image (g : Permutation) (anchorSet : Subset) : Subset :=
  anchorSet.foldl (fun image x => Subset.insert image (Permutation.at g x)) []

/-- Embedding of the loop of `AnchorSet::AnchorSet` that builds the image set:
`imageSet[g] = image` for every `g` of the enumeration `elements` of the
group (`G->elementsBegin()` to `G->elementsEnd()`). -/
def AnchorSet.imageSet (elements : List Permutation) (anchorSet : Subset) :
    MapType Permutation Subset :=
  elements.foldl (fun imageSet g => imageSet.assign g (AnchorSet.image g anchorSet))
    MapType.empty

/-- Embedding of `AnchorSetEvaluator::operator()`: a vector of `B.size() + 1` zeros in
which, for every entry of the image set, the cell at the size of the
intersection of the image with `B` is incremented. The result is `none` when
a cell outside the vector is addressed. A cell is incremented at most once
for every entry of the image set. -/
def AnchorSetEvaluator (imageSet : MapType Permutation Subset) (B : Subset) :
    Option (List Nat) :=
  imageSet.entries.foldl
    (fun v it =>
      match v with
      | none => none
      | some v =>
        let intersection := setIntersection it.2 B
        if intersection.length < v.length then
          some (v.set intersection.length (v.getD intersection.length 0 + 1))
        else none)
    (some (List.replicate (B.length + 1) 0))

/-- Embedding of the loop of `Taxonomy2Evaluator::operator()` over the elements `it` of
`B` that are still to be visited: `T` is `B` without `it`, and the entry of
`result` at `phi->evaluate(T)` is incremented (`result[...]++` creates a
missing entry with 0). `phiEvaluate` is `phi->evaluate` acting on the state
`w` of the evaluation caches; an evaluation that raises ends the loop. -/
def Taxonomy2EvaluatorLoop {W E : Type} (phiEvaluate : W → Subset → Except E Nat × W)
    (B : Subset) : List Nat → MapType Nat Nat → W → Except E (MapType Nat Nat) × W
  | [], result, w => (Except.ok result, w)
  | it :: rest, result, w =>
    let T := B.erase it
    match phiEvaluate w T with
    | (Except.error e, w1) => (Except.error e, w1)
    | (Except.ok c, w1) =>
      let cell := result.index c
      Taxonomy2EvaluatorLoop phiEvaluate B rest (cell.2.assign c (cell.1 + 1)) w1

/-- Embedding of `Taxonomy2Evaluator::operator()`: the loop over all the elements of `B`,
from the empty `result`. -/
def Taxonomy2Evaluator {W E : Type} (phiEvaluate : W → Subset → Except E Nat × W) (w : W)
    (B : Subset) : Except E (MapType Nat Nat) × W :=
  Taxonomy2EvaluatorLoop phiEvaluate B B MapType.empty w

/-- Embedding of `AnchorSet::createEvaluator` for an anchor set over the group with the
enumeration `elements`: the evaluator on the image set of the anchor set. An
evaluation that addresses a cell outside its vector is taken as a failure. -/
def AnchorSet.createEvaluator (elements : List Permutation) (f : AnchorSet) (w : Unit)
    (B : Subset) : Except Unit (List Nat) × Unit :=
  match AnchorSetEvaluator (AnchorSet.imageSet elements f.anchorSet) B with
  | some v => (Except.ok v, w)
  | none => (Except.error (), w)

/-- The call `fn->evaluate(B)` for an anchor set over the group with the enumeration
`elements`, acting on the evaluation cache of the anchor sets. -/
def AnchorSet.evaluateOver (elements : List Permutation) (nextIdx0 : Nat)
    (c : AnchorSetEvalCache (List Nat)) (f : AnchorSet) (B : Subset) :
    Except Unit Nat × AnchorSetEvalCache (List Nat) :=
  ((AnchorSet.evaluate (AnchorSet.createEvaluator elements) nextIdx0 c f () B).1,
    (AnchorSet.evaluate (AnchorSet.createEvaluator elements) nextIdx0 c f () B).2.1)

/-! ## GInvariant.h, GInvariant.cpp: equality and hashing of the invariant functions -/

/-- An invariant function object of one of the four kinds of the repository, as
a `GInvariant::ptr` points to it. `G` is the `Group` object that the member `G` points to.
An `AnchorSet` has its anchor set and its image set; a `Taxonomy2` has the discriminator
`phi`; a `Discriminator` has its function list and its lookup table; a
`TrivialDiscriminator` has no member of its own. -/
inductive GInvariant where
  | AnchorSet (G : Nat) (anchorSet : Subset) (imageSet : List (Permutation × Subset))
  | Taxonomy2 (G : Nat) (phi : GInvariant)
  | Discriminator (G : Nat) (functions : List GInvariant) (lookupTable : List (List Nat × Nat))
  | TrivialDiscriminator (G : Nat)

mutual
/-- Embedding of the virtual `equals`. Every override first asks `GInvariant::equals`, which
answers `false` for objects of different dynamic types (the last case) and
otherwise compares the pointers to the group. `AnchorSet::equals` then compares the anchor
sets, `Taxonomy2::equals` the discriminators, `Discriminator::equals` the sizes of the function
lists and the functions one by one, and `TrivialDiscriminator::equals` nothing more. -/
def GInvariant.equals : GInvariant → GInvariant → Bool
  | GInvariant.AnchorSet G anchorSet _, GInvariant.AnchorSet G1 anchorSet1 _ =>
    decide (G = G1) && decide (anchorSet = anchorSet1)
  | GInvariant.Taxonomy2 G phi, GInvariant.Taxonomy2 G1 phi1 =>
    decide (G = G1) && phi.equals phi1
  | GInvariant.Discriminator G functions _, GInvariant.Discriminator G1 functions1 _ =>
    decide (G = G1) &&
      (decide (functions.length = functions1.length) && GInvariant.equalsAll functions functions1)
  | GInvariant.TrivialDiscriminator G, GInvariant.TrivialDiscriminator G1 => decide (G = G1)
  | _, _ => false

/-- The loop of `Discriminator::equals` over the two function lists, which have the same
size. -/
def GInvariant.equalsAll : List GInvariant → List GInvariant → Bool
  | f :: functions, f1 :: functions1 => f.equals f1 && GInvariant.equalsAll functions functions1
  | _, _ => true
end

mutual
/-- Embedding of the virtual `hash`. `hash_combine seed h` is the seed after
`boost::hash_combine(seed, x)` for an `x` with hash value `h`; `hashGroup G` is the hash
value of the group object `G` and `hashSubset` the hash value of a subset. -/
def GInvariant.hash (hash_combine : Nat → Nat → Nat) (hashGroup : Nat → Nat)
    (hashSubset : Subset → Nat) : GInvariant → Nat
  | GInvariant.AnchorSet G anchorSet _ =>
    hash_combine (hash_combine 0 (hashGroup G)) (hashSubset anchorSet)
  | GInvariant.Taxonomy2 G phi =>
    hash_combine (hash_combine 0 (hashGroup G)) (phi.hash hash_combine hashGroup hashSubset)
  | GInvariant.Discriminator G functions _ =>
    GInvariant.hash_range hash_combine hashGroup hashSubset (hash_combine 0 (hashGroup G))
      functions
  | GInvariant.TrivialDiscriminator G => hash_combine 0 (hashGroup G)

/-- Embedding of `boost::hash_range(seed, first, last)` over the functions of a list. -/
def GInvariant.hash_range (hash_combine : Nat → Nat → Nat) (hashGroup : Nat → Nat)
    (hashSubset : Subset → Nat) : Nat → List GInvariant → Nat
  | seed, [] => seed
  | seed, f :: functions =>
    GInvariant.hash_range hash_combine hashGroup hashSubset
      (hash_combine seed (f.hash hash_combine hashGroup hashSubset)) functions
end

/-- A `GInvariantEvaluationTask`: the function and the input subset. -/
structure GInvariantEvaluationTask where
  fn : GInvariant
  B : Subset

/-- Embedding of `GInvariantEvaluationTask::operator==`. -/
def GInvariantEvaluationTask.equal (a rhs : GInvariantEvaluationTask) : Bool :=
  a.fn.equals rhs.fn && decide (a.B = rhs.B)

/-- Embedding of `hash_value(const GInvariantEvaluationTask&)`. `hashSize` is the hash value
of a `std::size_t`. -/
def GInvariantEvaluationTask.hash_value (hash_combine : Nat → Nat → Nat)
    (hashGroup : Nat → Nat) (hashSubset : Subset → Nat) (hashSize : Nat → Nat)
    (task : GInvariantEvaluationTask) : Nat :=
  hash_combine
    (hash_combine 0 (hashSize (task.fn.hash hash_combine hashGroup hashSubset)))
    (hashSubset task.B)

/-! ## utils.cpp: cycles, partitions and binomial coefficients -/

/-- Embedding of the `do ... while` loop of `permutationCycles`, with a bound `fuel` on the number of
iterations: `nextPoint` is appended to the cycle and erased from the points
remaining, and the loop goes on with its image until the image is
`firstPoint`. The result is `none` when the fuel is used up or when the point to
erase is not among the points remaining. -/
def cycleLoop (g : Permutation) (firstPoint : Nat) :
    Nat → Nat → List Nat → Subset → Option (List Nat × Subset)
  | 0, _, _, _ => none
  | fuel + 1, nextPoint, cycle, pointsRemaining =>
    if nextPoint ∈ pointsRemaining then
      if Permutation.at g nextPoint ≠ firstPoint then
        cycleLoop g firstPoint fuel (Permutation.at g nextPoint) (cycle ++ [nextPoint])
          (pointsRemaining.erase nextPoint)
      else some (cycle ++ [nextPoint], pointsRemaining.erase nextPoint)
    else none

/-- Embedding of the `while` loop of `permutationCycles`, with a bound `fuel` on the number of
iterations: as long as points remain, the cycle of the first of them is
appended to the cycles. -/
def permutationCyclesLoop (g : Permutation) :
    Nat → Subset → List (List Nat) → Option (List (List Nat))
  | 0, _, _ => none
  | fuel + 1, pointsRemaining, cycles =>
    match pointsRemaining with
    | [] => some cycles
    | firstPoint :: rest =>
      match cycleLoop g firstPoint (firstPoint :: rest).length firstPoint [] (firstPoint :: rest) with
      | none => none
      | some (cycle, pointsRemaining1) =>
        permutationCyclesLoop g fuel pointsRemaining1 (cycles ++ [cycle])

/-- Embedding of `permutationCycles(g, v)`. Every iteration of the outer loop erases a point,
so that `v + 1` bounds the number of its iterations. -/
def permutationCycles (g : Permutation) (v : Nat) : Option (List (List Nat)) :=
  permutationCyclesLoop g (v + 1) (generateX v) []

/-- Embedding of `partition(k)` with a bound `fuel` on the depth of the recursion: a
`std::multiset<unsigned int>` is a multiset, a `std::set` of them is a finite set. For `k`
other than 1, every multiset of `partition(k - i)` with `i` inserted is inserted in the
result, for `i` from 1 to `k - 1`, and then the multiset of `k` alone. -/
def partitionAux : Nat → Nat → Option (Finset (Multiset Nat))
  | 0, _ => none
  | fuel + 1, k =>
    if k = 1 then some {{1}}
    else
      ((List.range (k - 1)).foldl
        (fun (result : Option (Finset (Multiset Nat))) j =>
          match result, partitionAux fuel (k - (j + 1)) with
          | some result, some smaller =>
            some (result ∪ smaller.image (fun ms => (j + 1) ::ₘ ms))
          | _, _ => none)
        (some ∅)).map (fun result => insert {k} result)

/-- Embedding of `partition(k)`: the recursion has depth `k` at most. -/
def partition (k : Nat) : Option (Finset (Multiset Nat)) := partitionAux (k + 1) k

/-- The value of an `unsigned int` converted to `int`. -/
def toInt32 (x : Nat) : Int :=
  if x % 2 ^ 32 < 2 ^ 31 then ((x % 2 ^ 32 : Nat) : Int) else ((x % 2 ^ 32 : Nat) : Int) - 2 ^ 32

/-- The value of an `int` converted to `unsigned int`. -/
def toUInt32 (x : Int) : Nat := (x % 2 ^ 32).toNat

/-- The number of iterations of the loop of `combinat(n, k)`: the value of `k` after
`if (k > n - k) k = n - k;` in unsigned arithmetic. -/
def combinatSteps (n k : Nat) : Nat :=
  if k > (n + 2 ^ 32 - k) % 2 ^ 32 then (n + 2 ^ 32 - k) % 2 ^ 32 else k

/-- The value of the `int result` of `combinat` after the iterations `i = 0, ..., m - 1`
of its loop: the subtraction `n - i` is unsigned, the product `result *= n - i` is
computed unsigned and stored in the `int result`, and `result /= i + 1` is the
division of `int`, which truncates; the `int i` is taken in two's complement. -/
def combinatLoop (n m : Nat) : Int :=
  (List.range m).foldl
    (fun result i =>
      Int.tdiv (toInt32 (toUInt32 result * ((n + 2 ^ 32 - i) % 2 ^ 32))) (toInt32 (i + 1)))
    1

/-- Embedding of `combinat(n, k)` for `unsigned int` arguments (below `2 ^ 32`): the
loop runs while the counter is below the value of `k` after the symmetry step, and
the `int result` is returned as `unsigned int`. -/
def combinat (n k : Nat) : Nat := toUInt32 (combinatLoop n (combinatSteps n k))

/-! ## Group.cpp: the Burnside evaluator -/

/-- The vector `tally` that `GroupBurnsideEvaluator::operator()` makes of a partition of `k`: the
cell `i` is the number of the parts `i + 1`. -/
def GroupBurnsideEvaluator.tally (ms : Multiset Nat) (k : Nat) : List Nat :=
  (List.range k).map (fun i => ms.count (i + 1))

/-- The vector `cycleLengths` that `GroupBurnsideEvaluator::operator()` makes of the cycles of a group
element: `k` zeros in which, for every cycle of size `k` at most, the cell at
the size less 1 is incremented. A cell is incremented at most once for every
cycle. -/
def GroupBurnsideEvaluator.cycleLengths (cycles : List (List Nat)) (k : Nat) : List Nat :=
  cycles.foldl
    (fun cycleLengths c =>
      if c.length ≤ k then
        cycleLengths.set (c.length - 1) (cycleLengths.getD (c.length - 1) 0 + 1)
      else cycleLengths)
    (List.replicate k 0)

/-- The value of `intermediate` after the loop over `i` of `GroupBurnsideEvaluator::operator()`: the
product of the binomial coefficients, in `unsigned long` arithmetic. -/
def GroupBurnsideEvaluator.intermediate (cycleLengths tally : List Nat) (k : Nat) : Nat :=
  (List.range k).foldl
    (fun intermediate i =>
      (intermediate * combinat (cycleLengths.getD i 0) (tally.getD i 0)) % 2 ^ 64)
    1

/-- The body of the loop of `GroupBurnsideEvaluator::operator()` over the group elements, for the
element `g`: the value of `s` afterwards. The additions `s += intermediate`, one
for every tally, are in `unsigned long` arithmetic, so that `s` grows by their sum
modulo `2 ^ 64`. The result is `none` when `permutationCycles` does not return. -/
def GroupBurnsideEvaluator.addElement (v k : Nat) (partitionTallies : Multiset (List Nat))
    (s : Nat) (g : Permutation) : Option Nat :=
  match permutationCycles g v with
  | none => none
  | some cycles =>
    some ((s + (partitionTallies.map (fun tally =>
      GroupBurnsideEvaluator.intermediate (GroupBurnsideEvaluator.cycleLengths cycles k)
        tally k)).sum) % 2 ^ 64)

/-- Embedding of `GroupBurnsideEvaluator::operator()` for the group on `v` points with the
enumeration `elements` of its elements and the order `order`. -/
def GroupBurnsideEvaluator (elements : List Permutation) (order v k : Nat) : Option Nat :=
  match partition k with
  | none => none
  | some partitions =>
    match elements.foldl
      (fun s g =>
        s.bind (fun s =>
          GroupBurnsideEvaluator.addElement v k
            (partitions.val.map (fun ms => GroupBurnsideEvaluator.tally ms k)) s g))
      (some 0) with
    | none => none
    | some s => some (s / order)

/-! ## utils.cpp, Group.cpp, AnchorSet.cpp: the orderings of the cache keys -/

/-- Embedding of `PermutationWeakOrdering::operator()`: the loop over `pos` compares the
two permutations in list notation entry by entry; past the end of `perm1` the
result is `pos != perm2.size()`. -/
def PermutationWeakOrdering : Permutation → Permutation → Bool
  | [], perm2 => !perm2.isEmpty
  | _ :: _, [] => false
  | x :: perm1, y :: perm2 =>
    if y < x then false
    else if x < y then true
    else PermutationWeakOrdering perm1 perm2

/-- Embedding of `std::lexicographical_compare` with the comparison `comp`. -/
def lexicographical_compare {A : Type} (comp : A → A → Bool) : List A → List A → Bool
  | [], [] => false
  | [], _ :: _ => true
  | _ :: _, [] => false
  | x :: xs, y :: ys =>
    if comp x y then true
    else if comp y x then false
    else lexicographical_compare comp xs ys

/-- The members of a `PermutationGroup` (a `permlib::BSGS`) that the ordering reads: the
base `B` and the strong generating set `S`, in list notation. -/
structure PermutationGroup where
  B : List Nat
  S : List Permutation
  deriving DecidableEq, Repr

/-- Embedding of `GroupWeakOrdering::operator()` on the `PermutationGroup` members of the two
groups: `Gl.B < Gr.B` is the comparison of `std::vector`. -/
def GroupWeakOrdering (Gl Gr : PermutationGroup) : Bool :=
  if lexicographical_compare (fun x y => decide (x < y)) Gl.B Gr.B then true
  else lexicographical_compare PermutationWeakOrdering Gl.S Gr.S

/-- Embedding of `AnchorSetWeakOrdering::operator()`; `getGroup` gives the `PermutationGroup` of
the `Group` object that an anchor set is over, and the anchor sets are compared
as `std::set`. -/
def AnchorSetWeakOrdering (getGroup : Nat → PermutationGroup) (lhs rhs : AnchorSet) : Bool :=
  if GroupWeakOrdering (getGroup lhs.G) (getGroup rhs.G) then true
  else lexicographical_compare (fun x y => decide (x < y)) lhs.anchorSet rhs.anchorSet

/-! ## Pruner.cpp, KMBuilder.cpp: the Kramer-Mesner matrix of one round -/

/-- Embedding of `xMinus(v, B)`: the points `0, ..., v - 1` that are not in `B`, in
increasing order. -/
def xMinus (v : Nat) (B : Subset) : Subset := (List.range v).filter (fun x => x ∉ B)

/-- Embedding of `labels.insert(label)` on the `std::set<Subset>` of the candidate
generators, held as the list of its elements in the order of the set: the label
is put at its place unless it is present. -/
def Labels.insert (labels : List Subset) (label : Subset) : List Subset :=
  if label ∈ labels then labels
  else labels.orderedInsert
    (fun a b => lexicographical_compare (fun x y => decide (x < y)) b a = false) label

/-- Embedding of `FullCandidateGenerator::generateCandidates`: for every old representative
and every point `y` that is not in it, the representative with `y` inserted is
inserted into the set of the labels, which is returned as a vector. -/
def FullCandidateGenerator.generateCandidates (v : Nat) (oldReps : List Subset) :
    List Subset :=
  oldReps.foldl
    (fun labels rep =>
      (xMinus v rep).foldl (fun labels y => Labels.insert labels (Subset.insert rep y)) labels)
    []

/-- A `Matrix` (`boost::multi_array<int, 2>`): its rows. -/
abbrev Matrix := List (List Int)

/-- The matrix `Matrix A(boost::extents[rows][cols])`, whose cells are 0. -/
def Matrix.zero (rows cols : Nat) : Matrix := List.replicate rows (List.replicate cols 0)

/-- The cell `A[row][col]`. -/
def Matrix.at (A : Matrix) (row col : Nat) : Int := (A.getD row []).getD col 0

/-- Embedding of `A[row][col] = x` for a cell of the matrix. -/
def Matrix.assign (A : Matrix) (row col : Nat) (x : Int) : Matrix :=
  A.set row ((A.getD row []).set col x)

/-- Embedding of `A[row][col]++`: undefined (`none`) for indices outside the matrix and
for a cell that holds the greatest `int`. -/
def Matrix.increment (A : Matrix) (row col : Nat) : Option Matrix :=
  if row < A.length ∧ col < (A.getD row []).length ∧ Matrix.at A row col < 2 ^ 31 - 1 then
    some (Matrix.assign A row col (Matrix.at A row col + 1))
  else none

/-- Embedding of `std::find(first, last, x)` followed by `std::distance(first, it)`: the index
of the first element equal to `x`, or `none` for `last`. -/
def findFirst {A : Type} [DecidableEq A] : List A → A → Option Nat
  | [], _ => none
  | y :: ys, x => if y = x then some 0 else (findFirst ys x).map (fun i => i + 1)

/-- The virtual interface of a `Pruner`, acting on the state `P` of the pruner and
of the evaluation caches: `prune` (which has no bound of its own: `none` when it
does not return), `getNewReps`, `getNewData` and `getColumn`. -/
structure Pruner (P E D : Type) where
  prune : P → Option (Except (Failure E) Unit × P)
  getNewReps : P → Except (Failure E) (List Subset) × P
  getNewData : P → Except (Failure E) D × P
  getColumn : P → Subset → Except (Failure E) Nat × P

/-- Embedding of `KMBuilderOutput`. -/
structure KMBuilderOutput (D : Type) where
  newReps : List Subset
  A : Matrix
  prunerData : Option D

namespace KMBuilder

variable {P E D : Type}

/-- The inner loop of `KMBuilder::build` over the elements `*jt` of the candidate `*it`:
when the candidate less the element is an old representative, the cell in
the row of that representative and the column of the candidate is
incremented. -/
def countGenerators (getColumn : P → Subset → Except (Failure E) Nat × P)
    (orbitReps : List Subset) (candidate : Subset) :
    List Nat → Matrix → P → Except (Failure E) Matrix × P
  | [], A, p => (Except.ok A, p)
  | j :: js, A, p =>
    match findFirst orbitReps (candidate.erase j) with
    | none => countGenerators getColumn orbitReps candidate js A p
    | some row =>
      match getColumn p candidate with
      | (Except.error e, p1) => (Except.error e, p1)
      | (Except.ok col, p1) =>
        match Matrix.increment A row col with
        | none => (Except.error Failure.undefined, p1)
        | some A1 => countGenerators getColumn orbitReps candidate js A1 p1

/-- The outer loop of `KMBuilder::build` over the candidates. -/
def countCandidates (getColumn : P → Subset → Except (Failure E) Nat × P)
    (orbitReps : List Subset) : List Subset → Matrix → P → Except (Failure E) Matrix × P
  | [], A, p => (Except.ok A, p)
  | candidate :: rest, A, p =>
    match countGenerators getColumn orbitReps candidate candidate A p with
    | (Except.error e, p1) => (Except.error e, p1)
    | (Except.ok A1, p1) => countCandidates getColumn orbitReps rest A1 p1

/-- Embedding of `KMBuilder::build` for a group on `v` points (`G->getNumPoints()`, an
`unsigned int`), the old representatives `orbitReps` and the number `rho` of orbits.
With `rho == 1` the matrix has the one entry `v - k`, where `k` is the last point of
the first representative plus 2, in the arithmetic of `unsigned int`; there is no
pruner then. Otherwise the pruner runs, and the matrix is filled by the two
loops over the candidates of the `FullCandidateGenerator`; `candidates.front()` is
undefined when there is no candidate. The result is `none` when `prune` does not
return. -/
def build (pruner : Pruner P E D) (v : Nat) (orbitReps : List Subset) (rho : Nat) (p : P) :
    Option (Except (Failure E) (KMBuilderOutput D) × P) :=
  if rho = 1 then
    match orbitReps with
    | [] => some (Except.error Failure.undefined, p)
    | rep :: _ =>
      match rep.getLast? with
      | none => some (Except.error Failure.undefined, p)
      | some last =>
        let k := (last + 2) % 2 ^ 32
        some (Except.ok ⟨[generateX k],
          Matrix.assign (Matrix.zero orbitReps.length rho) 0 0
            (toInt32 ((v + 2 ^ 32 - k) % 2 ^ 32)), none⟩, p)
  else
    match pruner.prune p with
    | none => none
    | some (Except.error e, p1) => some (Except.error e, p1)
    | some (Except.ok _, p1) =>
      match pruner.getNewReps p1 with
      | (Except.error e, p2) => some (Except.error e, p2)
      | (Except.ok newReps, p2) =>
        let candidates := FullCandidateGenerator.generateCandidates v orbitReps
        match countCandidates pruner.getColumn orbitReps candidates
            (Matrix.zero orbitReps.length rho) p2 with
        | (Except.error e, p3) => some (Except.error e, p3)
        | (Except.ok A, p3) =>
          if candidates.isEmpty then some (Except.error Failure.undefined, p3)
          else
            match pruner.getNewData p3 with
            | (Except.error e, p4) => some (Except.error e, p4)
            | (Except.ok data, p4) => some (Except.ok ⟨newReps, A, some data⟩, p4)

end KMBuilder

/-! ## Notions used to state the properties -/

/-- The element `u` occurs before `v` in the list `l`. -/
def occursBefore {T : Type} (l : List T) (u v : T) : Prop :=
  ∃ l1 l2 l3, l = l1 ++ u :: (l2 ++ v :: l3)

/-- What a depth-first search over the vertices `0, ..., n - 1` maintains
about the deque it writes to: the deque holds exactly the black vertices, once
each, and behind every vertex of the deque come all targets of its out-edges;
only vertices below `n` are ever coloured. -/
structure DfsInv (out : Nat → List Nat) (n : Nat) (s : DfsState (List Nat)) : Prop where
  black_iff : ∀ u, s.color u = Color.black ↔ u ∈ s.output
  nodup : s.output.Nodup
  sorted : ∀ l1 u l2, s.output = l1 ++ u :: l2 → ∀ v ∈ out u, v ∈ l2
  bound : ∀ u, s.color u ≠ Color.white → u < n

/-- The work left for a depth-first search over the vertices `0, ..., n - 1`:
one step for every white vertex and one for each of its out-edges. -/
def dfsWork (out : Nat → List Nat) (n : Nat) (color : Nat → Color) : Nat :=
  Finset.sum (Finset.range n) (fun u => if color u = Color.white then 1 + (out u).length else 0)

/-- The label stored for a descriptor, if the descriptor is one of the graph. -/
def InternalGraph.label {T : Type} (G : InternalGraph T) (d : Nat) : Option T :=
  match G[d]? with
  | some sv => some sv.property
  | none => none

/-- The consistency of a `Graph`: the descriptor map and the labels of the
internal graph are inverse to each other, and every edge target is a vertex. -/
structure Graph.WF {T : Type} [DecidableEq T] (g : Graph T) : Prop where
  find_label : ∀ v d, g.descriptorMap.find v = some d → g.G.label d = some v
  label_find : ∀ d v, g.G.label d = some v → g.descriptorMap.find v = some d
  closed : ∀ u, ∀ t ∈ g.G.out_edges u, t < g.G.length

/-- The graph has an edge between the vertices labelled `u` and `v`. -/
def Graph.hasEdge {T : Type} [DecidableEq T] (g : Graph T) (u v : T) : Prop :=
  ∃ du dv, g.descriptorMap.find u = some du ∧ g.descriptorMap.find v = some dv ∧
    dv ∈ g.G.out_edges du

/-- The vertex `v` is named by one of the calls `ops`. -/
def mentions {T : Type} (ops : List (GraphOp T)) (v : T) : Prop :=
  GraphOp.addVertex v ∈ ops ∨ ∃ w, GraphOp.addEdge v w ∈ ops ∨ GraphOp.addEdge w v ∈ ops

/-- The state of a pruner for `rho = 1` and subset size `k`: it is ready
without functions, and its outputs are either not yet initialised or hold the
single representative, the trivial discriminator and a candidate map with no
other value than 0. -/
def TablePruner.TrivialReady {Fn : Type} (k : Nat) (p : TablePruner Fn) : Prop :=
  p.rho = 1 ∧ p.ready = true ∧ p.fns = [] ∧ p.k = k ∧
    ((p.newReps = none ∧ p.candidateMap = none ∧ p.newPrunerData = none) ∨
      (p.newReps = some [generateX k] ∧
        (∃ cm, p.candidateMap = some cm ∧ ∀ B v, cm.find B = some v → v = 0) ∧
        p.newPrunerData = some ⟨DiscriminatorPtr.TrivialDiscriminator, true⟩))

/-- The number of different columns among the first `n` columns of a table. -/
def distinctColumns (F : Table) (n : Nat) : Nat :=
  (((List.range n).map F.column).toFinset).card

/-- The number of distinct patterns that occur in `cols` before the first
occurrence of the pattern `fv`. -/
def patternCode {A : Type} [DecidableEq A] (cols : List A) (fv : A) : Nat :=
  ((cols.take (cols.indexOf fv)).toFinset).card

/-- The columns of the table of a pruner, one per candidate, in the order of
the candidates. -/
def TablePruner.columns {Fn : Type} (p : TablePruner Fn) : List (List Nat) :=
  (List.range p.candidates.length).map p.F.column

/-- The values of the loop variables of `initOutputs` when its second loop
ends, for the table and the candidates of the pruner. -/
def TablePruner.outputsState {Fn : Type} (p : TablePruner Fn) : InitOutputsState :=
  TablePruner.initOutputsLoop (p.candidates.zip p.columns)
    ⟨[], MapType.empty, MapType.empty, MapType.empty, 0,
      p.columns.foldl SetType.insert SetType.empty⟩

/-- The shape of the table of a pruner: one row per function, one cell per
candidate in every row. -/
def TablePruner.TableShape {Fn : Type} (p : TablePruner Fn) : Prop :=
  p.F.rows.length = p.fns.length ∧ ∀ row ∈ p.F.rows, row.length = p.candidates.length

/-- The result cache a discriminator works on: its entry in the evaluation
cache, or its starting cache as long as it has no entry. -/
def Discriminator.currentCache {Fn : Type} (d : Discriminator Fn) : MapType Subset Nat :=
  match d.resultCache with
  | some m => m
  | none => d.newCache

/-- The initialised outputs of a pruner with `rho` other than 1, with the
candidate map `cm` and the discriminator `d`: the pruner is ready and the
outputs are what `initOutputs` made of the table: the representatives, a discriminator over the function list with
the translation table and the starting cache of `initOutputs`, and a candidate
map which still holds every entry `initOutputs` gave it and every entry of the
result cache of the discriminator, and in which every entry is either one of
`initOutputs` or a value that the evaluation delegate of the discriminator
produced, in some state of the evaluation caches. -/
def TablePruner.OutputsSet {Fn W E : Type} (evaluate : W → Fn → Subset → Except E Nat × W)
    (p : TablePruner Fn) (cm : MapType Subset Nat) (d : Discriminator Fn) : Prop :=
  p.ready = true ∧ p.newReps = some p.outputsState.newReps ∧ p.candidateMap = some cm ∧
    p.newPrunerData = some ⟨DiscriminatorPtr.Discriminator d, false⟩ ∧
    d.functions = p.fns ∧ d.lookupTable = p.outputsState.lookupTable ∧
    d.newCache = p.outputsState.newCache ∧
    (∀ c v, p.outputsState.candidateMap.find c = some v → cm.find c = some v) ∧
    (∀ B v, d.currentCache.find B = some v → cm.find B = some v) ∧
    ∀ B v, cm.find B = some v → p.outputsState.candidateMap.find B = some v ∨
      ∃ w1, (DiscriminatorEvaluationDelegate evaluate p.fns p.outputsState.lookupTable
        w1 B).1 = Except.ok v

/-- The outputs of a pruner with `rho` other than 1 are either not yet
initialised, or initialised as `OutputsSet` describes. -/
def TablePruner.OutputsInv {Fn W E : Type} (evaluate : W → Fn → Subset → Except E Nat × W)
    (p : TablePruner Fn) : Prop :=
  (p.newReps = none ∧ p.candidateMap = none ∧ p.newPrunerData = none) ∨
    ∃ cm d, p.OutputsSet evaluate cm d

/-- The pruner `p1` has the candidates, the table, the functions and the
readiness of the pruner `p`. -/
def TablePruner.SameTable {Fn : Type} (p p1 : TablePruner Fn) : Prop :=
  p1.candidates = p.candidates ∧ p1.F = p.F ∧ p1.fns = p.fns ∧ p1.ready = p.ready ∧
    p1.rho = p.rho ∧ p1.k = p.k ∧ p1.prunerData = p.prunerData

/-- The consistency of a pruner with `rho` other than 1, which every sequence
of calls maintains. -/
def TablePruner.Consistent {Fn W E : Type} (evaluate : W → Fn → Subset → Except E Nat × W)
    (p : TablePruner Fn) : Prop :=
  p.rho ≠ 1 ∧ p.TableShape ∧ p.OutputsInv evaluate

/-- The pruner is ready only with a table that has `rho` different columns:
what holds of a pruner that became ready through `addGInvariant`. -/
def TablePruner.ReadyByTable {Fn : Type} (p : TablePruner Fn) : Prop :=
  p.ready = true → distinctColumns p.F p.candidates.length = p.rho

/-- What the second loop of `initOutputs` maintains, when it has handled the
candidates `pre` of the list `pairs` of all candidates with their columns:
the next index is the number of distinct patterns seen; the translation table
maps every pattern seen to its first-seen code; the set of columns to process
holds the patterns not seen; the maps hold the code of the pattern of every
candidate handled; and the representatives are the candidates that brought a
new pattern. -/
structure InitOutputsInv (pairs pre : List (Subset × List Nat)) (st : InitOutputsState) :
    Prop where
  nextIdx_eq : st.nextIdx = ((pre.map Prod.snd).toFinset).card
  lookup : ∀ fv, st.lookupTable.find fv =
    if fv ∈ pre.map Prod.snd then some (patternCode (pairs.map Prod.snd) fv) else none
  toProcess_nodup : st.columnsToProcess.elems.Nodup
  toProcess : ∀ fv ∈ pairs.map Prod.snd,
    (fv ∈ st.columnsToProcess.elems ↔ fv ∉ pre.map Prod.snd)
  entries_length : st.lookupTable.entries.length = st.nextIdx
  cmap_mem : ∀ q ∈ pre, st.candidateMap.find q.1 = some (patternCode (pairs.map Prod.snd) q.2)
  cmap_not_mem : ∀ c, c ∉ pre.map Prod.fst → st.candidateMap.find c = none
  cache_eq : st.newCache = st.candidateMap
  reps_length : st.newReps.length = st.nextIdx
  reps_get : ∀ pre1 q post1, pre = pre1 ++ q :: post1 → q.2 ∉ pre1.map Prod.snd →
    st.newReps[patternCode (pairs.map Prod.snd) q.2]? = some q.1
  reps_eq : st.newReps =
    ((List.range pre.length).filter
      (fun i => decide ((pairs.map Prod.snd).getD i [] ∉ (pairs.map Prod.snd).take i))).map
      (fun i => (pairs.map Prod.fst).getD i [])

/-- The initial functions of `prune`, with the state of the strategy after it
has been asked for them: those the strategy derives from the data of the
previous round, and none when there is no such data. -/
def TablePruner.initialFns {Fn S : Type}
    (createInitialGInvariants : S → Nat → TablePrunerData Fn → List Fn × S)
    (p : TablePruner Fn) (s : S) : List Fn × S :=
  match p.prunerData with
  | some data => createInitialGInvariants s p.k data
  | none => ([], s)

/-- The functions that `j` successive calls `createNewGInvariant(*G, k)` return,
in the order of the calls, and the state of the strategy afterwards. -/
def TablePruner.requested {Fn S : Type} (createNewGInvariant : S → Nat → Fn × S) (k : Nat) :
    Nat → S → List Fn × S
  | 0, s => ([], s)
  | j + 1, s =>
    ((createNewGInvariant s k).1 :: (requested createNewGInvariant k j (createNewGInvariant s k).2).1,
      (requested createNewGInvariant k j (createNewGInvariant s k).2).2)

/-- The entries of an image set under construction: no permutation is stored
twice, and what is stored with a permutation is the image of the anchor set
under it. -/
def ImageSetInv (A : Subset) (es : List (Permutation × Subset)) : Prop :=
  (es.map Prod.fst).Nodup ∧ ∀ e, e ∈ es → e.2 = AnchorSet.image e.1 A

/-- The composition of two permutations in list notation: the image of a
point under `h`, then under `g`. -/
def Permutation.comp (g h : Permutation) : Permutation := h.map (Permutation.at g)

/-- What a lookup table whose evaluator has the value `vec B` on `B` holds after
`N` codes at most were given out: every code of the translation table was the
value of the counter at most `N` increments ago, different vectors have different
codes, and the code cached for a subset is the code of its vector. -/
def LookupTable.Coded {FV : Type} [DecidableEq FV] (vec : Subset → FV) (N : Nat)
    (t : LookupTable FV) : Prop :=
  (∀ fv c, t.delegate.translator.find fv = some c →
      ∃ j, j < N ∧ (c + j + 1) % 2 ^ 64 = t.delegate.nextIdx % 2 ^ 64) ∧
    (∀ fv1 fv2 c, t.delegate.translator.find fv1 = some c →
      t.delegate.translator.find fv2 = some c → fv1 = fv2) ∧
    ∀ B c, t.cache.find B = some c → t.delegate.translator.find (vec B) = some c

/-- The entry of the anchor set `f` in the evaluation cache, if there is one,
was created for the key of `f`, and all its lookup tables are coded, with `N`
codes given out at most. -/
def AnchorSetEvalCache.Coded {FV : Type} [DecidableEq FV] (vec : Subset → FV) (N : Nat)
    (c : AnchorSetEvalCache FV) (f : AnchorSet) : Prop :=
  ∀ entry, c.find f.key = some entry →
    entry.creator.key = f.key ∧ ∀ s t, entry.tables.find s = some t → t.Coded vec N

/-- The lookup table of the anchor set `f` for the subsets of size `s` holds the
code `code` for the vector `fv`. -/
def AnchorSetEvalCache.Known {FV : Type} [DecidableEq FV] (c : AnchorSetEvalCache FV)
    (f : AnchorSet) (s : Nat) (fv : FV) (code : Nat) : Prop :=
  ∃ entry t, c.find f.key = some entry ∧ entry.tables.find s = some t ∧
    t.delegate.translator.find fv = some code

/-- The frequency vector of the subset `B` for the anchor set `A` over the group
with the enumeration `elements`. -/
def AnchorSet.vector (elements : List Permutation) (A B : Subset) : List Nat :=
  (AnchorSetEvaluator (AnchorSet.imageSet elements A) B).getD []

/-- The list `c` is a cycle of the map `f`: `f` maps every entry to the next one
and the last entry to the first. -/
def IsCycleOf (f : Nat → Nat) (c : List Nat) : Prop :=
  c ≠ [] ∧ ∀ j, j < c.length → f (c.getD j 0) = c.getD ((j + 1) % c.length) 0

/-- No product `result * (n - i)` of `combinat(n, k)` leaves the range of `int`, the
results of the iterations being binomial coefficients. -/
def combinatFits (n k : Nat) : Prop :=
  ∀ j, j < combinatSteps n k → n.choose j * ((n + 2 ^ 32 - j) % 2 ^ 32) < 2 ^ 31

/-- The number of ways to choose some of the entries of a list of numbers, by
their positions, so that the chosen entries have the sum `k`. -/
def subsetSums : List Nat → Nat → Nat
  | [], k => if k = 0 then 1 else 0
  | l :: ls, k => subsetSums ls k + (if l ≤ k then subsetSums ls (k - l) else 0)

/-- The set `B` of points is a union of lists of the family `cs`: it holds every
point of a list of the family or none. -/
def Saturated (cs : List (List Nat)) (B : Finset Nat) : Prop :=
  ∀ c, c ∈ cs → (∀ x, x ∈ c → x ∈ B) ∨ (∀ x, x ∈ c → x ∉ B)

instance Saturated.decidable (cs : List (List Nat)) (B : Finset Nat) : Decidable (Saturated cs B) :=
  List.decidableBAll _ cs

instance combinatFits.decidable (n k : Nat) : Decidable (combinatFits n k) :=
  Nat.decidableBallLT _ _

/-- The number of the cycles of size `i` that `permutationCycles(g, v)` returns. -/
def cycleCount (g : Permutation) (v i : Nat) : Nat :=
  (((permutationCycles g v).getD []).map List.length).count i

/-- The number of the sets of `k` of the points `0, ..., v - 1` that `g` maps onto
themselves. -/
def invariantSubsets (g : Permutation) (v k : Nat) : Nat :=
  ((Finset.powersetCard k (Finset.range v)).filter
    (fun B => B.image (Permutation.at g) = B)).card

/-- The value of the `int result` of `combinat` right after `result *= n - i` in the
iteration `i` of its loop. -/
def combinatProduct (n i : Nat) : Int :=
  toInt32 (toUInt32 (combinatLoop n i) * ((n + 2 ^ 32 - i) % 2 ^ 32))

/-- No intermediate product of `combinat(n, k)` exceeds the range of `int`: in every
iteration `i` the product of the value of `result` and of the unsigned `n - i` is below
`2 ^ 31`. -/
def combinatNoOverflow (n k : Nat) : Prop :=
  ∀ i, i < combinatSteps n k →
    toUInt32 (combinatLoop n i) * ((n + 2 ^ 32 - i) % 2 ^ 32) < 2 ^ 31

instance combinatNoOverflow.decidable (n k : Nat) : Decidable (combinatNoOverflow n k) :=
  Nat.decidableBallLT _ _

/-- The queries of a lookup table for the subsets of a list, one after the
other: what the queries return, and the table and the state afterwards. -/
def LookupTable.queryAll {FV W E : Type} [DecidableEq FV]
    (eval : W → Subset → Except E FV × W) (t : LookupTable FV) (w : W) :
    List Subset → List (Except E Nat) × LookupTable FV × W
  | [] => ([], t, w)
  | B :: Bs =>
    let r := t.query eval w B
    let rs := LookupTable.queryAll eval r.2.1 r.2.2 Bs
    (r.1 :: rs.1, rs.2)

/-- Every column of the table of a pruner holds the values `val f B` of the
functions of the list on the candidate of the column. -/
def TablePruner.TableOf {Fn : Type} (val : Fn → Subset → Nat) (p : TablePruner Fn) : Prop :=
  ∀ i, i < p.candidates.length →
    p.F.column i = p.fns.map (fun f => val f (p.candidates.getD i []))

/-- The shape of a matrix: `n` rows of `m` cells. -/
def Matrix.Shape (A : Matrix) (n m : Nat) : Prop :=
  A.length = n ∧ ∀ row, row ∈ A → row.length = m

/-- The number of the elements `j` among `js` for which the inner loop of
`KMBuilder::build` increments the cell in row `r` and column `c`: the candidate less
`j` is the old representative with the index `r`, and the candidate has the
column `c`. -/
def KMBuilder.hits (col : Subset → Nat) (orbitReps : List Subset) (candidate : Subset)
    (js : List Nat) (r c : Nat) : Nat :=
  js.countP (fun j => decide (findFirst orbitReps (candidate.erase j) = some r ∧
    col candidate = c))

/-! ## Small instances -/

/-- The three subsets of size 2 of a set of three points, in the order in
which a `std::set` holds them. -/
def exampleCandidates : List Subset := [[0, 1], [0, 2], [1, 2]]

/-- An evaluation without state that never fails: the function `f` gives the
element with index `f` of the subset. -/
def exampleEvaluate (w : Unit) (f : Nat) (B : Subset) : Except Nat Nat × Unit :=
  (Except.ok (B.getD f 0), w)

/-- An evaluation that fails, with the failure 500, on the subset `{0, 2}`,
and is `exampleEvaluate` on the other subsets. -/
def exampleFailing (w : Unit) (f : Nat) (B : Subset) : Except Nat Nat × Unit :=
  if B = [0, 2] then (Except.error 500, w) else (Except.ok (B.getD f 0), w)

/-- An evaluation that counts its invocations in its state and never fails:
the function `f` gives the element with index `f` of the subset. -/
def exampleCounting (w : Nat) (f : Nat) (B : Subset) : Except Nat Nat × Nat :=
  (Except.ok (B.getD f 0), w + 1)

/-- The cyclic group of order 4 generated by the cycle `(0 1 2 3)`, as the list
of its elements. -/
def cyclicGroup4 : List Permutation := [[0, 1, 2, 3], [1, 2, 3, 0], [2, 3, 0, 1], [3, 0, 1, 2]]

/-- The six subsets of two of the points 0, 1, 2, 3, in increasing order. -/
def twoSubsets4 : List Subset := [[0, 1], [0, 2], [0, 3], [1, 2], [1, 3], [2, 3]]

/-- The groups generated on the points 0, 1, 2 by the transpositions `(0 1)`,
`(1 2)` and `(0 2)`, with the base and the strong generating set of each. -/
def exampleGroups : Nat → PermutationGroup
  | 0 => ⟨[0], [[1, 0, 2]]⟩
  | 1 => ⟨[1], [[0, 2, 1]]⟩
  | _ => ⟨[0], [[2, 1, 0]]⟩

/-- A pruner without state whose calls return at once and which gives every
subset `B` the column `col B`. -/
def examplePruner (col : Subset → Nat) : Pruner Unit Unit Unit :=
  ⟨fun p => some (Except.ok (), p), fun p => (Except.ok [], p),
    fun p => (Except.ok (), p), fun p B => (Except.ok (col B), p)⟩

end MatrixGenerator

/-! # Properties -/

namespace MatrixGenerator

set_option linter.unusedSectionVars false

/-! ## The memoizing cache -/

section CacheLemmas

variable {K V D E : Type} [DecidableEq K]

theorem MapType.count_eq_zero_iff (m : MapType K V) (key : K) :
    m.count key = 0 ↔ m.find key = none := by
  unfold MapType.count
  cases h : m.find key <;> simp

theorem MapType.count_ne_zero_iff (m : MapType K V) (key : K) :
    m.count key ≠ 0 ↔ ∃ v, m.find key = some v := by
  unfold MapType.count
  cases h : m.find key <;> simp

theorem MapType.find_empty (key : K) : (MapType.empty : MapType K V).find key = none := rfl

theorem MapType.find_cons (m : MapType K V) (a key : K) (b : V) :
    (MapType.mk ((a, b) :: m.entries)).find key = if a = key then some b else m.find key := rfl

variable [Inhabited V]

theorem MapType.index_of_find (m : MapType K V) (key : K) (v : V) (h : m.find key = some v) :
    m.index key = (v, m) := by
  unfold MapType.index
  rw [h]

theorem MapCache.query_present (call : D → K → Except E V × D) (c : MapCache K V D) (key : K)
    (v : V) (h : c.cache.find key = some v) : c.query call key = (Except.ok v, c) := by
  have hc : c.cache.count key ≠ 0 := (MapType.count_ne_zero_iff _ _).2 ⟨v, h⟩
  unfold MapCache.query
  rw [if_neg hc, MapType.index_of_find _ _ _ h]

theorem MapCache.query_absent_ok (call : D → K → Except E V × D) (c : MapCache K V D) (key : K)
    (v : V) (d : D) (h : c.cache.find key = none) (hd : call c.delegate key = (Except.ok v, d)) :
    c.query call key = (Except.ok v, ⟨⟨(key, v) :: c.cache.entries⟩, d⟩) := by
  have hc : c.cache.count key = 0 := (MapType.count_eq_zero_iff _ _).2 h
  unfold MapCache.query
  rw [if_pos hc, if_pos hc, hd]
  have hi : c.cache.insert (key, v) = ⟨(key, v) :: c.cache.entries⟩ := by
    unfold MapType.insert
    rw [if_pos hc]
  have hf : (MapType.mk ((key, v) :: c.cache.entries)).find key = some v := by
    rw [MapType.find_cons, if_pos rfl]
  simp only [hi, MapType.index_of_find _ _ _ hf]

theorem MapCache.query_absent_error (call : D → K → Except E V × D) (c : MapCache K V D)
    (key : K) (e : E) (d : D) (h : c.cache.find key = none)
    (hd : call c.delegate key = (Except.error e, d)) :
    c.query call key = (Except.error e, { c with delegate := d }) := by
  have hc : c.cache.count key = 0 := (MapType.count_eq_zero_iff _ _).2 h
  unfold MapCache.query
  rw [if_pos hc, if_pos hc, hd]

theorem MapCache.step_contains (call : D → K → Except E V × D) (c : MapCache K V D) (key : K) :
    c.step call (CacheOp.contains key) = (CacheRes.found (c.cache.count key != 0), c) := rfl

theorem MapCache.step_query_present (call : D → K → Except E V × D) (c : MapCache K V D)
    (key : K) (v : V) (h : c.cache.find key = some v) :
    c.step call (CacheOp.query key) = (CacheRes.value v, c) := by
  simp only [MapCache.step, MapCache.query_present call c key v h]

theorem MapCache.step_query_absent_ok (call : D → K → Except E V × D) (c : MapCache K V D)
    (key : K) (v : V) (d : D) (h : c.cache.find key = none)
    (hd : call c.delegate key = (Except.ok v, d)) :
    c.step call (CacheOp.query key) = (CacheRes.value v, ⟨⟨(key, v) :: c.cache.entries⟩, d⟩) := by
  simp only [MapCache.step, MapCache.query_absent_ok call c key v d h hd]

theorem MapCache.step_query_absent_error (call : D → K → Except E V × D) (c : MapCache K V D)
    (key : K) (e : E) (d : D) (h : c.cache.find key = none)
    (hd : call c.delegate key = (Except.error e, d)) :
    c.step call (CacheOp.query key) = (CacheRes.raised e, { c with delegate := d }) := by
  simp only [MapCache.step, MapCache.query_absent_error call c key e d h hd]

/-- The key is present after a call exactly when it was present before or the
call is a query for it that returned a value. -/
theorem MapCache.step_find_isSome (call : D → K → Except E V × D) (c : MapCache K V D)
    (op : CacheOp K) (key : K) :
    ((c.step call op).2.cache.find key).isSome = true ↔
      ((c.cache.find key).isSome = true ∨
        ∃ v, op = CacheOp.query key ∧ (c.step call op).1 = CacheRes.value v) := by
  cases op with
  | contains k1 => simp [MapCache.step_contains]
  | query k1 =>
    cases hf : c.cache.find k1 with
    | some v1 =>
      rw [MapCache.step_query_present call c k1 v1 hf]
      constructor
      · intro h; exact Or.inl h
      · rintro (h | ⟨v, hk, -⟩)
        · exact h
        · injection hk with hk
          subst hk
          simp [hf]
    | none =>
      rcases hcall : call c.delegate k1 with ⟨r, d⟩
      cases r with
      | error e =>
        rw [MapCache.step_query_absent_error call c k1 e d hf hcall]
        simp
      | ok v1 =>
        rw [MapCache.step_query_absent_ok call c k1 v1 d hf hcall]
        simp only [MapType.find_cons]
        by_cases hk : k1 = key
        · subst hk
          simp
        · simp [hk]

theorem MapCache.run_find_isSome (call : D → K → Except E V × D) (ops : List (CacheOp K))
    (c : MapCache K V D) (key : K) :
    (((c.run call ops).2.cache.find key).isSome = true ↔
      ((c.cache.find key).isSome = true ∨
        ∃ v, (CacheOp.query key, CacheRes.value v) ∈ (c.run call ops).1)) := by
  induction ops generalizing c with
  | nil => simp [MapCache.run]
  | cons op ops ih =>
    simp only [MapCache.run]
    rw [ih, MapCache.step_find_isSome]
    constructor
    · rintro ((h | ⟨v, hop, hr⟩) | ⟨v, hv⟩)
      · exact Or.inl h
      · subst hop
        exact Or.inr ⟨v, by rw [hr]; exact List.mem_cons_self _ _⟩
      · exact Or.inr ⟨v, List.mem_cons_of_mem _ hv⟩
    · rintro (h | ⟨v, hv⟩)
      · exact Or.inl (Or.inl h)
      · rcases List.mem_cons.1 hv with h | h
        · injection h with h1 h2
          exact Or.inl (Or.inr ⟨v, h1.symm, h2.symm⟩)
        · exact Or.inr ⟨v, h⟩

omit [Inhabited V] in
theorem invocationsFor_append (key : K) (l1 l2 : List (K × V)) :
    invocationsFor key (l1 ++ l2) = invocationsFor key l1 ++ invocationsFor key l2 := by
  simp [invocationsFor]

/-- A call that is not a query for `key` leaves the entry of `key` and the
recorded invocations for `key` as they are. -/
theorem MapCache.step_recording_other (f : D → K → V × D) (c : MapCache K V (D × List (K × V)))
    (op : CacheOp K) (key : K) (hop : op ≠ CacheOp.query key) :
    (c.step (recording (E := E) f) op).2.cache.find key = c.cache.find key ∧
      invocationsFor key (c.step (recording (E := E) f) op).2.delegate.2 =
        invocationsFor key c.delegate.2 := by
  cases op with
  | contains k1 => simp [MapCache.step_contains]
  | query k1 =>
    have hk : k1 ≠ key := fun h => hop (by rw [h])
    cases hf : c.cache.find k1 with
    | some v1 => simp [MapCache.step_query_present _ c k1 v1 hf]
    | none =>
      rw [MapCache.step_query_absent_ok (recording f) c k1 (f c.delegate.1 k1).1
        ((f c.delegate.1 k1).2, c.delegate.2 ++ [(k1, (f c.delegate.1 k1).1)]) hf rfl]
      simp [MapType.find_cons, hk, invocationsFor_append, invocationsFor]

/-- While `key` is present with value `v`, no call invokes the delegate for
`key`, and every query for `key` returns `v`. -/
theorem MapCache.run_recording_present (f : D → K → V × D) (ops : List (CacheOp K))
    (c : MapCache K V (D × List (K × V))) (key : K) (v : V) (h : c.cache.find key = some v) :
    (c.run (recording (E := E) f) ops).2.cache.find key = some v ∧
      invocationsFor key (c.run (recording (E := E) f) ops).2.delegate.2 =
        invocationsFor key c.delegate.2 ∧
      ∀ r, (CacheOp.query key, r) ∈ (c.run (recording (E := E) f) ops).1 → r = CacheRes.value v := by
  induction ops generalizing c with
  | nil => simp [MapCache.run, h]
  | cons op ops ih =>
    simp only [MapCache.run]
    by_cases hop : op = CacheOp.query key
    · subst hop
      rw [MapCache.step_query_present _ c key v h]
      obtain ⟨h1, h2, h3⟩ := ih c h
      refine ⟨h1, h2, ?_⟩
      intro r hr
      rcases List.mem_cons.1 hr with hr | hr
      · injection hr with _ hr
      · exact h3 r hr
    · obtain ⟨g1, g2⟩ := MapCache.step_recording_other (E := E) f c op key hop
      obtain ⟨h1, h2, h3⟩ := ih (c.step (recording f) op).2 (by rw [g1]; exact h)
      refine ⟨h1, by rw [h2, g2], ?_⟩
      intro r hr
      rcases List.mem_cons.1 hr with hr | hr
      · injection hr with hr _
        exact absurd hr.symm hop
      · exact h3 r hr

/-- While `key` is absent and not queried, it stays absent and the delegate
is not invoked for it. -/
theorem MapCache.run_recording_unqueried (f : D → K → V × D) (ops : List (CacheOp K))
    (c : MapCache K V (D × List (K × V))) (key : K) (h : c.cache.find key = none)
    (hq : CacheOp.query key ∉ ops) :
    (c.run (recording (E := E) f) ops).2.cache.find key = none ∧
      invocationsFor key (c.run (recording (E := E) f) ops).2.delegate.2 =
        invocationsFor key c.delegate.2 := by
  induction ops generalizing c with
  | nil => simp [MapCache.run, h]
  | cons op ops ih =>
    simp only [MapCache.run]
    have hop : op ≠ CacheOp.query key := fun e => hq (by rw [e]; exact List.mem_cons_self _ _)
    obtain ⟨g1, g2⟩ := MapCache.step_recording_other (E := E) f c op key hop
    obtain ⟨h1, h2⟩ := ih (c.step (recording f) op).2 (by rw [g1]; exact h)
      (fun hm => hq (List.mem_cons_of_mem _ hm))
    exact ⟨h1, by rw [h2, g2]⟩

theorem MapCache.run_append (call : D → K → Except E V × D) (pre post : List (CacheOp K))
    (c : MapCache K V D) :
    c.run call (pre ++ post) =
      ((c.run call pre).1 ++ ((c.run call pre).2.run call post).1,
        ((c.run call pre).2.run call post).2) := by
  induction pre generalizing c with
  | nil => simp [MapCache.run]
  | cons op pre ih => simp [MapCache.run, ih]

theorem MapCache.run_map_fst (call : D → K → Except E V × D) (ops : List (CacheOp K))
    (c : MapCache K V D) : (c.run call ops).1.map Prod.fst = ops := by
  induction ops generalizing c with
  | nil => simp [MapCache.run]
  | cons op ops ih => simp [MapCache.run, ih]

omit [DecidableEq K] [Inhabited V] in
theorem exists_first_occurrence {A : Type} [DecidableEq A] (a : A) (l : List A) (h : a ∈ l) :
    ∃ pre post, l = pre ++ a :: post ∧ a ∉ pre := by
  induction l with
  | nil => simp at h
  | cons b l ih =>
    by_cases hb : b = a
    · exact ⟨[], l, by simp [hb], by simp⟩
    · have hl : a ∈ l := by
        rcases List.mem_cons.1 h with h | h
        · exact absurd h.symm hb
        · exact h
      obtain ⟨pre, post, h1, h2⟩ := ih hl
      refine ⟨b :: pre, post, by simp [h1], ?_⟩
      intro hm
      rcases List.mem_cons.1 hm with hm | hm
      · exact hb hm.symm
      · exact h2 hm

/-- From a cache in which `key` is absent, a history whose first query for
`key` comes after the calls `pre`: the delegate is not invoked for `key`
during `pre`, is invoked once by that first query, and is not invoked for
`key` again; every query for `key` returns the value it produced. -/
theorem MapCache.run_recording_absent (f : D → K → V × D) (pre post : List (CacheOp K))
    (c : MapCache K V (D × List (K × V))) (key : K) (h : c.cache.find key = none)
    (hpre : CacheOp.query key ∉ pre) :
    invocationsFor key (c.run (recording (E := E) f) pre).2.delegate.2 =
        invocationsFor key c.delegate.2 ∧
      ∃ v,
        invocationsFor key (c.run (recording (E := E) f) (pre ++ [CacheOp.query key])).2.delegate.2 =
            invocationsFor key c.delegate.2 ++ [(key, v)] ∧
          invocationsFor key
              (c.run (recording (E := E) f) (pre ++ CacheOp.query key :: post)).2.delegate.2 =
            invocationsFor key c.delegate.2 ++ [(key, v)] ∧
          ∀ r, (CacheOp.query key, r) ∈
              (c.run (recording (E := E) f) (pre ++ CacheOp.query key :: post)).1 →
            r = CacheRes.value v := by
  obtain ⟨h1, h2⟩ := MapCache.run_recording_unqueried (E := E) f pre c key h hpre
  refine ⟨h2, ?_⟩
  generalize hc1 : (c.run (recording (E := E) f) pre).2 = c1 at h1 h2
  have hstep := MapCache.step_query_absent_ok (recording (E := E) f) c1 key (f c1.delegate.1 key).1
    ((f c1.delegate.1 key).2, c1.delegate.2 ++ [(key, (f c1.delegate.1 key).1)]) h1 rfl
  refine ⟨(f c1.delegate.1 key).1, ?_, ?_, ?_⟩
  · rw [MapCache.run_append, hc1]
    simp only [MapCache.run, hstep, invocationsFor_append, h2]
    simp [invocationsFor]
  · rw [MapCache.run_append, hc1]
    simp only [MapCache.run, hstep]
    obtain ⟨-, g2, -⟩ := MapCache.run_recording_present (E := E) f post
      ⟨⟨(key, (f c1.delegate.1 key).1) :: c1.cache.entries⟩,
        ((f c1.delegate.1 key).2, c1.delegate.2 ++ [(key, (f c1.delegate.1 key).1)])⟩ key
      (f c1.delegate.1 key).1 (by rw [MapType.find_cons, if_pos rfl])
    rw [g2]
    simp only [invocationsFor_append, h2]
    simp [invocationsFor]
  · intro r hr
    rw [MapCache.run_append, hc1] at hr
    simp only [MapCache.run, hstep] at hr
    rcases List.mem_append.1 hr with hr | hr
    · exfalso
      apply hpre
      have := MapCache.run_map_fst (recording (E := E) f) pre c
      rw [← this]
      exact List.mem_map.2 ⟨_, hr, rfl⟩
    · rcases List.mem_cons.1 hr with hr | hr
      · injection hr with _ hr
      · obtain ⟨-, -, g3⟩ := MapCache.run_recording_present (E := E) f post
          ⟨⟨(key, (f c1.delegate.1 key).1) :: c1.cache.entries⟩,
            ((f c1.delegate.1 key).2, c1.delegate.2 ++ [(key, (f c1.delegate.1 key).1)])⟩ key
          (f c1.delegate.1 key).1 (by rw [MapType.find_cons, if_pos rfl])
        exact g3 r hr

end CacheLemmas

/-- C2: in a sequential history of `contains` and `query` calls on a cache
whose delegate `f` (possibly stateful) returns a value on every invocation,
the delegate is invoked at most once for a key; for a key present in the
initial map it is never invoked and every query returns the initial value;
for a key absent from the initial map it is not invoked while the key is not
queried, it is invoked exactly once by the first query for the key, and every
query for the key returns the value produced by that invocation. -/
theorem MapCache.query_invokes_delegate_once {K V D : Type} [DecidableEq K] [Inhabited V]
    (E : Type) (f : D → K → V × D) (m0 : MapType K V) (d0 : D) (ops : List (CacheOp K))
    (key : K) :
    (invocationsFor key
        ((MapCache.mk m0 (d0, [])).run (recording (E := E) f) ops).2.delegate.2).length ≤ 1 ∧
    (∀ v0, m0.find key = some v0 →
      invocationsFor key
          ((MapCache.mk m0 (d0, [])).run (recording (E := E) f) ops).2.delegate.2 = [] ∧
        ∀ r, (CacheOp.query key, r) ∈
            ((MapCache.mk m0 (d0, [])).run (recording (E := E) f) ops).1 →
          r = CacheRes.value v0) ∧
    (m0.count key = 0 → CacheOp.query key ∉ ops →
      invocationsFor key
          ((MapCache.mk m0 (d0, [])).run (recording (E := E) f) ops).2.delegate.2 = []) ∧
    (m0.count key = 0 → ∀ pre post, ops = pre ++ CacheOp.query key :: post →
      CacheOp.query key ∉ pre →
      invocationsFor key
          ((MapCache.mk m0 (d0, [])).run (recording (E := E) f) pre).2.delegate.2 = [] ∧
        ∃ v,
          invocationsFor key
              ((MapCache.mk m0 (d0, [])).run (recording (E := E) f)
                (pre ++ [CacheOp.query key])).2.delegate.2 = [(key, v)] ∧
            invocationsFor key
              ((MapCache.mk m0 (d0, [])).run (recording (E := E) f) ops).2.delegate.2 =
                [(key, v)] ∧
            ∀ r, (CacheOp.query key, r) ∈
                ((MapCache.mk m0 (d0, [])).run (recording (E := E) f) ops).1 →
              r = CacheRes.value v) := by
  have hpresent : ∀ v0, m0.find key = some v0 →
      invocationsFor key
          ((MapCache.mk m0 (d0, [])).run (recording (E := E) f) ops).2.delegate.2 = [] ∧
        ∀ r, (CacheOp.query key, r) ∈
            ((MapCache.mk m0 (d0, [])).run (recording (E := E) f) ops).1 →
          r = CacheRes.value v0 := by
    intro v0 h0
    obtain ⟨-, h2, h3⟩ := MapCache.run_recording_present (E := E) f ops (MapCache.mk m0 (d0, []))
      key v0 h0
    exact ⟨by rw [h2]; rfl, h3⟩
  have hunq : m0.count key = 0 → CacheOp.query key ∉ ops →
      invocationsFor key
          ((MapCache.mk m0 (d0, [])).run (recording (E := E) f) ops).2.delegate.2 = [] := by
    intro h0 hq
    obtain ⟨-, h2⟩ := MapCache.run_recording_unqueried (E := E) f ops (MapCache.mk m0 (d0, []))
      key ((MapType.count_eq_zero_iff _ _).1 h0) hq
    rw [h2]; rfl
  have habs : m0.count key = 0 → ∀ pre post, ops = pre ++ CacheOp.query key :: post →
      CacheOp.query key ∉ pre →
      invocationsFor key
          ((MapCache.mk m0 (d0, [])).run (recording (E := E) f) pre).2.delegate.2 = [] ∧
        ∃ v,
          invocationsFor key
              ((MapCache.mk m0 (d0, [])).run (recording (E := E) f)
                (pre ++ [CacheOp.query key])).2.delegate.2 = [(key, v)] ∧
            invocationsFor key
              ((MapCache.mk m0 (d0, [])).run (recording (E := E) f) ops).2.delegate.2 =
                [(key, v)] ∧
            ∀ r, (CacheOp.query key, r) ∈
                ((MapCache.mk m0 (d0, [])).run (recording (E := E) f) ops).1 →
              r = CacheRes.value v := by
    intro h0 pre post hops hpre
    subst hops
    obtain ⟨h1, v, h2, h3, h4⟩ := MapCache.run_recording_absent (E := E) f pre post
      (MapCache.mk m0 (d0, [])) key ((MapType.count_eq_zero_iff _ _).1 h0) hpre
    refine ⟨by rw [h1]; rfl, v, ?_, ?_, h4⟩
    · rw [h2]; rfl
    · rw [h3]; rfl
  refine ⟨?_, hpresent, hunq, habs⟩
  cases h0 : m0.find key with
  | some v0 => rw [(hpresent v0 h0).1]; simp
  | none =>
    have hc := (MapType.count_eq_zero_iff _ _).2 h0
    by_cases hq : CacheOp.query key ∈ ops
    · obtain ⟨pre, post, hops, hpre⟩ := exists_first_occurrence _ _ hq
      obtain ⟨-, v, -, h3, -⟩ := habs hc pre post hops hpre
      rw [h3]; simp
    · rw [hunq hc hq]; simp

/-- C2, on a history that queries key 1 twice around a query for key 2, with a
delegate whose value depends on how often it has been invoked. -/
theorem MapCache.query_invokes_delegate_once_witness :
    invocationsFor 1
        ((MapCache.mk (MapType.empty : MapType Nat Nat) (0, [])).run
          (recording (E := Empty) (fun (d : Nat) (k : Nat) => (10 * d + k, d + 1)))
          [CacheOp.query 1, CacheOp.query 2, CacheOp.contains 1, CacheOp.query 1]).2.delegate.2 =
      [(1, 1)] ∧
    (CacheOp.query 1, CacheRes.value 1) ∈
      ((MapCache.mk (MapType.empty : MapType Nat Nat) (0, [])).run
          (recording (E := Empty) (fun (d : Nat) (k : Nat) => (10 * d + k, d + 1)))
          [CacheOp.query 1, CacheOp.query 2, CacheOp.contains 1, CacheOp.query 1]).1 := by
  obtain ⟨-, -, -, h⟩ := MapCache.query_invokes_delegate_once Empty
    (fun (d : Nat) (k : Nat) => (10 * d + k, d + 1)) (MapType.empty : MapType Nat Nat) 0
    [CacheOp.query 1, CacheOp.query 2, CacheOp.contains 1, CacheOp.query 1] 1
  obtain ⟨-, v, -, h3, -⟩ := h rfl [] [CacheOp.query 2, CacheOp.contains 1, CacheOp.query 1] rfl
    (by simp)
  refine ⟨?_, by decide⟩
  rw [h3]
  have : v = 1 := by
    have h5 : invocationsFor 1
        ((MapCache.mk (MapType.empty : MapType Nat Nat) (0, [])).run
          (recording (E := Empty) (fun (d : Nat) (k : Nat) => (10 * d + k, d + 1)))
          [CacheOp.query 1, CacheOp.query 2, CacheOp.contains 1, CacheOp.query 1]).2.delegate.2 =
        [(1, 1)] := by decide
    rw [h3] at h5
    simpa using h5
  rw [this]

/-- C3: on a cache constructed with an empty map, at the point reached after
any sequence `pre` of calls, `contains(key)` returns true exactly when a
query for `key` has completed (returned a value) among these calls: false
before the first completed query, true from then on, whether or not other
queries raised. A call of `contains` leaves the cache as it is. -/
theorem MapCache.contains_iff_query_completed {K V D E : Type} [DecidableEq K] [Inhabited V]
    (call : D → K → Except E V × D) (d0 : D) (pre : List (CacheOp K)) (key : K) :
    ((((MapCache.mk (MapType.empty : MapType K V) d0).run call pre).2.contains key).1 = true ↔
        ∃ v, (CacheOp.query key, CacheRes.value v) ∈
          ((MapCache.mk (MapType.empty : MapType K V) d0).run call pre).1) ∧
      (∀ c : MapCache K V D, (c.contains key).2 = c) ∧
      ∀ c : MapCache K V D, (c.step call (CacheOp.contains key)).2 = c := by
  refine ⟨?_, fun c => rfl, fun c => rfl⟩
  have h := MapCache.run_find_isSome call pre (MapCache.mk (MapType.empty : MapType K V) d0) key
  simp only [MapType.find_empty, Option.isSome_none, Bool.false_eq_true, false_or] at h
  rw [← h]
  unfold MapCache.contains MapType.count
  cases ((MapCache.mk (MapType.empty : MapType K V) d0).run call pre).2.cache.find key <;> simp

/-- C4: when `key` is absent and the delegate raises `e` on it, `query(key)`
raises `e`, the backing map is exactly what it was, and `key` is still
absent. -/
theorem MapCache.query_delegate_failure {K V D E : Type} [DecidableEq K] [Inhabited V]
    (call : D → K → Except E V × D) (c : MapCache K V D) (key : K) (e : E)
    (habsent : (c.contains key).1 = false)
    (hfail : (call c.delegate key).1 = Except.error e) :
    (c.query call key).1 = Except.error e ∧
      (c.query call key).2.cache = c.cache ∧
      ((c.query call key).2.contains key).1 = false ∧
      ∀ other, (c.query call key).2.cache.find other = c.cache.find other := by
  have hf : c.cache.find key = none := by
    unfold MapCache.contains MapType.count at habsent
    cases h : c.cache.find key with
    | none => rfl
    | some v => rw [h] at habsent; simp at habsent
  have hq := MapCache.query_absent_error call c key e (call c.delegate key).2 hf
    (by rw [← hfail])
  rw [hq]
  exact ⟨rfl, rfl, habsent, fun _ => rfl⟩

/-- C4, on an empty cache whose delegate raises on every key. -/
theorem MapCache.query_delegate_failure_witness :
    ((MapCache.mk (MapType.empty : MapType Nat Nat) ()).contains 7).1 = false ∧
      ((MapCache.mk (MapType.empty : MapType Nat Nat) ()).query
          (fun (d : Unit) (_ : Nat) => ((Except.error 500 : Except Nat Nat), d)) 7).1 =
        Except.error 500 ∧
      ((MapCache.mk (MapType.empty : MapType Nat Nat) ()).query
          (fun (d : Unit) (_ : Nat) => ((Except.error 500 : Except Nat Nat), d)) 7).2.cache =
        MapType.empty :=
  ⟨rfl,
    (MapCache.query_delegate_failure
      (fun (d : Unit) (_ : Nat) => ((Except.error 500 : Except Nat Nat), d))
      (MapCache.mk (MapType.empty : MapType Nat Nat) ()) 7 500 rfl rfl).1,
    (MapCache.query_delegate_failure
      (fun (d : Unit) (_ : Nat) => ((Except.error 500 : Except Nat Nat), d))
      (MapCache.mk (MapType.empty : MapType Nat Nat) ()) 7 500 rfl rfl).2.1⟩

/-! ## Depth-first search and topological sort -/

section DfsLemmas

variable {O : Type} (emit : Nat → O → O) (out : Nat → List Nat)

theorem dfsEdges_nil (fuel : Nat) (s : DfsState O) :
    dfsEdges emit out fuel [] s = Except.ok s := by
  cases fuel <;> rfl

theorem dfsEdges_cons (fuel v : Nat) (vs : List Nat) (s : DfsState O) :
    dfsEdges emit out (fuel + 1) (v :: vs) s =
      match s.color v with
      | Color.white =>
        match dfsEdges emit out fuel (out v) (s.paint v Color.gray) with
        | Except.ok s1 => dfsEdges emit out fuel vs (s1.finish emit v)
        | Except.error e => Except.error e
      | Color.gray => Except.error DfsError.not_a_dag
      | Color.black => dfsEdges emit out fuel vs s := rfl

/-- Colours only move forward during the out-edge loop: a vertex that is not
white keeps its colour, no vertex becomes gray, and every examined target
ends black. -/
theorem dfsEdges_color (fuel : Nat) : ∀ (vs : List Nat) (s s' : DfsState O),
    dfsEdges emit out fuel vs s = Except.ok s' →
      (∀ u, s.color u ≠ Color.white → s'.color u = s.color u) ∧
      (∀ u, s'.color u = Color.gray → s.color u = Color.gray) ∧
      (∀ v ∈ vs, s'.color v = Color.black) := by
  induction fuel with
  | zero =>
    intro vs s s' h
    cases vs with
    | nil =>
      rw [dfsEdges_nil] at h
      injection h with h
      subst h
      simp
    | cons v vs => simp [dfsEdges] at h
  | succ fuel ih =>
    intro vs s s' h
    cases vs with
    | nil =>
      rw [dfsEdges_nil] at h
      injection h with h
      subst h
      simp
    | cons v vs =>
      rw [dfsEdges_cons] at h
      cases hc : s.color v with
      | white =>
        rw [hc] at h
        simp only at h
        cases h1 : dfsEdges emit out fuel (out v) (s.paint v Color.gray) with
        | error e => rw [h1] at h; simp at h
        | ok s1 =>
          rw [h1] at h
          simp only at h
          obtain ⟨a1, a2, -⟩ := ih _ _ _ h1
          obtain ⟨b1, b2, b3⟩ := ih _ _ _ h
          have hv1 : s1.color v = Color.gray := by
            have := a1 v (by simp [DfsState.paint])
            simpa [DfsState.paint] using this
          refine ⟨?_, ?_, ?_⟩
          · intro u hu
            have huv : u ≠ v := fun e => hu (by rw [e]; exact hc)
            have e1 : s1.color u = s.color u := by
              have := a1 u (by simpa [DfsState.paint, huv] using hu)
              simpa [DfsState.paint, huv] using this
            have := b1 u (by simpa [DfsState.finish, huv, e1] using hu)
            simpa [DfsState.finish, huv, e1] using this
          · intro u hu
            have h2 := b2 u hu
            have huv : u ≠ v := by
              intro e
              rw [e] at h2
              simp [DfsState.finish] at h2
            have h3 : s1.color u = Color.gray := by simpa [DfsState.finish, huv] using h2
            have h4 := a2 u h3
            simpa [DfsState.paint, huv] using h4
          · intro x hx
            rcases List.mem_cons.1 hx with hx | hx
            · subst hx
              have := b1 x (by simp [DfsState.finish])
              simpa [DfsState.finish] using this
            · exact b3 x hx
      | gray =>
        rw [hc] at h
        simp at h
      | black =>
        rw [hc] at h
        simp only at h
        obtain ⟨b1, b2, b3⟩ := ih _ _ _ h
        refine ⟨b1, b2, ?_⟩
        intro x hx
        rcases List.mem_cons.1 hx with hx | hx
        · subst hx
          have := b1 x (by rw [hc]; simp)
          rw [this, hc]
        · exact b3 x hx

end DfsLemmas

section DfsInvariant

variable (out : Nat → List Nat) (n : Nat)

theorem DfsInv.paint_gray {s : DfsState (List Nat)} (h : DfsInv out n s) (v : Nat)
    (hv : s.color v = Color.white) (hn : v < n) : DfsInv out n (s.paint v Color.gray) := by
  refine ⟨?_, h.nodup, h.sorted, ?_⟩
  · intro u
    by_cases huv : u = v
    · subst huv
      have : u ∉ s.output := fun hm => by
        have := (h.black_iff u).2 hm
        rw [hv] at this
        cases this
      simp [DfsState.paint, this]
    · simpa [DfsState.paint, huv] using h.black_iff u
  · intro u hu
    by_cases huv : u = v
    · subst huv; exact hn
    · exact h.bound u (by simpa [DfsState.paint, huv] using hu)

theorem DfsInv.finish {s : DfsState (List Nat)} (h : DfsInv out n s) (v : Nat)
    (hv : s.color v = Color.gray) (hout : ∀ x ∈ out v, s.color x = Color.black) :
    DfsInv out n (s.finish push_front v) := by
  have hvo : v ∉ s.output := fun hm => by
    have := (h.black_iff v).2 hm
    rw [hv] at this
    cases this
  refine ⟨?_, ?_, ?_, ?_⟩
  · intro u
    by_cases huv : u = v
    · subst huv
      simp [DfsState.finish, push_front]
    · simpa [DfsState.finish, push_front, huv] using h.black_iff u
  · simpa [DfsState.finish, push_front] using And.intro hvo h.nodup
  · intro l1 u l2 hsplit x hx
    cases l1 with
    | nil =>
      simp only [DfsState.finish, push_front, List.nil_append, List.cons.injEq] at hsplit
      obtain ⟨e1, e2⟩ := hsplit
      subst e1
      rw [← e2]
      exact (h.black_iff x).1 (hout x hx)
    | cons a l1 =>
      simp only [DfsState.finish, push_front, List.cons_append, List.cons.injEq] at hsplit
      exact h.sorted l1 u l2 hsplit.2 x hx
  · intro u hu
    by_cases huv : u = v
    · subst huv
      exact h.bound u (by rw [hv]; simp)
    · exact h.bound u (by simpa [DfsState.finish, huv] using hu)

/-- The out-edge loop maintains the invariant. -/
theorem dfsEdges_inv (hclosed : ∀ u, ∀ v ∈ out u, v < n) (fuel : Nat) :
    ∀ (vs : List Nat) (s s' : DfsState (List Nat)),
      dfsEdges push_front out fuel vs s = Except.ok s' → (∀ v ∈ vs, v < n) →
        DfsInv out n s → DfsInv out n s' := by
  induction fuel with
  | zero =>
    intro vs s s' h _ hinv
    cases vs with
    | nil =>
      rw [dfsEdges_nil] at h
      injection h with h
      subst h
      exact hinv
    | cons v vs => simp [dfsEdges] at h
  | succ fuel ih =>
    intro vs s s' h hvs hinv
    cases vs with
    | nil =>
      rw [dfsEdges_nil] at h
      injection h with h
      subst h
      exact hinv
    | cons v vs =>
      rw [dfsEdges_cons] at h
      have hvn : v < n := hvs v (List.mem_cons_self _ _)
      have hvs2 : ∀ x ∈ vs, x < n := fun x hx => hvs x (List.mem_cons_of_mem _ hx)
      cases hc : s.color v with
      | white =>
        rw [hc] at h
        simp only at h
        cases h1 : dfsEdges push_front out fuel (out v) (s.paint v Color.gray) with
        | error e => rw [h1] at h; simp at h
        | ok s1 =>
          rw [h1] at h
          simp only at h
          have i1 := ih _ _ _ h1 (hclosed v) (hinv.paint_gray out n v hc hvn)
          obtain ⟨a1, -, a3⟩ := dfsEdges_color push_front out fuel _ _ _ h1
          have hv1 : s1.color v = Color.gray := by
            have := a1 v (by simp [DfsState.paint])
            simpa [DfsState.paint] using this
          exact ih _ _ _ h hvs2 (i1.finish out n v hv1 a3)
      | gray =>
        rw [hc] at h
        simp at h
      | black =>
        rw [hc] at h
        simp only at h
        exact ih _ _ _ h hvs2 hinv

end DfsInvariant

section DfsTotal

variable {O : Type} (emit : Nat → O → O) (out : Nat → List Nat)

/-- In a graph without a cycle the out-edge loop meets no back edge, provided
every gray vertex reaches each target that is still to be examined. -/
theorem dfsEdges_ne_not_a_dag
    (hacyc : ∀ u, ¬ Relation.TransGen (fun a b => b ∈ out a) u u) (fuel : Nat) :
    ∀ (vs : List Nat) (s : DfsState O),
      (∀ v ∈ vs, ∀ w, s.color w = Color.gray → Relation.TransGen (fun a b => b ∈ out a) w v) →
        dfsEdges emit out fuel vs s ≠ Except.error DfsError.not_a_dag := by
  induction fuel with
  | zero =>
    intro vs s _
    cases vs with
    | nil => rw [dfsEdges_nil]; simp
    | cons v vs => simp [dfsEdges]
  | succ fuel ih =>
    intro vs s hg
    cases vs with
    | nil => rw [dfsEdges_nil]; simp
    | cons v vs =>
      rw [dfsEdges_cons]
      have hg2 : ∀ x ∈ vs, ∀ w, s.color w = Color.gray →
          Relation.TransGen (fun a b => b ∈ out a) w x :=
        fun x hx => hg x (List.mem_cons_of_mem _ hx)
      cases hc : s.color v with
      | white =>
        simp only
        have hrec : ∀ x ∈ out v, ∀ w, (s.paint v Color.gray).color w = Color.gray →
            Relation.TransGen (fun a b => b ∈ out a) w x := by
          intro x hx w hw
          by_cases hwv : w = v
          · subst hwv
            exact Relation.TransGen.single hx
          · have hw2 : s.color w = Color.gray := by simpa [DfsState.paint, hwv] using hw
            exact Relation.TransGen.tail (hg v (List.mem_cons_self _ _) w hw2) hx
        cases h1 : dfsEdges emit out fuel (out v) (s.paint v Color.gray) with
        | error e =>
          simp only
          intro he
          injection he with he
          subst he
          exact ih _ _ hrec h1
        | ok s1 =>
          simp only
          apply ih
          intro x hx w hw
          obtain ⟨-, a2, -⟩ := dfsEdges_color emit out fuel _ _ _ h1
          have hwv : w ≠ v := by
            intro e
            rw [e] at hw
            simp [DfsState.finish] at hw
          have hw1 : s1.color w = Color.gray := by simpa [DfsState.finish, hwv] using hw
          have hw2 := a2 w hw1
          have hw3 : s.color w = Color.gray := by simpa [DfsState.paint, hwv] using hw2
          exact hg2 x hx w hw3
      | gray =>
        exact absurd (hg v (List.mem_cons_self _ _) v hc) (hacyc v)
      | black =>
        simp only
        exact ih _ _ hg2

theorem dfsWork_paint (n : Nat) (s : DfsState O) (v : Nat) (hv : s.color v = Color.white)
    (hn : v < n) :
    dfsWork out n (s.paint v Color.gray).color + (1 + (out v).length) = dfsWork out n s.color := by
  unfold dfsWork
  have hmem : v ∈ Finset.range n := Finset.mem_range.2 hn
  rw [← Finset.add_sum_erase _ _ hmem, ← Finset.add_sum_erase (Finset.range n) _ hmem]
  have h1 : (Finset.sum ((Finset.range n).erase v) fun u =>
      if (s.paint v Color.gray).color u = Color.white then 1 + (out u).length else 0) =
      Finset.sum ((Finset.range n).erase v) fun u =>
        if s.color u = Color.white then 1 + (out u).length else 0 := by
    apply Finset.sum_congr rfl
    intro u hu
    have huv : u ≠ v := (Finset.mem_erase.1 hu).1
    simp [DfsState.paint, huv]
  rw [h1]
  simp [DfsState.paint, hv]
  omega

theorem dfsWork_mono (n : Nat) (c c' : Nat → Color)
    (h : ∀ u, c' u = Color.white → c u = Color.white) : dfsWork out n c' ≤ dfsWork out n c := by
  unfold dfsWork
  apply Finset.sum_le_sum
  intro u _
  by_cases hu : c' u = Color.white
  · simp [hu, h u hu]
  · simp [hu]

/-- The out-edge loop does not exhaust a budget that covers the targets to be
examined and the work left. -/
theorem dfsEdges_ne_budget (n : Nat) (hclosed : ∀ u, ∀ v ∈ out u, v < n) (fuel : Nat) :
    ∀ (vs : List Nat) (s : DfsState O), (∀ v ∈ vs, v < n) →
      vs.length + dfsWork out n s.color ≤ fuel →
        dfsEdges emit out fuel vs s ≠ Except.error DfsError.budget := by
  induction fuel with
  | zero =>
    intro vs s _ hb
    cases vs with
    | nil => rw [dfsEdges_nil]; simp
    | cons v vs => simp at hb
  | succ fuel ih =>
    intro vs s hvs hb
    cases vs with
    | nil => rw [dfsEdges_nil]; simp
    | cons v vs =>
      rw [dfsEdges_cons]
      have hvn : v < n := hvs v (List.mem_cons_self _ _)
      have hvs2 : ∀ x ∈ vs, x < n := fun x hx => hvs x (List.mem_cons_of_mem _ hx)
      simp only [List.length_cons] at hb
      cases hc : s.color v with
      | white =>
        simp only
        have hw := dfsWork_paint out n s v hc hvn
        cases h1 : dfsEdges emit out fuel (out v) (s.paint v Color.gray) with
        | error e =>
          simp only
          intro he
          injection he with he
          subst he
          exact ih _ _ (hclosed v) (by omega) h1
        | ok s1 =>
          simp only
          apply ih _ _ hvs2
          obtain ⟨a1, -, -⟩ := dfsEdges_color emit out fuel _ _ _ h1
          have hm : dfsWork out n (s1.finish emit v).color ≤
              dfsWork out n (s.paint v Color.gray).color := by
            apply dfsWork_mono
            intro u hu
            by_cases huv : u = v
            · subst huv
              simp [DfsState.finish] at hu
            · have hu1 : s1.color u = Color.white := by simpa [DfsState.finish, huv] using hu
              by_contra hne
              have := a1 u hne
              rw [hu1] at this
              exact hne this.symm
          omega
      | gray => simp
      | black =>
        simp only
        exact ih _ _ hvs2 (by omega)

end DfsTotal

section TopologicalSortDescriptors

variable {T : Type}

theorem InternalGraph.out_edges_append_left (G : InternalGraph T) (sv : StoredVertex T) (u : Nat)
    (hu : u < G.length) : InternalGraph.out_edges (G ++ [sv]) u = InternalGraph.out_edges G u := by
  unfold InternalGraph.out_edges
  rw [List.getElem?_append_left hu]

theorem InternalGraph.out_edges_append_length (G : InternalGraph T) (sv : StoredVertex T) :
    InternalGraph.out_edges (G ++ [sv]) G.length = sv.outEdges := by
  unfold InternalGraph.out_edges
  simp

theorem InternalGraph.out_edges_of_le (G : InternalGraph T) (u : Nat) (hu : G.length ≤ u) :
    InternalGraph.out_edges G u = [] := by
  unfold InternalGraph.out_edges
  rw [List.getElem?_eq_none hu]

/-- The work left before the search starts is the number of vertices plus the
number of edges. -/
theorem dfsWork_initial (G : InternalGraph T) :
    dfsWork G.out_edges G.length (fun _ => Color.white) = G.num_vertices + G.num_edges := by
  unfold dfsWork InternalGraph.num_vertices InternalGraph.num_edges
  simp only [if_true]
  induction G using List.reverseRecOn with
  | nil => simp
  | append_singleton G sv ih =>
    rw [List.length_append, List.length_singleton, Finset.sum_range_succ,
      InternalGraph.out_edges_append_length]
    have h1 : (Finset.sum (Finset.range G.length) fun u =>
        1 + (InternalGraph.out_edges (G ++ [sv]) u).length) =
        Finset.sum (Finset.range G.length) fun u => 1 + (InternalGraph.out_edges G u).length := by
      apply Finset.sum_congr rfl
      intro u hu
      rw [InternalGraph.out_edges_append_left G sv u (Finset.mem_range.1 hu)]
    rw [h1, ih]
    simp
    omega

/-- A visit from a white vertex, started when no vertex is gray, in a graph
without a cycle: it completes, maintains the invariant, leaves no vertex gray
and finishes the vertex. -/
theorem dfsVisit_spec (out : Nat → List Nat) (n : Nat) (hclosed : ∀ u, ∀ v ∈ out u, v < n)
    (hacyc : ∀ u, ¬ Relation.TransGen (fun a b => b ∈ out a) u u) (fuel u : Nat)
    (s : DfsState (List Nat)) (hu : u < n) (hc : s.color u = Color.white)
    (hinv : DfsInv out n s) (hng : ∀ w, s.color w ≠ Color.gray)
    (hb : dfsWork out n s.color ≤ fuel + 1) :
    ∃ s', dfsVisit push_front out fuel u s = Except.ok s' ∧ DfsInv out n s' ∧
      (∀ w, s'.color w ≠ Color.gray) ∧ s'.color u = Color.black ∧
      ∀ w, s.color w ≠ Color.white → s'.color w = s.color w := by
  unfold dfsVisit
  have hw := dfsWork_paint out n s u hc hu
  cases h1 : dfsEdges push_front out fuel (out u) (s.paint u Color.gray) with
  | error e =>
    exfalso
    cases e with
    | not_a_dag =>
      refine dfsEdges_ne_not_a_dag push_front out hacyc fuel _ _ ?_ h1
      intro v hv w hwg
      by_cases hwu : w = u
      · subst hwu
        exact Relation.TransGen.single hv
      · exact absurd (by simpa [DfsState.paint, hwu] using hwg) (hng w)
    | budget =>
      exact dfsEdges_ne_budget push_front out n hclosed fuel _ _ (hclosed u) (by omega) h1
  | ok s1 =>
    obtain ⟨a1, a2, a3⟩ := dfsEdges_color push_front out fuel _ _ _ h1
    have i1 := dfsEdges_inv out n hclosed fuel _ _ _ h1 (hclosed u)
      (hinv.paint_gray out n u hc hu)
    have hu1 : s1.color u = Color.gray := by
      have := a1 u (by simp [DfsState.paint])
      simpa [DfsState.paint] using this
    refine ⟨s1.finish push_front u, rfl, i1.finish out n u hu1 a3, ?_, by simp [DfsState.finish], ?_⟩
    · intro w hwg
      have hwu : w ≠ u := by
        intro e
        rw [e] at hwg
        simp [DfsState.finish] at hwg
      have h2 : s1.color w = Color.gray := by simpa [DfsState.finish, hwu] using hwg
      have h3 := a2 w h2
      exact hng w (by simpa [DfsState.paint, hwu] using h3)
    · intro w hww
      have hwu : w ≠ u := fun e => hww (by rw [e]; exact hc)
      have := a1 w (by simpa [DfsState.paint, hwu] using hww)
      simpa [DfsState.finish, DfsState.paint, hwu] using this

/-- The main loop of the search in a graph without a cycle: it completes,
maintains the invariant, and ends with every listed vertex black. -/
theorem depth_first_search_spec (out : Nat → List Nat) (n : Nat)
    (hclosed : ∀ u, ∀ v ∈ out u, v < n)
    (hacyc : ∀ u, ¬ Relation.TransGen (fun a b => b ∈ out a) u u) (fuel : Nat) :
    ∀ (us : List Nat) (s : DfsState (List Nat)), (∀ u ∈ us, u < n) → DfsInv out n s →
      (∀ w, s.color w ≠ Color.gray) → dfsWork out n s.color ≤ fuel + 1 →
      ∃ s', depth_first_search push_front out fuel us s = Except.ok s' ∧ DfsInv out n s' ∧
        (∀ w, s'.color w ≠ Color.gray) ∧ (∀ u ∈ us, s'.color u = Color.black) ∧
        ∀ w, s.color w ≠ Color.white → s'.color w = s.color w := by
  intro us
  induction us with
  | nil =>
    intro s _ hinv hng _
    exact ⟨s, rfl, hinv, hng, by simp, fun _ _ => rfl⟩
  | cons u us ih =>
    intro s hus hinv hng hb
    have hus2 : ∀ x ∈ us, x < n := fun x hx => hus x (List.mem_cons_of_mem _ hx)
    cases hc : s.color u with
    | white =>
      obtain ⟨s1, e1, i1, g1, b1, k1⟩ := dfsVisit_spec out n hclosed hacyc fuel u s
        (hus u (List.mem_cons_self _ _)) hc hinv hng hb
      have hm : dfsWork out n s1.color ≤ dfsWork out n s.color := by
        apply dfsWork_mono
        intro w hw
        by_contra hne
        have := k1 w hne
        rw [hw] at this
        exact hne this.symm
      obtain ⟨s2, e2, i2, g2, b2, k2⟩ := ih s1 hus2 i1 g1 (by omega)
      refine ⟨s2, ?_, i2, g2, ?_, ?_⟩
      · simp only [depth_first_search, hc, e1, e2]
      · intro x hx
        rcases List.mem_cons.1 hx with hx | hx
        · subst hx
          have := k2 x (by rw [b1]; simp)
          rw [this, b1]
        · exact b2 x hx
      · intro w hw
        have h1 := k1 w hw
        have h2 := k2 w (by rw [h1]; exact hw)
        rw [h2, h1]
    | gray => exact absurd hc (hng u)
    | black =>
      obtain ⟨s2, e2, i2, g2, b2, k2⟩ := ih s hus2 hinv hng hb
      refine ⟨s2, ?_, i2, g2, ?_, k2⟩
      · simp only [depth_first_search, hc, e2]
      · intro x hx
        rcases List.mem_cons.1 hx with hx | hx
        · subst hx
          have := k2 x (by rw [hc]; simp)
          rw [this, hc]
        · exact b2 x hx

/-- The main loop of the search never exhausts a budget that covers the work
left, whether or not the graph has a cycle. -/
theorem depth_first_search_ne_budget {O : Type} (emit : Nat → O → O) (out : Nat → List Nat)
    (n : Nat) (hclosed : ∀ u, ∀ v ∈ out u, v < n) (fuel : Nat) :
    ∀ (us : List Nat) (s : DfsState O), (∀ u ∈ us, u < n) → dfsWork out n s.color ≤ fuel + 1 →
      depth_first_search emit out fuel us s ≠ Except.error DfsError.budget := by
  intro us
  induction us with
  | nil =>
    intro s _ _
    simp [depth_first_search]
  | cons u us ih =>
    intro s hus hb
    have hus2 : ∀ x ∈ us, x < n := fun x hx => hus x (List.mem_cons_of_mem _ hx)
    have hun : u < n := hus u (List.mem_cons_self _ _)
    cases hc : s.color u with
    | white =>
      have hw := dfsWork_paint out n s u hc hun
      simp only [depth_first_search, hc, dfsVisit]
      cases h1 : dfsEdges emit out fuel (out u) (s.paint u Color.gray) with
      | error e =>
        simp only
        intro he
        injection he with he
        subst he
        exact dfsEdges_ne_budget emit out n hclosed fuel _ _ (hclosed u) (by omega) h1
      | ok s1 =>
        simp only
        apply ih _ hus2
        obtain ⟨a1, -, -⟩ := dfsEdges_color emit out fuel _ _ _ h1
        have hm : dfsWork out n (s1.finish emit u).color ≤
            dfsWork out n (s.paint u Color.gray).color := by
          apply dfsWork_mono
          intro w hw2
          by_cases hwu : w = u
          · subst hwu
            simp [DfsState.finish] at hw2
          · have hw1 : s1.color w = Color.white := by simpa [DfsState.finish, hwu] using hw2
            by_contra hne
            have := a1 w hne
            rw [hw1] at this
            exact hne this.symm
        omega
    | gray =>
      simp only [depth_first_search, hc]
      exact ih s hus2 hb
    | black =>
      simp only [depth_first_search, hc]
      exact ih s hus2 hb

/-- The library call `boost::topological_sort` never exhausts its step budget: on every graph
whose edge targets are vertices it returns a deque or raises `not_a_dag`. -/
theorem boost_topological_sort_ne_budget {O : Type} (emit : Nat → O → O) (G : InternalGraph T)
    (o : O) (hclosed : ∀ u, ∀ v ∈ G.out_edges u, v < G.length) :
    boost_topological_sort emit G o ≠ Except.error DfsError.budget := by
  unfold boost_topological_sort
  have h := depth_first_search_ne_budget emit G.out_edges G.length hclosed
    (G.num_vertices + G.num_edges + 1) (List.range G.num_vertices) ⟨fun _ => Color.white, o⟩
    (fun u hu => List.mem_range.1 hu) (by rw [dfsWork_initial]; omega)
  cases h1 : depth_first_search emit G.out_edges (G.num_vertices + G.num_edges + 1)
      (List.range G.num_vertices) ⟨fun _ => Color.white, o⟩ with
  | error e =>
    simp only
    intro he
    injection he with he
    subst he
    exact h h1
  | ok s => simp

/-- The library call `boost::topological_sort` writing through a front inserter, on a graph
without a cycle whose edge targets are vertices: it returns a deque that holds
every vertex exactly once and in which every vertex comes before the targets
of its out-edges. -/
theorem boost_topological_sort_spec (G : InternalGraph T)
    (hclosed : ∀ u, ∀ v ∈ G.out_edges u, v < G.length)
    (hacyc : ∀ u, ¬ Relation.TransGen (fun a b => b ∈ G.out_edges a) u u) :
    ∃ l, boost_topological_sort push_front G [] = Except.ok l ∧ l.Nodup ∧
      (∀ u, u ∈ l ↔ u < G.length) ∧
      ∀ l1 u l2, l = l1 ++ u :: l2 → ∀ v ∈ G.out_edges u, v ∈ l2 := by
  have hinit : DfsInv G.out_edges G.length ⟨fun _ => Color.white, []⟩ :=
    ⟨by simp, by simp, by simp, by simp⟩
  obtain ⟨s, e, i, -, b, -⟩ := depth_first_search_spec G.out_edges G.length hclosed hacyc
    (G.num_vertices + G.num_edges + 1) (List.range G.length) ⟨fun _ => Color.white, []⟩
    (fun u hu => List.mem_range.1 hu) hinit (by simp)
    (by rw [dfsWork_initial]; omega)
  refine ⟨s.output, ?_, i.nodup, ?_, i.sorted⟩
  · unfold boost_topological_sort
    rw [show G.num_vertices = G.length from rfl] at *
    rw [e]
  · intro u
    constructor
    · intro hu
      exact i.bound u (by rw [(i.black_iff u).2 hu]; simp)
    · intro hu
      exact (i.black_iff u).1 (b u (List.mem_range.2 hu))

end TopologicalSortDescriptors

/-! ## The dependency graph -/

section GraphLemmas

variable {T : Type} [DecidableEq T]

theorem MapType.findIn_assign_map {V : Type} (l : List (T × V)) (key key2 : T) (value : V) :
    MapType.findIn (l.map (fun p => if p.1 = key then (p.1, value) else p)) key2 =
      if key = key2 then (MapType.findIn l key2).map (fun _ => value) else MapType.findIn l key2 := by
  induction l with
  | nil => simp [MapType.findIn]
  | cons p l ih =>
    obtain ⟨a, b⟩ := p
    rw [List.map_cons]
    by_cases ha : a = key
    · have e1 : (if (a, b).1 = key then ((a, b).1, value) else (a, b)) = (a, value) := if_pos ha
      rw [e1]
      simp only [MapType.findIn]
      rw [ih]
      subst ha
      by_cases hk : a = key2 <;> simp [hk]
    · have e1 : (if (a, b).1 = key then ((a, b).1, value) else (a, b)) = (a, b) := if_neg ha
      rw [e1]
      simp only [MapType.findIn]
      rw [ih]
      by_cases hk : key = key2
      · subst hk
        simp [ha]
      · simp [hk]

theorem MapType.find_assign {V : Type} (m : MapType T V) (key key2 : T) (value : V) :
    (m.assign key value).find key2 = if key = key2 then some value else m.find key2 := by
  unfold MapType.assign
  cases h : m.find key with
  | none => simp [MapType.find, MapType.findIn]
  | some v0 =>
    simp only [MapType.find]
    rw [MapType.findIn_assign_map]
    by_cases hk : key = key2
    · subst hk
      simp only [MapType.find] at h
      simp [h]
    · simp [hk]

theorem Graph.containsVertex_iff (g : Graph T) (v : T) :
    g.containsVertex v = true ↔ ∃ d, g.descriptorMap.find v = some d := by
  unfold Graph.containsVertex
  rw [← MapType.count_ne_zero_iff]
  simp

theorem Graph.containsVertex_eq_false_iff (g : Graph T) (v : T) :
    g.containsVertex v = false ↔ g.descriptorMap.find v = none := by
  unfold Graph.containsVertex
  rw [← MapType.count_eq_zero_iff]
  simp

theorem Graph.addVertex_of_contains (g : Graph T) (v : T) (h : g.containsVertex v = true) :
    g.addVertex v = g := by
  unfold Graph.addVertex
  rw [if_pos h]

theorem Graph.addVertex_of_not_contains (g : Graph T) (v : T) (h : g.containsVertex v = false) :
    g.addVertex v = ⟨g.G ++ [⟨v, []⟩], g.descriptorMap.assign v g.G.length⟩ := by
  have hc : g.descriptorMap.count v = 0 :=
    (MapType.count_eq_zero_iff _ _).2 ((Graph.containsVertex_eq_false_iff g v).1 h)
  unfold Graph.addVertex
  rw [if_neg (by rw [h]; simp), if_pos hc]
  rfl

theorem Graph.containsVertex_addVertex (g : Graph T) (v x : T) :
    (g.addVertex v).containsVertex x = true ↔ (x = v ∨ g.containsVertex x = true) := by
  cases h : g.containsVertex v with
  | true =>
    rw [Graph.addVertex_of_contains g v h]
    constructor
    · exact Or.inr
    · rintro (e | e)
      · rw [e]; exact h
      · exact e
  | false =>
    rw [Graph.addVertex_of_not_contains g v h, Graph.containsVertex_iff,
      Graph.containsVertex_iff]
    simp only [MapType.find_assign]
    by_cases hx : v = x
    · subst hx; simp
    · have hx2 : ¬ x = v := fun e => hx e.symm
      simp [hx, hx2]

theorem InternalGraph.label_lt {G : InternalGraph T} {d : Nat} {v : T}
    (h : G.label d = some v) : d < G.length := by
  unfold InternalGraph.label at h
  by_contra hd
  rw [List.getElem?_eq_none (Nat.le_of_not_lt hd)] at h
  simp at h

theorem InternalGraph.label_append (G : InternalGraph T) (sv : StoredVertex T) (d : Nat) :
    InternalGraph.label (G ++ [sv]) d =
      if d < G.length then G.label d else if d = G.length then some sv.property else none := by
  unfold InternalGraph.label
  by_cases h1 : d < G.length
  · rw [List.getElem?_append_left h1, if_pos h1]
  · rw [if_neg h1]
    by_cases h2 : d = G.length
    · subst h2
      simp
    · rw [if_neg h2, List.getElem?_eq_none (by simp; omega)]

theorem InternalGraph.getElem?_add_edge (G : InternalGraph T) (u v d : Nat) :
    (InternalGraph.add_edge u v G)[d]? =
      if d = u then
        (G[d]?).map (fun sv => { sv with outEdges := sv.outEdges ++ [v] })
      else G[d]? := by
  induction G generalizing u d with
  | nil => simp [InternalGraph.add_edge]
  | cons sv G ih =>
    cases u with
    | zero =>
      cases d with
      | zero => simp [InternalGraph.add_edge]
      | succ d => simp [InternalGraph.add_edge]
    | succ u =>
      cases d with
      | zero => simp [InternalGraph.add_edge]
      | succ d => simp [InternalGraph.add_edge, ih]

theorem InternalGraph.length_add_edge (G : InternalGraph T) (u v : Nat) :
    (InternalGraph.add_edge u v G).length = G.length := by
  induction G generalizing u with
  | nil => simp [InternalGraph.add_edge]
  | cons sv G ih =>
    cases u with
    | zero => simp [InternalGraph.add_edge]
    | succ u => simp [InternalGraph.add_edge, ih]

theorem InternalGraph.label_add_edge (G : InternalGraph T) (u v d : Nat) :
    (InternalGraph.add_edge u v G).label d = G.label d := by
  unfold InternalGraph.label
  rw [InternalGraph.getElem?_add_edge]
  by_cases h : d = u
  · rw [if_pos h]
    cases G[d]? <;> rfl
  · rw [if_neg h]

theorem InternalGraph.out_edges_add_edge (G : InternalGraph T) (u v d : Nat) (hu : u < G.length) :
    (InternalGraph.add_edge u v G).out_edges d =
      if d = u then G.out_edges d ++ [v] else G.out_edges d := by
  unfold InternalGraph.out_edges
  rw [InternalGraph.getElem?_add_edge]
  by_cases h : d = u
  · rw [if_pos h, if_pos h]
    subst h
    rw [List.getElem?_eq_getElem hu]
    rfl
  · rw [if_neg h, if_neg h]

theorem InternalGraph.edge_iff (G : InternalGraph T) (u v : Nat) :
    InternalGraph.edge u v G = true ↔ v ∈ G.out_edges u := by
  unfold InternalGraph.edge InternalGraph.out_edges
  cases G[u]? <;> simp

theorem Graph.WF_empty : (Graph.empty : Graph T).WF := by
  refine ⟨?_, ?_, ?_⟩
  · intro v d h
    simp [Graph.empty, MapType.find_empty] at h
  · intro d v h
    simp [Graph.empty, InternalGraph.label] at h
  · intro u t h
    simp [Graph.empty, InternalGraph.out_edges] at h

theorem Graph.WF_addVertex (g : Graph T) (v : T) (h : g.WF) : (g.addVertex v).WF := by
  cases hc : g.containsVertex v with
  | true => rw [Graph.addVertex_of_contains g v hc]; exact h
  | false =>
    rw [Graph.addVertex_of_not_contains g v hc]
    have hnone := (Graph.containsVertex_eq_false_iff g v).1 hc
    refine ⟨?_, ?_, ?_⟩
    · intro x d hx
      simp only [MapType.find_assign] at hx
      simp only [InternalGraph.label_append]
      by_cases hvx : v = x
      · subst hvx
        simp only [if_true, Option.some.injEq] at hx
        subst hx
        simp
      · rw [if_neg hvx] at hx
        have hl := h.find_label x d hx
        rw [if_pos (InternalGraph.label_lt hl)]
        exact hl
    · intro d x hx
      simp only [InternalGraph.label_append] at hx
      simp only [MapType.find_assign]
      by_cases hd : d < g.G.length
      · rw [if_pos hd] at hx
        have hf := h.label_find d x hx
        have hvx : v ≠ x := by
          intro e
          rw [e] at hnone
          rw [hnone] at hf
          cases hf
        rw [if_neg hvx]
        exact hf
      · rw [if_neg hd] at hx
        by_cases hd2 : d = g.G.length
        · rw [if_pos hd2] at hx
          simp only [Option.some.injEq] at hx
          subst hx
          simp [hd2]
        · rw [if_neg hd2] at hx
          cases hx
    · intro u t ht
      simp only [List.length_append, List.length_singleton]
      by_cases hu : u < g.G.length
      · rw [InternalGraph.out_edges_append_left _ _ _ hu] at ht
        exact Nat.lt_succ_of_lt (h.closed u t ht)
      · by_cases hu2 : u = g.G.length
        · subst hu2
          rw [InternalGraph.out_edges_append_length] at ht
          simp at ht
        · rw [InternalGraph.out_edges_of_le _ _ (by simp; omega)] at ht
          simp at ht

theorem Graph.hasEdge_addVertex (g : Graph T) (v a b : T) (h : g.WF) :
    (g.addVertex v).hasEdge a b ↔ g.hasEdge a b := by
  cases hc : g.containsVertex v with
  | true => rw [Graph.addVertex_of_contains g v hc]
  | false =>
    rw [Graph.addVertex_of_not_contains g v hc]
    have hnone := (Graph.containsVertex_eq_false_iff g v).1 hc
    unfold Graph.hasEdge
    simp only [MapType.find_assign]
    constructor
    · rintro ⟨da, db, ha, hb, hab⟩
      have hda : da < g.G.length := by
        by_contra hlt
        by_cases e : da = g.G.length
        · subst e
          rw [InternalGraph.out_edges_append_length] at hab
          simp at hab
        · rw [InternalGraph.out_edges_of_le _ _ (by simp; omega)] at hab
          simp at hab
      rw [InternalGraph.out_edges_append_left _ _ _ hda] at hab
      have hdb := h.closed da db hab
      have hva : v ≠ a := by
        intro e
        rw [if_pos e] at ha
        simp only [Option.some.injEq] at ha
        omega
      have hvb : v ≠ b := by
        intro e
        rw [if_pos e] at hb
        simp only [Option.some.injEq] at hb
        omega
      rw [if_neg hva] at ha
      rw [if_neg hvb] at hb
      exact ⟨da, db, ha, hb, hab⟩
    · rintro ⟨da, db, ha, hb, hab⟩
      have hva : v ≠ a := by
        intro e
        rw [e] at hnone
        rw [hnone] at ha
        cases ha
      have hvb : v ≠ b := by
        intro e
        rw [e] at hnone
        rw [hnone] at hb
        cases hb
      have hda : da < g.G.length := InternalGraph.label_lt (h.find_label a da ha)
      refine ⟨da, db, by rw [if_neg hva]; exact ha, by rw [if_neg hvb]; exact hb, ?_⟩
      rw [InternalGraph.out_edges_append_left _ _ _ hda]
      exact hab

theorem Graph.getDescriptor_of_find (g : Graph T) (v : T) (d : Nat)
    (h : g.descriptorMap.find v = some d) : g.getDescriptor v = (d, g) := by
  unfold Graph.getDescriptor
  rw [MapType.index_of_find _ _ _ h]

/-- The call `addEdge` first makes sure that both end points are vertices, and then
adds the edge between their descriptors unless it is there. -/
theorem Graph.addEdge_eq (g : Graph T) (u v : T) (du dv : Nat)
    (hu : ((g.addVertex u).addVertex v).descriptorMap.find u = some du)
    (hv : ((g.addVertex u).addVertex v).descriptorMap.find v = some dv) :
    g.addEdge u v =
      if InternalGraph.edge du dv ((g.addVertex u).addVertex v).G = true then
        (g.addVertex u).addVertex v
      else
        { (g.addVertex u).addVertex v with
          G := InternalGraph.add_edge du dv ((g.addVertex u).addVertex v).G } := by
  have e1 : (if (!g.containsVertex u) = true then g.addVertex u else g) = g.addVertex u := by
    cases hc : g.containsVertex u with
    | true => simp [Graph.addVertex_of_contains g u hc]
    | false => simp
  have e2 : (if (!(g.addVertex u).containsVertex v) = true then (g.addVertex u).addVertex v
      else g.addVertex u) = (g.addVertex u).addVertex v := by
    cases hc : (g.addVertex u).containsVertex v with
    | true => simp [Graph.addVertex_of_contains _ v hc]
    | false => simp
  unfold Graph.addEdge
  simp only [e1, e2]
  rw [Graph.getDescriptor_of_find _ u du hu]
  simp only
  rw [Graph.getDescriptor_of_find _ v dv hv]
  simp only
  cases InternalGraph.edge du dv ((g.addVertex u).addVertex v).G <;> simp

theorem Graph.find_after_addVertices (g : Graph T) (u v : T) :
    ∃ du dv, ((g.addVertex u).addVertex v).descriptorMap.find u = some du ∧
      ((g.addVertex u).addVertex v).descriptorMap.find v = some dv := by
  have h1 := (Graph.containsVertex_iff _ u).1
    ((Graph.containsVertex_addVertex (g.addVertex u) v u).2
      (Or.inr ((Graph.containsVertex_addVertex g u u).2 (Or.inl rfl))))
  have h2 := (Graph.containsVertex_iff _ v).1
    ((Graph.containsVertex_addVertex (g.addVertex u) v v).2 (Or.inl rfl))
  obtain ⟨du, hdu⟩ := h1
  obtain ⟨dv, hdv⟩ := h2
  exact ⟨du, dv, hdu, hdv⟩

theorem Graph.WF_add_edge (g : Graph T) (du dv : Nat) (h : g.WF) (hu : du < g.G.length)
    (hv : dv < g.G.length) :
    Graph.WF { g with G := InternalGraph.add_edge du dv g.G } := by
  refine ⟨?_, ?_, ?_⟩
  · intro x d hx
    simp only [InternalGraph.label_add_edge]
    exact h.find_label x d hx
  · intro d x hx
    simp only [InternalGraph.label_add_edge] at hx
    exact h.label_find d x hx
  · intro a t ht
    simp only [InternalGraph.length_add_edge]
    simp only [InternalGraph.out_edges_add_edge _ _ _ _ hu] at ht
    by_cases ha : a = du
    · rw [if_pos ha] at ht
      rcases List.mem_append.1 ht with ht | ht
      · exact h.closed a t ht
      · simp only [List.mem_singleton] at ht
        rw [ht]; exact hv
    · rw [if_neg ha] at ht
      exact h.closed a t ht

theorem Graph.WF_addEdge (g : Graph T) (u v : T) (h : g.WF) : (g.addEdge u v).WF := by
  obtain ⟨du, dv, hu, hv⟩ := Graph.find_after_addVertices g u v
  have h2 : ((g.addVertex u).addVertex v).WF :=
    Graph.WF_addVertex _ v (Graph.WF_addVertex g u h)
  rw [Graph.addEdge_eq g u v du dv hu hv]
  by_cases he : InternalGraph.edge du dv ((g.addVertex u).addVertex v).G = true
  · rw [if_pos he]; exact h2
  · rw [if_neg he]
    exact Graph.WF_add_edge _ du dv h2 (InternalGraph.label_lt (h2.find_label u du hu))
      (InternalGraph.label_lt (h2.find_label v dv hv))

theorem Graph.containsVertex_addEdge (g : Graph T) (u v x : T) :
    (g.addEdge u v).containsVertex x = true ↔
      (x = u ∨ x = v ∨ g.containsVertex x = true) := by
  obtain ⟨du, dv, hu, hv⟩ := Graph.find_after_addVertices g u v
  have key : (g.addEdge u v).containsVertex x = ((g.addVertex u).addVertex v).containsVertex x := by
    rw [Graph.addEdge_eq g u v du dv hu hv]
    by_cases he : InternalGraph.edge du dv ((g.addVertex u).addVertex v).G = true
    · rw [if_pos he]
    · rw [if_neg he]; rfl
  rw [key, Graph.containsVertex_addVertex, Graph.containsVertex_addVertex]
  constructor
  · rintro (e | e | e)
    · exact Or.inr (Or.inl e)
    · exact Or.inl e
    · exact Or.inr (Or.inr e)
  · rintro (e | e | e)
    · exact Or.inr (Or.inl e)
    · exact Or.inl e
    · exact Or.inr (Or.inr e)

theorem Graph.hasEdge_addEdge (g : Graph T) (u v a b : T) (h : g.WF) :
    (g.addEdge u v).hasEdge a b ↔ (g.hasEdge a b ∨ (a = u ∧ b = v)) := by
  obtain ⟨du, dv, hu, hv⟩ := Graph.find_after_addVertices g u v
  have h1 : (g.addVertex u).WF := Graph.WF_addVertex g u h
  have h2 : ((g.addVertex u).addVertex v).WF := Graph.WF_addVertex _ v h1
  have hold : ((g.addVertex u).addVertex v).hasEdge a b ↔ g.hasEdge a b := by
    rw [Graph.hasEdge_addVertex _ v a b h1, Graph.hasEdge_addVertex g u a b h]
  have hdu : du < ((g.addVertex u).addVertex v).G.length :=
    InternalGraph.label_lt (h2.find_label u du hu)
  rw [Graph.addEdge_eq g u v du dv hu hv]
  by_cases he : InternalGraph.edge du dv ((g.addVertex u).addVertex v).G = true
  · rw [if_pos he, hold]
    constructor
    · exact Or.inl
    · rintro (e | ⟨ea, eb⟩)
      · exact e
      · subst ea; subst eb
        exact hold.1 ⟨du, dv, hu, hv, (InternalGraph.edge_iff _ _ _).1 he⟩
  · rw [if_neg he, ← hold]
    unfold Graph.hasEdge
    simp only [InternalGraph.out_edges_add_edge _ _ _ _ hdu]
    constructor
    · rintro ⟨da, db, ha, hb, hab⟩
      by_cases hda : da = du
      · rw [if_pos hda] at hab
        rcases List.mem_append.1 hab with hab | hab
        · exact Or.inl ⟨da, db, ha, hb, hab⟩
        · simp only [List.mem_singleton] at hab
          right
          constructor
          · have l1 := h2.find_label a da ha
            have l2 := h2.find_label u du hu
            rw [hda] at l1
            rw [l1] at l2
            exact Option.some.inj l2
          · have l1 := h2.find_label b db hb
            have l2 := h2.find_label v dv hv
            rw [hab] at l1
            rw [l1] at l2
            exact Option.some.inj l2
      · rw [if_neg hda] at hab
        exact Or.inl ⟨da, db, ha, hb, hab⟩
    · rintro (⟨da, db, ha, hb, hab⟩ | ⟨ea, eb⟩)
      · refine ⟨da, db, ha, hb, ?_⟩
        by_cases hda : da = du
        · rw [if_pos hda]
          exact List.mem_append_left _ hab
        · rw [if_neg hda]
          exact hab
      · subst ea; subst eb
        refine ⟨du, dv, hu, hv, ?_⟩
        rw [if_pos rfl]
        exact List.mem_append_right _ (List.mem_singleton.2 rfl)

/-- What a sequence of calls establishes, from a consistent graph: the graph
stays consistent, its edges are the old ones and those added by `addEdge`,
and its vertices are the old ones and those named by the calls. -/
theorem Graph.foldl_apply_spec (ops : List (GraphOp T)) :
    ∀ g : Graph T, g.WF →
      (ops.foldl Graph.apply g).WF ∧
      (∀ a b, (ops.foldl Graph.apply g).hasEdge a b ↔
        (g.hasEdge a b ∨ GraphOp.addEdge a b ∈ ops)) ∧
      ∀ x, (ops.foldl Graph.apply g).containsVertex x = true ↔
        (g.containsVertex x = true ∨ mentions ops x) := by
  induction ops with
  | nil =>
    intro g h
    refine ⟨h, by simp, ?_⟩
    intro x
    simp [mentions]
  | cons op ops ih =>
    intro g h
    cases op with
    | addVertex w =>
      obtain ⟨i1, i2, i3⟩ := ih (g.addVertex w) (Graph.WF_addVertex g w h)
      refine ⟨i1, ?_, ?_⟩
      · intro a b
        simp only [List.foldl_cons, Graph.apply]
        rw [i2, Graph.hasEdge_addVertex g w a b h]
        simp
      · intro x
        simp only [List.foldl_cons, Graph.apply]
        rw [i3, Graph.containsVertex_addVertex]
        simp only [mentions, List.mem_cons, GraphOp.addVertex.injEq, reduceCtorEq, false_or]
        constructor
        · rintro ((e | e) | (e | e))
          · exact Or.inr (Or.inl (Or.inl e))
          · exact Or.inl e
          · exact Or.inr (Or.inl (Or.inr e))
          · exact Or.inr (Or.inr e)
        · rintro (e | ((e | e) | e))
          · exact Or.inl (Or.inr e)
          · exact Or.inl (Or.inl e)
          · exact Or.inr (Or.inl e)
          · exact Or.inr (Or.inr e)
    | addEdge u v =>
      obtain ⟨i1, i2, i3⟩ := ih (g.addEdge u v) (Graph.WF_addEdge g u v h)
      refine ⟨i1, ?_, ?_⟩
      · intro a b
        simp only [List.foldl_cons, Graph.apply]
        rw [i2, Graph.hasEdge_addEdge g u v a b h]
        simp only [List.mem_cons, GraphOp.addEdge.injEq]
        tauto
      · intro x
        simp only [List.foldl_cons, Graph.apply]
        rw [i3, Graph.containsVertex_addEdge]
        simp only [mentions, List.mem_cons, reduceCtorEq, false_or, GraphOp.addEdge.injEq]
        constructor
        · rintro ((e | e | e) | (e | e))
          · exact Or.inr (Or.inr ⟨v, Or.inl (Or.inl ⟨e, rfl⟩)⟩)
          · exact Or.inr (Or.inr ⟨u, Or.inr (Or.inl ⟨rfl, e⟩)⟩)
          · exact Or.inl e
          · exact Or.inr (Or.inl e)
          · obtain ⟨w, hw⟩ := e
            rcases hw with hw | hw
            · exact Or.inr (Or.inr ⟨w, Or.inl (Or.inr hw)⟩)
            · exact Or.inr (Or.inr ⟨w, Or.inr (Or.inr hw)⟩)
        · rintro (e | e | ⟨w, (⟨e1, -⟩ | e) | (⟨-, e2⟩ | e)⟩)
          · exact Or.inl (Or.inr (Or.inr e))
          · exact Or.inr (Or.inl e)
          · exact Or.inl (Or.inl e1)
          · exact Or.inr (Or.inr ⟨w, Or.inl e⟩)
          · exact Or.inl (Or.inr (Or.inl e2))
          · exact Or.inr (Or.inr ⟨w, Or.inr e⟩)

theorem Graph.build_spec (ops : List (GraphOp T)) :
    (Graph.build ops).WF ∧
      (∀ a b, (Graph.build ops).hasEdge a b ↔ GraphOp.addEdge a b ∈ ops) ∧
      ∀ x, (Graph.build ops).containsVertex x = true ↔ mentions ops x := by
  obtain ⟨h1, h2, h3⟩ := Graph.foldl_apply_spec ops Graph.empty Graph.WF_empty
  refine ⟨h1, ?_, ?_⟩
  · intro a b
    rw [show Graph.build ops = ops.foldl Graph.apply Graph.empty from rfl, h2]
    simp [Graph.hasEdge, Graph.empty, MapType.find_empty]
  · intro x
    rw [show Graph.build ops = ops.foldl Graph.apply Graph.empty from rfl, h3]
    simp [Graph.containsVertex, Graph.empty, MapType.count, MapType.find_empty]

theorem Graph.label_Transformer [Inhabited T] (G : InternalGraph T) (d : Nat)
    (hd : d < G.length) : G.label d = some (Graph.Transformer G d) := by
  unfold InternalGraph.label Graph.Transformer
  rw [List.getElem?_eq_getElem hd]

theorem InternalGraph.lt_of_mem_out_edges (G : InternalGraph T) (a b : Nat)
    (h : b ∈ G.out_edges a) : a < G.length := by
  by_contra hlt
  rw [InternalGraph.out_edges_of_le G a (Nat.le_of_not_lt hlt)] at h
  simp at h

/-- The call `topological_sort` on a consistent graph whose edges form no cycle: the
returned list holds every vertex exactly once, and the source of every edge
occurs before its target. -/
theorem Graph.topological_sort_of_WF [Inhabited T] (g : Graph T) (h : g.WF)
    (hacyc : ∀ u, ¬ Relation.TransGen g.hasEdge u u) :
    ∃ l, g.topological_sort = Except.ok l ∧ l.Nodup ∧
      (∀ v, v ∈ l ↔ g.containsVertex v = true) ∧
      ∀ u v, g.hasEdge u v → occursBefore l u v := by
  have hlift : ∀ a b, b ∈ g.G.out_edges a →
      g.hasEdge (Graph.Transformer g.G a) (Graph.Transformer g.G b) := by
    intro a b hab
    have ha : a < g.G.length := InternalGraph.lt_of_mem_out_edges g.G a b hab
    have hb : b < g.G.length := h.closed a b hab
    exact ⟨a, b, h.label_find a _ (Graph.label_Transformer g.G a ha),
      h.label_find b _ (Graph.label_Transformer g.G b hb), hab⟩
  have hacyc2 : ∀ d, ¬ Relation.TransGen (fun a b => b ∈ g.G.out_edges a) d d := by
    intro d hd
    exact hacyc _ (Relation.TransGen.lift (Graph.Transformer g.G) hlift hd)
  obtain ⟨l, e, hnd, hmem, hsorted⟩ := boost_topological_sort_spec g.G h.closed hacyc2
  refine ⟨l.map (Graph.Transformer g.G), ?_, ?_, ?_, ?_⟩
  · unfold Graph.topological_sort
    rw [e]
  · apply List.Nodup.map_on _ hnd
    intro x hx y hy hxy
    have lx := h.label_find x _ (Graph.label_Transformer g.G x ((hmem x).1 hx))
    have ly := h.label_find y _ (Graph.label_Transformer g.G y ((hmem y).1 hy))
    rw [hxy, ly] at lx
    exact (Option.some.inj lx).symm
  · intro v
    rw [Graph.containsVertex_iff, List.mem_map]
    constructor
    · rintro ⟨d, hd, hdv⟩
      refine ⟨d, ?_⟩
      rw [← hdv]
      exact h.label_find d _ (Graph.label_Transformer g.G d ((hmem d).1 hd))
    · rintro ⟨d, hd⟩
      have hl := h.find_label v d hd
      have hlt := InternalGraph.label_lt hl
      refine ⟨d, (hmem d).2 hlt, ?_⟩
      rw [Graph.label_Transformer g.G d hlt] at hl
      exact Option.some.inj hl
  · rintro u v ⟨du, dv, hu, hv, huv⟩
    have hlu := h.find_label u du hu
    have hlv := h.find_label v dv hv
    have hdu := InternalGraph.label_lt hlu
    have hdv := InternalGraph.label_lt hlv
    rw [Graph.label_Transformer g.G du hdu] at hlu
    rw [Graph.label_Transformer g.G dv hdv] at hlv
    obtain ⟨l1, l2, hl⟩ := List.append_of_mem ((hmem du).2 hdu)
    obtain ⟨l3, l4, hl2⟩ := List.append_of_mem (hsorted l1 du l2 hl dv huv)
    refine ⟨l1.map (Graph.Transformer g.G), l3.map (Graph.Transformer g.G),
      l4.map (Graph.Transformer g.G), ?_⟩
    rw [hl, hl2]
    simp only [List.map_append, List.map_cons]
    rw [Option.some.inj hlu, Option.some.inj hlv]

end GraphLemmas

/-- C5: for every graph built by a sequence of `addVertex` and `addEdge` calls
in which the added edges form no cycle, `topological_sort` returns a list that
contains every vertex of the graph (the vertices named by the calls) exactly
once, and in which `u` occurs before `v` for every edge added with
`addEdge(u, v)`. -/
theorem Graph.topological_sort_correct {T : Type} [DecidableEq T] [Inhabited T]
    (ops : List (GraphOp T))
    (hacyclic : ∀ u, ¬ Relation.TransGen (fun a b => GraphOp.addEdge a b ∈ ops) u u) :
    ∃ l, (Graph.build ops).topological_sort = Except.ok l ∧ l.Nodup ∧
      (∀ v, v ∈ l ↔ (Graph.build ops).containsVertex v = true) ∧
      (∀ v, v ∈ l ↔ mentions ops v) ∧
      ∀ u v, GraphOp.addEdge u v ∈ ops → occursBefore l u v := by
  obtain ⟨hwf, hedge, hvert⟩ := Graph.build_spec ops
  have hacyc : ∀ u, ¬ Relation.TransGen (Graph.build ops).hasEdge u u := by
    intro u hu
    exact hacyclic u (Relation.TransGen.mono (fun a b hab => (hedge a b).1 hab) hu)
  obtain ⟨l, e, hnd, hmem, hbefore⟩ := Graph.topological_sort_of_WF (Graph.build ops) hwf hacyc
  exact ⟨l, e, hnd, hmem, fun v => (hmem v).trans (hvert v),
    fun u v huv => hbefore u v ((hedge u v).2 huv)⟩

/-- C5, on the graph with the edges 10 -> 20, 20 -> 30, 10 -> 30 and the
further vertex 5. -/
theorem Graph.topological_sort_correct_witness :
    ∃ l, (Graph.build [GraphOp.addEdge 10 20, GraphOp.addEdge 20 30, GraphOp.addEdge 10 30,
        GraphOp.addVertex 5]).topological_sort = Except.ok l ∧ l.Nodup ∧
      occursBefore l 10 20 ∧ occursBefore l 20 30 ∧ occursBefore l 10 30 := by
  have hacyclic : ∀ u : Nat, ¬ Relation.TransGen (fun a b => GraphOp.addEdge a b ∈
      [GraphOp.addEdge 10 20, GraphOp.addEdge 20 30, GraphOp.addEdge 10 30,
        GraphOp.addVertex 5]) u u := by
    intro u hu
    have hlt : Relation.TransGen (fun a b : Nat => a < b) u u := by
      refine Relation.TransGen.mono ?_ hu
      intro a b hab
      simp only [List.mem_cons, GraphOp.addEdge.injEq, reduceCtorEq, List.mem_nil_iff,
        or_false] at hab
      omega
    have key : ∀ a b : Nat, Relation.TransGen (fun a b : Nat => a < b) a b → a < b := by
      intro a b h
      induction h with
      | single h => exact h
      | tail _ h ih => exact Nat.lt_trans ih h
    exact Nat.lt_irrefl u (key u u hlt)
  obtain ⟨l, e, hnd, -, -, hb⟩ := Graph.topological_sort_correct
    [GraphOp.addEdge 10 20, GraphOp.addEdge 20 30, GraphOp.addEdge 10 30, GraphOp.addVertex 5]
    hacyclic
  exact ⟨l, e, hnd, hb 10 20 (by simp), hb 20 30 (by simp), hb 10 30 (by simp)⟩

section GraphIdempotence

variable {T : Type} [DecidableEq T]

theorem Graph.addVertex_idem (g : Graph T) (v : T) :
    (g.addVertex v).addVertex v = g.addVertex v :=
  Graph.addVertex_of_contains _ v ((Graph.containsVertex_addVertex g v v).2 (Or.inl rfl))

theorem Graph.addEdge_idem (g : Graph T) (u v : T) (h : g.WF) :
    (g.addEdge u v).addEdge u v = g.addEdge u v := by
  obtain ⟨du, dv, hu, hv⟩ := Graph.find_after_addVertices g u v
  have h2 : ((g.addVertex u).addVertex v).WF :=
    Graph.WF_addVertex _ v (Graph.WF_addVertex g u h)
  have hdu : du < ((g.addVertex u).addVertex v).G.length :=
    InternalGraph.label_lt (h2.find_label u du hu)
  have hcu : (g.addEdge u v).containsVertex u = true :=
    (Graph.containsVertex_addEdge g u v u).2 (Or.inl rfl)
  have hcv : (g.addEdge u v).containsVertex v = true :=
    (Graph.containsVertex_addEdge g u v v).2 (Or.inr (Or.inl rfl))
  have hsame : ((g.addEdge u v).addVertex u).addVertex v = g.addEdge u v := by
    rw [Graph.addVertex_of_contains _ u hcu, Graph.addVertex_of_contains _ v hcv]
  have hmap : (g.addEdge u v).descriptorMap = ((g.addVertex u).addVertex v).descriptorMap := by
    rw [Graph.addEdge_eq g u v du dv hu hv]
    by_cases he : InternalGraph.edge du dv ((g.addVertex u).addVertex v).G = true
    · rw [if_pos he]
    · rw [if_neg he]
  have hedge : InternalGraph.edge du dv (g.addEdge u v).G = true := by
    rw [Graph.addEdge_eq g u v du dv hu hv]
    by_cases he : InternalGraph.edge du dv ((g.addVertex u).addVertex v).G = true
    · rw [if_pos he]; exact he
    · rw [if_neg he, InternalGraph.edge_iff]
      simp only [InternalGraph.out_edges_add_edge _ _ _ _ hdu, if_true]
      exact List.mem_append_right _ (List.mem_singleton.2 rfl)
  rw [Graph.addEdge_eq (g.addEdge u v) u v du dv (by rw [hsame, hmap]; exact hu)
    (by rw [hsame, hmap]; exact hv)]
  rw [hsame, if_pos hedge]

end GraphIdempotence

/-- C6: on every graph state reached by `addVertex` and `addEdge` calls, a
second `addVertex(v)` and a second `addEdge(u, v)` change nothing: the graph
after the second call is the graph after the first, so its vertices, its
edges, `numVertices()` and `numEdges()` are the same. -/
theorem Graph.addVertex_addEdge_idempotent {T : Type} [DecidableEq T] (ops : List (GraphOp T))
    (u v : T) :
    (((Graph.build ops).addVertex v).addVertex v = (Graph.build ops).addVertex v ∧
      ((Graph.build ops).addEdge u v).addEdge u v = (Graph.build ops).addEdge u v) ∧
    ((((Graph.build ops).addVertex v).addVertex v).numVertices =
        ((Graph.build ops).addVertex v).numVertices ∧
      (((Graph.build ops).addVertex v).addVertex v).numEdges =
        ((Graph.build ops).addVertex v).numEdges ∧
      (((Graph.build ops).addEdge u v).addEdge u v).numVertices =
        ((Graph.build ops).addEdge u v).numVertices ∧
      (((Graph.build ops).addEdge u v).addEdge u v).numEdges =
        ((Graph.build ops).addEdge u v).numEdges) ∧
    (∀ x, (((Graph.build ops).addVertex v).addVertex v).containsVertex x =
        ((Graph.build ops).addVertex v).containsVertex x ∧
      (((Graph.build ops).addEdge u v).addEdge u v).containsVertex x =
        ((Graph.build ops).addEdge u v).containsVertex x) ∧
    ∀ a b, (((Graph.build ops).addVertex v).addVertex v).containsEdge a b =
        ((Graph.build ops).addVertex v).containsEdge a b ∧
      (((Graph.build ops).addEdge u v).addEdge u v).containsEdge a b =
        ((Graph.build ops).addEdge u v).containsEdge a b := by
  have h1 := Graph.addVertex_idem (Graph.build ops) v
  have h2 := Graph.addEdge_idem (Graph.build ops) u v (Graph.build_spec ops).1
  refine ⟨⟨h1, h2⟩, ⟨?_, ?_, ?_, ?_⟩, ?_, ?_⟩
  · rw [h1]
  · rw [h1]
  · rw [h2]
  · rw [h2]
  · intro x; rw [h1, h2]; exact ⟨rfl, rfl⟩
  · intro a b; rw [h1, h2]; exact ⟨rfl, rfl⟩

/-! ## Dependency discovery -/

section Population

variable {T : Type} [DecidableEq T]

/-- When the population loop ends, every task that was in the deque has been
taken from it at an earlier point, from which on its dependents were in the
deque and the loop ended within fewer iterations. -/
theorem GraphPopulationTask.run_pop (getDependents : T → List T) (fuel : Nat) :
    ∀ (G : Graph T) (tasks : List T) (G' : Graph T),
      GraphPopulationTask.run getDependents fuel G tasks = some G' → ∀ t ∈ tasks,
        ∃ fuel1, fuel1 < fuel ∧ ∃ G1 tasks1,
          GraphPopulationTask.run getDependents fuel1 G1 tasks1 = some G' ∧
            ∀ d ∈ getDependents t, d ∈ tasks1 := by
  induction fuel with
  | zero =>
    intro G tasks G' h t ht
    cases tasks with
    | nil => simp at ht
    | cons a rest => simp [GraphPopulationTask.run] at h
  | succ fuel ih =>
    intro G tasks G' h t ht
    cases tasks with
    | nil => simp at ht
    | cons a rest =>
      simp only [GraphPopulationTask.run] at h
      by_cases hta : t = a
      · subst hta
        exact ⟨fuel, Nat.lt_succ_self _, _, _, h, fun d hd => List.mem_append_right _ hd⟩
      · have htr : t ∈ rest ++ getDependents a := by
          rcases List.mem_cons.1 ht with e | e
          · exact absurd e hta
          · exact List.mem_append_left _ e
        obtain ⟨fuel1, hlt, G1, tasks1, h1, h2⟩ := ih _ _ _ h t htr
        exact ⟨fuel1, Nat.lt_succ_of_lt hlt, G1, tasks1, h1, h2⟩

/-- When the population loop ends, every task reachable from a task of the
deque along the dependency relation was in the deque at some point from which
the loop ended within no more iterations. -/
theorem GraphPopulationTask.run_reach (getDependents : T → List T) (c : T) (t : T)
    (hreach : Relation.ReflTransGen (fun a b => b ∈ getDependents a) t c) :
    ∀ (fuel : Nat) (G : Graph T) (tasks : List T) (G' : Graph T),
      GraphPopulationTask.run getDependents fuel G tasks = some G' → t ∈ tasks →
        ∃ fuel1, fuel1 ≤ fuel ∧ ∃ G1 tasks1,
          GraphPopulationTask.run getDependents fuel1 G1 tasks1 = some G' ∧ c ∈ tasks1 := by
  induction hreach using Relation.ReflTransGen.head_induction_on with
  | refl =>
    intro fuel G tasks G' h ht
    exact ⟨fuel, Nat.le_refl _, G, tasks, h, ht⟩
  | head hab _ ih =>
    intro fuel G tasks G' h ht
    obtain ⟨fuel1, hlt, G1, tasks1, h1, h2⟩ :=
      GraphPopulationTask.run_pop getDependents fuel G tasks G' h _ ht
    obtain ⟨fuel2, hle, G2, tasks2, h3, h4⟩ := ih fuel1 G1 tasks1 G' h1 (h2 _ hab)
    exact ⟨fuel2, by omega, G2, tasks2, h3, h4⟩

/-- The population loop does not end while a task that lies on a cycle of the
dependency relation is in the deque. -/
theorem GraphPopulationTask.run_cycle (getDependents : T → List T) (c : T)
    (hcycle : Relation.TransGen (fun a b => b ∈ getDependents a) c c) (fuel : Nat) :
    ∀ (G : Graph T) (tasks : List T), c ∈ tasks →
      GraphPopulationTask.run getDependents fuel G tasks = none := by
  induction fuel using Nat.strong_induction_on with
  | _ fuel ih =>
    intro G tasks hc
    cases h : GraphPopulationTask.run getDependents fuel G tasks with
    | none => rfl
    | some G' =>
      exfalso
      obtain ⟨fuel1, hlt, G1, tasks1, h1, h2⟩ :=
        GraphPopulationTask.run_pop getDependents fuel G tasks G' h c hc
      obtain ⟨c1, hc1, hrest⟩ := (Relation.TransGen.head'_iff).1 hcycle
      obtain ⟨fuel2, hle, G2, tasks2, h3, h4⟩ :=
        GraphPopulationTask.run_reach getDependents c c1 hrest fuel1 G1 tasks1 G' h1 (h2 c1 hc1)
      have := ih fuel2 (by omega) G2 tasks2 h4
      rw [this] at h3
      cases h3

/-- Dependency discovery from a root task from which a cycle of the dependency
relation can be reached never ends, whatever the number of iterations. -/
theorem GraphPopulationTask.populate_cycle (getDependents : T → List T) (root c : T)
    (hreach : Relation.ReflTransGen (fun a b => b ∈ getDependents a) root c)
    (hcycle : Relation.TransGen (fun a b => b ∈ getDependents a) c c) (fuel : Nat)
    (G : Graph T) : GraphPopulationTask.populate getDependents fuel G root = none := by
  unfold GraphPopulationTask.populate
  cases h : GraphPopulationTask.run getDependents fuel G [root] with
  | none => rfl
  | some G' =>
    exfalso
    obtain ⟨fuel1, -, G1, tasks1, h1, h2⟩ :=
      GraphPopulationTask.run_reach getDependents c root hreach fuel G [root] G' h
        (List.mem_singleton.2 rfl)
    rw [GraphPopulationTask.run_cycle getDependents c hcycle fuel1 G1 tasks1 h2] at h1
    cases h1

end Population

/-- C7: for a root task 0 whose only dependent is the sub-evaluation 1 (which
has none), the order returned for the populated graph is root first: the task
0 comes before the sub-evaluation 1 it requires, not after it. -/
theorem sortedTasks_root_before_dependency :
    sortedTasks (fun t : Nat => if t = 0 then [1] else []) 2 0 = some (Except.ok [0, 1]) ∧
      occursBefore [0, 1] 0 1 ∧ ¬ occursBefore [0, 1] 1 0 := by
  refine ⟨by decide, ⟨[], [], [], rfl⟩, ?_⟩
  rintro ⟨l1, l2, l3, h⟩
  have hlen := congrArg List.length h
  simp only [List.length_cons, List.length_nil, List.length_append] at hlen
  have h1 : l1 = [] := List.length_eq_zero.1 (by omega)
  subst h1
  simp at h

/-- C8: for a task 0 that declares a dependency on itself, dependency
discovery does not end within any number of iterations, so no error is
raised and `topological_sort` is never reached. -/
theorem sortedTasks_self_dependency_diverges :
    ∀ fuel : Nat, sortedTasks (fun t : Nat => [t]) fuel 0 = none := by
  intro fuel
  unfold sortedTasks
  rw [GraphPopulationTask.populate_cycle (fun t : Nat => [t]) 0 0 Relation.ReflTransGen.refl
    (Relation.TransGen.single (List.mem_singleton.2 rfl)) fuel Graph.empty]

/-! ## The table pruner -/

section TrivialPruner

variable {Fn W E : Type}

theorem TablePruner.TrivialReady_create (candidates : List Subset) (k : Nat)
    (prunerData : Option (TablePrunerData Fn)) (ready0 : Bool) :
    (TablePruner.create candidates k 1 prunerData ready0).TrivialReady k := by
  simp [TablePruner.create, TablePruner.TrivialReady]

/-- The outputs of a ready pruner for `rho = 1` after `initOutputs`. -/
theorem TablePruner.TrivialReady_initOutputs (k : Nat) (p : TablePruner Fn)
    (h : p.TrivialReady k) :
    p.initOutputs.TrivialReady k ∧ p.initOutputs.newReps = some [generateX k] ∧
      p.initOutputs.candidateMap = some MapType.empty ∧
      p.initOutputs.newPrunerData = some ⟨DiscriminatorPtr.TrivialDiscriminator, true⟩ := by
  obtain ⟨h1, h2, h3, h4, -⟩ := h
  unfold TablePruner.initOutputs
  rw [if_pos h1]
  refine ⟨⟨h1, h2, h3, h4, Or.inr ⟨by rw [h4], ⟨MapType.empty, rfl, ?_⟩, rfl⟩⟩, by rw [h4], rfl, rfl⟩
  intro B v hv
  simp [MapType.find_empty] at hv

theorem TablePruner.TrivialReady_getNewReps (k : Nat) (p : TablePruner Fn)
    (h : p.TrivialReady k) :
    (p.getNewReps (E := E)).1 = Except.ok [generateX k] ∧
      (p.getNewReps (E := E)).2.TrivialReady k := by
  obtain ⟨cands, pdata, F, ready, fns, k1, rho, nr, npd, cmap⟩ := p
  obtain ⟨h1, h2, h3, h4, h5⟩ := h
  simp only at h1 h2 h3 h4 h5
  subst h1 h2 h3 h4
  rcases h5 with ⟨e1, e2, e3⟩ | ⟨e1, ⟨cm, e2, hz⟩, e3⟩
  · subst e1 e2 e3
    refine ⟨by simp [TablePruner.getNewReps, TablePruner.initOutputs], ?_⟩
    simp [TablePruner.getNewReps, TablePruner.initOutputs, TablePruner.TrivialReady,
      MapType.find_empty]
  · subst e1 e2 e3
    refine ⟨by simp [TablePruner.getNewReps], ?_⟩
    simp only [TablePruner.getNewReps, TablePruner.TrivialReady]
    simp
    exact hz

theorem TablePruner.TrivialReady_getNewData (k : Nat) (p : TablePruner Fn)
    (h : p.TrivialReady k) : (p.getNewData (E := E)).2.TrivialReady k := by
  obtain ⟨cands, pdata, F, ready, fns, k1, rho, nr, npd, cmap⟩ := p
  obtain ⟨h1, h2, h3, h4, h5⟩ := h
  simp only at h1 h2 h3 h4 h5
  subst h1 h2 h3 h4
  rcases h5 with ⟨e1, e2, e3⟩ | ⟨e1, ⟨cm, e2, hz⟩, e3⟩
  · subst e1 e2 e3
    simp [TablePruner.getNewData, TablePruner.initOutputs, TablePruner.TrivialReady,
      MapType.find_empty]
  · subst e1 e2 e3
    simp only [TablePruner.getNewData, TablePruner.TrivialReady]
    simp
    exact hz

theorem TablePruner.TrivialReady_addGInvariant (evaluate : W → Fn → Subset → Except E Nat × W)
    (k : Nat) (p : TablePruner Fn) (w : W) (fn : Fn) (h : p.TrivialReady k) :
    (p.addGInvariant evaluate w fn).2.1.TrivialReady k := by
  have hr : p.ready = true := h.2.1
  unfold TablePruner.addGInvariant
  rw [if_pos hr]
  exact h

/-- On a ready pruner for `rho = 1` whose outputs are initialised, `getColumn`
returns 0. -/
theorem TablePruner.TrivialReady_getColumn_init (evaluate : W → Fn → Subset → Except E Nat × W)
    (k : Nat) (p : TablePruner Fn) (w : W) (B : Subset) (h : p.TrivialReady k)
    (cm : MapType Subset Nat) (hcm : p.candidateMap = some cm)
    (hzero : ∀ B v, cm.find B = some v → v = 0)
    (hdata : p.newPrunerData = some ⟨DiscriminatorPtr.TrivialDiscriminator, true⟩)
    (hreps : p.newReps = some [generateX k]) :
    (p.getColumn evaluate w B).1 = Except.ok 0 ∧ (p.getColumn evaluate w B).2.1.TrivialReady k := by
  obtain ⟨cands, pdata, F, ready, fns, k1, rho, nr, npd, cmap⟩ := p
  obtain ⟨h1, h2, h3, h4, -⟩ := h
  simp only at h1 h2 h3 h4 hcm hdata hreps
  subst h1 h2 h3 h4 hcm hdata hreps
  cases hf : cm.find B with
  | none =>
    have hc : cm.count B = 0 := (MapType.count_eq_zero_iff _ _).2 hf
    have hfa : (cm.assign B 0).find B = some 0 := by rw [MapType.find_assign, if_pos rfl]
    have e : TablePruner.getColumn evaluate
        ⟨cands, pdata, F, true, [], k1, 1, some [generateX k1],
          some ⟨DiscriminatorPtr.TrivialDiscriminator, true⟩, some cm⟩ w B =
        (Except.ok 0, ⟨cands, pdata, F, true, [], k1, 1, some [generateX k1],
          some ⟨DiscriminatorPtr.TrivialDiscriminator, true⟩, some (cm.assign B 0)⟩, w) := by
      simp [TablePruner.getColumn, hc, DiscriminatorPtr.evaluate,
        MapType.index_of_find _ _ _ hfa]
    rw [e]
    refine ⟨rfl, rfl, rfl, rfl, rfl, Or.inr ⟨rfl, ⟨cm.assign B 0, rfl, ?_⟩, rfl⟩⟩
    intro B2 v hv
    rw [MapType.find_assign] at hv
    by_cases hb : B = B2
    · rw [if_pos hb] at hv
      exact (Option.some.inj hv).symm
    · rw [if_neg hb] at hv
      exact hzero B2 v hv
  | some v =>
    have hc : cm.count B ≠ 0 := (MapType.count_ne_zero_iff _ _).2 ⟨v, hf⟩
    have hv0 : v = 0 := hzero B v hf
    subst hv0
    have e : TablePruner.getColumn evaluate
        ⟨cands, pdata, F, true, [], k1, 1, some [generateX k1],
          some ⟨DiscriminatorPtr.TrivialDiscriminator, true⟩, some cm⟩ w B =
        (Except.ok 0, ⟨cands, pdata, F, true, [], k1, 1, some [generateX k1],
          some ⟨DiscriminatorPtr.TrivialDiscriminator, true⟩, some cm⟩, w) := by
      simp [TablePruner.getColumn, hc, MapType.index_of_find _ _ _ hf]
    rw [e]
    exact ⟨rfl, rfl, rfl, rfl, rfl, Or.inr ⟨rfl, ⟨cm, rfl, hzero⟩, rfl⟩⟩

theorem TablePruner.TrivialReady_getColumn (evaluate : W → Fn → Subset → Except E Nat × W)
    (k : Nat) (p : TablePruner Fn) (w : W) (B : Subset) (h : p.TrivialReady k) :
    (p.getColumn evaluate w B).1 = Except.ok 0 ∧ (p.getColumn evaluate w B).2.1.TrivialReady k := by
  rcases h.2.2.2.2 with ⟨e1, e2, e3⟩ | ⟨e1, ⟨cm, e2, hz⟩, e3⟩
  · obtain ⟨i1, i2, i3, i4⟩ := TablePruner.TrivialReady_initOutputs k p h
    have hinit := TablePruner.TrivialReady_getColumn_init evaluate k p.initOutputs w B i1
      MapType.empty i3 (by intro B v hv; simp [MapType.find_empty] at hv) i4 i2
    have hr : p.ready = true := h.2.1
    have hr2 : p.initOutputs.ready = true := i1.2.1
    have e : p.getColumn evaluate w B = p.initOutputs.getColumn evaluate w B := by
      unfold TablePruner.getColumn
      simp only [hr, hr2, Bool.not_true, Bool.false_eq_true, if_false, e2, i3,
        Option.isNone_none, Option.isNone_some, if_true]
    rw [e]
    exact hinit
  · exact TablePruner.TrivialReady_getColumn_init evaluate k p w B h cm e2 hz e3 e1

theorem TablePruner.TrivialReady_after (evaluate : W → Fn → Subset → Except E Nat × W)
    (k : Nat) (ops : List (PrunerOp Fn)) :
    ∀ (p : TablePruner Fn) (w : W), p.TrivialReady k →
      (TablePruner.after evaluate p w ops).1.TrivialReady k := by
  induction ops with
  | nil => intro p w h; exact h
  | cons op ops ih =>
    intro p w h
    unfold TablePruner.after
    simp only [List.foldl_cons]
    cases op with
    | addGInvariant fn =>
      exact ih _ _ (TablePruner.TrivialReady_addGInvariant evaluate k p w fn h)
    | getNewReps => exact ih _ _ (TablePruner.TrivialReady_getNewReps (E := E) k p h).2
    | getNewData => exact ih _ _ (TablePruner.TrivialReady_getNewData (E := E) k p h)
    | getColumn B => exact ih _ _ (TablePruner.TrivialReady_getColumn evaluate k p w B h).2

end TrivialPruner

/-- C9: a `TablePruner` constructed with `rho = 1`, for every candidate list,
size `k` and previous data, is ready at once with an empty function list; and
after any sequence of calls on it, it is still ready with an empty function
list, `getNewReps()` returns exactly one representative, the set
`{0, ..., k - 1}`, and `getColumn(B)` returns 0 for every subset `B`. -/
theorem TablePruner.rho_one_trivial {Fn W E : Type}
    (evaluate : W → Fn → Subset → Except E Nat × W) (candidates : List Subset) (k : Nat)
    (prunerData : Option (TablePrunerData Fn)) (ready0 : Bool) (w : W)
    (ops : List (PrunerOp Fn)) (B : Subset) :
    (TablePruner.create candidates k 1 prunerData ready0).ready = true ∧
      (TablePruner.create candidates k 1 prunerData ready0).fns = [] ∧
      (TablePruner.after evaluate (TablePruner.create candidates k 1 prunerData ready0) w
        ops).1.ready = true ∧
      (TablePruner.after evaluate (TablePruner.create candidates k 1 prunerData ready0) w
        ops).1.fns = [] ∧
      ((TablePruner.after evaluate (TablePruner.create candidates k 1 prunerData ready0) w
        ops).1.getNewReps (E := E)).1 = Except.ok [List.range k] ∧
      ((TablePruner.after evaluate (TablePruner.create candidates k 1 prunerData ready0) w
        ops).1.getColumn evaluate
          (TablePruner.after evaluate (TablePruner.create candidates k 1 prunerData ready0) w
            ops).2 B).1 = Except.ok 0 := by
  have h0 : (TablePruner.create candidates k 1 prunerData ready0).TrivialReady k :=
    TablePruner.TrivialReady_create candidates k prunerData ready0
  have h := TablePruner.TrivialReady_after evaluate k ops _ w h0
  exact ⟨h0.2.1, h0.2.2.1, h.2.1, h.2.2.1,
    (TablePruner.TrivialReady_getNewReps (E := E) k _ h).1,
    (TablePruner.TrivialReady_getColumn evaluate k _ _ B h).1⟩

section ReadyTest

variable {Fn W E : Type}

theorem SetType.insert_nodup {A : Type} [DecidableEq A] (s : SetType A) (x : A)
    (h : s.elems.Nodup) : (s.insert x).elems.Nodup := by
  unfold SetType.insert
  by_cases hx : x ∈ s.elems
  · rw [if_pos hx]; exact h
  · rw [if_neg hx]
    exact List.Nodup.append h (List.nodup_singleton x) (by simpa using hx)

theorem SetType.insert_toFinset {A : Type} [DecidableEq A] (s : SetType A) (x : A) :
    (s.insert x).elems.toFinset = Insert.insert x s.elems.toFinset := by
  unfold SetType.insert
  by_cases hx : x ∈ s.elems
  · rw [if_pos hx]
    exact (Finset.insert_eq_of_mem (List.mem_toFinset.2 hx)).symm
  · rw [if_neg hx]
    ext y
    simp [or_comm]

/-- The set of columns built by `addGInvariant` holds each of the inserted
columns once. -/
theorem TablePruner.columnSet_spec (F : Table) (is : List Nat) :
    ∀ s : SetType (List Nat), s.elems.Nodup →
      (TablePruner.columnSet F is s).elems.Nodup ∧
        (TablePruner.columnSet F is s).elems.toFinset =
          s.elems.toFinset ∪ (is.map F.column).toFinset := by
  induction is with
  | nil =>
    intro s h
    simp [TablePruner.columnSet, h]
  | cons i is ih =>
    intro s h
    obtain ⟨h1, h2⟩ := ih (s.insert (F.column i)) (SetType.insert_nodup s _ h)
    refine ⟨h1, ?_⟩
    simp only [TablePruner.columnSet]
    rw [h2, SetType.insert_toFinset]
    ext y
    simp

theorem TablePruner.columnSet_size (F : Table) (n : Nat) :
    (TablePruner.columnSet F (List.range n) SetType.empty).size = distinctColumns F n := by
  obtain ⟨h1, h2⟩ := TablePruner.columnSet_spec F (List.range n) SetType.empty (by simp [SetType.empty])
  unfold SetType.size distinctColumns
  rw [← List.toFinset_card_of_nodup h1, h2]
  simp [SetType.empty]

theorem Table.length_writeRow (rows : List (List Nat)) (rowIdx : Nat) (values : List Nat) :
    (Table.writeRow rows rowIdx values).length = rows.length := by
  induction rows generalizing rowIdx with
  | nil => simp [Table.writeRow]
  | cons row rows ih =>
    cases rowIdx with
    | zero => simp [Table.writeRow]
    | succ rowIdx => simp [Table.writeRow, ih]

end ReadyTest

/-- C10: when `addGInvariant(fn)` returns on a pruner that is not ready, the
pruner is ready afterwards if and only if the number of different columns of
the table `F`, which now has one row for every function added so far, the one
for `fn` included, equals `rho`. -/
theorem TablePruner.addGInvariant_ready_iff {Fn W E : Type}
    (evaluate : W → Fn → Subset → Except E Nat × W) (p : TablePruner Fn) (w : W) (fn : Fn)
    (hnot : p.ready = false) (hret : (p.addGInvariant evaluate w fn).1 = Except.ok ()) :
    ((p.addGInvariant evaluate w fn).2.1.ready = true ↔
        distinctColumns (p.addGInvariant evaluate w fn).2.1.F p.candidates.length = p.rho) ∧
      (p.addGInvariant evaluate w fn).2.1.fns = p.fns ++ [fn] ∧
      (p.addGInvariant evaluate w fn).2.1.F.rows.length = p.fns.length + 1 := by
  unfold TablePruner.addGInvariant at hret ⊢
  simp only [hnot, Bool.false_eq_true, if_false] at hret ⊢
  cases hg : (TablePruner.getAll (TablePruner.evaluateAll evaluate fn p.candidates w).1).2 with
  | some e =>
    rw [hg] at hret
    simp at hret
  | none =>
    simp only [TablePruner.columnSet_size]
    by_cases hsize : distinctColumns
        ⟨Table.writeRow (p.F.resize (p.fns ++ [fn]).length p.candidates.length).rows p.fns.length
          (TablePruner.getAll (TablePruner.evaluateAll evaluate fn p.candidates w).1).1⟩
        p.candidates.length = p.rho
    · rw [if_pos hsize]
      simp only [true_iff]
      refine ⟨hsize, trivial, ?_⟩
      simp [Table.length_writeRow, Table.resize]
    · rw [if_neg hsize]
      simp only [hnot, Bool.false_eq_true, false_iff]
      refine ⟨hsize, trivial, ?_⟩
      simp [Table.length_writeRow, Table.resize]

/-- C10, on three candidates with `rho = 2` and a function whose codes on them
are 0, 0 and 1: the table then has two different columns and the pruner is
ready. -/
theorem TablePruner.addGInvariant_ready_iff_witness :
    ((TablePruner.create [[0, 1], [0, 2], [1, 2]] 2 2 none false).addGInvariant
        (fun (w : Unit) (f : Nat) (B : Subset) => ((Except.ok (B.getD f 0) : Except Unit Nat), w))
        () 0).2.1.ready = true ∧
      distinctColumns
        ((TablePruner.create [[0, 1], [0, 2], [1, 2]] 2 2 none false).addGInvariant
          (fun (w : Unit) (f : Nat) (B : Subset) => ((Except.ok (B.getD f 0) : Except Unit Nat), w))
          () 0).2.1.F 3 = 2 :=
  ⟨((TablePruner.addGInvariant_ready_iff
      (fun (w : Unit) (f : Nat) (B : Subset) => ((Except.ok (B.getD f 0) : Except Unit Nat), w))
      (TablePruner.create [[0, 1], [0, 2], [1, 2]] 2 2 none false) () 0 rfl rfl).1).2
      (by decide),
    by decide⟩

/-! ## First-seen numbering of patterns -/

section PatternCode

variable {A : Type} [DecidableEq A]

/-- The code of a pattern is the number of distinct patterns in front of its
first occurrence. -/
theorem patternCode_of_split (l1 l2 : List A) (a : A) (h : a ∉ l1) :
    patternCode (l1 ++ a :: l2) a = l1.toFinset.card := by
  unfold patternCode
  rw [List.indexOf_append_of_not_mem h, List.indexOf_cons_self, Nat.add_zero, List.take_left]

theorem toFinset_card_lt_of_split (l1 l2 : List A) (a : A) (h : a ∉ l1) :
    l1.toFinset.card < (l1 ++ a :: l2).toFinset.card := by
  apply Finset.card_lt_card
  rw [Finset.ssubset_def]
  constructor
  · intro x hx
    simp only [List.mem_toFinset] at hx ⊢
    exact List.mem_append_left _ hx
  · intro hsub
    have : a ∈ l1.toFinset := hsub (by simp)
    exact h (List.mem_toFinset.1 this)

/-- The code of a pattern that occurs is below the number of distinct
patterns. -/
theorem patternCode_lt (cols : List A) (a : A) (h : a ∈ cols) :
    patternCode cols a < cols.toFinset.card := by
  obtain ⟨l1, l2, e, hn⟩ := exists_first_occurrence a cols h
  rw [e, patternCode_of_split l1 l2 a hn]
  exact toFinset_card_lt_of_split l1 l2 a hn

/-- A pattern of a prefix keeps, in the whole list, a code below the number of
distinct patterns of the prefix. -/
theorem patternCode_lt_of_mem_prefix (seen rest : List A) (a : A) (h : a ∈ seen) :
    patternCode (seen ++ rest) a < seen.toFinset.card := by
  obtain ⟨l1, l2, e, hn⟩ := exists_first_occurrence a seen h
  have e2 : seen ++ rest = l1 ++ a :: (l2 ++ rest) := by rw [e]; simp
  rw [e2, patternCode_of_split l1 (l2 ++ rest) a hn, e]
  exact toFinset_card_lt_of_split l1 l2 a hn

/-- Different patterns have different codes. -/
theorem patternCode_inj (cols : List A) (a b : A) (ha : a ∈ cols) (hb : b ∈ cols)
    (h : patternCode cols a = patternCode cols b) : a = b := by
  obtain ⟨l1, l2, e1, hn1⟩ := exists_first_occurrence a cols ha
  obtain ⟨m1, m2, e2, hn2⟩ := exists_first_occurrence b cols hb
  have c1 := patternCode_of_split l1 l2 a hn1
  have c2 := patternCode_of_split m1 m2 b hn2
  rw [← e1] at c1
  rw [← e2] at c2
  rw [c1, c2] at h
  have e3 : l1 ++ a :: l2 = m1 ++ b :: m2 := by rw [← e1, ← e2]
  rcases List.append_eq_append_iff.1 e3 with ⟨t, ht1, ht2⟩ | ⟨t, ht1, ht2⟩
  · cases t with
    | nil =>
      simp only [List.nil_append, List.cons.injEq] at ht2
      exact ht2.1
    | cons x t =>
      simp only [List.cons_append, List.cons.injEq] at ht2
      exfalso
      have hlt := toFinset_card_lt_of_split l1 t a hn1
      rw [ht2.1] at hlt
      rw [ht1] at h
      omega
  · cases t with
    | nil =>
      simp only [List.nil_append, List.cons.injEq] at ht2
      exact ht2.1.symm
    | cons x t =>
      simp only [List.cons_append, List.cons.injEq] at ht2
      exfalso
      have hlt := toFinset_card_lt_of_split m1 t b hn2
      rw [ht2.1] at hlt
      rw [ht1] at h
      omega

/-- Every number below the number of distinct patterns is the code of a
pattern. -/
theorem patternCode_surj (cols : List A) (v : Nat) (hv : v < cols.toFinset.card) :
    ∃ a ∈ cols, patternCode cols a = v := by
  have hinj : Set.InjOn (patternCode cols) (cols.toFinset : Set A) := by
    intro a ha b hb hab
    exact patternCode_inj cols a b (List.mem_toFinset.1 ha) (List.mem_toFinset.1 hb) hab
  have hcard : (cols.toFinset.image (patternCode cols)).card = cols.toFinset.card :=
    Finset.card_image_of_injOn hinj
  have hsub : cols.toFinset.image (patternCode cols) ⊆ Finset.range cols.toFinset.card := by
    intro x hx
    obtain ⟨a, ha, rfl⟩ := Finset.mem_image.1 hx
    exact Finset.mem_range.2 (patternCode_lt cols a (List.mem_toFinset.1 ha))
  have heq : cols.toFinset.image (patternCode cols) = Finset.range cols.toFinset.card :=
    Finset.eq_of_subset_of_card_le hsub (by rw [hcard, Finset.card_range])
  have hmem : v ∈ cols.toFinset.image (patternCode cols) := by
    rw [heq]; exact Finset.mem_range.2 hv
  obtain ⟨a, ha, e⟩ := Finset.mem_image.1 hmem
  exact ⟨a, List.mem_toFinset.1 ha, e⟩

end PatternCode

/-! ## The outputs of a ready pruner -/

section InitOutputs

theorem SetType.set_count_ne_zero_iff {A : Type} [DecidableEq A] (s : SetType A) (x : A) :
    (s.count x != 0) = true ↔ x ∈ s.elems := by
  unfold SetType.count
  by_cases h : x ∈ s.elems <;> simp [h]

/-- An iteration of the loop of `initOutputs` for a pattern that is still to
be processed. -/
theorem TablePruner.initOutputsStep_new (st : InitOutputsState) (c : Subset) (fv : List Nat)
    (hin : fv ∈ st.columnsToProcess.elems) (hfind : st.lookupTable.find fv = none) :
    TablePruner.initOutputsStep st c fv =
      { newReps := st.newReps ++ [c],
        lookupTable := ⟨(fv, st.nextIdx) :: st.lookupTable.entries⟩,
        newCache := st.newCache.assign c st.nextIdx,
        candidateMap := st.candidateMap.assign c st.nextIdx,
        nextIdx := st.nextIdx + 1,
        columnsToProcess := st.columnsToProcess.erase fv } := by
  have hc : (st.columnsToProcess.count fv != 0) = true := (SetType.set_count_ne_zero_iff _ _).2 hin
  have ha : st.lookupTable.assign fv st.nextIdx = ⟨(fv, st.nextIdx) :: st.lookupTable.entries⟩ := by
    unfold MapType.assign
    rw [hfind]
  have hf : (MapType.mk ((fv, st.nextIdx) :: st.lookupTable.entries)).find fv = some st.nextIdx := by
    rw [MapType.find_cons, if_pos rfl]
  unfold TablePruner.initOutputsStep
  simp only [hc, if_true, ha, MapType.index_of_find _ _ _ hf]

/-- An iteration of the loop of `initOutputs` for a pattern that has been
processed. -/
theorem TablePruner.initOutputsStep_old (st : InitOutputsState) (c : Subset) (fv : List Nat)
    (code : Nat) (hnin : fv ∉ st.columnsToProcess.elems)
    (hfind : st.lookupTable.find fv = some code) :
    TablePruner.initOutputsStep st c fv =
      { st with
        newCache := st.newCache.assign c code,
        candidateMap := st.candidateMap.assign c code } := by
  have hc : (st.columnsToProcess.count fv != 0) = false := by
    cases h : (st.columnsToProcess.count fv != 0) with
    | false => rfl
    | true => exact absurd ((SetType.set_count_ne_zero_iff _ _).1 h) hnin
  unfold TablePruner.initOutputsStep
  simp only [hc, Bool.false_eq_true, if_false, MapType.index_of_find _ _ _ hfind]

theorem toFinset_card_concat_new {A : Type} [DecidableEq A] (l : List A) (a : A) (h : a ∉ l) :
    (l ++ [a]).toFinset.card = l.toFinset.card + 1 := by
  have e : (l ++ [a]).toFinset = Insert.insert a l.toFinset := by
    ext y
    simp [or_comm]
  rw [e, Finset.card_insert_of_not_mem (by simpa using h)]

theorem toFinset_concat_old {A : Type} [DecidableEq A] (l : List A) (a : A) (h : a ∈ l) :
    (l ++ [a]).toFinset = l.toFinset := by
  ext y
  simp only [List.toFinset_append, List.toFinset_cons, List.toFinset_nil, Finset.mem_union,
    List.mem_toFinset, Finset.mem_insert, Finset.not_mem_empty, or_false]
  constructor
  · rintro (e | e)
    · exact e
    · rw [e]; exact h
  · exact Or.inl

theorem getElem?_append_of_some {A : Type} (l1 l2 : List A) (i : Nat) (a : A)
    (h : l1[i]? = some a) : (l1 ++ l2)[i]? = some a := by
  have hlt : i < l1.length := by
    by_contra hge
    rw [List.getElem?_eq_none (Nat.le_of_not_lt hge)] at h
    cases h
  rw [List.getElem?_append_left hlt]
  exact h

theorem getD_length_split {A : Type} (l1 l2 : List A) (a d : A) :
    (l1 ++ a :: l2).getD l1.length d = a := by
  induction l1 with
  | nil => rfl
  | cons b l1 ih => simpa using ih

theorem split_concat {A : Type} (pre pre1 post1 : List A) (x q : A)
    (h : pre ++ [x] = pre1 ++ q :: post1) :
    (post1 = [] ∧ pre1 = pre ∧ q = x) ∨ ∃ post2, post1 = post2 ++ [x] ∧ pre = pre1 ++ q :: post2 := by
  rcases List.eq_nil_or_concat post1 with e | ⟨post2, y, e⟩
  · subst e
    left
    have h2 : pre ++ [x] = pre1 ++ [q] := h
    obtain ⟨e1, e2⟩ := List.append_inj' h2 rfl
    simp only [List.cons.injEq, and_true] at e2
    exact ⟨rfl, e1.symm, e2.symm⟩
  · rw [List.concat_eq_append] at e
    subst e
    right
    have h2 : pre ++ [x] = (pre1 ++ q :: post2) ++ [y] := by rw [h]; simp
    obtain ⟨e1, e2⟩ := List.append_inj' h2 rfl
    simp only [List.cons.injEq, and_true] at e2
    subst e2
    exact ⟨post2, rfl, e1⟩

theorem SetType.erase_nodup {A : Type} [DecidableEq A] (s : SetType A) (x : A)
    (h : s.elems.Nodup) : (s.erase x).elems.Nodup :=
  List.Nodup.erase x h

theorem SetType.mem_erase_iff {A : Type} [DecidableEq A] (s : SetType A) (x y : A)
    (h : s.elems.Nodup) : y ∈ (s.erase x).elems ↔ (y ≠ x ∧ y ∈ s.elems) :=
  List.Nodup.mem_erase_iff h

theorem filter_range_succ (n : Nat) (f : Nat → Bool) (g : Nat → Subset) :
    ((List.range (n + 1)).filter f).map g =
      ((List.range n).filter f).map g ++ (if f n = true then [g n] else []) := by
  rw [List.range_succ, List.filter_append, List.map_append]
  by_cases h : f n = true
  · simp [h]
  · simp [h]

/-- One iteration of the loop of `initOutputs` maintains the invariant. -/
theorem InitOutputsInv.step (pairs pre post : List (Subset × List Nat)) (x : Subset × List Nat)
    (st : InitOutputsState) (hsplit : pairs = pre ++ x :: post)
    (hnodup : (pairs.map Prod.fst).Nodup) (h : InitOutputsInv pairs pre st) :
    InitOutputsInv pairs (pre ++ [x]) (TablePruner.initOutputsStep st x.1 x.2) := by
  have hcols : pairs.map Prod.snd = pre.map Prod.snd ++ x.2 :: post.map Prod.snd := by
    rw [hsplit]; simp
  have hcands : pairs.map Prod.fst = pre.map Prod.fst ++ x.1 :: post.map Prod.fst := by
    rw [hsplit]; simp
  have hfv : x.2 ∈ pairs.map Prod.snd := by rw [hcols]; simp
  have hx1 : x.1 ∉ pre.map Prod.fst := by
    rw [hcands, List.nodup_middle, List.nodup_cons] at hnodup
    exact fun hm => hnodup.1 (List.mem_append_left _ hm)
  have hget2 : (pairs.map Prod.snd).getD pre.length [] = x.2 := by
    have := getD_length_split (pre.map Prod.snd) (post.map Prod.snd) x.2 []
    rw [List.length_map] at this
    rw [hcols]; exact this
  have hget1 : (pairs.map Prod.fst).getD pre.length [] = x.1 := by
    have := getD_length_split (pre.map Prod.fst) (post.map Prod.fst) x.1 []
    rw [List.length_map] at this
    rw [hcands]; exact this
  have htake : (pairs.map Prod.snd).take pre.length = pre.map Prod.snd := by
    have := List.take_left (pre.map Prod.snd) (x.2 :: post.map Prod.snd)
    rw [List.length_map] at this
    rw [hcols]; exact this
  have hmem_concat : ∀ fv, fv ∈ (pre ++ [x]).map Prod.snd ↔ (fv ∈ pre.map Prod.snd ∨ fv = x.2) := by
    intro fv
    simp
  by_cases hnew : x.2 ∈ pre.map Prod.snd
  · -- the pattern has been seen
    have hnin : x.2 ∉ st.columnsToProcess.elems := fun hm => (h.toProcess x.2 hfv).1 hm hnew
    have hfind : st.lookupTable.find x.2 = some (patternCode (pairs.map Prod.snd) x.2) := by
      rw [h.lookup, if_pos hnew]
    rw [TablePruner.initOutputsStep_old st x.1 x.2 _ hnin hfind]
    refine ⟨?_, ?_, h.toProcess_nodup, ?_, h.entries_length, ?_, ?_, ?_, h.reps_length, ?_, ?_⟩
    · simp only [List.map_append, List.map_cons, List.map_nil]
      rw [toFinset_concat_old _ _ hnew]
      exact h.nextIdx_eq
    · intro fv
      simp only
      rw [h.lookup]
      by_cases hm : fv ∈ pre.map Prod.snd
      · rw [if_pos hm, if_pos ((hmem_concat fv).2 (Or.inl hm))]
      · have : fv ∉ (pre ++ [x]).map Prod.snd := by
          rw [hmem_concat]
          rintro (e | e)
          · exact hm e
          · exact hm (e ▸ hnew)
        rw [if_neg hm, if_neg this]
    · intro fv hfvc
      simp only
      rw [h.toProcess fv hfvc, hmem_concat]
      constructor
      · rintro hn (e | e)
        · exact hn e
        · exact hn (e ▸ hnew)
      · intro hn e
        exact hn (Or.inl e)
    · intro q hq
      simp only
      rw [MapType.find_assign]
      rcases List.mem_append.1 hq with hq | hq
      · have hne : x.1 ≠ q.1 := fun e => hx1 (e ▸ List.mem_map_of_mem Prod.fst hq)
        rw [if_neg hne]
        exact h.cmap_mem q hq
      · simp only [List.mem_singleton] at hq
        subst hq
        rw [if_pos rfl]
    · intro c hc
      simp only
      rw [MapType.find_assign]
      have hc1 : c ∉ pre.map Prod.fst := fun hm => hc (by simp at hm ⊢; tauto)
      have hc2 : x.1 ≠ c := fun e => hc (by rw [← e]; simp)
      rw [if_neg hc2]
      exact h.cmap_not_mem c hc1
    · simp only
      rw [h.cache_eq]
    · intro pre1 q post1 hs hq
      simp only
      rcases split_concat pre pre1 post1 x q hs with ⟨-, e2, e3⟩ | ⟨post2, -, e2⟩
      · subst e2 e3
        exact absurd hnew hq
      · exact h.reps_get pre1 q post2 e2 hq
    · simp only [List.length_append, List.length_singleton]
      rw [filter_range_succ, ← h.reps_eq]
      have : decide ((pairs.map Prod.snd).getD pre.length [] ∉ (pairs.map Prod.snd).take pre.length)
          = false := by
        rw [hget2, htake]
        simp [hnew]
      simp only [this, Bool.false_eq_true, if_false, List.append_nil]
  · -- the pattern is new
    have hin : x.2 ∈ st.columnsToProcess.elems := (h.toProcess x.2 hfv).2 hnew
    have hfind : st.lookupTable.find x.2 = none := by
      rw [h.lookup, if_neg hnew]
    have hcode : st.nextIdx = patternCode (pairs.map Prod.snd) x.2 := by
      rw [hcols, patternCode_of_split _ _ _ hnew]
      exact h.nextIdx_eq
    rw [TablePruner.initOutputsStep_new st x.1 x.2 hin hfind]
    refine ⟨?_, ?_, ?_, ?_, ?_, ?_, ?_, ?_, ?_, ?_, ?_⟩
    · simp only [List.map_append, List.map_cons, List.map_nil]
      rw [toFinset_card_concat_new _ _ hnew, h.nextIdx_eq]
    · intro fv
      simp only
      rw [MapType.find_cons]
      by_cases e : x.2 = fv
      · subst e
        rw [if_pos rfl, if_pos ((hmem_concat x.2).2 (Or.inr rfl)), hcode]
      · rw [if_neg e, h.lookup]
        by_cases hm : fv ∈ pre.map Prod.snd
        · rw [if_pos hm, if_pos ((hmem_concat fv).2 (Or.inl hm))]
        · have : fv ∉ (pre ++ [x]).map Prod.snd := by
            rw [hmem_concat]
            rintro (e2 | e2)
            · exact hm e2
            · exact e e2.symm
          rw [if_neg hm, if_neg this]
    · exact SetType.erase_nodup _ _ h.toProcess_nodup
    · intro fv hfvc
      simp only
      rw [SetType.mem_erase_iff _ _ _ h.toProcess_nodup, h.toProcess fv hfvc, hmem_concat]
      constructor
      · rintro ⟨hne, hn⟩ (e | e)
        · exact hn e
        · exact hne e
      · intro hn
        exact ⟨fun e => hn (Or.inr e), fun e => hn (Or.inl e)⟩
    · simp only [List.length_cons]
      rw [h.entries_length]
    · intro q hq
      simp only
      rw [MapType.find_assign]
      rcases List.mem_append.1 hq with hq | hq
      · have hne : x.1 ≠ q.1 := fun e => hx1 (e ▸ List.mem_map_of_mem Prod.fst hq)
        rw [if_neg hne]
        exact h.cmap_mem q hq
      · simp only [List.mem_singleton] at hq
        subst hq
        rw [if_pos rfl, hcode]
    · intro c hc
      simp only
      rw [MapType.find_assign]
      have hc1 : c ∉ pre.map Prod.fst := fun hm => hc (by simp at hm ⊢; tauto)
      have hc2 : x.1 ≠ c := fun e => hc (by rw [← e]; simp)
      rw [if_neg hc2]
      exact h.cmap_not_mem c hc1
    · simp only
      rw [h.cache_eq]
    · simp only [List.length_append, List.length_singleton]
      rw [h.reps_length]
    · intro pre1 q post1 hs hq
      simp only
      rcases split_concat pre pre1 post1 x q hs with ⟨-, e2, e3⟩ | ⟨post2, -, e2⟩
      · subst e2 e3
        rw [← hcode, ← h.reps_length]
        simp
      · exact getElem?_append_of_some _ _ _ _ (h.reps_get pre1 q post2 e2 hq)
    · simp only [List.length_append, List.length_singleton]
      rw [filter_range_succ, ← h.reps_eq]
      have : decide ((pairs.map Prod.snd).getD pre.length [] ∉ (pairs.map Prod.snd).take pre.length)
          = true := by
        rw [hget2, htake]
        simp [hnew]
      simp only [this, if_true, hget1]

/-- The loop of `initOutputs` establishes the invariant for the whole list of
candidates. -/
theorem InitOutputsInv.loop (pairs : List (Subset × List Nat))
    (hnodup : (pairs.map Prod.fst).Nodup) :
    ∀ (post pre : List (Subset × List Nat)) (st : InitOutputsState), pairs = pre ++ post →
      InitOutputsInv pairs pre st →
        InitOutputsInv pairs pairs (TablePruner.initOutputsLoop post st) := by
  intro post
  induction post with
  | nil =>
    intro pre st hs h
    rw [List.append_nil] at hs
    subst hs
    exact h
  | cons x post ih =>
    intro pre st hs h
    obtain ⟨c, fv⟩ := x
    simp only [TablePruner.initOutputsLoop]
    exact ih (pre ++ [(c, fv)]) _ (by rw [hs]; simp)
      (InitOutputsInv.step pairs pre post (c, fv) st hs hnodup h)

theorem SetType.foldl_insert_spec {A : Type} [DecidableEq A] (l : List A) :
    ∀ s : SetType A, s.elems.Nodup →
      (l.foldl SetType.insert s).elems.Nodup ∧
        ∀ x, x ∈ (l.foldl SetType.insert s).elems ↔ (x ∈ s.elems ∨ x ∈ l) := by
  induction l with
  | nil =>
    intro s h
    simp [h]
  | cons a l ih =>
    intro s h
    obtain ⟨h1, h2⟩ := ih (s.insert a) (SetType.insert_nodup s a h)
    refine ⟨h1, ?_⟩
    intro x
    simp only [List.foldl_cons]
    rw [h2]
    have hm : x ∈ (s.insert a).elems ↔ (x ∈ s.elems ∨ x = a) := by
      unfold SetType.insert
      by_cases ha : a ∈ s.elems
      · rw [if_pos ha]
        constructor
        · exact Or.inl
        · rintro (e | e)
          · exact e
          · rw [e]; exact ha
      · rw [if_neg ha]
        simp
    rw [hm]
    simp only [List.mem_cons]
    tauto

theorem TablePruner.length_columns {Fn : Type} (p : TablePruner Fn) :
    p.columns.length = p.candidates.length := by
  simp [TablePruner.columns]

theorem TablePruner.map_fst_pairs {Fn : Type} (p : TablePruner Fn) :
    (p.candidates.zip p.columns).map Prod.fst = p.candidates :=
  List.map_fst_zip _ _ (by rw [TablePruner.length_columns])

theorem TablePruner.map_snd_pairs {Fn : Type} (p : TablePruner Fn) :
    (p.candidates.zip p.columns).map Prod.snd = p.columns :=
  List.map_snd_zip _ _ (by rw [TablePruner.length_columns])

/-- The loop variables of `initOutputs` at the end of its loop satisfy the
invariant for all candidates. -/
theorem TablePruner.outputsState_inv {Fn : Type} (p : TablePruner Fn)
    (hnodup : p.candidates.Nodup) :
    InitOutputsInv (p.candidates.zip p.columns) (p.candidates.zip p.columns) p.outputsState := by
  obtain ⟨h1, h2⟩ := SetType.foldl_insert_spec p.columns SetType.empty (by simp [SetType.empty])
  have hinit : InitOutputsInv (p.candidates.zip p.columns) []
      ⟨[], MapType.empty, MapType.empty, MapType.empty, 0,
        p.columns.foldl SetType.insert SetType.empty⟩ := by
    refine ⟨rfl, ?_, h1, ?_, rfl, ?_, ?_, rfl, rfl, ?_, rfl⟩
    · intro fv
      simp [MapType.find_empty]
    · intro fv hfv
      rw [TablePruner.map_snd_pairs] at hfv
      simp only [List.map_nil, List.not_mem_nil, not_false_eq_true, iff_true]
      exact (h2 fv).2 (Or.inr hfv)
    · intro q hq
      cases hq
    · intro c _
      exact MapType.find_empty c
    · intro pre1 q post1 hs
      simp at hs
  exact InitOutputsInv.loop (p.candidates.zip p.columns)
    (by rw [TablePruner.map_fst_pairs]; exact hnodup) (p.candidates.zip p.columns) [] _ rfl hinit

theorem TablePruner.columns_getElem {Fn : Type} (p : TablePruner Fn) (i : Nat)
    (hi2 : i < p.columns.length) :
    p.columns[i] = p.F.column i := by
  simp [TablePruner.columns]

theorem TablePruner.columns_getD {Fn : Type} (p : TablePruner Fn) (i : Nat)
    (hi : i < p.candidates.length) : p.columns.getD i [] = p.F.column i := by
  have hi2 : i < p.columns.length := by rw [TablePruner.length_columns]; exact hi
  rw [List.getD_eq_getElem _ _ hi2]
  exact TablePruner.columns_getElem p i hi2

theorem TablePruner.columns_take {Fn : Type} (p : TablePruner Fn) (i : Nat)
    (hi : i ≤ p.candidates.length) : p.columns.take i = (List.range i).map p.F.column := by
  unfold TablePruner.columns
  rw [← List.map_take, List.take_range, Nat.min_eq_left hi]

theorem TablePruner.column_mem_columns {Fn : Type} (p : TablePruner Fn) (i : Nat)
    (hi : i < p.candidates.length) : p.F.column i ∈ p.columns := by
  unfold TablePruner.columns
  exact List.mem_map.2 ⟨i, List.mem_range.2 hi, rfl⟩

theorem TablePruner.toFinset_columns_card {Fn : Type} (p : TablePruner Fn) :
    p.columns.toFinset.card = distinctColumns p.F p.candidates.length := rfl

/-- The entry `initOutputs` makes in the candidate map for the candidate with
index `i` is the first-seen code of its column. -/
theorem TablePruner.outputsState_candidateMap {Fn : Type} (p : TablePruner Fn)
    (hnodup : p.candidates.Nodup) (i : Nat) (hi : i < p.candidates.length) :
    p.outputsState.candidateMap.find (p.candidates[i]) =
      some (patternCode p.columns (p.F.column i)) := by
  have hinv := TablePruner.outputsState_inv p hnodup
  have hi2 : i < p.columns.length := by rw [TablePruner.length_columns]; exact hi
  have hi3 : i < (p.candidates.zip p.columns).length := by
    simp [List.length_zip, TablePruner.length_columns]; exact hi
  have hq := hinv.cmap_mem ((p.candidates.zip p.columns)[i]) (List.getElem_mem hi3)
  rw [TablePruner.map_snd_pairs] at hq
  simp only [List.getElem_zip] at hq
  rw [TablePruner.columns_getElem p i hi2] at hq
  exact hq

/-- The candidate map of `initOutputs` has entries for the candidates only. -/
theorem TablePruner.outputsState_candidateMap_none {Fn : Type} (p : TablePruner Fn)
    (hnodup : p.candidates.Nodup) (B : Subset) (hB : B ∉ p.candidates) :
    p.outputsState.candidateMap.find B = none := by
  have hinv := TablePruner.outputsState_inv p hnodup
  exact hinv.cmap_not_mem B (by rw [TablePruner.map_fst_pairs]; exact hB)

/-- The translation table of `initOutputs` maps the columns of the table, and
nothing else, to their first-seen codes. -/
theorem TablePruner.outputsState_lookupTable {Fn : Type} (p : TablePruner Fn)
    (hnodup : p.candidates.Nodup) (fv : List Nat) :
    p.outputsState.lookupTable.find fv =
      if fv ∈ p.columns then some (patternCode p.columns fv) else none := by
  have hinv := TablePruner.outputsState_inv p hnodup
  have := hinv.lookup fv
  rw [TablePruner.map_snd_pairs] at this
  exact this

theorem TablePruner.outputsState_counts {Fn : Type} (p : TablePruner Fn)
    (hnodup : p.candidates.Nodup) :
    p.outputsState.newReps.length = distinctColumns p.F p.candidates.length ∧
      p.outputsState.lookupTable.entries.length = distinctColumns p.F p.candidates.length ∧
      p.outputsState.newCache = p.outputsState.candidateMap := by
  have hinv := TablePruner.outputsState_inv p hnodup
  have h1 := hinv.nextIdx_eq
  rw [TablePruner.map_snd_pairs, TablePruner.toFinset_columns_card] at h1
  exact ⟨by rw [hinv.reps_length, h1], by rw [hinv.entries_length, h1], hinv.cache_eq⟩

/-- The representatives of `initOutputs` are the candidates whose column
differs from the column of every earlier candidate, in the order of the
candidates. -/
theorem TablePruner.outputsState_newReps {Fn : Type} (p : TablePruner Fn)
    (hnodup : p.candidates.Nodup) :
    p.outputsState.newReps =
      ((List.range p.candidates.length).filter
        (fun i => decide (∀ j, j < i → p.F.column j ≠ p.F.column i))).map
        (fun i => p.candidates.getD i []) := by
  have hinv := TablePruner.outputsState_inv p hnodup
  have h := hinv.reps_eq
  rw [TablePruner.map_snd_pairs, TablePruner.map_fst_pairs] at h
  have hlen : (p.candidates.zip p.columns).length = p.candidates.length := by
    simp [List.length_zip, TablePruner.length_columns]
  rw [hlen] at h
  rw [h]
  congr 1
  apply List.filter_congr
  intro i hi
  have hi1 : i < p.candidates.length := List.mem_range.1 hi
  rw [TablePruner.columns_getD p i hi1, TablePruner.columns_take p i (Nat.le_of_lt hi1)]
  apply decide_eq_decide.2
  simp only [List.mem_map, List.mem_range, not_exists, not_and]

end InitOutputs

/-! ## The table under `addGInvariant` -/

section TableShape

variable {Fn W E : Type}

theorem Table.resize_of_shape (rows : List (List Nat)) (c : Nat)
    (hrows : ∀ row ∈ rows, row.length = c) :
    ((Table.mk rows).resize (rows.length + 1) c).rows = rows ++ [List.replicate c 0] := by
  unfold Table.resize
  apply List.ext_getElem
  · simp
  · intro i h1 h2
    simp only [List.getElem_map, List.getElem_range]
    by_cases hi : i < rows.length
    · rw [List.getElem_append_left hi]
      have hlen : rows[i].length = c := hrows _ (List.getElem_mem hi)
      apply List.ext_getElem
      · simp [hlen]
      · intro j hj1 hj2
        simp only [List.getElem_map, List.getElem_range]
        rw [List.getD_eq_getElem _ _ hi, List.getD_eq_getElem _ _ hj2]
    · have hi2 : i = rows.length := by
        simp at h2
        omega
      subst hi2
      simp only [List.getElem_concat_length]
      apply List.ext_getElem
      · simp
      · intro j hj1 hj2
        simp [List.getD_eq_default]

theorem Table.writeRow_concat (rows : List (List Nat)) (last values : List Nat) :
    Table.writeRow (rows ++ [last]) rows.length values =
      rows ++ [Table.writeCells last values] := by
  induction rows with
  | nil => rfl
  | cons row rows ih => simp [Table.writeRow, ih]

theorem Table.writeCells_zeros (c : Nat) (values : List Nat) :
    Table.writeCells (List.replicate c 0) values =
      values ++ List.replicate (c - values.length) 0 := by
  unfold Table.writeCells
  simp

theorem TablePruner.length_evaluateAll (evaluate : W → Fn → Subset → Except E Nat × W) (fn : Fn)
    (Bs : List Subset) (w : W) : (TablePruner.evaluateAll evaluate fn Bs w).1.length = Bs.length := by
  induction Bs generalizing w with
  | nil => rfl
  | cons B Bs ih => simp [TablePruner.evaluateAll, ih]

theorem TablePruner.length_getAll_le (l : List (Except E Nat)) :
    (TablePruner.getAll l).1.length ≤ l.length := by
  induction l with
  | nil => simp [TablePruner.getAll]
  | cons x l ih =>
    cases x with
    | ok v => simp [TablePruner.getAll, ih]
    | error e => simp [TablePruner.getAll]

theorem TablePruner.length_getAll (l : List (Except E Nat))
    (h : (TablePruner.getAll l).2 = none) : (TablePruner.getAll l).1.length = l.length := by
  induction l with
  | nil => simp [TablePruner.getAll]
  | cons x l ih =>
    cases x with
    | ok v =>
      simp only [TablePruner.getAll] at h ⊢
      simp [ih h]
    | error e => simp [TablePruner.getAll] at h

/-- The row that `addGInvariant(fn)` leaves in the table for `fn`: the values
taken from the futures up to the first failure, and 0 in the cells behind. -/
theorem TablePruner.addGInvariant_table (evaluate : W → Fn → Subset → Except E Nat × W)
    (p : TablePruner Fn) (w : W) (fn : Fn) (hnot : p.ready = false) (hshape : p.TableShape) :
    (p.addGInvariant evaluate w fn).2.1.fns = p.fns ++ [fn] ∧
      (p.addGInvariant evaluate w fn).2.1.F.rows = p.F.rows ++
        [(TablePruner.getAll (TablePruner.evaluateAll evaluate fn p.candidates w).1).1 ++
          List.replicate (p.candidates.length -
            (TablePruner.getAll (TablePruner.evaluateAll evaluate fn p.candidates w).1).1.length)
            0] := by
  obtain ⟨h1, h2⟩ := hshape
  have hres : (p.F.resize (p.fns ++ [fn]).length p.candidates.length).rows =
      p.F.rows ++ [List.replicate p.candidates.length 0] := by
    have := Table.resize_of_shape p.F.rows p.candidates.length h2
    rw [h1] at this
    simpa using this
  have hrow : Table.writeRow (p.F.resize (p.fns ++ [fn]).length p.candidates.length).rows
      p.fns.length (TablePruner.getAll (TablePruner.evaluateAll evaluate fn p.candidates w).1).1 =
      p.F.rows ++
        [(TablePruner.getAll (TablePruner.evaluateAll evaluate fn p.candidates w).1).1 ++
          List.replicate (p.candidates.length -
            (TablePruner.getAll (TablePruner.evaluateAll evaluate fn p.candidates w).1).1.length)
            0] := by
    rw [hres, ← h1, Table.writeRow_concat, Table.writeCells_zeros]
  unfold TablePruner.addGInvariant
  simp only [hnot, Bool.false_eq_true, if_false]
  cases hg : (TablePruner.getAll (TablePruner.evaluateAll evaluate fn p.candidates w).1).2 with
  | some e => exact ⟨rfl, hrow⟩
  | none =>
    simp only []
    split <;> exact ⟨rfl, hrow⟩

end TableShape

/-! ## The getters of a ready pruner -/

section Getters

variable {Fn W E : Type}

theorem TablePruner.SameTable.refl (p : TablePruner Fn) : p.SameTable p :=
  ⟨rfl, rfl, rfl, rfl, rfl, rfl, rfl⟩

theorem TablePruner.SameTable.trans {p p1 p2 : TablePruner Fn} (h1 : p.SameTable p1)
    (h2 : p1.SameTable p2) : p.SameTable p2 := by
  obtain ⟨a1, a2, a3, a4, a5, a6, a7⟩ := h1
  obtain ⟨b1, b2, b3, b4, b5, b6, b7⟩ := h2
  exact ⟨b1.trans a1, b2.trans a2, b3.trans a3, b4.trans a4, b5.trans a5, b6.trans a6,
    b7.trans a7⟩

theorem TablePruner.SameTable.outputsState {p p1 : TablePruner Fn} (h : p.SameTable p1) :
    p1.outputsState = p.outputsState := by
  unfold TablePruner.outputsState TablePruner.columns
  rw [h.1, h.2.1]

theorem TablePruner.initOutputs_sameTable (p : TablePruner Fn) : p.SameTable p.initOutputs := by
  unfold TablePruner.initOutputs
  split <;> exact ⟨rfl, rfl, rfl, rfl, rfl, rfl, rfl⟩

theorem TablePruner.initOutputs_eq (p : TablePruner Fn) (hrho : p.rho ≠ 1) :
    p.initOutputs =
      { p with
        newReps := some p.outputsState.newReps,
        candidateMap := some p.outputsState.candidateMap,
        newPrunerData := some ⟨DiscriminatorPtr.Discriminator
          ⟨p.fns, p.outputsState.lookupTable, p.outputsState.newCache, none⟩, false⟩ } := by
  unfold TablePruner.initOutputs
  rw [if_neg hrho]
  rfl

theorem TablePruner.initOutputs_outputsSet (evaluate : W → Fn → Subset → Except E Nat × W)
    (p : TablePruner Fn) (hrho : p.rho ≠ 1) (hr : p.ready = true) (hnodup : p.candidates.Nodup) :
    p.initOutputs.OutputsSet evaluate p.outputsState.candidateMap
      ⟨p.fns, p.outputsState.lookupTable, p.outputsState.newCache, none⟩ := by
  have hs : p.initOutputs.outputsState = p.outputsState :=
    (TablePruner.initOutputs_sameTable p).outputsState
  have hst := TablePruner.initOutputs_sameTable p
  unfold TablePruner.OutputsSet
  rw [hs, hst.2.2.2.1, hst.2.2.1]
  refine ⟨hr, ?_, ?_, ?_, rfl, rfl, rfl, fun c v h => h, ?_, fun B v h => Or.inl h⟩
  · rw [TablePruner.initOutputs_eq p hrho]
  · rw [TablePruner.initOutputs_eq p hrho]
  · rw [TablePruner.initOutputs_eq p hrho]
  · intro B v h
    have hc := (TablePruner.outputsState_counts p hnodup).2.2
    rw [← hc]
    exact h

theorem TablePruner.ensure_outputs (evaluate : W → Fn → Subset → Except E Nat × W)
    (p : TablePruner Fn) (hc : p.Consistent evaluate) (hr : p.ready = true)
    (hnodup : p.candidates.Nodup) (b : Bool)
    (hb : b = p.newReps.isNone ∨ b = p.newPrunerData.isNone ∨ b = p.candidateMap.isNone) :
    p.SameTable (if b then p.initOutputs else p) ∧
      ∃ cm d, (if b then p.initOutputs else p).OutputsSet evaluate cm d := by
  rcases hc.2.2 with ⟨h1, h2, h3⟩ | ⟨cm, d, hset⟩
  · have hbt : b = true := by
      rw [h1, h2, h3] at hb
      simpa using hb
    subst hbt
    rw [if_pos rfl]
    exact ⟨TablePruner.initOutputs_sameTable p,
      _, _, TablePruner.initOutputs_outputsSet evaluate p hc.1 hr hnodup⟩
  · have hbf : b = false := by
      rw [hset.2.1, hset.2.2.1, hset.2.2.2.1] at hb
      simpa using hb
    subst hbf
    simp only [Bool.false_eq_true, if_false]
    exact ⟨TablePruner.SameTable.refl p, cm, d, hset⟩

theorem TablePruner.getNewReps_spec (evaluate : W → Fn → Subset → Except E Nat × W)
    (p : TablePruner Fn) (hc : p.Consistent evaluate) (hr : p.ready = true)
    (hnodup : p.candidates.Nodup) :
    (p.getNewReps (E := E)).1 = Except.ok p.outputsState.newReps ∧
      p.SameTable (p.getNewReps (E := E)).2 ∧
      ∃ cm d, (p.getNewReps (E := E)).2.OutputsSet evaluate cm d := by
  obtain ⟨hst, cm, d, hset⟩ :=
    TablePruner.ensure_outputs evaluate p hc hr hnodup p.newReps.isNone (Or.inl rfl)
  have hreps := hset.2.1
  rw [hst.outputsState] at hreps
  unfold TablePruner.getNewReps
  simp only [hr, Bool.not_true, Bool.false_eq_true, if_false]
  rw [hreps]
  exact ⟨rfl, hst, cm, d, hset⟩

theorem TablePruner.getNewData_spec (evaluate : W → Fn → Subset → Except E Nat × W)
    (p : TablePruner Fn) (hc : p.Consistent evaluate) (hr : p.ready = true)
    (hnodup : p.candidates.Nodup) :
    p.SameTable (p.getNewData (E := E)).2 ∧
      ∃ cm d, (p.getNewData (E := E)).2.OutputsSet evaluate cm d ∧
        (p.getNewData (E := E)).1 = Except.ok ⟨DiscriminatorPtr.Discriminator d, false⟩ := by
  obtain ⟨hst, cm, d, hset⟩ :=
    TablePruner.ensure_outputs evaluate p hc hr hnodup p.newPrunerData.isNone (Or.inr (Or.inl rfl))
  have hdata := hset.2.2.2.1
  unfold TablePruner.getNewData
  simp only [hr, Bool.not_true, Bool.false_eq_true, if_false]
  rw [hdata]
  exact ⟨hst, cm, d, hset, rfl⟩

/-- A subset that the candidate map holds is answered from the map: the
pruner and the state of the evaluation caches stay as they are, whatever the
evaluation function is. -/
theorem TablePruner.getColumn_cached (evaluate : W → Fn → Subset → Except E Nat × W)
    (p : TablePruner Fn) (w : W) (B : Subset) (cm : MapType Subset Nat) (v : Nat)
    (hr : p.ready = true) (hcm : p.candidateMap = some cm) (hf : cm.find B = some v) :
    p.getColumn evaluate w B = (Except.ok v, p, w) := by
  have hne : cm.count B ≠ 0 := (MapType.count_ne_zero_iff cm B).2 ⟨v, hf⟩
  obtain ⟨c1, c2, c3, c4, c5, c6, c7, c8, c9, c10⟩ := p
  simp only at hr hcm
  subst hr
  subst hcm
  unfold TablePruner.getColumn
  simp only [Bool.not_true, Bool.false_eq_true, if_false, Option.isNone_some, if_neg hne,
    MapType.index_of_find cm B v hf]

theorem Discriminator.evaluate_absent (evaluate : W → Fn → Subset → Except E Nat × W)
    (d : Discriminator Fn) (w : W) (B : Subset) (hf : d.currentCache.find B = none) :
    (d.evaluate evaluate w B).1 =
        (DiscriminatorEvaluationDelegate evaluate d.functions d.lookupTable w B).1 ∧
      (d.evaluate evaluate w B).2.2 =
        (DiscriminatorEvaluationDelegate evaluate d.functions d.lookupTable w B).2 ∧
      (d.evaluate evaluate w B).2.1.functions = d.functions ∧
      (d.evaluate evaluate w B).2.1.lookupTable = d.lookupTable ∧
      (d.evaluate evaluate w B).2.1.newCache = d.newCache ∧
      ((∃ e, (DiscriminatorEvaluationDelegate evaluate d.functions d.lookupTable w B).1 =
            Except.error e ∧
          (d.evaluate evaluate w B).2.1.currentCache = d.currentCache) ∨
        (∃ v, (DiscriminatorEvaluationDelegate evaluate d.functions d.lookupTable w B).1 =
            Except.ok v ∧
          (d.evaluate evaluate w B).2.1.currentCache = ⟨(B, v) :: d.currentCache.entries⟩)) := by
  have hentry : (match d.resultCache with
      | some m => m
      | none => d.newCache) = d.currentCache := rfl
  unfold Discriminator.evaluate
  simp only [hentry]
  cases hdel : DiscriminatorEvaluationDelegate evaluate d.functions d.lookupTable w B with
  | mk res w1 =>
    cases res with
    | error e =>
      rw [MapCache.query_absent_error _ ⟨d.currentCache, w⟩ B e w1 hf hdel]
      exact ⟨rfl, rfl, trivial, trivial, trivial, Or.inl ⟨e, rfl, rfl⟩⟩
    | ok v =>
      rw [MapCache.query_absent_ok _ ⟨d.currentCache, w⟩ B v w1 hf hdel]
      exact ⟨rfl, rfl, trivial, trivial, trivial, Or.inr ⟨v, rfl, rfl⟩⟩

theorem MapType.assign_index_absent {K : Type} [DecidableEq K] (m : MapType K Nat) (key : K)
    (v : Nat) (h : m.find key = none) :
    (m.assign key v).index key = (v, ⟨(key, v) :: m.entries⟩) := by
  have ha : m.assign key v = ⟨(key, v) :: m.entries⟩ := by
    unfold MapType.assign
    rw [h]
  rw [ha]
  apply MapType.index_of_find
  rw [MapType.find_cons, if_pos rfl]

/-- A subset that the candidate map does not hold is evaluated by the
evaluation delegate of the discriminator, and a value it returns is entered
in the candidate map. -/
theorem TablePruner.getColumn_fresh (evaluate : W → Fn → Subset → Except E Nat × W)
    (p : TablePruner Fn) (w : W) (B : Subset) (cm : MapType Subset Nat) (d : Discriminator Fn)
    (hset : p.OutputsSet evaluate cm d) (hf : cm.find B = none) :
    (p.getColumn evaluate w B).1 =
        (DiscriminatorEvaluationDelegate evaluate p.fns p.outputsState.lookupTable w B).1 ∧
      (p.getColumn evaluate w B).2.2 =
        (DiscriminatorEvaluationDelegate evaluate p.fns p.outputsState.lookupTable w B).2 ∧
      p.SameTable (p.getColumn evaluate w B).2.1 ∧
      ∃ cm1 d1, (p.getColumn evaluate w B).2.1.OutputsSet evaluate cm1 d1 ∧
        ∀ v, (DiscriminatorEvaluationDelegate evaluate p.fns p.outputsState.lookupTable w B).1 =
          Except.ok v → cm1.find B = some v := by
  obtain ⟨hr, hreps, hcm, hdata, hd1, hd2, hd3, hk1, hk2, hk3⟩ := hset
  have hcount : cm.count B = 0 := (MapType.count_eq_zero_iff cm B).2 hf
  have hdf : d.currentCache.find B = none := by
    cases hh : d.currentCache.find B with
    | none => rfl
    | some v =>
      have := hk2 B v hh
      rw [hf] at this
      exact absurd this (by simp)
  obtain ⟨e1, e2, e3, e4, e5, e6⟩ := Discriminator.evaluate_absent evaluate d w B hdf
  rw [hd1, hd2] at e1 e2 e6
  have hgc : p.getColumn evaluate w B =
      match d.evaluate evaluate w B with
      | (Except.error e, d1, w1) =>
        (Except.error e,
          { p with newPrunerData := some ⟨DiscriminatorPtr.Discriminator d1, false⟩ }, w1)
      | (Except.ok v, d1, w1) =>
        (Except.ok v,
          { p with
            newPrunerData := some ⟨DiscriminatorPtr.Discriminator d1, false⟩,
            candidateMap := some ⟨(B, v) :: cm.entries⟩ }, w1) := by
    unfold TablePruner.getColumn
    simp only [hr, Bool.not_true, Bool.false_eq_true, if_false, hcm, Option.isNone_some,
      if_pos hcount, hdata, DiscriminatorPtr.evaluate]
    generalize d.evaluate evaluate w B = t
    obtain ⟨r, d1, w1⟩ := t
    cases r with
    | error e => rfl
    | ok v => simp only [MapType.assign_index_absent cm B v hf]
  rw [hgc]
  generalize d.evaluate evaluate w B = t at e1 e2 e3 e4 e5 e6
  obtain ⟨r, d1, w1⟩ := t
  simp only at e1 e2 e3 e4 e5 e6
  cases r with
  | error e =>
    refine ⟨e1, e2, ⟨rfl, rfl, rfl, rfl, rfl, rfl, rfl⟩, cm, d1, ?_, ?_⟩
    · refine ⟨hr, hreps, hcm, rfl, e3.trans hd1, e4.trans hd2, e5.trans hd3, hk1, ?_, hk3⟩
      rcases e6 with ⟨e0, -, hcc⟩ | ⟨v, hv, -⟩
      · intro B2 v2 h2
        rw [hcc] at h2
        exact hk2 B2 v2 h2
      · rw [← e1] at hv
        cases hv
    · intro v hv
      rw [← e1] at hv
      cases hv
  | ok v =>
    refine ⟨e1, e2, ⟨rfl, rfl, rfl, rfl, rfl, rfl, rfl⟩, ⟨(B, v) :: cm.entries⟩, d1, ?_, ?_⟩
    · refine ⟨hr, hreps, rfl, rfl, e3.trans hd1, e4.trans hd2, e5.trans hd3, ?_, ?_, ?_⟩
      · intro c v2 h2
        have hc := hk1 c v2 h2
        have hne : B ≠ c := by
          intro hbc
          rw [hbc, hc] at hf
          cases hf
        rw [MapType.find_cons, if_neg hne]
        exact hc
      · rcases e6 with ⟨e0, hv, -⟩ | ⟨v0, hv, hcc⟩
        · rw [← e1] at hv
          cases hv
        · rw [← e1] at hv
          cases hv
          intro B2 v2 h2
          rw [hcc, MapType.find_cons] at h2
          rw [MapType.find_cons]
          by_cases hb : B = B2
          · rw [if_pos hb] at h2 ⊢
            exact h2
          · rw [if_neg hb] at h2 ⊢
            exact hk2 B2 v2 h2
      · intro B2 v2 h2
        rw [MapType.find_cons] at h2
        by_cases hb : B = B2
        · rw [if_pos hb] at h2
          cases h2
          subst hb
          exact Or.inr ⟨w, e1.symm⟩
        · rw [if_neg hb] at h2
          exact hk3 B2 v2 h2
    · intro v2 hv2
      rw [← e1] at hv2
      cases hv2
      rw [MapType.find_cons, if_pos rfl]

theorem TablePruner.getColumn_ensure (evaluate : W → Fn → Subset → Except E Nat × W)
    (p : TablePruner Fn) (w : W) (B : Subset) (hr : p.ready = true) :
    p.getColumn evaluate w B =
      (if p.candidateMap.isNone then p.initOutputs else p).getColumn evaluate w B := by
  cases hcm : p.candidateMap with
  | some cm => simp
  | none =>
    simp only [Option.isNone_none, if_true]
    have hr1 : p.initOutputs.ready = true := by
      rw [(TablePruner.initOutputs_sameTable p).2.2.2.1]; exact hr
    have hsome : p.initOutputs.candidateMap.isNone = false := by
      unfold TablePruner.initOutputs
      split <;> rfl
    unfold TablePruner.getColumn
    simp only [hr, hr1, Bool.not_true, Bool.false_eq_true, if_false, hcm, Option.isNone_none,
      if_true, hsome]

/-- What `getColumn(B)` does on a ready pruner: the outputs are initialised
afterwards and hold a returned value under `B`; for a subset that `initOutputs`
entered in the candidate map, the entered value is returned and nothing is
evaluated; for another subset, the answer is one that the evaluation delegate
of the discriminator gave for `B`. -/
theorem TablePruner.getColumn_spec (evaluate : W → Fn → Subset → Except E Nat × W)
    (p : TablePruner Fn) (w : W) (B : Subset) (hc : p.Consistent evaluate)
    (hr : p.ready = true) (hnodup : p.candidates.Nodup) :
    p.SameTable (p.getColumn evaluate w B).2.1 ∧
      (∃ cm1 d1, (p.getColumn evaluate w B).2.1.OutputsSet evaluate cm1 d1 ∧
        ∀ v, (p.getColumn evaluate w B).1 = Except.ok v → cm1.find B = some v) ∧
      (∀ v, p.outputsState.candidateMap.find B = some v →
        (p.getColumn evaluate w B).1 = Except.ok v ∧ (p.getColumn evaluate w B).2.2 = w) ∧
      (p.outputsState.candidateMap.find B = none →
        ∃ w1, (p.getColumn evaluate w B).1 =
          (DiscriminatorEvaluationDelegate evaluate p.fns p.outputsState.lookupTable w1 B).1) := by
  obtain ⟨hst, cm, d, hset⟩ :=
    TablePruner.ensure_outputs evaluate p hc hr hnodup p.candidateMap.isNone (Or.inr (Or.inr rfl))
  rw [TablePruner.getColumn_ensure evaluate p w B hr]
  generalize (if p.candidateMap.isNone then p.initOutputs else p) = p1 at hst hset
  have hos := hst.outputsState
  have hfns := hst.2.2.1
  cases hf : cm.find B with
  | some v =>
    rw [TablePruner.getColumn_cached evaluate p1 w B cm v hset.1 hset.2.2.1 hf]
    refine ⟨hst, ⟨cm, d, hset, ?_⟩, ?_, ?_⟩
    · intro v2 h2
      cases h2
      exact hf
    · intro v2 h2
      rw [← hos] at h2
      have := hset.2.2.2.2.2.2.2.1 B v2 h2
      rw [hf] at this
      cases this
      exact ⟨rfl, rfl⟩
    · intro hnone
      rcases hset.2.2.2.2.2.2.2.2.2 B v hf with h3 | ⟨w1, h3⟩
      · rw [hos, hnone] at h3
        cases h3
      · rw [hos, hfns] at h3
        exact ⟨w1, h3.symm⟩
  | none =>
    obtain ⟨g1, g2, g3, cm1, d1, g4, g5⟩ := TablePruner.getColumn_fresh evaluate p1 w B cm d hset hf
    rw [hos, hfns] at g1 g2 g5
    refine ⟨hst.trans g3, ⟨cm1, d1, g4, ?_⟩, ?_, ?_⟩
    · intro v hv
      rw [g1] at hv
      exact g5 v hv
    · intro v2 h2
      rw [← hos] at h2
      have := hset.2.2.2.2.2.2.2.1 B v2 h2
      rw [hf] at this
      cases this
    · intro _
      exact ⟨w, g1⟩

end Getters

/-! ## What every sequence of calls maintains -/

section Reachable

variable {Fn W E : Type}

theorem TablePruner.addGInvariant_ready (evaluate : W → Fn → Subset → Except E Nat × W)
    (p : TablePruner Fn) (w : W) (fn : Fn) (hr : p.ready = true) :
    p.addGInvariant evaluate w fn = (Except.ok (), p, w) := by
  unfold TablePruner.addGInvariant
  rw [if_pos hr]

theorem TablePruner.addGInvariant_fields (evaluate : W → Fn → Subset → Except E Nat × W)
    (p : TablePruner Fn) (w : W) (fn : Fn) :
    (p.addGInvariant evaluate w fn).2.1.candidates = p.candidates ∧
      (p.addGInvariant evaluate w fn).2.1.rho = p.rho ∧
      (p.addGInvariant evaluate w fn).2.1.k = p.k ∧
      (p.addGInvariant evaluate w fn).2.1.prunerData = p.prunerData ∧
      (p.addGInvariant evaluate w fn).2.1.newReps = p.newReps ∧
      (p.addGInvariant evaluate w fn).2.1.newPrunerData = p.newPrunerData ∧
      (p.addGInvariant evaluate w fn).2.1.candidateMap = p.candidateMap := by
  unfold TablePruner.addGInvariant
  by_cases hr : p.ready = true
  · rw [if_pos hr]
    exact ⟨rfl, rfl, rfl, rfl, rfl, rfl, rfl⟩
  · rw [if_neg hr]
    simp only []
    split
    · exact ⟨rfl, rfl, rfl, rfl, rfl, rfl, rfl⟩
    · split <;> exact ⟨rfl, rfl, rfl, rfl, rfl, rfl, rfl⟩

/-- The two ways `addGInvariant(fn)` ends on a pruner that is not ready: a
failure of an evaluation is raised again and the pruner stays not ready; or
all evaluations succeed, the call returns, and the pruner is ready if and only
if the table has `rho` different columns. -/
theorem TablePruner.addGInvariant_cases (evaluate : W → Fn → Subset → Except E Nat × W)
    (p : TablePruner Fn) (w : W) (fn : Fn) (hnot : p.ready = false) :
    (p.addGInvariant evaluate w fn).2.2 = (TablePruner.evaluateAll evaluate fn p.candidates w).2 ∧
    ((∃ e, (TablePruner.getAll (TablePruner.evaluateAll evaluate fn p.candidates w).1).2 = some e ∧
        (p.addGInvariant evaluate w fn).1 = Except.error e ∧
        (p.addGInvariant evaluate w fn).2.1.ready = false) ∨
      ((TablePruner.getAll (TablePruner.evaluateAll evaluate fn p.candidates w).1).2 = none ∧
        (p.addGInvariant evaluate w fn).1 = Except.ok () ∧
        ((p.addGInvariant evaluate w fn).2.1.ready = true ↔
          distinctColumns (p.addGInvariant evaluate w fn).2.1.F p.candidates.length = p.rho))) := by
  have hr : ¬ p.ready = true := by simp [hnot]
  unfold TablePruner.addGInvariant
  rw [if_neg hr]
  simp only []
  split
  · rename_i e hg
    exact ⟨rfl, Or.inl ⟨e, hg, rfl, hnot⟩⟩
  · rename_i hg
    simp only [TablePruner.columnSet_size]
    split
    · rename_i hsize
      exact ⟨rfl, Or.inr ⟨hg, rfl, ⟨fun _ => hsize, fun _ => rfl⟩⟩⟩
    · rename_i hsize
      refine ⟨rfl, Or.inr ⟨hg, rfl, ⟨fun h => ?_, fun h => absurd h hsize⟩⟩⟩
      exact absurd (hnot.symm.trans h) (by simp)

theorem TablePruner.addGInvariant_shape (evaluate : W → Fn → Subset → Except E Nat × W)
    (p : TablePruner Fn) (w : W) (fn : Fn) (hshape : p.TableShape) :
    (p.addGInvariant evaluate w fn).2.1.TableShape := by
  by_cases hr : p.ready = true
  · rw [TablePruner.addGInvariant_ready evaluate p w fn hr]
    exact hshape
  · have hnot : p.ready = false := by simpa using hr
    obtain ⟨h1, h2⟩ := TablePruner.addGInvariant_table evaluate p w fn hnot hshape
    have hc := (TablePruner.addGInvariant_fields evaluate p w fn).1
    unfold TablePruner.TableShape
    rw [h1, h2, hc]
    refine ⟨by simp [hshape.1], ?_⟩
    intro row hrow
    rcases List.mem_append.1 hrow with hrow | hrow
    · exact hshape.2 row hrow
    · have hle := TablePruner.length_getAll_le (TablePruner.evaluateAll evaluate fn p.candidates w).1
      rw [TablePruner.length_evaluateAll] at hle
      simp only [List.mem_singleton] at hrow
      subst hrow
      simp only [List.length_append, List.length_replicate]
      omega

theorem TablePruner.addGInvariant_consistent (evaluate : W → Fn → Subset → Except E Nat × W)
    (p : TablePruner Fn) (w : W) (fn : Fn) (hc : p.Consistent evaluate) :
    (p.addGInvariant evaluate w fn).2.1.Consistent evaluate := by
  by_cases hr : p.ready = true
  · rw [TablePruner.addGInvariant_ready evaluate p w fn hr]
    exact hc
  · have hnot : p.ready = false := by simpa using hr
    obtain ⟨f1, f2, f3, f4, f5, f6, f7⟩ := TablePruner.addGInvariant_fields evaluate p w fn
    refine ⟨by rw [f2]; exact hc.1, TablePruner.addGInvariant_shape evaluate p w fn hc.2.1, ?_⟩
    rcases hc.2.2 with ⟨h1, h2, h3⟩ | ⟨cm, d, hset⟩
    · exact Or.inl ⟨f5.trans h1, f7.trans h2, f6.trans h3⟩
    · rw [hset.1] at hnot
      cases hnot

theorem TablePruner.addGInvariant_readyByTable (evaluate : W → Fn → Subset → Except E Nat × W)
    (p : TablePruner Fn) (w : W) (fn : Fn) (h : p.ReadyByTable) :
    (p.addGInvariant evaluate w fn).2.1.ReadyByTable := by
  by_cases hr : p.ready = true
  · rw [TablePruner.addGInvariant_ready evaluate p w fn hr]
    exact h
  · have hnot : p.ready = false := by simpa using hr
    obtain ⟨f1, f2, -⟩ := TablePruner.addGInvariant_fields evaluate p w fn
    intro hready
    rw [f1, f2]
    rcases (TablePruner.addGInvariant_cases evaluate p w fn hnot).2 with
      ⟨e, -, -, hn⟩ | ⟨-, -, hiff⟩
    · rw [hn] at hready
      cases hready
    · exact hiff.1 hready

theorem TablePruner.Consistent.consistent_of_sameTable (evaluate : W → Fn → Subset → Except E Nat × W)
    {p p1 : TablePruner Fn} (hc : p.Consistent evaluate) (hst : p.SameTable p1)
    (hset : ∃ cm d, p1.OutputsSet evaluate cm d) : p1.Consistent evaluate := by
  obtain ⟨a1, a2, a3, a4, a5, a6, a7⟩ := hst
  refine ⟨by rw [a5]; exact hc.1, ?_, Or.inr hset⟩
  unfold TablePruner.TableShape
  rw [a1, a2, a3]
  exact hc.2.1

theorem TablePruner.ReadyByTable.readyByTable_of_sameTable {p p1 : TablePruner Fn} (h : p.ReadyByTable)
    (hst : p.SameTable p1) : p1.ReadyByTable := by
  obtain ⟨a1, a2, a3, a4, a5, a6, a7⟩ := hst
  unfold TablePruner.ReadyByTable
  rw [a1, a2, a4, a5]
  exact h

/-- Every call keeps the candidates and `rho`, keeps a ready pruner ready, and
maintains the consistency of the pruner. -/
theorem TablePruner.step_inv (evaluate : W → Fn → Subset → Except E Nat × W)
    (s : TablePruner Fn × W) (op : PrunerOp Fn) (hc : s.1.Consistent evaluate)
    (hnodup : s.1.candidates.Nodup) :
    (TablePruner.step evaluate s op).1.Consistent evaluate ∧
      (TablePruner.step evaluate s op).1.candidates = s.1.candidates ∧
      (TablePruner.step evaluate s op).1.rho = s.1.rho ∧
      (s.1.ReadyByTable → (TablePruner.step evaluate s op).1.ReadyByTable) ∧
      (s.1.ready = true → (TablePruner.step evaluate s op).1.ready = true) := by
  obtain ⟨p, w⟩ := s
  simp only at hc hnodup ⊢
  cases op with
  | addGInvariant fn =>
    obtain ⟨f1, f2, -⟩ := TablePruner.addGInvariant_fields evaluate p w fn
    refine ⟨TablePruner.addGInvariant_consistent evaluate p w fn hc, f1, f2,
      TablePruner.addGInvariant_readyByTable evaluate p w fn, ?_⟩
    intro hr
    show (p.addGInvariant evaluate w fn).2.1.ready = true
    rw [TablePruner.addGInvariant_ready evaluate p w fn hr]
    exact hr
  | getNewReps =>
    show ((p.getNewReps (E := E)).2).Consistent evaluate ∧ _
    by_cases hr : p.ready = true
    · obtain ⟨-, hst, hset⟩ := TablePruner.getNewReps_spec evaluate p hc hr hnodup
      exact ⟨hc.consistent_of_sameTable evaluate hst hset, hst.1, hst.2.2.2.2.1,
        fun h => h.readyByTable_of_sameTable hst, fun _ => hst.2.2.2.1.trans hr⟩
    · have hnot : p.ready = false := by simpa using hr
      have e : (p.getNewReps (E := E)).2 = p := by
        unfold TablePruner.getNewReps
        simp [hnot]
      simp only [TablePruner.step]
      rw [e]
      exact ⟨hc, rfl, rfl, fun h => h, fun h => h⟩
  | getNewData =>
    show ((p.getNewData (E := E)).2).Consistent evaluate ∧ _
    by_cases hr : p.ready = true
    · obtain ⟨hst, cm, d, hset, -⟩ := TablePruner.getNewData_spec evaluate p hc hr hnodup
      exact ⟨hc.consistent_of_sameTable evaluate hst ⟨cm, d, hset⟩, hst.1, hst.2.2.2.2.1,
        fun h => h.readyByTable_of_sameTable hst, fun _ => hst.2.2.2.1.trans hr⟩
    · have hnot : p.ready = false := by simpa using hr
      have e : (p.getNewData (E := E)).2 = p := by
        unfold TablePruner.getNewData
        simp [hnot]
      simp only [TablePruner.step]
      rw [e]
      exact ⟨hc, rfl, rfl, fun h => h, fun h => h⟩
  | getColumn B =>
    show ((p.getColumn evaluate w B).2.1).Consistent evaluate ∧ _
    by_cases hr : p.ready = true
    · obtain ⟨hst, ⟨cm, d, hset, -⟩, -⟩ := TablePruner.getColumn_spec evaluate p w B hc hr hnodup
      exact ⟨hc.consistent_of_sameTable evaluate hst ⟨cm, d, hset⟩, hst.1, hst.2.2.2.2.1,
        fun h => h.readyByTable_of_sameTable hst, fun _ => hst.2.2.2.1.trans hr⟩
    · have hnot : p.ready = false := by simpa using hr
      have e : p.getColumn evaluate w B = (Except.error Failure.PrunerNotReady, p, w) := by
        unfold TablePruner.getColumn
        simp [hnot]
      simp only [TablePruner.step]
      rw [e]
      exact ⟨hc, rfl, rfl, fun h => h, fun h => h⟩

theorem TablePruner.after_inv (evaluate : W → Fn → Subset → Except E Nat × W)
    (ops : List (PrunerOp Fn)) (p : TablePruner Fn) (w : W) (hc : p.Consistent evaluate)
    (hnodup : p.candidates.Nodup) :
    (TablePruner.after evaluate p w ops).1.Consistent evaluate ∧
      (TablePruner.after evaluate p w ops).1.candidates = p.candidates ∧
      (TablePruner.after evaluate p w ops).1.rho = p.rho ∧
      (p.ReadyByTable → (TablePruner.after evaluate p w ops).1.ReadyByTable) ∧
      (p.ready = true → (TablePruner.after evaluate p w ops).1.ready = true) := by
  induction ops generalizing p w with
  | nil => exact ⟨hc, rfl, rfl, fun h => h, fun h => h⟩
  | cons op ops ih =>
    obtain ⟨s1, s2, s3, s4, s5⟩ := TablePruner.step_inv evaluate (p, w) op hc hnodup
    have e : TablePruner.after evaluate p w (op :: ops) =
        TablePruner.after evaluate (TablePruner.step evaluate (p, w) op).1
          (TablePruner.step evaluate (p, w) op).2 ops := rfl
    rw [e]
    obtain ⟨i1, i2, i3, i4, i5⟩ := ih (TablePruner.step evaluate (p, w) op).1
      (TablePruner.step evaluate (p, w) op).2 s1 (by rw [s2]; exact hnodup)
    exact ⟨i1, i2.trans s2, i3.trans s3, fun h => i4 (s4 h), fun h => i5 (s5 h)⟩

theorem TablePruner.create_consistent (evaluate : W → Fn → Subset → Except E Nat × W)
    (candidates : List Subset) (k rho : Nat) (prunerData : Option (TablePrunerData Fn))
    (ready0 : Bool) (hrho : rho ≠ 1) :
    (TablePruner.create candidates k rho prunerData ready0).Consistent evaluate ∧
      (TablePruner.create candidates k rho prunerData ready0).candidates = candidates ∧
      (TablePruner.create candidates k rho prunerData ready0).rho = rho ∧
      (TablePruner.create candidates k rho prunerData ready0).ready = ready0 := by
  unfold TablePruner.create
  rw [if_neg hrho]
  refine ⟨⟨hrho, ⟨rfl, ?_⟩, Or.inl ⟨rfl, rfl, rfl⟩⟩, rfl, rfl, rfl⟩
  intro row hrow
  simp [Table.resize] at hrow

/-- The state after a sequence of calls on a newly constructed pruner with
`rho` other than 1 and pairwise different candidates. -/
theorem TablePruner.reachable_inv (evaluate : W → Fn → Subset → Except E Nat × W)
    (candidates : List Subset) (k rho : Nat) (prunerData : Option (TablePrunerData Fn))
    (ready0 : Bool) (w0 : W) (ops : List (PrunerOp Fn)) (hrho : rho ≠ 1)
    (hnodup : candidates.Nodup) :
    (TablePruner.after evaluate (TablePruner.create candidates k rho prunerData ready0) w0
        ops).1.Consistent evaluate ∧
      (TablePruner.after evaluate (TablePruner.create candidates k rho prunerData ready0) w0
        ops).1.candidates = candidates ∧
      (TablePruner.after evaluate (TablePruner.create candidates k rho prunerData ready0) w0
        ops).1.rho = rho ∧
      (ready0 = false →
        (TablePruner.after evaluate (TablePruner.create candidates k rho prunerData ready0) w0
          ops).1.ReadyByTable) := by
  obtain ⟨c1, c2, c3, c4⟩ :=
    TablePruner.create_consistent evaluate candidates k rho prunerData ready0 hrho
  obtain ⟨a1, a2, a3, a4, -⟩ := TablePruner.after_inv evaluate ops
    (TablePruner.create candidates k rho prunerData ready0) w0 c1 (by rw [c2]; exact hnodup)
  refine ⟨a1, a2.trans c2, a3.trans c3, ?_⟩
  intro h0
  apply a4
  intro hr
  rw [c4, h0] at hr
  cases hr

end Reachable

/-! ## Asking a pruner that is not ready -/

section NotReady

variable {Fn W E : Type}

theorem DiscriminatorEvaluationDelegate_ne_notReady
    (evaluate : W → Fn → Subset → Except E Nat × W) (fns : List Fn)
    (translator : MapType (List Nat) Nat) (w : W) (key : Subset) :
    (DiscriminatorEvaluationDelegate evaluate fns translator w key).1 ≠
      Except.error Failure.PrunerNotReady := by
  unfold DiscriminatorEvaluationDelegate
  split
  · simp
  · split <;> simp

theorem Discriminator.evaluate_ne_notReady (evaluate : W → Fn → Subset → Except E Nat × W)
    (d : Discriminator Fn) (w : W) (B : Subset) :
    (d.evaluate evaluate w B).1 ≠ Except.error Failure.PrunerNotReady := by
  have hentry : (match d.resultCache with
      | some m => m
      | none => d.newCache) = d.currentCache := rfl
  unfold Discriminator.evaluate
  simp only [hentry]
  cases hf : d.currentCache.find B with
  | some v =>
    rw [MapCache.query_present _ ⟨d.currentCache, w⟩ B v hf]
    simp
  | none =>
    have hne := DiscriminatorEvaluationDelegate_ne_notReady evaluate d.functions d.lookupTable w B
    cases hdel : DiscriminatorEvaluationDelegate evaluate d.functions d.lookupTable w B with
    | mk res w1 =>
      rw [hdel] at hne
      cases res with
      | error e =>
        rw [MapCache.query_absent_error _ ⟨d.currentCache, w⟩ B e w1 hf hdel]
        exact hne
      | ok v =>
        rw [MapCache.query_absent_ok _ ⟨d.currentCache, w⟩ B v w1 hf hdel]
        simp

theorem DiscriminatorPtr.ptr_evaluate_ne_notReady (evaluate : W → Fn → Subset → Except E Nat × W)
    (d : DiscriminatorPtr Fn) (w : W) (B : Subset) :
    (d.evaluate evaluate w B).1 ≠ Except.error Failure.PrunerNotReady := by
  cases d with
  | TrivialDiscriminator => simp [DiscriminatorPtr.evaluate]
  | Discriminator d0 => exact Discriminator.evaluate_ne_notReady evaluate d0 w B

theorem TablePruner.getColumn_ready_ne_notReady (evaluate : W → Fn → Subset → Except E Nat × W)
    (p : TablePruner Fn) (w : W) (B : Subset) (hr : p.ready = true) :
    (p.getColumn evaluate w B).1 ≠ Except.error Failure.PrunerNotReady := by
  unfold TablePruner.getColumn
  simp only [hr, Bool.not_true, Bool.false_eq_true, if_false]
  split
  · simp
  · split
    · split
      · simp
      · rename_i data hdata
        have hne := DiscriminatorPtr.ptr_evaluate_ne_notReady evaluate data.discriminator w B
        split
        · rename_i e d1 w1 heq
          rw [heq] at hne
          exact hne
        · simp
    · simp

end NotReady

/-- C14: each of `getNewReps()`, `getNewData()` and `getColumn(B)` fails with
`PrunerNotReady` if and only if the pruner is not ready, in every state of the
pruner; and on a pruner that is not ready each of the three calls returns the
pruner as it was (table, function list and outputs), and `getColumn` the
evaluation caches as they were. -/
theorem TablePruner.notReady_iff_PrunerNotReady {Fn W E : Type}
    (evaluate : W → Fn → Subset → Except E Nat × W) (p : TablePruner Fn) (w : W) (B : Subset) :
    ((p.getNewReps (E := E)).1 = Except.error Failure.PrunerNotReady ↔ p.ready = false) ∧
      ((p.getNewData (E := E)).1 = Except.error Failure.PrunerNotReady ↔ p.ready = false) ∧
      ((p.getColumn evaluate w B).1 = Except.error Failure.PrunerNotReady ↔ p.ready = false) ∧
      (p.ready = false →
        (p.getNewReps (E := E)).2 = p ∧ (p.getNewData (E := E)).2 = p ∧
          (p.getColumn evaluate w B).2 = (p, w)) := by
  cases hr : p.ready with
  | false =>
    have e1 : p.getNewReps (E := E) = (Except.error Failure.PrunerNotReady, p) := by
      unfold TablePruner.getNewReps
      simp [hr]
    have e2 : p.getNewData (E := E) = (Except.error Failure.PrunerNotReady, p) := by
      unfold TablePruner.getNewData
      simp [hr]
    have e3 : p.getColumn evaluate w B = (Except.error Failure.PrunerNotReady, p, w) := by
      unfold TablePruner.getColumn
      simp [hr]
    rw [e1, e2, e3]
    simp
  | true =>
    have n1 : (p.getNewReps (E := E)).1 ≠ Except.error Failure.PrunerNotReady := by
      unfold TablePruner.getNewReps
      simp only [hr, Bool.not_true, Bool.false_eq_true, if_false]
      split <;> simp
    have n2 : (p.getNewData (E := E)).1 ≠ Except.error Failure.PrunerNotReady := by
      unfold TablePruner.getNewData
      simp only [hr, Bool.not_true, Bool.false_eq_true, if_false]
      split <;> simp
    have n3 := TablePruner.getColumn_ready_ne_notReady evaluate p w B hr
    simp [n1, n2, n3]

/-! ## Readiness is never lost -/

section Monotone

variable {Fn W E S : Type}

theorem TablePruner.ensure_ready (p : TablePruner Fn) (b : Bool) :
    (if b then p.initOutputs else p).ready = p.ready := by
  cases b with
  | false => rfl
  | true => exact (TablePruner.initOutputs_sameTable p).2.2.2.1

theorem TablePruner.getNewReps_ready (p : TablePruner Fn) :
    (p.getNewReps (E := E)).2.ready = p.ready := by
  unfold TablePruner.getNewReps
  split
  · rfl
  · simp only []
    split <;> exact TablePruner.ensure_ready p _

theorem TablePruner.getNewData_ready (p : TablePruner Fn) :
    (p.getNewData (E := E)).2.ready = p.ready := by
  unfold TablePruner.getNewData
  split
  · rfl
  · simp only []
    split <;> exact TablePruner.ensure_ready p _

theorem TablePruner.getColumn_ready (evaluate : W → Fn → Subset → Except E Nat × W)
    (p : TablePruner Fn) (w : W) (B : Subset) :
    (p.getColumn evaluate w B).2.1.ready = p.ready := by
  unfold TablePruner.getColumn
  split
  · rfl
  · simp only []
    split
    · exact TablePruner.ensure_ready p _
    · split
      · split
        · exact TablePruner.ensure_ready p _
        · split <;> exact TablePruner.ensure_ready p _
      · exact TablePruner.ensure_ready p _

theorem TablePruner.step_ready (evaluate : W → Fn → Subset → Except E Nat × W)
    (s : TablePruner Fn × W) (op : PrunerOp Fn) (hr : s.1.ready = true) :
    (TablePruner.step evaluate s op).1.ready = true := by
  obtain ⟨p, w⟩ := s
  cases op with
  | addGInvariant fn =>
    show (p.addGInvariant evaluate w fn).2.1.ready = true
    rw [TablePruner.addGInvariant_ready evaluate p w fn hr]
    exact hr
  | getNewReps => exact (TablePruner.getNewReps_ready p).trans hr
  | getNewData => exact (TablePruner.getNewData_ready p).trans hr
  | getColumn B => exact (TablePruner.getColumn_ready evaluate p w B).trans hr

theorem TablePruner.after_ready (evaluate : W → Fn → Subset → Except E Nat × W)
    (ops : List (PrunerOp Fn)) (p : TablePruner Fn) (w : W) (hr : p.ready = true) :
    (TablePruner.after evaluate p w ops).1.ready = true := by
  induction ops generalizing p w with
  | nil => exact hr
  | cons op ops ih =>
    exact ih (TablePruner.step evaluate (p, w) op).1 (TablePruner.step evaluate (p, w) op).2
      (TablePruner.step_ready evaluate (p, w) op hr)

theorem TablePruner.pruneLoop_ready (evaluate : W → Fn → Subset → Except E Nat × W)
    (createNewGInvariant : S → Nat → Fn × S) (fuel : Nat) (it : List Fn) (p : TablePruner Fn)
    (w : W) (s : S) (hr : p.ready = true) :
    TablePruner.pruneLoop evaluate createNewGInvariant fuel it p w s =
      some (Except.ok (), p, w, s) := by
  unfold TablePruner.pruneLoop
  rw [if_pos hr]

end Monotone

/-- C20: readiness is monotone. On a ready pruner, `addGInvariant(fn)` returns
at once and leaves the pruner ready, with the table `F` and the function list
`fns` as they were; `getNewReps()`, `getNewData()` and `getColumn(B)` leave it
ready; `prune()` returns at once, whatever the strategy and the bound on its
loop, with the pruner as it was; and the pruner is ready after every sequence
of calls of `addGInvariant`, `getNewReps`, `getNewData` and `getColumn`. -/
theorem TablePruner.ready_monotone {Fn W E S : Type}
    (evaluate : W → Fn → Subset → Except E Nat × W)
    (createInitialGInvariants : S → Nat → TablePrunerData Fn → List Fn × S)
    (createNewGInvariant : S → Nat → Fn × S) (p : TablePruner Fn) (w : W) (s : S) (fuel : Nat)
    (fn : Fn) (B : Subset) (ops : List (PrunerOp Fn)) (hr : p.ready = true) :
    (p.addGInvariant evaluate w fn).2.1.ready = true ∧
      (p.addGInvariant evaluate w fn).2.1.F = p.F ∧
      (p.addGInvariant evaluate w fn).2.1.fns = p.fns ∧
      (p.getNewReps (E := E)).2.ready = true ∧
      (p.getNewData (E := E)).2.ready = true ∧
      (p.getColumn evaluate w B).2.1.ready = true ∧
      (∃ s1, p.prune evaluate createInitialGInvariants createNewGInvariant fuel w s =
        some (Except.ok (), p, w, s1)) ∧
      (TablePruner.after evaluate p w ops).1.ready = true := by
  refine ⟨?_, ?_, ?_, (TablePruner.getNewReps_ready p).trans hr,
    (TablePruner.getNewData_ready p).trans hr,
    (TablePruner.getColumn_ready evaluate p w B).trans hr, ?_,
    TablePruner.after_ready evaluate ops p w hr⟩
  · rw [TablePruner.addGInvariant_ready evaluate p w fn hr]
    exact hr
  · rw [TablePruner.addGInvariant_ready evaluate p w fn hr]
  · rw [TablePruner.addGInvariant_ready evaluate p w fn hr]
  · unfold TablePruner.prune
    cases p.prunerData with
    | none => exact ⟨s, TablePruner.pruneLoop_ready evaluate createNewGInvariant fuel [] p w s hr⟩
    | some data =>
      exact ⟨(createInitialGInvariants s p.k data).2,
        TablePruner.pruneLoop_ready evaluate createNewGInvariant fuel _ p w _ hr⟩

/-- C20, on the pruner for the three candidates with `rho = 2`, which is ready
after one function: it is ready after three further calls, and adding a second
function leaves the table as it is. -/
theorem TablePruner.ready_monotone_witness :
    ((TablePruner.after exampleEvaluate (TablePruner.create exampleCandidates 2 2 none false) ()
          [PrunerOp.addGInvariant 0]).1.addGInvariant exampleEvaluate () 1).2.1.F =
        (TablePruner.after exampleEvaluate (TablePruner.create exampleCandidates 2 2 none false) ()
          [PrunerOp.addGInvariant 0]).1.F ∧
      (TablePruner.after exampleEvaluate
        (TablePruner.after exampleEvaluate (TablePruner.create exampleCandidates 2 2 none false) ()
          [PrunerOp.addGInvariant 0]).1 ()
        [PrunerOp.addGInvariant 1, PrunerOp.getColumn [0, 7], PrunerOp.getNewReps]).1.ready =
        true :=
  ⟨(TablePruner.ready_monotone exampleEvaluate
      (fun (s : Unit) (_ : Nat) (_ : TablePrunerData Nat) => (([] : List Nat), s))
      (fun (s : Unit) (k : Nat) => (k, s))
      (TablePruner.after exampleEvaluate (TablePruner.create exampleCandidates 2 2 none false) ()
        [PrunerOp.addGInvariant 0]).1 () () 0 1 [0, 7]
      [PrunerOp.addGInvariant 1, PrunerOp.getColumn [0, 7], PrunerOp.getNewReps]
      (by decide)).2.1,
    by decide⟩

/-! ## The shape of the table in every reachable state -/

section ReachableShape

variable {Fn W E : Type}

theorem TablePruner.ensure_sameTable (p : TablePruner Fn) (b : Bool) :
    p.SameTable (if b then p.initOutputs else p) := by
  cases b with
  | false => exact TablePruner.SameTable.refl p
  | true => exact TablePruner.initOutputs_sameTable p

theorem TablePruner.getNewReps_sameTable (p : TablePruner Fn) :
    p.SameTable (p.getNewReps (E := E)).2 := by
  unfold TablePruner.getNewReps
  split
  · exact TablePruner.SameTable.refl p
  · simp only []
    split <;> exact TablePruner.ensure_sameTable p _

theorem TablePruner.getNewData_sameTable (p : TablePruner Fn) :
    p.SameTable (p.getNewData (E := E)).2 := by
  unfold TablePruner.getNewData
  split
  · exact TablePruner.SameTable.refl p
  · simp only []
    split <;> exact TablePruner.ensure_sameTable p _

theorem TablePruner.getColumn_sameTable (evaluate : W → Fn → Subset → Except E Nat × W)
    (p : TablePruner Fn) (w : W) (B : Subset) :
    p.SameTable (p.getColumn evaluate w B).2.1 := by
  unfold TablePruner.getColumn
  split
  · exact TablePruner.SameTable.refl p
  · simp only []
    split
    · exact TablePruner.ensure_sameTable p _
    · split
      · split
        · exact TablePruner.ensure_sameTable p _
        · split <;> exact TablePruner.ensure_sameTable p _
      · exact TablePruner.ensure_sameTable p _

theorem TablePruner.TableShape.tableShape_of_sameTable {p p1 : TablePruner Fn} (h : p.TableShape)
    (hst : p.SameTable p1) : p1.TableShape := by
  obtain ⟨a1, a2, a3, -⟩ := hst
  unfold TablePruner.TableShape
  rw [a1, a2, a3]
  exact h

theorem TablePruner.step_shape (evaluate : W → Fn → Subset → Except E Nat × W)
    (s : TablePruner Fn × W) (op : PrunerOp Fn) (h : s.1.TableShape) :
    (TablePruner.step evaluate s op).1.TableShape ∧
      (TablePruner.step evaluate s op).1.candidates = s.1.candidates := by
  obtain ⟨p, w⟩ := s
  cases op with
  | addGInvariant fn =>
    exact ⟨TablePruner.addGInvariant_shape evaluate p w fn h,
      (TablePruner.addGInvariant_fields evaluate p w fn).1⟩
  | getNewReps =>
    exact ⟨h.tableShape_of_sameTable (TablePruner.getNewReps_sameTable p),
      (TablePruner.getNewReps_sameTable p).1⟩
  | getNewData =>
    exact ⟨h.tableShape_of_sameTable (TablePruner.getNewData_sameTable p),
      (TablePruner.getNewData_sameTable p).1⟩
  | getColumn B =>
    exact ⟨h.tableShape_of_sameTable (TablePruner.getColumn_sameTable evaluate p w B),
      (TablePruner.getColumn_sameTable evaluate p w B).1⟩

theorem TablePruner.after_shape (evaluate : W → Fn → Subset → Except E Nat × W)
    (ops : List (PrunerOp Fn)) (p : TablePruner Fn) (w : W) (h : p.TableShape) :
    (TablePruner.after evaluate p w ops).1.TableShape ∧
      (TablePruner.after evaluate p w ops).1.candidates = p.candidates := by
  induction ops generalizing p w with
  | nil => exact ⟨h, rfl⟩
  | cons op ops ih =>
    obtain ⟨s1, s2⟩ := TablePruner.step_shape evaluate (p, w) op h
    obtain ⟨i1, i2⟩ := ih (TablePruner.step evaluate (p, w) op).1
      (TablePruner.step evaluate (p, w) op).2 s1
    exact ⟨i1, i2.trans s2⟩

/-- In every state reached by calls on a newly constructed pruner, the table
has one row for each function of the list and one cell for each candidate in
every row, and the candidates are those of the construction. -/
theorem TablePruner.reachable_shape (evaluate : W → Fn → Subset → Except E Nat × W)
    (candidates : List Subset) (k rho : Nat) (prunerData : Option (TablePrunerData Fn))
    (ready0 : Bool) (w0 : W) (ops : List (PrunerOp Fn)) :
    (TablePruner.after evaluate (TablePruner.create candidates k rho prunerData ready0) w0
        ops).1.TableShape ∧
      (TablePruner.after evaluate (TablePruner.create candidates k rho prunerData ready0) w0
        ops).1.candidates = candidates := by
  have h0 : (TablePruner.create candidates k rho prunerData ready0).TableShape ∧
      (TablePruner.create candidates k rho prunerData ready0).candidates = candidates := by
    unfold TablePruner.create
    split
    · exact ⟨⟨rfl, fun row hrow => by simp at hrow⟩, rfl⟩
    · exact ⟨⟨rfl, fun row hrow => by simp [Table.resize] at hrow⟩, rfl⟩
  obtain ⟨a1, a2⟩ := TablePruner.after_shape evaluate ops
    (TablePruner.create candidates k rho prunerData ready0) w0 h0.1
  exact ⟨a1, a2.trans h0.2⟩

theorem TablePruner.getAll_split (l : List (Except E Nat)) :
    (∃ e rest, l = (TablePruner.getAll l).1.map Except.ok ++ Except.error e :: rest ∧
        (TablePruner.getAll l).2 = some e) ∨
      (l = (TablePruner.getAll l).1.map Except.ok ∧ (TablePruner.getAll l).2 = none) := by
  induction l with
  | nil => exact Or.inr ⟨rfl, rfl⟩
  | cons x l ih =>
    cases x with
    | error e => exact Or.inl ⟨e, l, rfl, rfl⟩
    | ok v =>
      rcases ih with ⟨e, rest, h1, h2⟩ | ⟨h1, h2⟩
      · refine Or.inl ⟨e, rest, ?_, h2⟩
        simp only [TablePruner.getAll, List.map_cons, List.cons_append]
        rw [← h1]
      · refine Or.inr ⟨?_, h2⟩
        simp only [TablePruner.getAll, List.map_cons]
        rw [← h1]

theorem TablePruner.getAll_map_ok (vals : List Nat) :
    TablePruner.getAll (vals.map (Except.ok : Nat → Except E Nat)) = (vals, none) := by
  induction vals with
  | nil => rfl
  | cons v vals ih => simp [TablePruner.getAll, ih]

theorem Table.column_concat (rows : List (List Nat)) (row : List Nat) (i : Nat) :
    (Table.mk (rows ++ [row])).column i = (Table.mk rows).column i ++ [row.getD i 0] := by
  simp [Table.column]

end ReachableShape

/-- C19: on a pruner that is not ready, in a state reached by calls on a
newly constructed pruner, a successful `addGInvariant(fn)` appends `fn` to the
function list and one row to the table `F`: both lengths grow by one, the rows
added before are unchanged, the candidate list is unchanged, every row has one
cell for each candidate, and column `i` of the table is the earlier column `i`
followed by the cell `i` of the new row. -/
theorem TablePruner.addGInvariant_adds_row {Fn W E : Type}
    (evaluate : W → Fn → Subset → Except E Nat × W) (candidates : List Subset) (k rho : Nat)
    (prunerData : Option (TablePrunerData Fn)) (ready0 : Bool) (w0 : W)
    (ops : List (PrunerOp Fn)) (p : TablePruner Fn) (w : W) (fn : Fn)
    (hreach : p = (TablePruner.after evaluate
      (TablePruner.create candidates k rho prunerData ready0) w0 ops).1)
    (hnot : p.ready = false) (hok : (p.addGInvariant evaluate w fn).1 = Except.ok ()) :
    ∃ row : List Nat, row.length = candidates.length ∧
      (p.addGInvariant evaluate w fn).2.1.F.rows = p.F.rows ++ [row] ∧
      (p.addGInvariant evaluate w fn).2.1.fns = p.fns ++ [fn] ∧
      (p.addGInvariant evaluate w fn).2.1.F.rows.length = p.F.rows.length + 1 ∧
      (p.addGInvariant evaluate w fn).2.1.fns.length = p.fns.length + 1 ∧
      (p.addGInvariant evaluate w fn).2.1.candidates = candidates ∧
      p.candidates = candidates ∧
      (∀ r ∈ (p.addGInvariant evaluate w fn).2.1.F.rows, r.length = candidates.length) ∧
      ∀ i, (p.addGInvariant evaluate w fn).2.1.F.column i = p.F.column i ++ [row.getD i 0] := by
  obtain ⟨hshape, hcands⟩ :=
    TablePruner.reachable_shape evaluate candidates k rho prunerData ready0 w0 ops
  rw [← hreach] at hshape hcands
  obtain ⟨t1, t2⟩ := TablePruner.addGInvariant_table evaluate p w fn hnot hshape
  have hc := (TablePruner.addGInvariant_fields evaluate p w fn).1
  have hnone : (TablePruner.getAll (TablePruner.evaluateAll evaluate fn p.candidates w).1).2 =
      none := by
    rcases (TablePruner.addGInvariant_cases evaluate p w fn hnot).2 with
      ⟨e, -, he, -⟩ | ⟨hn, -, -⟩
    · rw [he] at hok
      cases hok
    · exact hn
  have hlen := TablePruner.length_getAll _ hnone
  rw [TablePruner.length_evaluateAll] at hlen
  rw [hlen, Nat.sub_self, List.replicate_zero, List.append_nil] at t2
  have hshape2 := TablePruner.addGInvariant_shape evaluate p w fn hshape
  refine ⟨_, hlen.trans (congrArg List.length hcands), t2, t1, ?_, ?_, hc.trans hcands, hcands,
    ?_, ?_⟩
  · rw [t2]
    simp
  · rw [t1]
    simp
  · intro r hr
    rw [← hcands, ← hc]
    exact hshape2.2 r hr
  · intro i
    have e : (p.addGInvariant evaluate w fn).2.1.F =
        Table.mk (p.F.rows ++
          [(TablePruner.getAll (TablePruner.evaluateAll evaluate fn p.candidates w).1).1]) := by
      rw [← t2]
    rw [e, Table.column_concat]

/-- C19, on the three candidates with `rho = 3`, after a first function that
tells only two of them apart: adding a second function succeeds and appends
the row of its values. -/
theorem TablePruner.addGInvariant_adds_row_witness :
    (TablePruner.after exampleEvaluate (TablePruner.create exampleCandidates 2 3 none false) ()
        [PrunerOp.addGInvariant 0]).1.ready = false ∧
      ∃ row : List Nat, row.length = exampleCandidates.length ∧
        ((TablePruner.after exampleEvaluate (TablePruner.create exampleCandidates 2 3 none false)
            () [PrunerOp.addGInvariant 0]).1.addGInvariant exampleEvaluate () 1).2.1.F.rows =
          (TablePruner.after exampleEvaluate (TablePruner.create exampleCandidates 2 3 none false)
            () [PrunerOp.addGInvariant 0]).1.F.rows ++ [row] :=
  ⟨by decide,
    (TablePruner.addGInvariant_adds_row exampleEvaluate exampleCandidates 2 3 none false ()
      [PrunerOp.addGInvariant 0]
      (TablePruner.after exampleEvaluate (TablePruner.create exampleCandidates 2 3 none false) ()
        [PrunerOp.addGInvariant 0]).1 () 1 rfl (by decide) (by decide)).imp
      (fun _ h => ⟨h.1, h.2.1⟩)⟩

/-- C15 fails on the code: on the newly constructed pruner for the three
candidates with `rho = 3`, the evaluation of the function 1 fails on the second
candidate. `addGInvariant` raises the failure, and afterwards the function list
holds the function and the table holds a row for it, with the value 1 of the
first candidate and 0 in the two other cells, where both were empty before. -/
theorem TablePruner.addGInvariant_failure_not_rolled_back :
    (TablePruner.create exampleCandidates 2 3 (none : Option (TablePrunerData Nat)) false).ready =
        false ∧
      (TablePruner.create exampleCandidates 2 3 (none : Option (TablePrunerData Nat)) false).fns =
        [] ∧
      (TablePruner.create exampleCandidates 2 3 (none : Option (TablePrunerData Nat)) false).F.rows =
        [] ∧
      ((TablePruner.create exampleCandidates 2 3 none false).addGInvariant exampleFailing () 1).1 =
        Except.error 500 ∧
      ((TablePruner.create exampleCandidates 2 3 none false).addGInvariant exampleFailing ()
        1).2.1.fns = [1] ∧
      ((TablePruner.create exampleCandidates 2 3 none false).addGInvariant exampleFailing ()
        1).2.1.F.rows = [[1, 0, 0]] := by
  decide

/-- C15, as the code has it: on a pruner that is not ready, in a state
reached by calls on a newly constructed pruner, when the evaluation of `fn`
fails on a candidate, `addGInvariant(fn)` raises the failure of the first such
candidate in the order of the candidates; the pruner stays not ready and its
outputs stay as they were, but `fn` has been appended to the function list and
the table has a new row for `fn`, which holds the values of the candidates
before the failing one and 0 from there on; the rows added before are
unchanged. -/
theorem TablePruner.addGInvariant_failure {Fn W E : Type}
    (evaluate : W → Fn → Subset → Except E Nat × W) (candidates : List Subset) (k rho : Nat)
    (prunerData : Option (TablePrunerData Fn)) (ready0 : Bool) (w0 : W)
    (ops : List (PrunerOp Fn)) (p : TablePruner Fn) (w : W) (fn : Fn)
    (hreach : p = (TablePruner.after evaluate
      (TablePruner.create candidates k rho prunerData ready0) w0 ops).1)
    (hnot : p.ready = false)
    (hfail : ∃ e, Except.error e ∈ (TablePruner.evaluateAll evaluate fn p.candidates w).1) :
    ∃ (vals : List Nat) (e : E) (rest : List (Except E Nat)),
      (TablePruner.evaluateAll evaluate fn p.candidates w).1 =
        vals.map Except.ok ++ Except.error e :: rest ∧
      (p.addGInvariant evaluate w fn).1 = Except.error e ∧
      (p.addGInvariant evaluate w fn).2.1.ready = false ∧
      (p.addGInvariant evaluate w fn).2.1.fns = p.fns ++ [fn] ∧
      (p.addGInvariant evaluate w fn).2.1.F.rows =
        p.F.rows ++ [vals ++ List.replicate (candidates.length - vals.length) 0] ∧
      vals.length < candidates.length ∧
      (p.addGInvariant evaluate w fn).2.1.newReps = p.newReps ∧
      (p.addGInvariant evaluate w fn).2.1.newPrunerData = p.newPrunerData ∧
      (p.addGInvariant evaluate w fn).2.1.candidateMap = p.candidateMap := by
  obtain ⟨hshape, hcands⟩ :=
    TablePruner.reachable_shape evaluate candidates k rho prunerData ready0 w0 ops
  rw [← hreach] at hshape hcands
  obtain ⟨t1, t2⟩ := TablePruner.addGInvariant_table evaluate p w fn hnot hshape
  obtain ⟨-, -, -, -, f5, f6, f7⟩ := TablePruner.addGInvariant_fields evaluate p w fn
  have hlen := TablePruner.length_evaluateAll evaluate fn p.candidates w
  rcases TablePruner.getAll_split (TablePruner.evaluateAll evaluate fn p.candidates w).1 with
    ⟨e, rest, h1, h2⟩ | ⟨h1, h2⟩
  · rcases (TablePruner.addGInvariant_cases evaluate p w fn hnot).2 with
      ⟨e2, he2, hres, hr⟩ | ⟨hn, -, -⟩
    · rw [h2] at he2
      cases he2
      refine ⟨_, e, rest, h1, hres, hr, t1, ?_, ?_, f5, f6, f7⟩
      · rw [← hcands]
        exact t2
      · rw [← hcands, ← hlen]
        have := congrArg List.length h1
        simp only [List.length_append, List.length_map, List.length_cons] at this
        omega
    · rw [h2] at hn
      cases hn
  · obtain ⟨e, he⟩ := hfail
    rw [h1] at he
    simp at he

/-- C15 as amended, on the newly constructed pruner for the three candidates
with `rho = 3` and the function 1, whose evaluation fails on the second
candidate. -/
theorem TablePruner.addGInvariant_failure_witness :
    ∃ (vals : List Nat) (e : Nat) (rest : List (Except Nat Nat)),
      (TablePruner.evaluateAll exampleFailing 1
          (TablePruner.create exampleCandidates 2 3 (none : Option (TablePrunerData Nat))
            false).candidates ()).1 =
        vals.map Except.ok ++ Except.error e :: rest ∧
      ((TablePruner.create exampleCandidates 2 3 none false).addGInvariant exampleFailing ()
        1).1 = Except.error e ∧
      ((TablePruner.create exampleCandidates 2 3 none false).addGInvariant exampleFailing ()
        1).2.1.ready = false :=
  (TablePruner.addGInvariant_failure exampleFailing exampleCandidates 2 3 none false () []
    (TablePruner.create exampleCandidates 2 3 none false) () 1 rfl (by decide)
    ⟨500, by decide⟩).imp
    (fun _ h => h.imp (fun _ h2 => h2.imp (fun _ h3 => ⟨h3.1, h3.2.1, h3.2.2.1⟩)))

section Duplicate

theorem Table.column_getD (rows : List (List Nat)) (i t : Nat) (ht : t < rows.length) :
    ((Table.mk rows).column i).getD t 0 = (rows.getD t []).getD i 0 := by
  unfold Table.column
  have ht2 : t < (rows.map (fun row => row.getD i 0)).length := by simpa using ht
  rw [List.getD_eq_getElem _ _ ht2, List.getD_eq_getElem _ _ ht]
  simp

theorem toFinset_map_range {A : Type} [DecidableEq A] (f : Nat → A) (n : Nat) :
    ((List.range n).map f).toFinset = (Finset.range n).image f := by
  ext x
  simp

/-- A new row that gives equal cells to the candidates to which a row of the
table gives equal cells leaves the number of different columns as it is. -/
theorem distinctColumns_concat (rows : List (List Nat)) (vals : List Nat) (n t : Nat)
    (ht : t < rows.length)
    (hrel : ∀ i, i < n → ∀ j, j < n →
      (rows.getD t []).getD i 0 = (rows.getD t []).getD j 0 → vals.getD i 0 = vals.getD j 0) :
    distinctColumns (Table.mk (rows ++ [vals])) n = distinctColumns (Table.mk rows) n := by
  unfold distinctColumns
  rw [toFinset_map_range, toFinset_map_range]
  have himg : (Finset.range n).image (Table.mk rows).column =
      ((Finset.range n).image (Table.mk (rows ++ [vals])).column).image List.dropLast := by
    rw [Finset.image_image]
    apply Finset.image_congr
    intro i _
    simp [Table.column_concat]
  rw [himg]
  symm
  apply Finset.card_image_of_injOn
  intro x hx y hy hxy
  simp only [Finset.coe_image, Finset.coe_range, Set.mem_image, Set.mem_Iio] at hx hy
  obtain ⟨i, hi, rfl⟩ := hx
  obtain ⟨j, hj, rfl⟩ := hy
  rw [Table.column_concat, Table.column_concat] at hxy ⊢
  simp only [List.dropLast_concat] at hxy
  have hcell : (rows.getD t []).getD i 0 = (rows.getD t []).getD j 0 := by
    rw [← Table.column_getD rows i t ht, ← Table.column_getD rows j t ht, hxy]
  rw [hxy, hrel i hi j hj hcell]

end Duplicate

/-- C16: on a pruner that is not ready, in a state reached by calls on a newly
constructed pruner, let the evaluations of `fn` on the candidates return the
codes `vals`, and let row `t` of the table, the row of a function added before,
be such that candidates with equal codes in row `t` have equal codes in `vals`,
as is the case when `fn` is equal to that function. Then `addGInvariant(fn)`
returns without a failure, and the table has as many different columns after
the call as before. -/
theorem TablePruner.addGInvariant_duplicate {Fn W E : Type}
    (evaluate : W → Fn → Subset → Except E Nat × W) (candidates : List Subset) (k rho : Nat)
    (prunerData : Option (TablePrunerData Fn)) (ready0 : Bool) (w0 : W)
    (ops : List (PrunerOp Fn)) (p : TablePruner Fn) (w : W) (fn : Fn) (vals : List Nat) (t : Nat)
    (hreach : p = (TablePruner.after evaluate
      (TablePruner.create candidates k rho prunerData ready0) w0 ops).1)
    (hnot : p.ready = false) (ht : t < p.fns.length)
    (hvals : (TablePruner.evaluateAll evaluate fn p.candidates w).1 = vals.map Except.ok)
    (hrel : ∀ i, i < candidates.length → ∀ j, j < candidates.length →
      (p.F.rows.getD t []).getD i 0 = (p.F.rows.getD t []).getD j 0 →
        vals.getD i 0 = vals.getD j 0) :
    (p.addGInvariant evaluate w fn).1 = Except.ok () ∧
      distinctColumns (p.addGInvariant evaluate w fn).2.1.F candidates.length =
        distinctColumns p.F candidates.length := by
  obtain ⟨hshape, hcands⟩ :=
    TablePruner.reachable_shape evaluate candidates k rho prunerData ready0 w0 ops
  rw [← hreach] at hshape hcands
  obtain ⟨-, t2⟩ := TablePruner.addGInvariant_table evaluate p w fn hnot hshape
  have hlen := TablePruner.length_evaluateAll evaluate fn p.candidates w
  rw [hvals, List.length_map] at hlen
  rw [hvals, TablePruner.getAll_map_ok, hlen, Nat.sub_self, List.replicate_zero,
    List.append_nil] at t2
  constructor
  · rcases (TablePruner.addGInvariant_cases evaluate p w fn hnot).2 with
      ⟨e, he, -, -⟩ | ⟨-, hres, -⟩
    · rw [hvals, TablePruner.getAll_map_ok] at he
      cases he
    · exact hres
  · have e : (p.addGInvariant evaluate w fn).2.1.F = Table.mk (p.F.rows ++ [vals]) := by
      rw [← t2]
    rw [e]
    exact distinctColumns_concat p.F.rows vals candidates.length t (by rw [hshape.1]; exact ht)
      hrel

/-- C16, on the three candidates with `rho = 3`: the function 0, which tells
only two of them apart, is added a second time; the table has two different
columns before and after. -/
theorem TablePruner.addGInvariant_duplicate_witness :
    ((TablePruner.after exampleEvaluate (TablePruner.create exampleCandidates 2 3 none false) ()
        [PrunerOp.addGInvariant 0]).1.addGInvariant exampleEvaluate () 0).1 = Except.ok () ∧
      distinctColumns
        ((TablePruner.after exampleEvaluate (TablePruner.create exampleCandidates 2 3 none false)
          () [PrunerOp.addGInvariant 0]).1.addGInvariant exampleEvaluate () 0).2.1.F
        exampleCandidates.length =
      distinctColumns
        (TablePruner.after exampleEvaluate (TablePruner.create exampleCandidates 2 3 none false) ()
          [PrunerOp.addGInvariant 0]).1.F exampleCandidates.length :=
  TablePruner.addGInvariant_duplicate exampleEvaluate exampleCandidates 2 3 none false ()
    [PrunerOp.addGInvariant 0]
    (TablePruner.after exampleEvaluate (TablePruner.create exampleCandidates 2 3 none false) ()
      [PrunerOp.addGInvariant 0]).1 () 0 [0, 0, 1] 0 rfl (by decide) (by decide) (by decide)
    (by decide)

/-! ## The codes and the representatives of a ready pruner -/

section Codes

variable {Fn W E : Type}

/-- The representative stored at the code of a pattern is the first candidate
with that pattern. -/
theorem TablePruner.outputsState_newReps_get (p : TablePruner Fn) (hnodup : p.candidates.Nodup)
    (i : Nat) (hi : i < p.candidates.length)
    (hfirst : ∀ j, j < i → p.F.column j ≠ p.F.column i) :
    p.outputsState.newReps[patternCode p.columns (p.F.column i)]? = some (p.candidates[i]) := by
  have hinv := TablePruner.outputsState_inv p hnodup
  have hi2 : i < p.columns.length := by rw [TablePruner.length_columns]; exact hi
  have hi3 : i < (p.candidates.zip p.columns).length := by
    simp [List.length_zip, TablePruner.length_columns]; exact hi
  have hsplit : p.candidates.zip p.columns =
      (p.candidates.zip p.columns).take i ++
        (p.candidates.zip p.columns)[i] :: (p.candidates.zip p.columns).drop (i + 1) := by
    rw [← List.drop_eq_getElem_cons hi3, List.take_append_drop]
  have hq := hinv.reps_get _ _ _ hsplit
  rw [TablePruner.map_snd_pairs] at hq
  simp only [List.getElem_zip] at hq
  rw [TablePruner.columns_getElem p i hi2] at hq
  apply hq
  rw [List.map_take, TablePruner.map_snd_pairs, TablePruner.columns_take p i (Nat.le_of_lt hi)]
  simp only [List.mem_map, List.mem_range, not_exists, not_and]
  exact hfirst

/-- Every pattern of the table has a first candidate. -/
theorem TablePruner.exists_first_index (p : TablePruner Fn) (m : Nat) :
    ∃ i, i ≤ m ∧ p.F.column i = p.F.column m ∧ ∀ j, j < i → p.F.column j ≠ p.F.column i := by
  have hex : ∃ i, p.F.column i = p.F.column m := ⟨m, rfl⟩
  classical
  refine ⟨Nat.find hex, Nat.find_le rfl, Nat.find_spec hex, ?_⟩
  intro j hj hcol
  exact Nat.find_min hex hj (hcol.trans (Nat.find_spec hex))

theorem TablePruner.code_eq_iff (p : TablePruner Fn) (i j : Nat) (hi : i < p.candidates.length)
    (hj : j < p.candidates.length) :
    patternCode p.columns (p.F.column i) = patternCode p.columns (p.F.column j) ↔
      p.F.column i = p.F.column j := by
  constructor
  · exact patternCode_inj p.columns _ _ (TablePruner.column_mem_columns p i hi)
      (TablePruner.column_mem_columns p j hj)
  · intro h
    rw [h]

/-- The evaluation delegate of the discriminator of a ready pruner gives the
code of a column to every subset whose vector of values is that column. -/
theorem TablePruner.delegate_of_signature (evaluate : W → Fn → Subset → Except E Nat × W)
    (p : TablePruner Fn) (hnodup : p.candidates.Nodup) (w1 : W) (B : Subset) (i : Nat)
    (hi : i < p.candidates.length)
    (hsig : (DiscriminatorEvaluator evaluate p.fns w1 B).1 = Except.ok (p.F.column i)) :
    (DiscriminatorEvaluationDelegate evaluate p.fns p.outputsState.lookupTable w1 B).1 =
      Except.ok (patternCode p.columns (p.F.column i)) := by
  have hl := TablePruner.outputsState_lookupTable p hnodup (p.F.column i)
  rw [if_pos (TablePruner.column_mem_columns p i hi)] at hl
  unfold DiscriminatorEvaluationDelegate
  cases hde : DiscriminatorEvaluator evaluate p.fns w1 B with
  | mk res w2 =>
    rw [hde] at hsig
    simp only at hsig
    subst hsig
    simp only [hl]

end Codes

/-- C11: let a pruner with `rho` other than 1 and pairwise different
candidates (they are copied out of a `std::set`) be ready, in a state reached
by calls on the newly constructed pruner. For every candidate index `i`,
`getColumn(candidates[i])` returns the first-seen code of column `i` of the
table (`patternCode`: the number of different columns among the candidates
before the first candidate that has the column of `candidates[i]`), and the
candidate map holds that code for `candidates[i]` afterwards. Two candidates get the same
code if and only if their columns are equal. -/
theorem TablePruner.getColumn_first_seen_code {Fn W E : Type}
    (evaluate : W → Fn → Subset → Except E Nat × W) (candidates : List Subset) (k rho : Nat)
    (prunerData : Option (TablePrunerData Fn)) (ready0 : Bool) (w0 : W)
    (ops : List (PrunerOp Fn)) (p : TablePruner Fn) (w : W) (i : Nat)
    (hreach : p = (TablePruner.after evaluate
      (TablePruner.create candidates k rho prunerData ready0) w0 ops).1)
    (hrho : rho ≠ 1) (hnodup : candidates.Nodup) (hready : p.ready = true)
    (hi : i < candidates.length) :
    (p.getColumn evaluate w (candidates.getD i [])).1 =
        Except.ok (patternCode p.columns (p.F.column i)) ∧
      (∃ cm, (p.getColumn evaluate w (candidates.getD i [])).2.1.candidateMap = some cm ∧
        cm.find (candidates.getD i []) = some (patternCode p.columns (p.F.column i))) ∧
      ∀ j, j < candidates.length →
        ((p.getColumn evaluate w (candidates.getD i [])).1 =
            (p.getColumn evaluate w (candidates.getD j [])).1 ↔
          p.F.column i = p.F.column j) := by
  obtain ⟨hc, hcands, -, -⟩ :=
    TablePruner.reachable_inv evaluate candidates k rho prunerData ready0 w0 ops hrho hnodup
  rw [← hreach] at hc hcands
  subst hcands
  have hcode : ∀ m, m < p.candidates.length →
      (p.getColumn evaluate w (p.candidates.getD m [])).1 =
        Except.ok (patternCode p.columns (p.F.column m)) := by
    intro m hm
    have hfind := TablePruner.outputsState_candidateMap p hnodup m hm
    rw [List.getD_eq_getElem _ _ hm]
    exact ((TablePruner.getColumn_spec evaluate p w _ hc hready hnodup).2.2.1 _ hfind).1
  refine ⟨hcode i hi, ?_, ?_⟩
  · obtain ⟨-, ⟨cm1, d1, hset, hcm⟩, -, -⟩ :=
      TablePruner.getColumn_spec evaluate p w (p.candidates.getD i []) hc hready hnodup
    exact ⟨cm1, hset.2.2.1, hcm _ (hcode i hi)⟩
  · intro j hj
    rw [hcode i hi, hcode j hj]
    constructor
    · intro h
      exact (TablePruner.code_eq_iff p i j hi hj).1 (Except.ok.inj h)
    · intro h
      rw [h]

/-- C11, on the three candidates with `rho = 2` and one function, which gives
the first two candidates the same value: the third candidate gets the code 1
and the second the code of the first. -/
theorem TablePruner.getColumn_first_seen_code_witness :
    ((TablePruner.after exampleEvaluate (TablePruner.create exampleCandidates 2 2 none false) ()
        [PrunerOp.addGInvariant 0]).1.getColumn exampleEvaluate () [1, 2]).1 = Except.ok 1 ∧
      ((TablePruner.after exampleEvaluate (TablePruner.create exampleCandidates 2 2 none false) ()
          [PrunerOp.addGInvariant 0]).1.getColumn exampleEvaluate () [0, 2]).1 =
        ((TablePruner.after exampleEvaluate (TablePruner.create exampleCandidates 2 2 none false)
          () [PrunerOp.addGInvariant 0]).1.getColumn exampleEvaluate () [0, 1]).1 :=
  ⟨(TablePruner.getColumn_first_seen_code exampleEvaluate exampleCandidates 2 2 none false ()
      [PrunerOp.addGInvariant 0]
      (TablePruner.after exampleEvaluate (TablePruner.create exampleCandidates 2 2 none false) ()
        [PrunerOp.addGInvariant 0]).1 () 2 rfl (by decide) (by decide) (by decide)
      (by decide)).1,
    by decide⟩

/-- C12: let a pruner with `rho` other than 1 and pairwise different
candidates be ready, in a state reached by calls on the newly constructed
pruner. Then `getNewReps()` returns the candidates whose column differs from
the column of every earlier candidate, in the order of the candidate list. For
every candidate `m`, the representative at the code of `m` is the earliest
candidate with the column (and so the code) of `m`; and of two candidates with
the same column the later one is not a representative. -/
theorem TablePruner.getNewReps_first_of_pattern {Fn W E : Type}
    (evaluate : W → Fn → Subset → Except E Nat × W) (candidates : List Subset) (k rho : Nat)
    (prunerData : Option (TablePrunerData Fn)) (ready0 : Bool) (w0 : W)
    (ops : List (PrunerOp Fn)) (p : TablePruner Fn)
    (hreach : p = (TablePruner.after evaluate
      (TablePruner.create candidates k rho prunerData ready0) w0 ops).1)
    (hrho : rho ≠ 1) (hnodup : candidates.Nodup) (hready : p.ready = true) :
    ∃ reps : List Subset, (p.getNewReps (E := E)).1 = Except.ok reps ∧
      reps = ((List.range candidates.length).filter
        (fun i => decide (∀ j, j < i → p.F.column j ≠ p.F.column i))).map
        (fun i => candidates.getD i []) ∧
      (∀ m, m < candidates.length →
        ∃ i, i ≤ m ∧ p.F.column i = p.F.column m ∧
          (∀ j, j < i → p.F.column j ≠ p.F.column m) ∧
          reps[patternCode p.columns (p.F.column m)]? = some (candidates.getD i [])) ∧
      ∀ i j, i < j → j < candidates.length → p.F.column i = p.F.column j →
        candidates.getD j [] ∉ reps := by
  obtain ⟨hc, hcands, -, -⟩ :=
    TablePruner.reachable_inv evaluate candidates k rho prunerData ready0 w0 ops hrho hnodup
  rw [← hreach] at hc hcands
  subst hcands
  refine ⟨p.outputsState.newReps, (TablePruner.getNewReps_spec evaluate p hc hready hnodup).1,
    TablePruner.outputsState_newReps p hnodup, ?_, ?_⟩
  · intro m hm
    obtain ⟨i, him, hcol, hfirst⟩ := TablePruner.exists_first_index p m
    have hi : i < p.candidates.length := Nat.lt_of_le_of_lt him hm
    refine ⟨i, him, hcol, ?_, ?_⟩
    · intro j hj
      rw [← hcol]
      exact hfirst j hj
    · rw [← hcol, List.getD_eq_getElem _ _ hi]
      exact TablePruner.outputsState_newReps_get p hnodup i hi hfirst
  · intro i j hij hj hcol hmem
    rw [TablePruner.outputsState_newReps p hnodup] at hmem
    obtain ⟨m, hm, hmj⟩ := List.mem_map.1 hmem
    obtain ⟨hm1, hm2⟩ := List.mem_filter.1 hm
    have hm3 : m < p.candidates.length := List.mem_range.1 hm1
    rw [List.getD_eq_getElem _ _ hm3, List.getD_eq_getElem _ _ hj] at hmj
    have hmeq : m = j := (List.Nodup.getElem_inj_iff hnodup).1 hmj
    subst hmeq
    have := of_decide_eq_true hm2
    exact this i hij hcol

/-- C12, on the three candidates with `rho = 2` and one function, which gives
the first two candidates the same value: the representatives are the first and
the third candidate. -/
theorem TablePruner.getNewReps_first_of_pattern_witness :
    ∃ reps : List Subset,
      ((TablePruner.after exampleEvaluate (TablePruner.create exampleCandidates 2 2 none false)
        () [PrunerOp.addGInvariant 0]).1.getNewReps (E := Nat)).1 = Except.ok reps ∧
      reps = [[0, 1], [1, 2]] :=
  (TablePruner.getNewReps_first_of_pattern exampleEvaluate exampleCandidates 2 2 none false ()
    [PrunerOp.addGInvariant 0]
    (TablePruner.after exampleEvaluate (TablePruner.create exampleCandidates 2 2 none false) ()
      [PrunerOp.addGInvariant 0]).1 rfl (by decide) (by decide) (by decide)).imp
    (fun _ h => ⟨h.1, h.2.1.trans (by decide)⟩)

/-- C13: let a pruner with `rho` other than 1 and pairwise different
candidates, constructed not ready, have become ready through `addGInvariant`,
in a state reached by calls on the newly constructed pruner. Then
`getNewReps()` returns `rho` representatives; `getColumn` returns a code below
`rho` for every candidate; every value below `rho` is the code of a candidate;
and `getNewData()` returns a discriminator whose translation table has `rho`
entries (`numOutputs() = rho`). -/
theorem TablePruner.ready_outputs_rho {Fn W E : Type}
    (evaluate : W → Fn → Subset → Except E Nat × W) (candidates : List Subset) (k rho : Nat)
    (prunerData : Option (TablePrunerData Fn)) (w0 : W)
    (ops : List (PrunerOp Fn)) (p : TablePruner Fn) (w : W)
    (hreach : p = (TablePruner.after evaluate
      (TablePruner.create candidates k rho prunerData false) w0 ops).1)
    (hrho : rho ≠ 1) (hnodup : candidates.Nodup) (hready : p.ready = true) :
    (∃ reps : List Subset, (p.getNewReps (E := E)).1 = Except.ok reps ∧ reps.length = rho) ∧
      (∀ i, i < candidates.length →
        ∃ c, (p.getColumn evaluate w (candidates.getD i [])).1 = Except.ok c ∧ c < rho) ∧
      (∀ c, c < rho →
        ∃ i, i < candidates.length ∧
          (p.getColumn evaluate w (candidates.getD i [])).1 = Except.ok c) ∧
      ∃ d : Discriminator Fn,
        (p.getNewData (E := E)).1 = Except.ok ⟨DiscriminatorPtr.Discriminator d, false⟩ ∧
          d.numOutputs = rho := by
  obtain ⟨hc, hcands, hrhoeq, hbt⟩ :=
    TablePruner.reachable_inv evaluate candidates k rho prunerData false w0 ops hrho hnodup
  rw [← hreach] at hc hcands hrhoeq hbt
  subst hcands
  have hdist : distinctColumns p.F p.candidates.length = rho := by
    rw [← hrhoeq]
    exact hbt rfl hready
  have hcard : p.columns.toFinset.card = rho := hdist
  obtain ⟨hn1, hn2, -⟩ := TablePruner.outputsState_counts p hnodup
  have hcode : ∀ m, m < p.candidates.length →
      (p.getColumn evaluate w (p.candidates.getD m [])).1 =
        Except.ok (patternCode p.columns (p.F.column m)) := by
    intro m hm
    have hfind := TablePruner.outputsState_candidateMap p hnodup m hm
    rw [List.getD_eq_getElem _ _ hm]
    exact ((TablePruner.getColumn_spec evaluate p w _ hc hready hnodup).2.2.1 _ hfind).1
  refine ⟨⟨p.outputsState.newReps, (TablePruner.getNewReps_spec evaluate p hc hready hnodup).1,
    hn1.trans hdist⟩, ?_, ?_, ?_⟩
  · intro i hi
    refine ⟨_, hcode i hi, ?_⟩
    rw [← hcard]
    exact patternCode_lt p.columns _ (TablePruner.column_mem_columns p i hi)
  · intro c hcl
    rw [← hcard] at hcl
    obtain ⟨a, ha, hac⟩ := patternCode_surj p.columns c hcl
    unfold TablePruner.columns at ha
    obtain ⟨i, hi, hia⟩ := List.mem_map.1 ha
    have hi2 : i < p.candidates.length := List.mem_range.1 hi
    refine ⟨i, hi2, ?_⟩
    rw [hcode i hi2, hia, hac]
  · obtain ⟨hst, cm, d, hset, hres⟩ := TablePruner.getNewData_spec evaluate p hc hready hnodup
    refine ⟨d, hres, ?_⟩
    unfold Discriminator.numOutputs
    rw [hset.2.2.2.2.2.1, hst.outputsState]
    exact hn2.trans hdist

/-- C13, on the three candidates with `rho = 2` and one function, which tells
two patterns apart: there are two representatives. -/
theorem TablePruner.ready_outputs_rho_witness :
    ∃ reps : List Subset,
      ((TablePruner.after exampleEvaluate (TablePruner.create exampleCandidates 2 2 none false)
        () [PrunerOp.addGInvariant 0]).1.getNewReps (E := Nat)).1 = Except.ok reps ∧
      reps.length = 2 :=
  (TablePruner.ready_outputs_rho exampleEvaluate exampleCandidates 2 2 none ()
    [PrunerOp.addGInvariant 0]
    (TablePruner.after exampleEvaluate (TablePruner.create exampleCandidates 2 2 none false) ()
      [PrunerOp.addGInvariant 0]).1 () rfl (by decide) (by decide) (by decide)).1

/-- C17: let a pruner with `rho` other than 1 and pairwise different
candidates be ready, in a state reached by calls on the newly constructed
pruner, and let `B` be a subset that is not a candidate and on which the
functions of the list take, whatever the state of the evaluation caches, the
values of column `i` of the table. Then `getColumn(B)` returns what
`getColumn(candidates[i])` returns, the code of column `i`; and a further
`getColumn(B)` returns that code from the candidate map, leaving the pruner and
the evaluation caches as they are, whatever the evaluation function is: nothing
is evaluated. -/
theorem TablePruner.getColumn_signature {Fn W E : Type}
    (evaluate : W → Fn → Subset → Except E Nat × W) (candidates : List Subset) (k rho : Nat)
    (prunerData : Option (TablePrunerData Fn)) (ready0 : Bool) (w0 : W)
    (ops : List (PrunerOp Fn)) (p : TablePruner Fn) (w : W) (B : Subset) (i : Nat)
    (hreach : p = (TablePruner.after evaluate
      (TablePruner.create candidates k rho prunerData ready0) w0 ops).1)
    (hrho : rho ≠ 1) (hnodup : candidates.Nodup) (hready : p.ready = true)
    (hi : i < candidates.length) (hB : B ∉ candidates)
    (hsig : ∀ w1, (DiscriminatorEvaluator evaluate p.fns w1 B).1 = Except.ok (p.F.column i)) :
    (p.getColumn evaluate w B).1 = (p.getColumn evaluate w (candidates.getD i [])).1 ∧
      (p.getColumn evaluate w B).1 = Except.ok (patternCode p.columns (p.F.column i)) ∧
      ∀ (evaluate2 : W → Fn → Subset → Except E Nat × W) (w2 : W),
        (p.getColumn evaluate w B).2.1.getColumn evaluate2 w2 B =
          (Except.ok (patternCode p.columns (p.F.column i)), (p.getColumn evaluate w B).2.1,
            w2) := by
  obtain ⟨hc, hcands, -, -⟩ :=
    TablePruner.reachable_inv evaluate candidates k rho prunerData ready0 w0 ops hrho hnodup
  rw [← hreach] at hc hcands
  subst hcands
  have hcand : (p.getColumn evaluate w (p.candidates.getD i [])).1 =
      Except.ok (patternCode p.columns (p.F.column i)) := by
    have hfind := TablePruner.outputsState_candidateMap p hnodup i hi
    rw [List.getD_eq_getElem _ _ hi]
    exact ((TablePruner.getColumn_spec evaluate p w _ hc hready hnodup).2.2.1 _ hfind).1
  obtain ⟨hst, ⟨cm1, d1, hset, hcm⟩, -, hfresh⟩ :=
    TablePruner.getColumn_spec evaluate p w B hc hready hnodup
  obtain ⟨w1, hw1⟩ := hfresh (TablePruner.outputsState_candidateMap_none p hnodup B hB)
  have hB1 : (p.getColumn evaluate w B).1 =
      Except.ok (patternCode p.columns (p.F.column i)) := by
    rw [hw1]
    exact TablePruner.delegate_of_signature evaluate p hnodup w1 B i hi (hsig w1)
  refine ⟨hB1.trans hcand.symm, hB1, ?_⟩
  intro evaluate2 w2
  exact TablePruner.getColumn_cached evaluate2 _ w2 B cm1 _ hset.1 hset.2.2.1 (hcm _ hB1)

/-- C17, on the three candidates with `rho = 2` and one function: the subset
`{1, 5}`, which has the value of the third candidate, gets its code. -/
theorem TablePruner.getColumn_signature_witness :
    ((TablePruner.after exampleEvaluate (TablePruner.create exampleCandidates 2 2 none false) ()
        [PrunerOp.addGInvariant 0]).1.getColumn exampleEvaluate () [1, 5]).1 =
      ((TablePruner.after exampleEvaluate (TablePruner.create exampleCandidates 2 2 none false) ()
        [PrunerOp.addGInvariant 0]).1.getColumn exampleEvaluate () [1, 2]).1 :=
  (TablePruner.getColumn_signature exampleEvaluate exampleCandidates 2 2 none false ()
    [PrunerOp.addGInvariant 0]
    (TablePruner.after exampleEvaluate (TablePruner.create exampleCandidates 2 2 none false) ()
      [PrunerOp.addGInvariant 0]).1 () [1, 5] 2 rfl (by decide) (by decide) (by decide)
    (by decide) (by decide) (fun w1 => by cases w1; decide)).1

/-! ## The evaluation caches of the invariant functions -/

section EvalCaches

variable {K V D E : Type} [DecidableEq K] [Inhabited V]

theorem MapCache.queryTotal_present (make : K → V) (m : MapType K V) (key : K) (v : V)
    (h : m.find key = some v) : MapCache.queryTotal make m key = (v, m) := by
  unfold MapCache.queryTotal
  rw [MapCache.query_present _ ⟨m, ()⟩ key v h]

theorem MapCache.queryTotal_absent (make : K → V) (m : MapType K V) (key : K)
    (h : m.find key = none) :
    MapCache.queryTotal make m key = (make key, ⟨(key, make key) :: m.entries⟩) := by
  unfold MapCache.queryTotal
  rw [MapCache.query_absent_ok _ ⟨m, ()⟩ key (make key) () h rfl]

/-- After `queryTotal` the key has an entry: the one it had, or the new one. -/
theorem MapCache.queryTotal_find (make : K → V) (m : MapType K V) (key : K) :
    (MapCache.queryTotal make m key).2.find key = some (MapCache.queryTotal make m key).1 ∧
      (∀ v, m.find key = some v → MapCache.queryTotal make m key = (v, m)) ∧
      (m.find key = none → (MapCache.queryTotal make m key).1 = make key) ∧
      ∀ key2, key2 ≠ key → (MapCache.queryTotal make m key).2.find key2 = m.find key2 := by
  cases h : m.find key with
  | some v =>
    rw [MapCache.queryTotal_present make m key v h]
    refine ⟨h, ?_, ?_, ?_⟩
    · intro v2 h2
      cases h2
      rfl
    · intro h2
      cases h2
    · intro key2 _
      rfl
  | none =>
    rw [MapCache.queryTotal_absent make m key h]
    refine ⟨?_, ?_, ?_, ?_⟩
    · rw [MapType.find_cons, if_pos rfl]
    · intro v2 h2
      cases h2
    · intro _
      rfl
    · intro key2 hne
      rw [MapType.find_cons, if_neg (fun e => hne e.symm)]

/-- A query that returns a value leaves the value in the cache. -/
theorem MapCache.query_ok_find (call : D → K → Except E V × D) (c c1 : MapCache K V D) (key : K)
    (v : V) (h : c.query call key = (Except.ok v, c1)) : c1.cache.find key = some v := by
  cases hf : c.cache.find key with
  | some v0 =>
    rw [MapCache.query_present call c key v0 hf] at h
    cases h
    exact hf
  | none =>
    cases hd : call c.delegate key with
    | mk res d =>
      cases res with
      | error e =>
        rw [MapCache.query_absent_error call c key e d hf hd] at h
        cases h
      | ok v1 =>
        rw [MapCache.query_absent_ok call c key v1 d hf hd] at h
        cases h
        rw [MapType.find_cons, if_pos rfl]

end EvalCaches

section LookupTables

variable {Fn FV W E : Type} [DecidableEq Fn] [DecidableEq FV]

theorem LookupTable.table_query_ok_find (eval : W → Subset → Except E FV × W) (t : LookupTable FV)
    (w : W) (B : Subset) (v : Nat) (h : (t.query eval w B).1 = Except.ok v) :
    (t.query eval w B).2.1.cache.find B = some v := by
  unfold LookupTable.query at h ⊢
  simp only at h ⊢
  exact MapCache.query_ok_find (EvaluationDelegate.call eval) ⟨t.cache, (t.delegate, w)⟩ _ B v
    (Prod.ext h rfl)

theorem LookupTable.query_cached (eval : W → Subset → Except E FV × W) (t : LookupTable FV)
    (w : W) (B : Subset) (v : Nat) (h : t.cache.find B = some v) :
    t.query eval w B = (Except.ok v, t, w) := by
  unfold LookupTable.query
  rw [MapCache.query_present (EvaluationDelegate.call eval) ⟨t.cache, (t.delegate, w)⟩ B v h]

theorem AnchorSet.key_of_equals (f g : AnchorSet) (h : f.equals g = true) : g.key = f.key := by
  unfold AnchorSet.equals at h
  simp only [Bool.and_eq_true, decide_eq_true_eq] at h
  unfold AnchorSet.key
  rw [h.1, h.2]

/-- After `evaluate` has returned a value, the cache holds the value: in the
entry of the function, in the table for the size of the subset. -/
theorem AnchorSet.anchorSet_evaluate_find (eval : AnchorSet → W → Subset → Except E FV × W) (nextIdx0 : Nat)
    (c : AnchorSetEvalCache FV) (f : AnchorSet) (w : W) (B : Subset) (v : Nat)
    (h : (AnchorSet.evaluate eval nextIdx0 c f w B).1 = Except.ok v) :
    ∃ e t, (AnchorSet.evaluate eval nextIdx0 c f w B).2.1.find f.key = some e ∧
      e.tables.find B.length = some t ∧ t.cache.find B = some v := by
  unfold AnchorSet.evaluate at h ⊢
  simp only at h ⊢
  have hfind := LookupTable.table_query_ok_find _ _ w B v h
  generalize MapCache.queryTotal (fun _ => (⟨f, MapType.empty⟩ : AnchorSetLookupTable FV))
    c f.key = q1 at h hfind ⊢
  generalize MapCache.queryTotal (fun _ => (LookupTable.create nextIdx0 : LookupTable FV))
    q1.1.tables B.length = q2 at h hfind ⊢
  generalize LookupTable.query (eval q1.1.creator) q2.1 w B = r at h hfind ⊢
  refine ⟨⟨q1.1.creator, q2.2.assign B.length r.2.1⟩, r.2.1, ?_, ?_, hfind⟩
  · rw [MapType.find_assign, if_pos rfl]
  · rw [MapType.find_assign, if_pos rfl]

/-- A value that the cache holds for a subset is reported by `hasCachedResult`
and returned by `evaluate`, which invokes no evaluator. -/
theorem AnchorSet.anchorSet_cached (nextIdx0 : Nat) (c : AnchorSetEvalCache FV) (g : AnchorSet)
    (B : Subset) (v : Nat) (e : AnchorSetLookupTable FV) (t : LookupTable FV)
    (h1 : c.find g.key = some e) (h2 : e.tables.find B.length = some t)
    (h3 : t.cache.find B = some v) :
    (AnchorSet.hasCachedResult nextIdx0 c g B).1 = true ∧
      ∀ (eval : AnchorSet → W → Subset → Except E FV × W) (w : W),
        (AnchorSet.evaluate eval nextIdx0 c g w B).1 = Except.ok v ∧
          (AnchorSet.evaluate eval nextIdx0 c g w B).2.2 = w := by
  constructor
  · unfold AnchorSet.hasCachedResult
    simp only [MapCache.queryTotal_present _ c g.key e h1,
      MapCache.queryTotal_present _ e.tables B.length t h2]
    have : t.cache.count B ≠ 0 := (MapType.count_ne_zero_iff _ _).2 ⟨v, h3⟩
    simpa using this
  · intro eval w
    unfold AnchorSet.evaluate
    simp only [MapCache.queryTotal_present _ c g.key e h1,
      MapCache.queryTotal_present _ e.tables B.length t h2, LookupTable.query_cached _ t w B v h3]
    exact ⟨trivial, trivial⟩

theorem Taxonomy2.taxonomy2_evaluate_find (eval : Taxonomy2 Fn → W → Subset → Except E FV × W)
    (nextIdx0 : Nat) (c : Taxonomy2EvalCache Fn FV) (f : Taxonomy2 Fn) (w : W) (B : Subset)
    (v : Nat) (h : (Taxonomy2.evaluate eval nextIdx0 c f w B).1 = Except.ok v) :
    ∃ e, (Taxonomy2.evaluate eval nextIdx0 c f w B).2.1.find f.phi.members.functions = some e ∧
      e.table.cache.find B = some v := by
  unfold Taxonomy2.evaluate at h ⊢
  simp only at h ⊢
  have hfind := LookupTable.table_query_ok_find _ _ w B v h
  generalize MapCache.queryTotal
    (fun _ => (⟨f, LookupTable.create nextIdx0⟩ : Taxonomy2LookupTable Fn FV))
    c f.phi.members.functions = q1 at h hfind ⊢
  generalize LookupTable.query (eval q1.1.creator) q1.1.table w B = r at h hfind ⊢
  refine ⟨⟨q1.1.creator, r.2.1⟩, ?_, hfind⟩
  rw [MapType.find_assign, if_pos rfl]

theorem Taxonomy2.taxonomy2_cached (nextIdx0 : Nat) (c : Taxonomy2EvalCache Fn FV) (g : Taxonomy2 Fn)
    (B : Subset) (v : Nat) (e : Taxonomy2LookupTable Fn FV)
    (h1 : c.find g.phi.members.functions = some e) (h3 : e.table.cache.find B = some v) :
    (Taxonomy2.hasCachedResult nextIdx0 c g B).1 = true ∧
      ∀ (eval : Taxonomy2 Fn → W → Subset → Except E FV × W) (w : W),
        (Taxonomy2.evaluate eval nextIdx0 c g w B).1 = Except.ok v ∧
          (Taxonomy2.evaluate eval nextIdx0 c g w B).2.2 = w := by
  constructor
  · unfold Taxonomy2.hasCachedResult
    simp only [MapCache.queryTotal_present _ c _ e h1]
    have : e.table.cache.count B ≠ 0 := (MapType.count_ne_zero_iff _ _).2 ⟨v, h3⟩
    simpa using this
  · intro eval w
    unfold Taxonomy2.evaluate
    simp only [MapCache.queryTotal_present _ c _ e h1, LookupTable.query_cached _ e.table w B v h3]
    exact ⟨trivial, trivial⟩

theorem DiscriminatorEvalCache.discriminator_evaluate_find (evaluate : W → Fn → Subset → Except E Nat × W)
    (c : DiscriminatorEvalCache Fn) (x : DiscriminatorObject Fn) (w : W) (B : Subset) (v : Nat)
    (h : (DiscriminatorEvalCache.evaluate evaluate c x w B).1 = Except.ok v) :
    (∃ e, (DiscriminatorEvalCache.evaluate evaluate c x w B).2.1.find x.addr = some e ∧
      e.resultCache.find B = some v) ∧
      ∀ a, a ≠ x.addr →
        (DiscriminatorEvalCache.evaluate evaluate c x w B).2.1.find a = c.find a := by
  unfold DiscriminatorEvalCache.evaluate at h ⊢
  simp only at h ⊢
  have hq := (MapCache.queryTotal_find
    (fun _ => DiscriminatorEvalCacheEntry.create x.members) c x.addr).2.2.2
  generalize MapCache.queryTotal (fun _ => DiscriminatorEvalCacheEntry.create x.members)
    c x.addr = q1 at h hq ⊢
  have hfind := MapCache.query_ok_find
    (DiscriminatorEvaluationDelegate evaluate q1.1.functions q1.1.translator)
    ⟨q1.1.resultCache, w⟩ _ B v (Prod.ext h rfl)
  generalize MapCache.query
    (DiscriminatorEvaluationDelegate evaluate q1.1.functions q1.1.translator)
    ⟨q1.1.resultCache, w⟩ B = r at h hfind ⊢
  refine ⟨⟨⟨q1.1.functions, q1.1.translator, r.2.cache⟩, ?_, hfind⟩, ?_⟩
  · rw [MapType.find_assign, if_pos rfl]
  · intro a ha
    rw [MapType.find_assign, if_neg (fun e => ha e.symm)]
    exact hq a ha

theorem DiscriminatorEvalCache.discriminator_cached (c : DiscriminatorEvalCache Fn) (x : DiscriminatorObject Fn)
    (B : Subset) (v : Nat) (e : DiscriminatorEvalCacheEntry Fn) (h1 : c.find x.addr = some e)
    (h3 : e.resultCache.find B = some v) :
    (DiscriminatorEvalCache.hasCachedResult c x B).1 = true ∧
      ∀ (evaluate : W → Fn → Subset → Except E Nat × W) (w : W),
        (DiscriminatorEvalCache.evaluate evaluate c x w B).1 = Except.ok v ∧
          (DiscriminatorEvalCache.evaluate evaluate c x w B).2.2 = w := by
  constructor
  · unfold DiscriminatorEvalCache.hasCachedResult
    simp only [MapCache.queryTotal_present _ c _ e h1]
    have : e.resultCache.count B ≠ 0 := (MapType.count_ne_zero_iff _ _).2 ⟨v, h3⟩
    simpa using this
  · intro evaluate w
    unfold DiscriminatorEvalCache.evaluate
    simp only [MapCache.queryTotal_present _ c _ e h1]
    rw [MapCache.query_present _ ⟨e.resultCache, w⟩ B v h3]
    exact ⟨rfl, rfl⟩

/-- The two embeddings of `Discriminator::evaluate` agree: evaluating the object at an
address with the cache explicit gives the result, the state and the result
cache that `Discriminator.evaluate` gives for the object that carries its own
entry, as long as the entry at the address was made from the object. -/
theorem DiscriminatorEvalCache.evaluate_agrees (evaluate : W → Fn → Subset → Except E Nat × W)
    (c : DiscriminatorEvalCache Fn) (x : DiscriminatorObject Fn) (w : W) (B : Subset)
    (hentry : ∀ e, c.find x.addr = some e →
      e.functions = x.members.functions ∧ e.translator = x.members.lookupTable) :
    (DiscriminatorEvalCache.evaluate evaluate c x w B).1 =
        (Discriminator.evaluate evaluate
          { x.members with resultCache := (c.find x.addr).map (fun e => e.resultCache) } w B).1 ∧
      (DiscriminatorEvalCache.evaluate evaluate c x w B).2.2 =
        (Discriminator.evaluate evaluate
          { x.members with resultCache := (c.find x.addr).map (fun e => e.resultCache) }
          w B).2.2 ∧
      ((DiscriminatorEvalCache.evaluate evaluate c x w B).2.1.find x.addr).map
          (fun e => e.resultCache) =
        (Discriminator.evaluate evaluate
          { x.members with resultCache := (c.find x.addr).map (fun e => e.resultCache) }
          w B).2.1.resultCache := by
  unfold DiscriminatorEvalCache.evaluate Discriminator.evaluate
  cases hf : c.find x.addr with
  | none =>
    simp only [MapCache.queryTotal_absent _ c _ hf, Option.map_none, MapType.find_assign,
      if_true, Option.map_some]
    exact ⟨rfl, rfl, rfl⟩
  | some e =>
    obtain ⟨h1, h2⟩ := hentry e hf
    simp only [MapCache.queryTotal_present _ c _ e hf, Option.map_some, MapType.find_assign,
      if_true, h1, h2]
    exact ⟨rfl, rfl, rfl⟩

theorem DiscriminatorEvalCache.hasCachedResult_fresh (c : DiscriminatorEvalCache Fn)
    (x : DiscriminatorObject Fn) (B : Subset) (h : c.find x.addr = none) :
    (DiscriminatorEvalCache.hasCachedResult c x B).1 = (x.members.newCache.count B != 0) := by
  unfold DiscriminatorEvalCache.hasCachedResult
  simp only [MapCache.queryTotal_absent _ c _ h]
  rfl

end LookupTables

/-- C18 fails on the code for `Discriminator`: two discriminator objects with the
same members, at the addresses 0 and 1, are `equals`. After the first has been
evaluated on the subset `{1, 2}`, with the result 0, `hasCachedResult` of the
second returns false for that subset, and `evaluate` of the second invokes the
evaluation of the component function again (the count of evaluations goes from
1 to 2): the `DiscriminatorEvalCache` is keyed by the address of the object. -/
theorem DiscriminatorEvalCache.equal_discriminators_not_shared :
    Discriminator.equals (⟨[0], ⟨[([1], 0)]⟩, MapType.empty, none⟩ : Discriminator Nat)
        ⟨[0], ⟨[([1], 0)]⟩, MapType.empty, none⟩ = true ∧
      (DiscriminatorEvalCache.evaluate exampleCounting MapType.empty
        ⟨0, ⟨[0], ⟨[([1], 0)]⟩, MapType.empty, none⟩⟩ 0 [1, 2]).1 = Except.ok 0 ∧
      (DiscriminatorEvalCache.evaluate exampleCounting MapType.empty
        ⟨0, ⟨[0], ⟨[([1], 0)]⟩, MapType.empty, none⟩⟩ 0 [1, 2]).2.2 = 1 ∧
      (DiscriminatorEvalCache.hasCachedResult
        (DiscriminatorEvalCache.evaluate exampleCounting MapType.empty
          ⟨0, ⟨[0], ⟨[([1], 0)]⟩, MapType.empty, none⟩⟩ 0 [1, 2]).2.1
        ⟨1, ⟨[0], ⟨[([1], 0)]⟩, MapType.empty, none⟩⟩ [1, 2]).1 = false ∧
      (DiscriminatorEvalCache.evaluate exampleCounting
        (DiscriminatorEvalCache.evaluate exampleCounting MapType.empty
          ⟨0, ⟨[0], ⟨[([1], 0)]⟩, MapType.empty, none⟩⟩ 0 [1, 2]).2.1
        ⟨1, ⟨[0], ⟨[([1], 0)]⟩, MapType.empty, none⟩⟩ 1 [1, 2]).2.2 = 2 := by
  decide

/-- C18, as the code has it. The caches of `AnchorSet` and of `Taxonomy2` are keyed
by what `equals` compares: for two objects `f` and `g` of one of these kinds
with `f.equals(g)`, after `f.evaluate(B)` has returned the value `v`,
`g.hasCachedResult(B)` returns true and `g.evaluate(B)` returns `v` with no
invocation of an evaluator (the result and the state are the same for every
evaluator). For `AnchorSet` this is stated of a cache whose keys are over the
group of `f`, where `AnchorSetWeakOrdering` is the order of the anchor sets. The
cache of `Discriminator` is keyed by the address of the object: the same holds
when `g` is the object `f`; and a separately constructed `g` that has no entry
yet gets an entry of its own, for which `hasCachedResult(B)` reports whether
the starting cache `newCache` of `g` holds `B`. -/
theorem evaluation_caches_shared_by_key {Fn FV W E : Type} [DecidableEq Fn] [DecidableEq FV] :
    (∀ (eval : AnchorSet → W → Subset → Except E FV × W) (nextIdx0 nextIdx1 : Nat)
        (c : AnchorSetEvalCache FV) (f g : AnchorSet) (w : W) (B : Subset) (v : Nat),
        f.equals g = true → (∀ kv ∈ c.entries, kv.1.1 = f.G) →
        (AnchorSet.evaluate eval nextIdx0 c f w B).1 = Except.ok v →
        (AnchorSet.hasCachedResult nextIdx1 (AnchorSet.evaluate eval nextIdx0 c f w B).2.1 g
            B).1 = true ∧
          ∀ (eval2 : AnchorSet → W → Subset → Except E FV × W) (w2 : W),
            (AnchorSet.evaluate eval2 nextIdx1 (AnchorSet.evaluate eval nextIdx0 c f w B).2.1 g
                w2 B).1 = Except.ok v ∧
              (AnchorSet.evaluate eval2 nextIdx1 (AnchorSet.evaluate eval nextIdx0 c f w B).2.1 g
                w2 B).2.2 = w2) ∧
      (∀ (eval : Taxonomy2 Fn → W → Subset → Except E FV × W) (nextIdx0 nextIdx1 : Nat)
        (c : Taxonomy2EvalCache Fn FV) (f g : Taxonomy2 Fn) (w : W) (B : Subset) (v : Nat),
        f.equals g = true →
        (Taxonomy2.evaluate eval nextIdx0 c f w B).1 = Except.ok v →
        (Taxonomy2.hasCachedResult nextIdx1 (Taxonomy2.evaluate eval nextIdx0 c f w B).2.1 g
            B).1 = true ∧
          ∀ (eval2 : Taxonomy2 Fn → W → Subset → Except E FV × W) (w2 : W),
            (Taxonomy2.evaluate eval2 nextIdx1 (Taxonomy2.evaluate eval nextIdx0 c f w B).2.1 g
                w2 B).1 = Except.ok v ∧
              (Taxonomy2.evaluate eval2 nextIdx1 (Taxonomy2.evaluate eval nextIdx0 c f w B).2.1 g
                w2 B).2.2 = w2) ∧
      ∀ (evaluate : W → Fn → Subset → Except E Nat × W) (c : DiscriminatorEvalCache Fn)
        (f g : DiscriminatorObject Fn) (w : W) (B : Subset) (v : Nat),
        (DiscriminatorEvalCache.evaluate evaluate c f w B).1 = Except.ok v →
        (g.addr = f.addr →
          (DiscriminatorEvalCache.hasCachedResult
              (DiscriminatorEvalCache.evaluate evaluate c f w B).2.1 g B).1 = true ∧
            ∀ (evaluate2 : W → Fn → Subset → Except E Nat × W) (w2 : W),
              (DiscriminatorEvalCache.evaluate evaluate2
                  (DiscriminatorEvalCache.evaluate evaluate c f w B).2.1 g w2 B).1 =
                Except.ok v ∧
              (DiscriminatorEvalCache.evaluate evaluate2
                  (DiscriminatorEvalCache.evaluate evaluate c f w B).2.1 g w2 B).2.2 = w2) ∧
        (g.addr ≠ f.addr → c.find g.addr = none →
          (DiscriminatorEvalCache.hasCachedResult
              (DiscriminatorEvalCache.evaluate evaluate c f w B).2.1 g B).1 =
            (g.members.newCache.count B != 0)) := by
  refine ⟨?_, ?_, ?_⟩
  · intro eval nextIdx0 nextIdx1 c f g w B v heq _ hev
    obtain ⟨e, t, h1, h2, h3⟩ := AnchorSet.anchorSet_evaluate_find eval nextIdx0 c f w B v hev
    rw [← AnchorSet.key_of_equals f g heq] at h1
    exact AnchorSet.anchorSet_cached nextIdx1 _ g B v e t h1 h2 h3
  · intro eval nextIdx0 nextIdx1 c f g w B v heq hev
    obtain ⟨e, h1, h3⟩ := Taxonomy2.taxonomy2_evaluate_find eval nextIdx0 c f w B v hev
    have hkey : g.phi.members.functions = f.phi.members.functions := by
      unfold Taxonomy2.equals Discriminator.equals at heq
      exact (of_decide_eq_true heq).symm
    rw [← hkey] at h1
    exact Taxonomy2.taxonomy2_cached nextIdx1 _ g B v e h1 h3
  · intro evaluate c f g w B v hev
    obtain ⟨⟨e, h1, h3⟩, hother⟩ := DiscriminatorEvalCache.discriminator_evaluate_find evaluate c f w B v hev
    constructor
    · intro haddr
      rw [← haddr] at h1
      exact DiscriminatorEvalCache.discriminator_cached _ g B v e h1 h3
    · intro haddr hnone
      apply DiscriminatorEvalCache.hasCachedResult_fresh
      rw [hother g.addr haddr]
      exact hnone

/-- C18 as amended, on two `AnchorSet` objects at the addresses 0 and 1, over the
same group and with the anchor set `{0, 1}`: after the first has been
evaluated on `{1, 2}` in an empty cache, the second has a cached result. -/
theorem evaluation_caches_shared_by_key_witness :
    (AnchorSet.hasCachedResult 0
      (AnchorSet.evaluate
        (fun (_ : AnchorSet) (w : Nat) (B : Subset) =>
          ((Except.ok [B.length] : Except Nat (List Nat)), w + 1))
        0 MapType.empty ⟨0, 7, [0, 1]⟩ 0 [1, 2]).2.1 ⟨1, 7, [0, 1]⟩ [1, 2]).1 = true :=
  (((@evaluation_caches_shared_by_key Nat (List Nat) Nat Nat _ _).1
    (fun (_ : AnchorSet) (w : Nat) (B : Subset) =>
      ((Except.ok [B.length] : Except Nat (List Nat)), w + 1))
    0 0 MapType.empty ⟨0, 7, [0, 1]⟩ ⟨1, 7, [0, 1]⟩ 0 [1, 2] 0 (by decide)
    (fun kv hkv => by cases hkv) (by decide))).1

/-! ## The loop of `prune` -/

section Prune

variable {Fn W E S : Type}

theorem TablePruner.addGInvariant_fns (evaluate : W → Fn → Subset → Except E Nat × W)
    (p : TablePruner Fn) (w : W) (fn : Fn) (hnot : p.ready = false) :
    (p.addGInvariant evaluate w fn).2.1.fns = p.fns ++ [fn] := by
  have hr : ¬ p.ready = true := by simp [hnot]
  unfold TablePruner.addGInvariant
  rw [if_neg hr]
  simp only []
  split
  · rfl
  · split <;> rfl

theorem TablePruner.prune_eq (evaluate : W → Fn → Subset → Except E Nat × W)
    (createInitialGInvariants : S → Nat → TablePrunerData Fn → List Fn × S)
    (createNewGInvariant : S → Nat → Fn × S) (fuel : Nat) (p : TablePruner Fn) (w : W) (s : S) :
    p.prune evaluate createInitialGInvariants createNewGInvariant fuel w s =
      TablePruner.pruneLoop evaluate createNewGInvariant fuel
        (TablePruner.initialFns createInitialGInvariants p s).1 p w
        (TablePruner.initialFns createInitialGInvariants p s).2 := by
  unfold TablePruner.prune TablePruner.initialFns
  cases p.prunerData <;> rfl

/-- When the loop of `prune` ends without a failure, the pruner is ready and
the functions added are a prefix of the list of initial functions, followed
by functions requested from the strategy, which are requested only when the
list is used up. -/
theorem TablePruner.pruneLoop_spec (evaluate : W → Fn → Subset → Except E Nat × W)
    (createNewGInvariant : S → Nat → Fn × S) (fuel : Nat) :
    ∀ (it : List Fn) (p : TablePruner Fn) (w : W) (s : S) (p1 : TablePruner Fn) (w1 : W) (s1 : S),
      TablePruner.pruneLoop evaluate createNewGInvariant fuel it p w s =
        some (Except.ok (), p1, w1, s1) →
      p1.ready = true ∧
        ∃ m j, m ≤ it.length ∧ (j ≠ 0 → m = it.length) ∧
          p1.fns = p.fns ++ it.take m ++ (TablePruner.requested createNewGInvariant p.k j s).1 ∧
          s1 = (TablePruner.requested createNewGInvariant p.k j s).2 := by
  induction fuel with
  | zero =>
    intro it p w s p1 w1 s1 h
    unfold TablePruner.pruneLoop at h
    by_cases hr : p.ready = true
    · rw [if_pos hr] at h
      cases h
      exact ⟨hr, 0, 0, Nat.zero_le _, fun h0 => absurd rfl h0, by simp [TablePruner.requested], rfl⟩
    · rw [if_neg hr] at h
      cases h
  | succ fuel ih =>
    intro it p w s p1 w1 s1 h
    unfold TablePruner.pruneLoop at h
    by_cases hr : p.ready = true
    · rw [if_pos hr] at h
      cases h
      exact ⟨hr, 0, 0, Nat.zero_le _, fun h0 => absurd rfl h0, by simp [TablePruner.requested], rfl⟩
    · rw [if_neg hr] at h
      have hnot : p.ready = false := by simpa using hr
      cases it with
      | cons fn rest =>
        simp only at h
        have hfns := TablePruner.addGInvariant_fns evaluate p w fn hnot
        have hk := (TablePruner.addGInvariant_fields evaluate p w fn).2.2.1
        generalize p.addGInvariant evaluate w fn = r at h hfns hk
        obtain ⟨res, p2, w2⟩ := r
        cases res with
        | error e => cases h
        | ok u =>
          simp only at h hfns hk
          obtain ⟨hready, m, j, hm, hj, hf, hs⟩ := ih rest p2 w2 s p1 w1 s1 h
          refine ⟨hready, m + 1, j, by simpa using hm, fun h0 => by simp [hj h0], ?_, ?_⟩
          · rw [hf, hfns, hk]
            simp
          · rw [hs, hk]
      | nil =>
        simp only at h
        have hfns := TablePruner.addGInvariant_fns evaluate p w (createNewGInvariant s p.k).1 hnot
        have hk := (TablePruner.addGInvariant_fields evaluate p w
          (createNewGInvariant s p.k).1).2.2.1
        generalize p.addGInvariant evaluate w (createNewGInvariant s p.k).1 = r at h hfns hk
        obtain ⟨res, p2, w2⟩ := r
        cases res with
        | error e => cases h
        | ok u =>
          simp only at h hfns hk
          obtain ⟨hready, m, j, hm, hj, hf, hs⟩ :=
            ih [] p2 w2 (createNewGInvariant s p.k).2 p1 w1 s1 h
          refine ⟨hready, 0, j + 1, Nat.zero_le _, fun _ => rfl, ?_, ?_⟩
          · rw [hf, hfns, hk]
            simp [TablePruner.requested]
          · rw [hs, hk]
            simp [TablePruner.requested]

end Prune

/-- C22: when `prune()` returns, the pruner is ready, and its function list is
the one it had before the call (empty for a newly constructed pruner), followed
by a prefix of the initial list of the strategy (the empty list when the
pruner was given no data of a previous round), followed by the functions that
calls of `createNewGInvariant` returned, in the order of the calls; and
`createNewGInvariant` is called only when the whole initial list has been
added. -/
theorem TablePruner.prune_returns {Fn W E S : Type}
    (evaluate : W → Fn → Subset → Except E Nat × W)
    (createInitialGInvariants : S → Nat → TablePrunerData Fn → List Fn × S)
    (createNewGInvariant : S → Nat → Fn × S) (fuel : Nat) (p : TablePruner Fn) (w : W) (s : S)
    (p1 : TablePruner Fn) (w1 : W) (s1 : S)
    (h : p.prune evaluate createInitialGInvariants createNewGInvariant fuel w s =
      some (Except.ok (), p1, w1, s1)) :
    p1.ready = true ∧
      (p.prunerData = none → (TablePruner.initialFns createInitialGInvariants p s).1 = []) ∧
      ∃ m j, m ≤ (TablePruner.initialFns createInitialGInvariants p s).1.length ∧
        (j ≠ 0 → m = (TablePruner.initialFns createInitialGInvariants p s).1.length) ∧
        p1.fns = p.fns ++ (TablePruner.initialFns createInitialGInvariants p s).1.take m ++
          (TablePruner.requested createNewGInvariant p.k j
            (TablePruner.initialFns createInitialGInvariants p s).2).1 ∧
        s1 = (TablePruner.requested createNewGInvariant p.k j
          (TablePruner.initialFns createInitialGInvariants p s).2).2 := by
  rw [TablePruner.prune_eq] at h
  obtain ⟨hready, hex⟩ := TablePruner.pruneLoop_spec evaluate createNewGInvariant fuel _ p w _
    p1 w1 s1 h
  refine ⟨hready, ?_, hex⟩
  intro hnone
  unfold TablePruner.initialFns
  rw [hnone]

/-- C22, on the three candidates with `rho = 3`, a strategy whose initial list
is the function 0 and whose new functions are 1, 2, and so on: `prune` returns
with the functions 0 and 1, the second of which was requested from the
strategy. -/
theorem TablePruner.prune_returns_witness :
    (((TablePruner.create exampleCandidates 2 3
          (some ⟨DiscriminatorPtr.TrivialDiscriminator, true⟩) false).prune exampleEvaluate
        (fun (s : Nat) (_ : Nat) (_ : TablePrunerData Nat) => ([0], s))
        (fun (s : Nat) (_ : Nat) => (s + 1, s + 1)) 5 () 0).getD
      (Except.ok (), TablePruner.create exampleCandidates 2 3 none false, (), 0)).2.1.ready =
      true ∧
    (((TablePruner.create exampleCandidates 2 3
          (some ⟨DiscriminatorPtr.TrivialDiscriminator, true⟩) false).prune exampleEvaluate
        (fun (s : Nat) (_ : Nat) (_ : TablePrunerData Nat) => ([0], s))
        (fun (s : Nat) (_ : Nat) => (s + 1, s + 1)) 5 () 0).getD
      (Except.ok (), TablePruner.create exampleCandidates 2 3 none false, (), 0)).2.1.fns =
      [0, 1] :=
  ⟨(TablePruner.prune_returns exampleEvaluate
    (fun (s : Nat) (_ : Nat) (_ : TablePrunerData Nat) => ([0], s))
    (fun (s : Nat) (_ : Nat) => (s + 1, s + 1)) 5
    (TablePruner.create exampleCandidates 2 3
      (some ⟨DiscriminatorPtr.TrivialDiscriminator, true⟩) false) () 0
    (((TablePruner.create exampleCandidates 2 3
          (some ⟨DiscriminatorPtr.TrivialDiscriminator, true⟩) false).prune exampleEvaluate
        (fun (s : Nat) (_ : Nat) (_ : TablePrunerData Nat) => ([0], s))
        (fun (s : Nat) (_ : Nat) => (s + 1, s + 1)) 5 () 0).getD
      (Except.ok (), TablePruner.create exampleCandidates 2 3 none false, (), 0)).2.1
    () 1 rfl).1, by decide⟩

/-! ## Equal discriminators -/

/-- C30 fails on the code: two pruners with `rho = 2` are made ready by the
same function 0, the first on the candidates `{0, 1}`, `{1, 2}` and the second
on the candidates `{1, 2}`, `{2, 3}`. The discriminators they hand out have the
same function list, so that `equals` holds of them, but their translation
tables and starting caches differ: on the subset `{1, 5}`, which neither cache
holds, the first returns 1 and the second 0, and on `{1, 2}`, which both caches
hold, likewise. -/
theorem Discriminator.equals_evaluate_differ :
    ∃ d1 d2 : Discriminator Nat,
      (((TablePruner.create [[0, 1], [1, 2]] 2 2 none false).addGInvariant exampleEvaluate ()
          0).2.1.getNewData (E := Nat)).1 =
        Except.ok ⟨DiscriminatorPtr.Discriminator d1, false⟩ ∧
      (((TablePruner.create [[1, 2], [2, 3]] 2 2 none false).addGInvariant exampleEvaluate ()
          0).2.1.getNewData (E := Nat)).1 =
        Except.ok ⟨DiscriminatorPtr.Discriminator d2, false⟩ ∧
      d1.equals d2 = true ∧
      (d1.evaluate exampleEvaluate () [1, 5]).1 = Except.ok 1 ∧
      (d2.evaluate exampleEvaluate () [1, 5]).1 = Except.ok 0 ∧
      (d1.evaluate exampleEvaluate () [1, 2]).1 = Except.ok 1 ∧
      (d2.evaluate exampleEvaluate () [1, 2]).1 = Except.ok 0 :=
  ⟨_, _, rfl, rfl, by decide, by decide, by decide, by decide, by decide⟩

/-! ## The order of the evaluation tasks -/

section Scheduled

variable {Fn W E : Type}

/-- After the tasks `order` have run, the future of a task that ran holds the
outcome of an evaluation of the function on the candidate of the task, and the
other futures are as they were. -/
theorem TablePruner.runTasks_spec (evaluate : W → Fn → Subset → Except E Nat × W) (fn : Fn)
    (candidates : List Subset) (order : List Nat) :
    ∀ st : (Nat → Option (Except E Nat)) × W,
      (∀ i, i ∉ order → (TablePruner.runTasks evaluate fn candidates order st).1 i = st.1 i) ∧
        ∀ i, i ∈ order → ∃ w1, (TablePruner.runTasks evaluate fn candidates order st).1 i =
          some (evaluate w1 fn (candidates.getD i [])).1 := by
  induction order with
  | nil =>
    intro st
    exact ⟨fun i _ => rfl, fun i hi => absurd hi (List.not_mem_nil i)⟩
  | cons a order ih =>
    intro st
    obtain ⟨h1, h2⟩ := ih (Function.update st.1 a (some (evaluate st.2 fn (candidates.getD a [])).1),
      (evaluate st.2 fn (candidates.getD a [])).2)
    constructor
    · intro i hi
      have hia : i ≠ a := fun e => hi (by rw [e]; exact List.mem_cons_self _ _)
      have hio : i ∉ order := fun e => hi (List.mem_cons_of_mem _ e)
      show (TablePruner.runTasks evaluate fn candidates order _).1 i = st.1 i
      rw [h1 i hio]
      exact Function.update_noteq hia _ _
    · intro i hi
      show ∃ w1, (TablePruner.runTasks evaluate fn candidates order _).1 i = _
      by_cases hio : i ∈ order
      · exact h2 i hio
      · have hia : i = a := by
          rcases List.mem_cons.1 hi with h | h
          · exact h
          · exact absurd h hio
        subst hia
        refine ⟨st.2, ?_⟩
        rw [h1 i hio]
        exact Function.update_same _ _ _

theorem TablePruner.waitForAll_eq_some (futures : Nat → Option (Except E Nat)) (is : List Nat) :
    ∀ L : List (Except E Nat),
      TablePruner.waitForAll futures is = some L ↔ is.map futures = L.map some := by
  induction is with
  | nil =>
    intro L
    cases L <;> simp [TablePruner.waitForAll]
  | cons i is ih =>
    intro L
    cases L with
    | nil =>
      unfold TablePruner.waitForAll
      cases futures i <;> cases TablePruner.waitForAll futures is <;> simp
    | cons x L =>
      have ihL := ih L
      unfold TablePruner.waitForAll
      cases hf : futures i with
      | none => cases TablePruner.waitForAll futures is <;> simp [hf]
      | some r =>
        cases hw : TablePruner.waitForAll futures is with
        | none =>
          rw [hw] at ihL
          constructor
          · intro h
            cases h
          · intro h
            simp only [List.map_cons, List.cons.injEq] at h
            exact absurd (ihL.2 h.2) (by simp)
        | some rs =>
          rw [hw] at ihL
          simp only [List.map_cons, hf, List.cons.injEq, Option.some.injEq]
          rw [← ihL]
          simp

theorem TablePruner.newRow_eq (p : TablePruner Fn) (hshape : p.TableShape) (fn : Fn)
    (vals : List Nat) :
    Table.writeRow (p.F.resize (p.fns ++ [fn]).length p.candidates.length).rows p.fns.length vals =
      p.F.rows ++ [vals ++ List.replicate (p.candidates.length - vals.length) 0] := by
  obtain ⟨h1, h2⟩ := hshape
  have hres : (p.F.resize (p.fns ++ [fn]).length p.candidates.length).rows =
      p.F.rows ++ [List.replicate p.candidates.length 0] := by
    have := Table.resize_of_shape p.F.rows p.candidates.length h2
    rw [h1] at this
    simpa using this
  rw [hres, ← h1, Table.writeRow_concat, Table.writeCells_zeros]

/-- When every task has run, whatever the order, the futures collected in the
order of the candidates hold, at every index, the outcome of an evaluation of
the function on the candidate with that index. -/
theorem TablePruner.futures_of_perm (evaluate : W → Fn → Subset → Except E Nat × W) (fn : Fn)
    (candidates : List Subset) (order : List Nat) (w : W)
    (hperm : order.Perm (List.range candidates.length)) :
    ∃ L : List (Except E Nat),
      TablePruner.waitForAll
        (TablePruner.runTasks evaluate fn candidates order (fun _ => none, w)).1
        (List.range candidates.length) = some L ∧
      L.length = candidates.length ∧
      ∀ i, i < candidates.length →
        ∃ w1, L[i]? = some (evaluate w1 fn (candidates.getD i [])).1 := by
  obtain ⟨-, h2⟩ := TablePruner.runTasks_spec evaluate fn candidates order (fun _ => none, w)
  have hall : ∀ i, i < candidates.length → ∃ w1,
      (TablePruner.runTasks evaluate fn candidates order (fun _ => none, w)).1 i =
        some (evaluate w1 fn (candidates.getD i [])).1 := by
    intro i hi
    exact h2 i ((List.Perm.mem_iff hperm).2 (List.mem_range.2 hi))
  generalize (TablePruner.runTasks evaluate fn candidates order (fun _ => none, w)).1 = futures
    at hall
  refine ⟨(List.range candidates.length).map (fun i => (futures i).getD (Except.ok 0)), ?_, ?_, ?_⟩
  · rw [TablePruner.waitForAll_eq_some, List.map_map]
    apply List.map_congr_left
    intro i hi
    obtain ⟨w1, hw1⟩ := hall i (List.mem_range.1 hi)
    simp [hw1]
  · simp
  · intro i hi
    obtain ⟨w1, hw1⟩ := hall i hi
    refine ⟨w1, ?_⟩
    simp [hi, hw1]

/-- Futures that all hold a value are read off as the list of their values. -/
theorem TablePruner.getAll_of_ok (L : List (Except E Nat))
    (hok : ∀ i, i < L.length → ∃ v, L[i]? = some (Except.ok v)) :
    (TablePruner.getAll L).2 = none ∧ L = (TablePruner.getAll L).1.map Except.ok := by
  rcases TablePruner.getAll_split L with ⟨e, rest, h1, h2⟩ | ⟨h1, h2⟩
  · exfalso
    generalize (TablePruner.getAll L).1 = vals at h1
    subst h1
    obtain ⟨v, hv⟩ := hok vals.length (by simp)
    rw [List.getElem?_append_right (by simp)] at hv
    simp at hv
  · exact ⟨h2, h1⟩

theorem TablePruner.runTasks_range (evaluate : W → Fn → Subset → Except E Nat × W) (fn : Fn)
    (candidates : List Subset) (m : Nat) :
    ∀ (a : Nat) (f : Nat → Option (Except E Nat)) (w : W), a + m ≤ candidates.length →
      TablePruner.waitForAll
          (TablePruner.runTasks evaluate fn candidates (List.range' a m) (f, w)).1
          (List.range' a m) =
        some (TablePruner.evaluateAll evaluate fn ((candidates.drop a).take m) w).1 ∧
      (TablePruner.runTasks evaluate fn candidates (List.range' a m) (f, w)).2 =
        (TablePruner.evaluateAll evaluate fn ((candidates.drop a).take m) w).2 := by
  induction m with
  | zero =>
    intro a f w _
    exact ⟨rfl, rfl⟩
  | succ m ih =>
    intro a f w ha
    have halt : a < candidates.length := by omega
    have hdrop : (candidates.drop a).take (m + 1) =
        candidates.getD a [] :: (candidates.drop (a + 1)).take m := by
      rw [List.drop_eq_getElem_cons halt, List.take_succ_cons, List.getD_eq_getElem _ _ halt]
    obtain ⟨ih1, ih2⟩ := ih (a + 1)
      (Function.update f a (some (evaluate w fn (candidates.getD a [])).1))
      (evaluate w fn (candidates.getD a [])).2 (by omega)
    have hnot : a ∉ List.range' (a + 1) m := by
      simp only [List.mem_range', not_exists, not_and]
      intro x _
      omega
    have hspec := (TablePruner.runTasks_spec evaluate fn candidates (List.range' (a + 1) m)
      (Function.update f a (some (evaluate w fn (candidates.getD a [])).1),
        (evaluate w fn (candidates.getD a [])).2)).1 a hnot
    simp only [Function.update_same] at hspec
    rw [hdrop]
    have hr : List.range' a (m + 1) = a :: List.range' (a + 1) m := rfl
    rw [hr]
    constructor
    · show TablePruner.waitForAll
        (TablePruner.runTasks evaluate fn candidates (List.range' (a + 1) m) _).1
        (a :: List.range' (a + 1) m) = _
      unfold TablePruner.waitForAll
      rw [hspec, ih1]
      rfl
    · show (TablePruner.runTasks evaluate fn candidates (List.range' (a + 1) m) _).2 = _
      rw [ih2]
      rfl

/-- The embedding `addGInvariant` is the schedule in which the tasks run in the
order of the candidates. -/
theorem TablePruner.addGInvariantScheduled_range (evaluate : W → Fn → Subset → Except E Nat × W)
    (p : TablePruner Fn) (w : W) (fn : Fn) :
    p.addGInvariantScheduled evaluate w fn (List.range p.candidates.length) =
      some (p.addGInvariant evaluate w fn) := by
  obtain ⟨h1, h2⟩ := TablePruner.runTasks_range evaluate fn p.candidates p.candidates.length 0
    (fun _ => none) w (by omega)
  rw [List.drop_zero, List.take_length] at h1 h2
  rw [← List.range_eq_range'] at h1 h2
  unfold TablePruner.addGInvariantScheduled TablePruner.addGInvariant
  by_cases hr : p.ready = true
  · rw [if_pos hr, if_pos hr]
  · rw [if_neg hr, if_neg hr]
    simp only [h1, h2]
    split
    · rfl
    · split <;> rfl

end Scheduled

/-- C21: in direct mode, on a pruner that is not ready, in a state reached by
calls on a newly constructed pruner, let the evaluations of `fn` on the
candidates succeed. Whatever the order in which the evaluation tasks run,
`addGInvariant(fn)` returns and appends a row to the table in which, for every
candidate index `i`, the cell `i` is the value returned by an evaluation of
`fn` on `candidates[i]`; and when the value of `fn` on a candidate does not
depend on the state of the evaluation caches, the row is the list of these
values, the same for every order. -/
theorem TablePruner.addGInvariant_cells {Fn W E : Type}
    (evaluate : W → Fn → Subset → Except E Nat × W) (candidates : List Subset) (k rho : Nat)
    (prunerData : Option (TablePrunerData Fn)) (ready0 : Bool) (w0 : W)
    (ops : List (PrunerOp Fn)) (p : TablePruner Fn) (w : W) (fn : Fn) (order : List Nat)
    (hreach : p = (TablePruner.after evaluate
      (TablePruner.create candidates k rho prunerData ready0) w0 ops).1)
    (hnot : p.ready = false) (hperm : order.Perm (List.range candidates.length))
    (hok : ∀ w1 i, i < candidates.length →
      ∃ v, (evaluate w1 fn (candidates.getD i [])).1 = Except.ok v) :
    ∃ (r : Except E Unit × TablePruner Fn × W) (row : List Nat),
      p.addGInvariantScheduled evaluate w fn order = some r ∧ r.1 = Except.ok () ∧
      row.length = candidates.length ∧
      r.2.1.F.rows = p.F.rows ++ [row] ∧ r.2.1.fns = p.fns ++ [fn] ∧
      (∀ i, i < candidates.length →
        ∃ w1, (evaluate w1 fn (candidates.getD i [])).1 = Except.ok (row.getD i 0)) ∧
      ∀ val : Nat → Nat,
        (∀ w1 i, i < candidates.length →
          (evaluate w1 fn (candidates.getD i [])).1 = Except.ok (val i)) →
        row = (List.range candidates.length).map val := by
  obtain ⟨hshape, hcands⟩ :=
    TablePruner.reachable_shape evaluate candidates k rho prunerData ready0 w0 ops
  rw [← hreach] at hshape hcands
  subst hcands
  obtain ⟨L, hL, hlen, hLi⟩ := TablePruner.futures_of_perm evaluate fn p.candidates order w hperm
  have hLok : ∀ i, i < L.length → ∃ v, L[i]? = some (Except.ok v) := by
    intro i hi
    rw [hlen] at hi
    obtain ⟨w1, hw1⟩ := hLi i hi
    obtain ⟨v, hv⟩ := hok w1 i hi
    exact ⟨v, by rw [hw1, hv]⟩
  obtain ⟨hnone, hmap⟩ := TablePruner.getAll_of_ok L hLok
  have hvlen : (TablePruner.getAll L).1.length = p.candidates.length := by
    have := congrArg List.length hmap
    rw [List.length_map] at this
    rw [← this, hlen]
  have hrow := TablePruner.newRow_eq p hshape fn (TablePruner.getAll L).1
  rw [hvlen, Nat.sub_self, List.replicate_zero, List.append_nil] at hrow
  have hcell : ∀ i, i < p.candidates.length →
      L[i]? = some (Except.ok ((TablePruner.getAll L).1.getD i 0)) := by
    intro i hi
    have hi2 : i < (TablePruner.getAll L).1.length := by rw [hvlen]; exact hi
    rw [List.getD_eq_getElem _ _ hi2]
    conv_lhs => rw [hmap]
    simp [hi2]
  have hr : ¬ p.ready = true := by simp [hnot]
  have hres : ∃ r : Except E Unit × TablePruner Fn × W,
      p.addGInvariantScheduled evaluate w fn order = some r ∧ r.1 = Except.ok () ∧
        r.2.1.F.rows = p.F.rows ++ [(TablePruner.getAll L).1] ∧ r.2.1.fns = p.fns ++ [fn] := by
    unfold TablePruner.addGInvariantScheduled
    rw [if_neg hr]
    simp only [hL, hnone]
    split
    · exact ⟨_, rfl, rfl, hrow, rfl⟩
    · exact ⟨_, rfl, rfl, hrow, rfl⟩
  obtain ⟨r, h1, h2, h3, h4⟩ := hres
  refine ⟨r, (TablePruner.getAll L).1, h1, h2, hvlen, h3, h4, ?_, ?_⟩
  · intro i hi
    obtain ⟨w1, hw1⟩ := hLi i hi
    refine ⟨w1, ?_⟩
    have := hcell i hi
    rw [hw1] at this
    exact Option.some.inj this
  · intro val hval
    apply List.ext_getElem
    · simp [hvlen]
    · intro i hi1 hi2
      have hi : i < p.candidates.length := by rw [← hvlen]; exact hi1
      obtain ⟨w1, hw1⟩ := hLi i hi
      have hc := hcell i hi
      rw [hw1, hval w1 i hi, List.getD_eq_getElem _ _ hi1] at hc
      simp only [List.getElem_map, List.getElem_range]
      exact (Except.ok.inj (Option.some.inj hc)).symm

/-- C21, on the three candidates with `rho = 3` and the function 0, with the
tasks run in the order 2, 0, 1: the new row holds the values 0, 0 and 1 of the
function on the three candidates. -/
theorem TablePruner.addGInvariant_cells_witness :
    ∃ (r : Except Nat Unit × TablePruner Nat × Unit) (row : List Nat),
      (TablePruner.create exampleCandidates 2 3 none false).addGInvariantScheduled
        exampleEvaluate () 0 [2, 0, 1] = some r ∧
      r.2.1.F.rows =
        (TablePruner.create exampleCandidates 2 3 (none : Option (TablePrunerData Nat))
          false).F.rows ++ [row] ∧
      row = [0, 0, 1] :=
  match TablePruner.addGInvariant_cells exampleEvaluate exampleCandidates 2 3 none false () []
    (TablePruner.create exampleCandidates 2 3 none false) () 0 [2, 0, 1] rfl (by decide)
    (by decide) (fun _ i _ => ⟨[[0, 1], [0, 2], [1, 2]].getD i [] |>.getD 0 0, rfl⟩) with
  | ⟨r, row, h1, _, _, h4, _, _, h7⟩ =>
    ⟨r, row, h1, h4, (h7 (fun i => ([[0, 1], [0, 2], [1, 2]].getD i []).getD 0 0)
      (fun _ _ _ => rfl)).trans (by decide)⟩

/-! ## The anchor set evaluator -/

section AnchorSets

theorem Subset.mem_insert (B : Subset) (x y : Nat) :
    y ∈ Subset.insert B x ↔ y = x ∨ y ∈ B := by
  unfold Subset.insert
  split
  · constructor
    · intro h; exact Or.inr h
    · rintro (h | h)
      · subst h; assumption
      · exact h
  · rw [List.mem_orderedInsert]

theorem Subset.nodup_insert (B : Subset) (x : Nat) (h : B.Nodup) : (Subset.insert B x).Nodup := by
  unfold Subset.insert
  split
  · exact h
  · rename_i hx
    exact ((List.perm_orderedInsert (fun a b => a ≤ b) x B).nodup_iff).2 (List.nodup_cons.2 ⟨hx, h⟩)

theorem AnchorSet.image_foldl (g : Permutation) (A : Subset) (acc : Subset) (h : acc.Nodup) :
    (A.foldl (fun image x => Subset.insert image (Permutation.at g x)) acc).Nodup ∧
      ∀ y, y ∈ A.foldl (fun image x => Subset.insert image (Permutation.at g x)) acc ↔
        y ∈ acc ∨ ∃ x, x ∈ A ∧ Permutation.at g x = y := by
  induction A generalizing acc with
  | nil => simp [h]
  | cons a A ih =>
    simp only [List.foldl_cons]
    obtain ⟨h1, h2⟩ := ih (Subset.insert acc (Permutation.at g a)) (Subset.nodup_insert _ _ h)
    refine ⟨h1, fun y => ?_⟩
    rw [h2, Subset.mem_insert]
    simp only [List.mem_cons, exists_eq_or_imp]
    tauto

theorem AnchorSet.nodup_image (g : Permutation) (A : Subset) : (AnchorSet.image g A).Nodup :=
  (AnchorSet.image_foldl g A [] List.nodup_nil).1

theorem AnchorSet.mem_image (g : Permutation) (A : Subset) (y : Nat) :
    y ∈ AnchorSet.image g A ↔ ∃ x, x ∈ A ∧ Permutation.at g x = y := by
  unfold AnchorSet.image
  rw [(AnchorSet.image_foldl g A [] List.nodup_nil).2]
  simp

theorem AnchorSet.toFinset_image (g : Permutation) (A : Subset) :
    (AnchorSet.image g A).toFinset = A.toFinset.image (Permutation.at g) := by
  ext y
  simp [AnchorSet.mem_image]

theorem setIntersection_length (S B : Subset) (h : S.Nodup) :
    (setIntersection S B).length = (S.toFinset ∩ B.toFinset).card := by
  unfold setIntersection
  rw [← List.toFinset_card_of_nodup (h.filter _), List.toFinset_filter]
  congr 1
  ext y
  simp

theorem setIntersection_length_le (S B : Subset) (h : S.Nodup) :
    (setIntersection S B).length ≤ B.length := by
  have h1 : (setIntersection S B).Nodup := h.filter _
  have h2 : setIntersection S B ⊆ B := by
    intro y hy
    unfold setIntersection at hy
    simpa using (List.mem_filter.1 hy).2
  exact (h1.subperm h2).length_le

theorem MapType.findIn_eq_none_iff_keys {K V : Type} [DecidableEq K] (l : List (K × V)) (key : K) :
    MapType.findIn l key = none ↔ key ∉ l.map Prod.fst := by
  induction l with
  | nil => simp [MapType.findIn]
  | cons p l ih =>
    obtain ⟨a, b⟩ := p
    by_cases ha : a = key
    · simp [MapType.findIn, ha]
    · simp only [MapType.findIn, if_neg ha, ih, List.map_cons, List.mem_cons, not_or]
      constructor
      · intro h; exact ⟨fun h1 => ha h1.symm, h⟩
      · intro h; exact h.2

theorem AnchorSet.imageSet_step (A : Subset) (m : MapType Permutation Subset) (g : Permutation)
    (h : ImageSetInv A m.entries) :
    ImageSetInv A (m.assign g (AnchorSet.image g A)).entries ∧
      ∀ x, x ∈ (m.assign g (AnchorSet.image g A)).entries.map Prod.fst ↔
        x = g ∨ x ∈ m.entries.map Prod.fst := by
  unfold MapType.assign
  cases hf : m.find g with
  | none =>
    have hg : g ∉ m.entries.map Prod.fst := (MapType.findIn_eq_none_iff_keys _ _).1 hf
    refine ⟨⟨?_, ?_⟩, ?_⟩
    · simp only [List.map_cons]
      exact List.nodup_cons.2 ⟨hg, h.1⟩
    · intro e he
      rcases List.mem_cons.1 he with he | he
      · subst he; rfl
      · exact h.2 e he
    · intro x
      simp
  | some v =>
    have hg : g ∈ m.entries.map Prod.fst := by
      by_contra hg
      have := (MapType.findIn_eq_none_iff_keys _ _).2 hg
      unfold MapType.find at hf
      rw [this] at hf
      cases hf
    have hsame : m.entries.map (fun p => if p.1 = g then (p.1, AnchorSet.image g A) else p) =
        m.entries := by
      conv_rhs => rw [← List.map_id m.entries]
      apply List.map_congr_left
      intro e he
      by_cases heg : e.1 = g
      · rw [if_pos heg, id]
        have := h.2 e he
        rw [heg] at this
        rw [← this]
      · rw [if_neg heg, id]
    simp only [hsame]
    refine ⟨h, fun x => ?_⟩
    constructor
    · intro hx; exact Or.inr hx
    · rintro (hx | hx)
      · subst hx; exact hg
      · exact hx

theorem AnchorSet.imageSet_foldl (A : Subset) (elements : List Permutation)
    (m : MapType Permutation Subset) (h : ImageSetInv A m.entries) :
    ImageSetInv A
        (elements.foldl (fun imageSet g => imageSet.assign g (AnchorSet.image g A)) m).entries ∧
      ∀ x, x ∈ (elements.foldl (fun imageSet g => imageSet.assign g (AnchorSet.image g A))
          m).entries.map Prod.fst ↔ x ∈ elements ∨ x ∈ m.entries.map Prod.fst := by
  induction elements generalizing m with
  | nil => exact ⟨h, fun x => by simp⟩
  | cons g elements ih =>
    simp only [List.foldl_cons]
    obtain ⟨h1, h2⟩ := AnchorSet.imageSet_step A m g h
    obtain ⟨h3, h4⟩ := ih _ h1
    refine ⟨h3, fun x => ?_⟩
    rw [h4, h2, List.mem_cons]
    tauto

/-- The image set built by the constructor: every element of the enumeration
is stored once, with the image of the anchor set under it. -/
theorem AnchorSet.imageSet_entries (elements : List Permutation) (A : Subset) :
    ∃ keys : List Permutation, keys.Nodup ∧ keys.toFinset = elements.toFinset ∧
      (AnchorSet.imageSet elements A).entries = keys.map (fun g => (g, AnchorSet.image g A)) := by
  obtain ⟨⟨h1, h2⟩, h3⟩ := AnchorSet.imageSet_foldl A elements MapType.empty
    ⟨by simp [MapType.empty], by simp [MapType.empty]⟩
  refine ⟨(AnchorSet.imageSet elements A).entries.map Prod.fst, h1, ?_, ?_⟩
  · ext x
    rw [List.mem_toFinset, List.mem_toFinset]
    unfold AnchorSet.imageSet
    rw [h3]
    simp [MapType.empty]
  · rw [List.map_map]
    conv_lhs => rw [← List.map_id (AnchorSet.imageSet elements A).entries]
    apply List.map_congr_left
    intro e he
    simp only [id, Function.comp]
    rw [← h2 e he]

theorem List.sum_set_succ (v : List Nat) (j : Nat) (hj : j < v.length) :
    (v.set j (v.getD j 0 + 1)).sum = v.sum + 1 := by
  induction v generalizing j with
  | nil => simp at hj
  | cons a v ih =>
    cases j with
    | zero => simp; omega
    | succ j =>
      simp only [List.length_cons, Nat.succ_lt_succ_iff] at hj
      simp only [List.set_cons_succ, List.sum_cons, List.getD_cons_succ]
      rw [ih j hj]
      omega

theorem List.getD_set_succ (v : List Nat) (j i : Nat) (hj : j < v.length) :
    (v.set j (v.getD j 0 + 1)).getD i 0 = v.getD i 0 + if j = i then 1 else 0 := by
  rw [List.getD_eq_getElem?_getD, List.getD_eq_getElem?_getD, List.getElem?_set]
  by_cases hji : j = i
  · subst hji
    simp [hj]
  · simp [hji]

/-- The loop of the evaluator over entries whose intersections with `B` fit
in the vector. -/
theorem AnchorSetEvaluator_foldl (B : Subset) (es : List (Permutation × Subset)) (v0 : List Nat)
    (hfit : ∀ e, e ∈ es → (setIntersection e.2 B).length < v0.length) :
    ∃ v, es.foldl
        (fun v it =>
          match v with
          | none => none
          | some v =>
            if (setIntersection it.2 B).length < v.length then
              some (v.set (setIntersection it.2 B).length
                (v.getD (setIntersection it.2 B).length 0 + 1))
            else none) (some v0) = some v ∧
      v.length = v0.length ∧ v.sum = v0.sum + es.length ∧
      ∀ i, v.getD i 0 =
        v0.getD i 0 + (es.filter (fun e => (setIntersection e.2 B).length = i)).length := by
  induction es generalizing v0 with
  | nil => exact ⟨v0, rfl, rfl, by simp, by simp⟩
  | cons e es ih =>
    have he := hfit e (List.mem_cons_self _ _)
    simp only [List.foldl_cons, if_pos he]
    obtain ⟨v, h1, h2, h3, h4⟩ := ih (v0.set (setIntersection e.2 B).length
      (v0.getD (setIntersection e.2 B).length 0 + 1))
      (fun e1 he1 => by rw [List.length_set]; exact hfit e1 (List.mem_cons_of_mem _ he1))
    refine ⟨v, h1, by rw [h2, List.length_set], ?_, ?_⟩
    · rw [h3, List.sum_set_succ _ _ he, List.length_cons]; omega
    · intro i
      rw [h4, List.getD_set_succ _ _ _ he, List.filter_cons]
      by_cases hi : (setIntersection e.2 B).length = i
      · simp [hi]; omega
      · simp [hi]

/-- What the evaluator returns on the image set built by the constructor. -/
theorem AnchorSetEvaluator_spec (elements : List Permutation) (A B : Subset) :
    ∃ v, AnchorSetEvaluator (AnchorSet.imageSet elements A) B = some v ∧
      v.length = B.length + 1 ∧ v.sum = elements.toFinset.card ∧
      ∀ i, v.getD i 0 = (elements.toFinset.filter (fun g =>
        ((A.toFinset.image (Permutation.at g)) ∩ B.toFinset).card = i)).card := by
  obtain ⟨keys, hnd, hkeys, hent⟩ := AnchorSet.imageSet_entries elements A
  have hfit : ∀ e, e ∈ (AnchorSet.imageSet elements A).entries →
      (setIntersection e.2 B).length < (List.replicate (B.length + 1) 0).length := by
    intro e he
    rw [hent] at he
    obtain ⟨g, -, rfl⟩ := List.mem_map.1 he
    rw [List.length_replicate]
    exact Nat.lt_succ_of_le (setIntersection_length_le _ _ (AnchorSet.nodup_image g A))
  obtain ⟨v, h1, h2, h3, h4⟩ := AnchorSetEvaluator_foldl B _ _ hfit
  refine ⟨v, h1, by rw [h2, List.length_replicate], ?_, ?_⟩
  · rw [h3, hent, List.length_map, ← hkeys, List.toFinset_card_of_nodup hnd]
    simp
  · intro i
    rw [h4, hent, ← hkeys, List.filter_map, List.length_map,
      ← List.toFinset_card_of_nodup (hnd.filter _), List.toFinset_filter]
    have h0 : (List.replicate (B.length + 1) 0).getD i 0 = 0 := by
      rw [List.getD_eq_getElem?_getD]
      by_cases hi : i < B.length + 1
      · simp [hi]
      · simp [hi]
    rw [h0, Nat.zero_add]
    congr 1
    apply Finset.filter_congr
    intro g _
    simp only [Function.comp, decide_eq_true_eq]
    rw [setIntersection_length _ _ (AnchorSet.nodup_image g A), AnchorSet.toFinset_image]

end AnchorSets

/-- C28: on the image set that the constructor builds from the enumeration
`elements` of the group and the anchor set `A`, and on every subset `B`, the
evaluator returns a vector (no cell outside the vector is addressed) of
length `|B| + 1` in which, for every `i` from 0 to `|B|`, the cell `i` is the
number of the group elements `g` for which the image of `A` under `g` meets
`B` in exactly `i` points; the cells sum to the number of group elements. -/
theorem AnchorSetEvaluator_frequency_vector (elements : List Permutation) (A B : Subset) :
    ∃ v, AnchorSetEvaluator (AnchorSet.imageSet elements A) B = some v ∧
      v.length = B.length + 1 ∧
      (∀ i, i ≤ B.length → v.getD i 0 = (elements.toFinset.filter (fun g =>
        ((A.toFinset.image (Permutation.at g)) ∩ B.toFinset).card = i)).card) ∧
      v.sum = elements.toFinset.card := by
  obtain ⟨v, h1, h2, h3, h4⟩ := AnchorSetEvaluator_spec elements A B
  exact ⟨v, h1, h2, fun i _ => h4 i, h3⟩

section Orbits

theorem Permutation.length_eq (g : Permutation) (v : Nat) (hg : g.Perm (List.range v)) :
    g.length = v := by
  rw [hg.length_eq, List.length_range]

theorem Permutation.at_eq (g : Permutation) (i : Nat) (hi : i < g.length) :
    Permutation.at g i = g[i] := by
  unfold Permutation.at
  rw [List.getD_eq_getElem _ _ hi]

theorem Permutation.at_lt (g : Permutation) (v : Nat) (hg : g.Perm (List.range v)) (i : Nat)
    (hi : i < v) : Permutation.at g i < v := by
  have hl := Permutation.length_eq g v hg
  rw [Permutation.at_eq g i (by omega)]
  exact List.mem_range.1 (hg.subset (List.getElem_mem _))

theorem Permutation.at_inj (g : Permutation) (v : Nat) (hg : g.Perm (List.range v)) (i j : Nat)
    (hi : i < v) (hj : j < v) (h : Permutation.at g i = Permutation.at g j) : i = j := by
  have hl := Permutation.length_eq g v hg
  rw [Permutation.at_eq g i (by omega), Permutation.at_eq g j (by omega)] at h
  exact (List.Nodup.getElem_inj_iff (hg.nodup_iff.2 (List.nodup_range v))).1 h

theorem Permutation.at_surj (g : Permutation) (v : Nat) (hg : g.Perm (List.range v)) (x : Nat)
    (hx : x < v) : ∃ j, j < v ∧ Permutation.at g j = x := by
  have hl := Permutation.length_eq g v hg
  have hmem : x ∈ g := hg.symm.subset (List.mem_range.2 hx)
  obtain ⟨j, hj, hjx⟩ := List.mem_iff_getElem.1 hmem
  exact ⟨j, by omega, by rw [Permutation.at_eq g j hj]; exact hjx⟩

theorem Permutation.at_comp (g h : Permutation) (i : Nat) (hi : i < h.length) :
    Permutation.at (Permutation.comp g h) i = Permutation.at g (Permutation.at h i) := by
  unfold Permutation.comp
  rw [Permutation.at_eq _ i (by rw [List.length_map]; exact hi), List.getElem_map,
    Permutation.at_eq h i hi]

/-- A permutation `k` with `k ∘ h` the identity is a two-sided inverse. -/
theorem Permutation.inverse_facts (h k : Permutation) (v : Nat) (hh : h.Perm (List.range v))
    (hk : Permutation.comp k h = List.range v) :
    (∀ i, i < v → Permutation.at k (Permutation.at h i) = i) ∧
      ∀ x, x < v → Permutation.at h (Permutation.at k x) = x := by
  have hl := Permutation.length_eq h v hh
  have h1 : ∀ i, i < v → Permutation.at k (Permutation.at h i) = i := by
    intro i hi
    rw [← Permutation.at_comp k h i (by omega), hk]
    unfold Permutation.at
    rw [List.getD_eq_getElem _ _ (by simpa using hi)]
    simp
  refine ⟨h1, fun x hx => ?_⟩
  obtain ⟨j, hj, rfl⟩ := Permutation.at_surj h v hh x hx
  rw [h1 j hj]

theorem Permutation.comp_comp_cancel (h k g : Permutation) (v : Nat)
    (hg : g.Perm (List.range v))
    (hcancel : ∀ x, x < v → Permutation.at h (Permutation.at k x) = x) :
    Permutation.comp h (Permutation.comp k g) = g := by
  unfold Permutation.comp
  rw [List.map_map]
  conv_rhs => rw [← List.map_id g]
  apply List.map_congr_left
  intro x hx
  exact hcancel x (List.mem_range.1 (hg.subset hx))

/-- The size of the intersection of the image of `A` under `k ∘ g` with `B` is the
size of the intersection of the image of `A` under `g` with the image of
`B` under `h`, when `k` is the inverse of `h`. -/
theorem Permutation.card_inter_image (g h k : Permutation) (v : Nat) (A B : Subset)
    (hg : g.Perm (List.range v)) (hh : h.Perm (List.range v)) (hk : k.Perm (List.range v))
    (hhk : ∀ x, x < v → Permutation.at h (Permutation.at k x) = x)
    (hA : ∀ x, x ∈ A → x < v) (hB : ∀ x, x ∈ B → x < v) :
    ((A.toFinset.image (Permutation.at (Permutation.comp k g))) ∩ B.toFinset).card =
      ((A.toFinset.image (Permutation.at g)) ∩
        (B.toFinset.image (Permutation.at h))).card := by
  have hl := Permutation.length_eq g v hg
  have himg : A.toFinset.image (Permutation.at (Permutation.comp k g)) =
      (A.toFinset.image (Permutation.at g)).image (Permutation.at k) := by
    rw [Finset.image_image]
    apply Finset.image_congr
    intro x hx
    have hx1 : x < v := hA x (List.mem_toFinset.1 hx)
    rw [Permutation.at_comp k g x (by omega)]
    rfl
  have hX : ∀ x, x ∈ A.toFinset.image (Permutation.at g) → x < v := by
    intro x hx
    obtain ⟨a, ha, rfl⟩ := Finset.mem_image.1 hx
    exact Permutation.at_lt g v hg a (hA a (List.mem_toFinset.1 ha))
  have hinj : Set.InjOn (Permutation.at h)
      (↑((A.toFinset.image (Permutation.at g)).image (Permutation.at k)) ∪ ↑B.toFinset) := by
    intro x hx y hy hxy
    have hlt : ∀ z, z ∈ (↑((A.toFinset.image (Permutation.at g)).image (Permutation.at k)) ∪
        ↑B.toFinset : Set Nat) → z < v := by
      intro z hz
      rcases hz with hz | hz
      · obtain ⟨a, ha, rfl⟩ := Finset.mem_image.1 (Finset.mem_coe.1 hz)
        exact Permutation.at_lt k v hk a (hX a ha)
      · exact hB z (List.mem_toFinset.1 (Finset.mem_coe.1 hz))
    exact Permutation.at_inj h v hh x y (hlt x hx) (hlt y hy) hxy
  have hback : ((A.toFinset.image (Permutation.at g)).image (Permutation.at k)).image
      (Permutation.at h) = A.toFinset.image (Permutation.at g) := by
    rw [Finset.image_image]
    conv_rhs => rw [← Finset.image_id (s := A.toFinset.image (Permutation.at g))]
    apply Finset.image_congr
    intro x hx
    exact hhk x (hX x (Finset.mem_coe.1 hx))
  have hinter : (A.toFinset.image (Permutation.at g)) ∩ (B.toFinset.image (Permutation.at h)) =
      (((A.toFinset.image (Permutation.at g)).image (Permutation.at k)) ∩ B.toFinset).image
        (Permutation.at h) := by
    rw [Finset.image_inter_of_injOn _ _ hinj, hback]
  rw [himg, hinter, Finset.card_image_of_injOn (hinj.mono (by
    intro z hz
    exact Or.inr (Finset.mem_coe.2 (Finset.mem_inter.1 (Finset.mem_coe.1 hz)).2)))]

theorem List.eq_of_getD_eq (l1 l2 : List Nat) (hlen : l1.length = l2.length)
    (h : ∀ i, l1.getD i 0 = l2.getD i 0) : l1 = l2 := by
  apply List.ext_getElem hlen
  intro i h1 h2
  have := h i
  rwa [List.getD_eq_getElem _ _ h1, List.getD_eq_getElem _ _ h2] at this

end Orbits

/-- C25: let the enumeration `elements` of the group consist of permutations of
the points `0, ..., v - 1` and be closed under composition and inverses.
Then for every anchor set `A` and every subset `B` of these points and every
`h` of the enumeration, the evaluator of the anchor set returns a frequency
vector on `B`, and it returns the same vector on the image of `B` under `h`. -/
theorem AnchorSetEvaluator_orbit_invariant (v : Nat) (elements : List Permutation)
    (A B : Subset) (h : Permutation)
    (hperm : ∀ g, g ∈ elements → g.Perm (List.range v))
    (hcomp : ∀ g1, g1 ∈ elements → ∀ g2, g2 ∈ elements → Permutation.comp g1 g2 ∈ elements)
    (hinv : ∀ g, g ∈ elements → ∃ k, k ∈ elements ∧ Permutation.comp k g = List.range v)
    (hA : ∀ x, x ∈ A → x < v) (hB : ∀ x, x ∈ B → x < v) (hnodup : B.Nodup)
    (hh : h ∈ elements) :
    (AnchorSetEvaluator (AnchorSet.imageSet elements A) B).isSome = true ∧
      AnchorSetEvaluator (AnchorSet.imageSet elements A) (AnchorSet.image h B) =
        AnchorSetEvaluator (AnchorSet.imageSet elements A) B := by
  obtain ⟨k, hk, hkh⟩ := hinv h hh
  obtain ⟨hkh1, hhk1⟩ := Permutation.inverse_facts h k v (hperm h hh) hkh
  obtain ⟨v1, h1, hlen1, -, hget1⟩ := AnchorSetEvaluator_spec elements A (AnchorSet.image h B)
  obtain ⟨v2, h2, hlen2, -, hget2⟩ := AnchorSetEvaluator_spec elements A B
  rw [h1, h2]
  refine ⟨rfl, congrArg some (List.eq_of_getD_eq v1 v2 ?_ ?_)⟩
  · rw [hlen1, hlen2, ← List.toFinset_card_of_nodup (AnchorSet.nodup_image h B),
      AnchorSet.toFinset_image, ← List.toFinset_card_of_nodup hnodup]
    rw [Finset.card_image_of_injOn]
    intro x hx y hy hxy
    exact Permutation.at_inj h v (hperm h hh) x y (hB x (List.mem_toFinset.1 hx))
      (hB y (List.mem_toFinset.1 hy)) hxy
  · intro i
    rw [hget1, hget2, AnchorSet.toFinset_image]
    apply Finset.card_nbij' (fun g => Permutation.comp k g) (fun g => Permutation.comp h g)
    · intro g hg
      simp only [Finset.mem_filter, List.mem_toFinset] at hg ⊢
      refine ⟨hcomp k hk g hg.1, ?_⟩
      rw [Permutation.card_inter_image g h k v A B (hperm g hg.1) (hperm h hh) (hperm k hk) hhk1
        hA hB]
      exact hg.2
    · intro g hg
      simp only [Finset.mem_filter, List.mem_toFinset] at hg ⊢
      refine ⟨hcomp h hh g hg.1, ?_⟩
      rw [← Permutation.card_inter_image (Permutation.comp h g) h k v A B
        (hperm _ (hcomp h hh g hg.1)) (hperm h hh) (hperm k hk) hhk1 hA hB,
        Permutation.comp_comp_cancel k h g v (hperm g hg.1) hkh1]
      exact hg.2
    · intro g hg
      simp only [Finset.mem_filter, List.mem_toFinset] at hg
      exact Permutation.comp_comp_cancel h k g v (hperm g hg.1) hhk1
    · intro g hg
      simp only [Finset.mem_filter, List.mem_toFinset] at hg
      exact Permutation.comp_comp_cancel k h g v (hperm g hg.1) hkh1

/-- C25, on the cyclic group of order 4 on the points 0, 1, 2, 3, with the anchor
set of the points 0 and 1: the vector on the image of {0, 2} under the
generator is the vector on {0, 2}. -/
theorem AnchorSetEvaluator_orbit_invariant_witness :
    (AnchorSetEvaluator (AnchorSet.imageSet
        [[0, 1, 2, 3], [1, 2, 3, 0], [2, 3, 0, 1], [3, 0, 1, 2]] [0, 1]) [0, 2]).isSome = true ∧
      AnchorSetEvaluator (AnchorSet.imageSet
          [[0, 1, 2, 3], [1, 2, 3, 0], [2, 3, 0, 1], [3, 0, 1, 2]] [0, 1])
          (AnchorSet.image [1, 2, 3, 0] [0, 2]) =
        AnchorSetEvaluator (AnchorSet.imageSet
          [[0, 1, 2, 3], [1, 2, 3, 0], [2, 3, 0, 1], [3, 0, 1, 2]] [0, 1]) [0, 2] :=
  AnchorSetEvaluator_orbit_invariant 4 [[0, 1, 2, 3], [1, 2, 3, 0], [2, 3, 0, 1], [3, 0, 1, 2]]
    [0, 1] [0, 2] [1, 2, 3, 0] (by decide) (by decide) (by decide) (by decide) (by decide)
    (by decide) (by decide)

/-! ## The Taxonomy 2 evaluator -/

section Taxonomy2Evaluation

theorem MapType.keys_replace {K V : Type} [DecidableEq K] (l : List (K × V)) (c : K) (value : V) :
    (l.map (fun p => if p.1 = c then (p.1, value) else p)).map Prod.fst = l.map Prod.fst := by
  rw [List.map_map]
  apply List.map_congr_left
  intro p _
  simp only [Function.comp]
  split <;> rfl

theorem MapType.sum_replace (l : List (Nat × Nat)) (c value v0 : Nat)
    (hnd : (l.map Prod.fst).Nodup) (hf : MapType.findIn l c = some v0) :
    ((l.map (fun p => if p.1 = c then (p.1, value) else p)).map Prod.snd).sum + v0 =
      (l.map Prod.snd).sum + value := by
  induction l with
  | nil => simp [MapType.findIn] at hf
  | cons p l ih =>
    obtain ⟨a, b⟩ := p
    simp only [List.map_cons, List.nodup_cons] at hnd
    by_cases ha : a = c
    · subst ha
      simp only [MapType.findIn, if_true, eq_self_iff_true, Option.some.injEq] at hf
      subst hf
      have hsame : l.map (fun p => if p.1 = a then (p.1, value) else p) = l := by
        conv_rhs => rw [← List.map_id l]
        apply List.map_congr_left
        intro p hp
        have : p.1 ≠ a := by
          intro h
          apply hnd.1
          rw [← h]
          exact List.mem_map_of_mem _ hp
        rw [if_neg this, id]
      simp only [List.map_cons, if_true, eq_self_iff_true, List.sum_cons, hsame]
      omega
    · simp only [MapType.findIn, if_neg ha] at hf
      have := ih hnd.2 hf
      simp only [List.map_cons, if_neg ha, List.sum_cons]
      omega

/-- The statement `result[c]++` on a map without repeated keys. -/
theorem MapType.increment_spec (m : MapType Nat Nat) (c : Nat)
    (hnd : (m.entries.map Prod.fst).Nodup) :
    (((m.index c).2.assign c ((m.index c).1 + 1)).entries.map Prod.fst).Nodup ∧
      (∀ c1, ((m.index c).2.assign c ((m.index c).1 + 1)).find c1 =
        if c = c1 then some ((m.find c).getD 0 + 1) else m.find c1) ∧
      (((m.index c).2.assign c ((m.index c).1 + 1)).entries.map Prod.snd).sum =
        (m.entries.map Prod.snd).sum + 1 := by
  cases hf : m.find c with
  | some v0 =>
    rw [MapType.index_of_find m c v0 hf]
    refine ⟨?_, ?_, ?_⟩
    · unfold MapType.assign
      simp only [hf]
      rw [MapType.keys_replace]
      exact hnd
    · intro c1
      rw [MapType.find_assign]
      simp
    · unfold MapType.assign
      simp only [hf]
      have := MapType.sum_replace m.entries c (v0 + 1) v0 hnd hf
      omega
  | none =>
    have hidx : m.index c = (0, ⟨(c, 0) :: m.entries⟩) := by
      unfold MapType.index
      rw [hf]
      rfl
    have hc : c ∉ m.entries.map Prod.fst := (MapType.findIn_eq_none_iff_keys _ _).1 hf
    have hnd1 : (((c, 0) :: m.entries).map Prod.fst).Nodup := by
      simp only [List.map_cons]
      exact List.nodup_cons.2 ⟨hc, hnd⟩
    have hf1 : (MapType.mk ((c, 0) :: m.entries)).find c = some 0 := by
      rw [MapType.find_cons, if_pos rfl]
    rw [hidx]
    refine ⟨?_, ?_, ?_⟩
    · unfold MapType.assign
      simp only [hf1]
      rw [MapType.keys_replace]
      exact hnd1
    · intro c1
      rw [MapType.find_assign, MapType.find_cons]
      by_cases h : c = c1
      · simp [h]
      · simp [h]
    · unfold MapType.assign
      simp only [hf1]
      have := MapType.sum_replace ((c, 0) :: m.entries) c (0 + 1) 0 hnd1 hf1
      simp only [List.map_cons, List.sum_cons] at this ⊢
      omega

/-- The loop of the evaluator, when the discriminator has the value `val T` on
every subset `T` that it is asked for. -/
theorem Taxonomy2EvaluatorLoop_spec {W E : Type} (phiEvaluate : W → Subset → Except E Nat × W)
    (val : Subset → Nat) (B : Subset) (rest : List Nat)
    (hval : ∀ w1 x, x ∈ rest → (phiEvaluate w1 (B.erase x)).1 = Except.ok (val (B.erase x)))
    (result : MapType Nat Nat) (w : W) (hnd : (result.entries.map Prod.fst).Nodup) :
    ∃ result1, (Taxonomy2EvaluatorLoop phiEvaluate B rest result w).1 = Except.ok result1 ∧
      (result1.entries.map Prod.fst).Nodup ∧
      (∀ c, result1.find c =
        if (rest.filter (fun x => val (B.erase x) = c)).length = 0 then result.find c
        else some ((result.find c).getD 0 + (rest.filter (fun x => val (B.erase x) = c)).length)) ∧
      (result1.entries.map Prod.snd).sum = (result.entries.map Prod.snd).sum + rest.length := by
  induction rest generalizing result w with
  | nil => exact ⟨result, rfl, hnd, fun c => by simp, by simp⟩
  | cons x rest ih =>
    have hx := hval w x (List.mem_cons_self _ _)
    cases hp : phiEvaluate w (B.erase x) with
    | mk r w1 =>
      rw [hp] at hx
      simp only at hx
      subst hx
      obtain ⟨n1, n2, n3⟩ := MapType.increment_spec result (val (B.erase x)) hnd
      obtain ⟨result1, h1, h2, h3, h4⟩ := ih (fun w1 y hy => hval w1 y (List.mem_cons_of_mem _ hy))
        ((result.index (val (B.erase x))).2.assign (val (B.erase x))
          ((result.index (val (B.erase x))).1 + 1)) w1 n1
      refine ⟨result1, ?_, h2, ?_, ?_⟩
      · simp only [Taxonomy2EvaluatorLoop, hp]
        exact h1
      · intro c
        rw [h3, n2, List.filter_cons]
        by_cases hc : val (B.erase x) = c
        · subst hc
          simp only [if_pos, decide_True, List.length_cons]
          split
          · rename_i h0
            rw [h0]
            simp
          · simp
            omega
        · simp only [if_neg hc, decide_eq_true_eq]
      · rw [h4, n3, List.length_cons]
        omega

end Taxonomy2Evaluation

/-- C29: let the discriminator have the value `val T` on every subset `T` of `B`
with one element removed, in every state of the evaluation caches. Then the
evaluator returns a map without repeated keys in which, for every code `c`,
the entry at `c` is the number of the elements `x` of `B` with
`val (B \ {x}) = c`, and is absent when this number is 0; the entries sum to
the size of `B`. -/
theorem Taxonomy2Evaluator_frequency_vector {W E : Type}
    (phiEvaluate : W → Subset → Except E Nat × W) (val : Subset → Nat) (w : W) (B : Subset)
    (hval : ∀ w1 x, x ∈ B → (phiEvaluate w1 (B.erase x)).1 = Except.ok (val (B.erase x))) :
    ∃ result, (Taxonomy2Evaluator phiEvaluate w B).1 = Except.ok result ∧
      (result.entries.map Prod.fst).Nodup ∧
      (∀ c, result.find c =
        if (B.filter (fun x => val (B.erase x) = c)).length = 0 then none
        else some (B.filter (fun x => val (B.erase x) = c)).length) ∧
      (result.entries.map Prod.snd).sum = B.length := by
  obtain ⟨result, h1, h2, h3, h4⟩ := Taxonomy2EvaluatorLoop_spec phiEvaluate val B B hval
    MapType.empty w (by simp [MapType.empty])
  refine ⟨result, h1, h2, fun c => ?_, ?_⟩
  · rw [h3, MapType.find_empty]
    simp
  · rw [h4]
    simp [MapType.empty]

/-- C29, on the subset of the points 0, 1, 2 with a discriminator whose value
on a subset is the parity of the sum of its points: the subsets {1, 2}, {0, 2}
and {0, 1} have the values 1, 0 and 1, so that the entry at 1 is 2 and the
entry at 0 is 1. -/
theorem Taxonomy2Evaluator_frequency_vector_witness :
    ∃ result, (Taxonomy2Evaluator
        (fun (w : Unit) (T : Subset) => ((Except.ok (T.sum % 2) : Except Nat Nat), w)) ()
        [0, 1, 2]).1 = Except.ok result ∧
      (result.entries.map Prod.fst).Nodup ∧
      (∀ c, result.find c =
        if ([0, 1, 2].filter (fun x => ([0, 1, 2].erase x).sum % 2 = c)).length = 0 then none
        else some ([0, 1, 2].filter (fun x => ([0, 1, 2].erase x).sum % 2 = c)).length) ∧
      (result.entries.map Prod.snd).sum = [0, 1, 2].length :=
  Taxonomy2Evaluator_frequency_vector
    (fun (w : Unit) (T : Subset) => ((Except.ok (T.sum % 2) : Except Nat Nat), w))
    (fun T => T.sum % 2) () [0, 1, 2] (fun _ _ _ => rfl)

/-! ## The codes of the frequency vectors -/

section Coding

variable {FV W E : Type} [DecidableEq FV]

theorem LookupTable.Coded.mono {vec : Subset → FV} {N M : Nat} {t : LookupTable FV}
    (h : t.Coded vec N) (hNM : N ≤ M) : t.Coded vec M := by
  refine ⟨fun fv c hf => ?_, h.2.1, h.2.2⟩
  obtain ⟨j, hj, hc⟩ := h.1 fv c hf
  exact ⟨j, by omega, hc⟩

theorem LookupTable.create_coded (vec : Subset → FV) (nextIdx0 N : Nat) :
    (LookupTable.create nextIdx0 : LookupTable FV).Coded vec N := by
  refine ⟨?_, ?_, ?_⟩
  · intro fv c h
    simp [LookupTable.create, MapType.find_empty] at h
  · intro fv1 fv2 c h
    simp [LookupTable.create, MapType.find_empty] at h
  · intro B c h
    simp [LookupTable.create, MapType.find_empty] at h

/-- A query of a coded lookup table whose evaluator may act on the state returns
the code of the vector of the subset, and leaves a coded table that has kept
its codes; the state is left as it was or as the evaluator left it. -/
theorem LookupTable.query_coded_state (eval : W → Subset → Except E FV × W)
    (vec : Subset → FV) (heval : ∀ w B, (eval w B).1 = Except.ok (vec B)) (t : LookupTable FV)
    (w : W) (B : Subset) (N : Nat) (hN : N < 2 ^ 64) (ht : t.Coded vec N) :
    ∃ code t1 w1, t.query eval w B = (Except.ok code, t1, w1) ∧
      (w1 = w ∨ w1 = (eval w B).2) ∧ t1.Coded vec (N + 1) ∧
      t1.delegate.translator.find (vec B) = some code ∧
      ∀ fv c, t.delegate.translator.find fv = some c →
        t1.delegate.translator.find fv = some c := by
  obtain ⟨ha, hb, hc⟩ := ht
  cases hf : t.cache.find B with
  | some c =>
    refine ⟨c, t, w, LookupTable.query_cached eval t w B c hf, Or.inl rfl,
      LookupTable.Coded.mono ⟨ha, hb, hc⟩ (Nat.le_succ N), hc B c hf, fun _ _ h => h⟩
  | none =>
    obtain ⟨w1, hev⟩ : ∃ w1, eval w B = (Except.ok (vec B), w1) :=
      ⟨_, Prod.ext (heval w B) rfl⟩
    have hw1 : w1 = (eval w B).2 := by rw [hev]
    cases hg : t.delegate.translator.find (vec B) with
    | some c =>
      have hcount : ¬ t.delegate.translator.count (vec B) = 0 := by
        rw [MapType.count_eq_zero_iff, hg]; simp
      have hcall : EvaluationDelegate.call eval (t.delegate, w) B =
          (Except.ok c, (t.delegate, w1)) := by
        unfold EvaluationDelegate.call
        simp only [hev, if_neg hcount, MapType.index_of_find _ _ _ hg]
      have hmono : ∀ fv c, t.delegate.translator.find fv = some c →
          ∃ j, j < N + 1 ∧ (c + j + 1) % 2 ^ 64 = t.delegate.nextIdx % 2 ^ 64 := by
        intro fv c h
        obtain ⟨j, hj, hjc⟩ := ha fv c h
        exact ⟨j, by omega, hjc⟩
      refine ⟨c, ⟨⟨(B, c) :: t.cache.entries⟩, t.delegate⟩, w1, ?_, Or.inr hw1,
        ⟨hmono, hb, ?_⟩, hg, fun _ _ h => h⟩
      · unfold LookupTable.query
        rw [MapCache.query_absent_ok _ ⟨t.cache, (t.delegate, w)⟩ B c (t.delegate, w1) hf hcall]
      · intro B1 c1 h1
        rw [MapType.find_cons] at h1
        by_cases hB : B = B1
        · subst hB
          rw [if_pos rfl] at h1
          cases h1
          exact hg
        · rw [if_neg hB] at h1
          exact hc B1 c1 h1
    | none =>
      have hcount : t.delegate.translator.count (vec B) = 0 := by
        rw [MapType.count_eq_zero_iff, hg]
      have hfa : (t.delegate.translator.assign (vec B) t.delegate.nextIdx).find (vec B) =
          some t.delegate.nextIdx := by
        rw [MapType.find_assign, if_pos rfl]
      have hcall : EvaluationDelegate.call eval (t.delegate, w) B =
          (Except.ok t.delegate.nextIdx,
            (⟨t.delegate.translator.assign (vec B) t.delegate.nextIdx,
              (t.delegate.nextIdx + 1) % 2 ^ 64⟩, w1)) := by
        unfold EvaluationDelegate.call
        simp only [hev, if_pos hcount, MapType.index_of_find _ _ _ hfa]
      have hfresh : ∀ fv, t.delegate.translator.find fv ≠ some t.delegate.nextIdx := by
        intro fv h
        obtain ⟨j, hj, hjc⟩ := ha fv _ h
        omega
      refine ⟨t.delegate.nextIdx, ⟨⟨(B, t.delegate.nextIdx) :: t.cache.entries⟩,
        ⟨t.delegate.translator.assign (vec B) t.delegate.nextIdx,
          (t.delegate.nextIdx + 1) % 2 ^ 64⟩⟩,
        w1, ?_, Or.inr hw1, ⟨?_, ?_, ?_⟩, hfa, ?_⟩
      · unfold LookupTable.query
        rw [MapCache.query_absent_ok _ ⟨t.cache, (t.delegate, w)⟩ B _ _ hf hcall]
      · intro fv c h
        simp only [MapType.find_assign] at h
        by_cases hfv : vec B = fv
        · rw [if_pos hfv] at h
          cases h
          exact ⟨0, by omega, by simp⟩
        · rw [if_neg hfv] at h
          obtain ⟨j, hj, hjc⟩ := ha fv c h
          refine ⟨j + 1, by omega, ?_⟩
          simp only [Nat.mod_mod]
          omega
      · intro fv1 fv2 c h1 h2
        simp only [MapType.find_assign] at h1 h2
        by_cases hfv1 : vec B = fv1
        · rw [if_pos hfv1] at h1
          cases h1
          by_cases hfv2 : vec B = fv2
          · rw [← hfv1, ← hfv2]
          · rw [if_neg hfv2] at h2
            exact absurd h2 (hfresh fv2)
        · rw [if_neg hfv1] at h1
          by_cases hfv2 : vec B = fv2
          · rw [if_pos hfv2] at h2
            cases h2
            exact absurd h1 (hfresh fv1)
          · rw [if_neg hfv2] at h2
            exact hb fv1 fv2 c h1 h2
      · intro B1 c1 h1
        rw [MapType.find_cons] at h1
        simp only [MapType.find_assign]
        by_cases hB : B = B1
        · subst hB
          rw [if_pos rfl] at h1
          cases h1
          rw [if_pos rfl]
        · rw [if_neg hB] at h1
          have h2 := hc B1 c1 h1
          by_cases hfv : vec B = vec B1
          · rw [hfv] at hg
            rw [hg] at h2
            cases h2
          · rw [if_neg hfv]
            exact h2
      · intro fv c h
        simp only [MapType.find_assign]
        by_cases hfv : vec B = fv
        · rw [hfv] at hg
          rw [hg] at h
          cases h
        · rw [if_neg hfv]
          exact h

/-- A query of a coded lookup table returns the code of the vector of the
subset, and leaves a coded table that has kept its codes. -/
theorem LookupTable.query_coded (eval : W → Subset → Except E FV × W) (vec : Subset → FV)
    (heval : ∀ w B, eval w B = (Except.ok (vec B), w)) (t : LookupTable FV) (w : W) (B : Subset)
    (N : Nat) (hN : N < 2 ^ 64) (ht : t.Coded vec N) :
    ∃ code t1, t.query eval w B = (Except.ok code, t1, w) ∧ t1.Coded vec (N + 1) ∧
      t1.delegate.translator.find (vec B) = some code ∧
      ∀ fv c, t.delegate.translator.find fv = some c →
        t1.delegate.translator.find fv = some c := by
  obtain ⟨code, t1, w1, h1, h2, h3, h4, h5⟩ := LookupTable.query_coded_state eval vec
    (fun w B => by rw [heval]) t w B N hN ht
  have hw : w1 = w := by
    rcases h2 with h2 | h2
    · exact h2
    · rw [h2, heval]
  rw [hw] at h1
  exact ⟨code, t1, h1, h3, h4, h5⟩

/-- An evaluation of an anchor set through a coded evaluation cache returns
the code of the vector of the subset in the lookup table for its size, and
leaves a coded cache that has kept its codes. -/
theorem AnchorSet.evaluate_coded (eval : AnchorSet → W → Subset → Except E FV × W)
    (vec : Subset → FV) (nextIdx0 : Nat) (c : AnchorSetEvalCache FV) (f : AnchorSet) (w : W)
    (B : Subset)
    (heval : ∀ g : AnchorSet, g.key = f.key → ∀ w B, eval g w B = (Except.ok (vec B), w))
    (N : Nat) (hN : N < 2 ^ 64) (hc : AnchorSetEvalCache.Coded vec N c f) :
    ∃ code c1, AnchorSet.evaluate eval nextIdx0 c f w B = (Except.ok code, c1, w) ∧
      AnchorSetEvalCache.Coded vec (N + 1) c1 f ∧
      AnchorSetEvalCache.Known c1 f B.length (vec B) code ∧
      ∀ s fv d, AnchorSetEvalCache.Known c f s fv d → AnchorSetEvalCache.Known c1 f s fv d := by
  obtain ⟨q1, q2, q3, q4⟩ := MapCache.queryTotal_find
    (fun _ => (⟨f, MapType.empty⟩ : AnchorSetLookupTable FV)) c f.key
  generalize hq : MapCache.queryTotal
    (fun _ => (⟨f, MapType.empty⟩ : AnchorSetLookupTable FV)) c f.key = q at q1 q2 q3 q4
  obtain ⟨entry, c0⟩ := q
  simp only at q1 q2 q3 q4
  have hentry : entry.creator.key = f.key ∧
      ∀ s t, entry.tables.find s = some t → t.Coded vec N := by
    cases hfind : c.find f.key with
    | some e =>
      have := q2 e hfind
      simp only [Prod.mk.injEq] at this
      rw [this.1]
      exact hc e hfind
    | none =>
      have := q3 hfind
      rw [this]
      refine ⟨rfl, fun s t h => ?_⟩
      simp [MapType.find_empty] at h
  obtain ⟨r1, r2, r3, r4⟩ := MapCache.queryTotal_find
    (fun _ => (LookupTable.create nextIdx0 : LookupTable FV)) entry.tables B.length
  generalize hr : MapCache.queryTotal
    (fun _ => (LookupTable.create nextIdx0 : LookupTable FV)) entry.tables B.length = r
    at r1 r2 r3 r4
  obtain ⟨t, tables0⟩ := r
  simp only at r1 r2 r3 r4
  have htable : t.Coded vec N := by
    cases hfind : entry.tables.find B.length with
    | some t0 =>
      have := r2 t0 hfind
      simp only [Prod.mk.injEq] at this
      rw [this.1]
      exact hentry.2 _ _ hfind
    | none =>
      rw [r3 hfind]
      exact LookupTable.create_coded vec nextIdx0 N
  obtain ⟨code, t1, h1, h2, h3, h4⟩ := LookupTable.query_coded (eval entry.creator) vec
    (heval entry.creator hentry.1) t w B N hN htable
  have hfind1 : (c0.assign f.key
      (⟨entry.creator, tables0.assign B.length t1⟩ : AnchorSetLookupTable FV)).find f.key =
      some ⟨entry.creator, tables0.assign B.length t1⟩ := by
    rw [MapType.find_assign, if_pos rfl]
  refine ⟨code, c0.assign f.key ⟨entry.creator, tables0.assign B.length t1⟩, ?_, ?_, ?_, ?_⟩
  · unfold AnchorSet.evaluate
    simp only [hq, hr, h1]
  · intro entry1 he1
    rw [hfind1] at he1
    cases he1
    refine ⟨hentry.1, fun s t2 hs => ?_⟩
    simp only [MapType.find_assign] at hs
    by_cases hsB : B.length = s
    · rw [if_pos hsB] at hs
      cases hs
      exact h2
    · rw [if_neg hsB, r4 s (fun h => hsB h.symm)] at hs
      exact LookupTable.Coded.mono (hentry.2 s t2 hs) (Nat.le_succ N)
  · exact ⟨_, t1, hfind1, by rw [MapType.find_assign, if_pos rfl], h3⟩
  · intro s fv d hk
    obtain ⟨e, t0, k1, k2, k3⟩ := hk
    have he := q2 e k1
    simp only [Prod.mk.injEq] at he
    obtain ⟨he1, -⟩ := he
    subst he1
    by_cases hsB : B.length = s
    · subst hsB
      have ht := r2 t0 k2
      simp only [Prod.mk.injEq] at ht
      obtain ⟨ht1, -⟩ := ht
      subst ht1
      exact ⟨_, t1, hfind1, by rw [MapType.find_assign, if_pos rfl], h4 fv d k3⟩
    · refine ⟨_, t0, hfind1, ?_, k3⟩
      simp only [MapType.find_assign]
      rw [if_neg hsB, r4 s (fun h => hsB h.symm)]
      exact k2

/-- In a coded cache a vector has one code in a lookup table, and a code
belongs to one vector. -/
theorem AnchorSetEvalCache.known_iff (vec : Subset → FV) (c : AnchorSetEvalCache FV)
    (f : AnchorSet) (N : Nat) (hc : AnchorSetEvalCache.Coded vec N c f) (s : Nat) (fv1 fv2 : FV)
    (d1 d2 : Nat) (h1 : AnchorSetEvalCache.Known c f s fv1 d1)
    (h2 : AnchorSetEvalCache.Known c f s fv2 d2) : d1 = d2 ↔ fv1 = fv2 := by
  obtain ⟨e1, t1, a1, a2, a3⟩ := h1
  obtain ⟨e2, t2, b1, b2, b3⟩ := h2
  rw [a1] at b1
  cases b1
  rw [a2] at b2
  cases b2
  constructor
  · intro h
    subst h
    exact ((hc e1 a1).2 s t1 a2).2.1 fv1 fv2 d1 a3 b3
  · intro h
    subst h
    rw [a3] at b3
    exact Option.some.inj b3

theorem AnchorSet.createEvaluator_eq (elements : List Permutation) (f g : AnchorSet)
    (hg : g.key = f.key) (w : Unit) (B : Subset) :
    AnchorSet.createEvaluator elements g w B =
      (Except.ok (AnchorSet.vector elements f.anchorSet B), w) := by
  have hA : g.anchorSet = f.anchorSet := congrArg Prod.snd hg
  obtain ⟨v, hv, -⟩ := AnchorSetEvaluator_spec elements f.anchorSet B
  unfold AnchorSet.createEvaluator AnchorSet.vector
  rw [hA, hv]
  rfl

/-- The evaluations of an anchor set on a list of subsets, one after the
other, from a coded cache: all return, and the values they return are the
codes of the vectors of the subsets in the cache afterwards. -/
theorem AnchorSet.evaluateAll_coded (elements : List Permutation) (nextIdx0 : Nat)
    (f : AnchorSet) (Bs : List Subset) (c : AnchorSetEvalCache (List Nat)) (N : Nat)
    (hN : N + Bs.length ≤ 2 ^ 64)
    (hc : AnchorSetEvalCache.Coded (AnchorSet.vector elements f.anchorSet) N c f) :
    ∃ (codes : List Nat) (c1 : AnchorSetEvalCache (List Nat)),
      TablePruner.evaluateAll (AnchorSet.evaluateOver elements nextIdx0) f Bs c =
        (codes.map Except.ok, c1) ∧
      codes.length = Bs.length ∧
      AnchorSetEvalCache.Coded (AnchorSet.vector elements f.anchorSet) (N + Bs.length) c1 f ∧
      (∀ i, i < Bs.length → AnchorSetEvalCache.Known c1 f (Bs.getD i []).length
        (AnchorSet.vector elements f.anchorSet (Bs.getD i [])) (codes.getD i 0)) ∧
      ∀ s fv d, AnchorSetEvalCache.Known c f s fv d → AnchorSetEvalCache.Known c1 f s fv d := by
  induction Bs generalizing c N with
  | nil => exact ⟨[], c, rfl, rfl, hc, fun i hi => absurd hi (Nat.not_lt_zero i), fun _ _ _ h => h⟩
  | cons B Bs ih =>
    rw [List.length_cons] at hN
    obtain ⟨code, c1, h1, h2, h3, h4⟩ := AnchorSet.evaluate_coded
      (AnchorSet.createEvaluator elements) (AnchorSet.vector elements f.anchorSet) nextIdx0 c f
      () B (fun g hg w B => AnchorSet.createEvaluator_eq elements f g hg w B) N (by omega) hc
    obtain ⟨codes, c2, k1, k2, k3, k4, k5⟩ := ih c1 (N + 1) (by omega) h2
    have hstep : AnchorSet.evaluateOver elements nextIdx0 c f B = (Except.ok code, c1) := by
      unfold AnchorSet.evaluateOver
      rw [h1]
    have hlen : N + 1 + Bs.length = N + (B :: Bs).length := by
      rw [List.length_cons]
      omega
    rw [hlen] at k3
    refine ⟨code :: codes, c2, ?_, by simp [k2], k3, ?_, fun s fv d h => k5 s fv d (h4 s fv d h)⟩
    · simp only [TablePruner.evaluateAll, hstep, k1, List.map_cons]
    · intro i hi
      cases i with
      | zero => exact k5 _ _ _ h3
      | succ i =>
        simp only [List.getD_cons_succ]
        exact k4 i (by simpa using hi)

/-- The values that the evaluations of an anchor set on subsets of one size
return from a coded cache are equal exactly for subsets with equal vectors. -/
theorem AnchorSet.evaluateAll_codes (elements : List Permutation) (nextIdx0 : Nat)
    (f : AnchorSet) (Bs : List Subset) (c : AnchorSetEvalCache (List Nat)) (s : Nat) (N : Nat)
    (hN : N + Bs.length ≤ 2 ^ 64)
    (hc : AnchorSetEvalCache.Coded (AnchorSet.vector elements f.anchorSet) N c f)
    (hsize : ∀ B, B ∈ Bs → B.length = s) :
    ∃ (codes : List Nat) (c1 : AnchorSetEvalCache (List Nat)),
      TablePruner.evaluateAll (AnchorSet.evaluateOver elements nextIdx0) f Bs c =
        (codes.map Except.ok, c1) ∧
      codes.length = Bs.length ∧
      AnchorSetEvalCache.Coded (AnchorSet.vector elements f.anchorSet) (N + Bs.length) c1 f ∧
      ∀ i, i < Bs.length → ∀ j, j < Bs.length →
        (codes.getD i 0 = codes.getD j 0 ↔
          AnchorSet.vector elements f.anchorSet (Bs.getD i []) =
            AnchorSet.vector elements f.anchorSet (Bs.getD j [])) := by
  obtain ⟨codes, c1, h1, h2, h3, h4, -⟩ :=
    AnchorSet.evaluateAll_coded elements nextIdx0 f Bs c N hN hc
  refine ⟨codes, c1, h1, h2, h3, fun i hi j hj => ?_⟩
  have hi1 := h4 i hi
  have hj1 := h4 j hj
  have hsi : (Bs.getD i []).length = s := by
    apply hsize
    rw [List.getD_eq_getElem _ _ hi]
    exact List.getElem_mem _
  have hsj : (Bs.getD j []).length = s := by
    apply hsize
    rw [List.getD_eq_getElem _ _ hj]
    exact List.getElem_mem _
  rw [hsi] at hi1
  rw [hsj] at hj1
  exact AnchorSetEvalCache.known_iff _ c1 f _ h3 s _ _ _ _ hi1 hj1

end Coding

section FirstFunction

/-- Two families with the same equalities among their first `n` members have
the same number of different members. -/
theorem card_image_of_iff {A B : Type} [DecidableEq A] [DecidableEq B] (f : Nat → A)
    (g : Nat → B) (n : Nat) (h : ∀ i, i < n → ∀ j, j < n → (f i = f j ↔ g i = g j)) :
    ((Finset.range n).image f).card = ((Finset.range n).image g).card := by
  induction n with
  | zero => simp
  | succ n ih =>
    have ih1 := ih (fun i hi j hj => h i (by omega) j (by omega))
    rw [Finset.range_succ, Finset.image_insert, Finset.image_insert]
    by_cases hm : f n ∈ (Finset.range n).image f
    · have hm2 : g n ∈ (Finset.range n).image g := by
        obtain ⟨j, hj, hjn⟩ := Finset.mem_image.1 hm
        have hj1 := Finset.mem_range.1 hj
        exact Finset.mem_image.2 ⟨j, hj, (h j (by omega) n (by omega)).1 hjn⟩
      rw [Finset.insert_eq_of_mem hm, Finset.insert_eq_of_mem hm2, ih1]
    · have hm2 : g n ∉ (Finset.range n).image g := by
        intro hg
        obtain ⟨j, hj, hjn⟩ := Finset.mem_image.1 hg
        have hj1 := Finset.mem_range.1 hj
        exact hm (Finset.mem_image.2 ⟨j, hj, (h j (by omega) n (by omega)).2 hjn⟩)
      rw [Finset.card_insert_of_not_mem hm, Finset.card_insert_of_not_mem hm2, ih1]

/-- The first function given to a pruner, an anchor set over the group with
the enumeration `elements`, on candidates of one size: `addGInvariant` returns,
two candidates have equal columns exactly when they have equal frequency
vectors, and the pruner is ready exactly when the number of different vectors
is `rho`. -/
theorem AnchorSet.first_function (elements : List Permutation) (nextIdx0 : Nat)
    (candidates : List Subset) (k rho : Nat) (prunerData : Option (TablePrunerData AnchorSet))
    (f : AnchorSet) (c : AnchorSetEvalCache (List Nat)) (s : Nat) (hrho : rho ≠ 1)
    (hnodup : candidates.Nodup) (N : Nat) (hN : N + candidates.length ≤ 2 ^ 64)
    (hc : AnchorSetEvalCache.Coded (AnchorSet.vector elements f.anchorSet) N c f)
    (hsize : ∀ B, B ∈ candidates → B.length = s) :
    ∃ (p : TablePruner AnchorSet) (c1 : AnchorSetEvalCache (List Nat)),
      (TablePruner.create candidates k rho prunerData false).addGInvariant
        (AnchorSet.evaluateOver elements nextIdx0) c f = (Except.ok (), p, c1) ∧
      p.Consistent (AnchorSet.evaluateOver elements nextIdx0) ∧ p.candidates = candidates ∧
      p.rho = rho ∧
      (p.ready = true ↔ ((Finset.range candidates.length).image
        (fun i => AnchorSet.vector elements f.anchorSet (candidates.getD i []))).card = rho) ∧
      distinctColumns p.F candidates.length = ((Finset.range candidates.length).image
        (fun i => AnchorSet.vector elements f.anchorSet (candidates.getD i []))).card ∧
      ∀ i, i < candidates.length → ∀ j, j < candidates.length →
        (p.F.column i = p.F.column j ↔
          AnchorSet.vector elements f.anchorSet (candidates.getD i []) =
            AnchorSet.vector elements f.anchorSet (candidates.getD j [])) := by
  obtain ⟨codes, c1, h1, h2, -, h4⟩ :=
    AnchorSet.evaluateAll_codes elements nextIdx0 f candidates c s N hN hc hsize
  have hcreate : TablePruner.create candidates k rho prunerData false =
      { candidates := candidates, prunerData := prunerData,
        F := (Table.mk []).resize 0 candidates.length, ready := false, fns := [],
        k := k, rho := rho, newReps := none, newPrunerData := none, candidateMap := none } := by
    unfold TablePruner.create
    rw [if_neg hrho]
  have hnot : (TablePruner.create candidates k rho prunerData false).ready = false := by
    rw [hcreate]
  have hcands : (TablePruner.create candidates k rho prunerData false).candidates =
      candidates := by
    rw [hcreate]
  have hrho0 : (TablePruner.create candidates k rho prunerData false).rho = rho := by
    rw [hcreate]
  have hrows0 : (TablePruner.create candidates k rho prunerData false).F.rows = [] := by
    rw [hcreate]
    rfl
  have hshape := (TablePruner.reachable_shape (AnchorSet.evaluateOver elements nextIdx0)
    candidates k rho prunerData false c []).1
  have hinv := TablePruner.reachable_inv (AnchorSet.evaluateOver elements nextIdx0)
    candidates k rho prunerData false c [PrunerOp.addGInvariant f] hrho hnodup
  obtain ⟨-, htab⟩ := TablePruner.addGInvariant_table (AnchorSet.evaluateOver elements nextIdx0)
    _ c f hnot hshape
  obtain ⟨hw, hcase⟩ := TablePruner.addGInvariant_cases (AnchorSet.evaluateOver elements nextIdx0)
    _ c f hnot
  rw [hcands, h1] at htab hcase
  simp only [TablePruner.getAll_map_ok] at htab hcase
  rw [hrows0, h2, Nat.sub_self, List.replicate_zero, List.append_nil, List.nil_append] at htab
  rw [hrho0] at hcase
  generalize hr : (TablePruner.create candidates k rho prunerData false).addGInvariant
    (AnchorSet.evaluateOver elements nextIdx0) c f = r at htab hcase hinv
  have hafter : (TablePruner.after (AnchorSet.evaluateOver elements nextIdx0)
      (TablePruner.create candidates k rho prunerData false) c
      [PrunerOp.addGInvariant f]).1 = r.2.1 := by
    rw [← hr]
    rfl
  rw [hafter] at hinv
  obtain ⟨i1, i2, i3, -⟩ := hinv
  have hcol : ∀ i, i < candidates.length → r.2.1.F.column i = [codes.getD i 0] := by
    intro i _
    unfold Table.column
    rw [htab]
    rfl
  have hiff : ∀ i, i < candidates.length → ∀ j, j < candidates.length →
      (r.2.1.F.column i = r.2.1.F.column j ↔
        AnchorSet.vector elements f.anchorSet (candidates.getD i []) =
          AnchorSet.vector elements f.anchorSet (candidates.getD j [])) := by
    intro i hi j hj
    rw [hcol i hi, hcol j hj, ← h4 i hi j hj]
    simp
  have hdist : distinctColumns r.2.1.F candidates.length =
      ((Finset.range candidates.length).image
        (fun i => AnchorSet.vector elements f.anchorSet (candidates.getD i []))).card := by
    unfold distinctColumns
    rw [toFinset_map_range]
    exact card_image_of_iff _ _ _ hiff
  rcases hcase with ⟨e, he, -⟩ | ⟨-, hok, hready⟩
  · cases he
  · refine ⟨r.2.1, r.2.2, ?_, i1, i2, i3, ?_, hdist, hiff⟩
    · rw [← hok]
    · rw [hready, hdist]

/-- The first function given to a pruner with `rho = 2`, an anchor set whose
frequency vectors take two values on the candidates: the pruner is ready
afterwards, its representatives are the first candidates with each of the
two vectors, and `getColumn` returns 0 on the candidates that have the vector
of the first candidate and 1 on the others. -/
theorem AnchorSet.first_function_two_classes (elements : List Permutation) (nextIdx0 : Nat)
    (candidates : List Subset) (k : Nat) (prunerData : Option (TablePrunerData AnchorSet))
    (f : AnchorSet) (s : Nat) (first reps : List Subset) (hnodup : candidates.Nodup)
    (hlen : candidates.length ≤ 2 ^ 64)
    (hsize : ∀ B, B ∈ candidates → B.length = s) (hpos : 0 < candidates.length)
    (d3 : ((Finset.range candidates.length).image
      (fun i => AnchorSet.vector elements f.anchorSet (candidates.getD i []))).card = 2)
    (d4 : ((List.range candidates.length).filter (fun i => decide (∀ j, j < i →
        AnchorSet.vector elements f.anchorSet (candidates.getD j []) ≠
          AnchorSet.vector elements f.anchorSet (candidates.getD i [])))).map
      (fun i => candidates.getD i []) = reps)
    (d5 : ∀ i, i < candidates.length →
      (AnchorSet.vector elements f.anchorSet (candidates.getD i []) =
          AnchorSet.vector elements f.anchorSet (candidates.getD 0 []) ↔
        candidates.getD i [] ∈ first)) :
    ∃ (p : TablePruner AnchorSet) (w : AnchorSetEvalCache (List Nat)),
      (TablePruner.create candidates k 2 prunerData false).addGInvariant
        (AnchorSet.evaluateOver elements nextIdx0) MapType.empty f = (Except.ok (), p, w) ∧
      p.ready = true ∧
      (p.getNewReps (E := Unit)).1 = Except.ok reps ∧
      ∀ B, B ∈ candidates →
        (p.getColumn (AnchorSet.evaluateOver elements nextIdx0) w B).1 =
          Except.ok (if B ∈ first then 0 else 1) := by
  have hcoded : AnchorSetEvalCache.Coded (AnchorSet.vector elements f.anchorSet) 0
      (MapType.empty : AnchorSetEvalCache (List Nat)) f := by
    intro entry he
    rw [MapType.find_empty] at he
    cases he
  obtain ⟨p, w, h1, hcons, hcands, hrho, hready, hdist, hiff⟩ :=
    AnchorSet.first_function elements nextIdx0 candidates k 2 prunerData f MapType.empty s
      (by decide) hnodup 0 (by omega) hcoded hsize
  have hr : p.ready = true := hready.2 d3
  subst hcands
  refine ⟨p, w, h1, hr, ?_, ?_⟩
  · rw [(TablePruner.getNewReps_spec (AnchorSet.evaluateOver elements nextIdx0) p hcons hr
      hnodup).1, TablePruner.outputsState_newReps p hnodup, ← d4]
    refine congrArg Except.ok (congrArg (List.map _) (List.filter_congr ?_))
    intro i hi
    have hi1 := List.mem_range.1 hi
    apply decide_eq_decide.2
    constructor
    · intro h j hj hv
      exact h j hj ((hiff j (by omega) i hi1).2 hv)
    · intro h j hj hv
      exact h j hj ((hiff j (by omega) i hi1).1 hv)
  · intro B hB
    obtain ⟨i, hi, hiB⟩ := List.mem_iff_getElem.1 hB
    have hfind := TablePruner.outputsState_candidateMap p hnodup i hi
    rw [hiB] at hfind
    rw [((TablePruner.getColumn_spec (AnchorSet.evaluateOver elements nextIdx0) p w B hcons hr
      hnodup).2.2.1 _ hfind).1]
    refine congrArg Except.ok ?_
    have hcard : p.columns.toFinset.card = 2 := by
      have : p.columns.toFinset.card = distinctColumns p.F p.candidates.length := rfl
      rw [this, hdist, d3]
    have hmem : ∀ j, j < p.candidates.length → p.F.column j ∈ p.columns := by
      intro j hj
      unfold TablePruner.columns
      exact List.mem_map.2 ⟨j, List.mem_range.2 hj, rfl⟩
    have hzero : patternCode p.columns (p.F.column 0) = 0 := by
      have hcl : 0 < p.columns.length := by rw [TablePruner.length_columns]; exact hpos
      have hsplit : p.columns = [] ++ p.F.column 0 :: (p.columns.drop 1) := by
        rw [List.nil_append, ← TablePruner.columns_getElem p 0 hcl]
        exact List.drop_eq_getElem_cons hcl
      rw [hsplit]
      exact patternCode_of_split [] _ _ (List.not_mem_nil _)
    have hlt : patternCode p.columns (p.F.column i) < 2 := by
      have := patternCode_lt _ _ (hmem i hi)
      rw [hcard] at this
      exact this
    have hgetD : p.candidates.getD i [] = B := by
      rw [List.getD_eq_getElem _ _ hi, hiB]
    have hB5 := d5 i hi
    have hiff0 := hiff i hi 0 hpos
    rw [hgetD] at hB5 hiff0
    by_cases hedge : B ∈ first
    · rw [if_pos hedge, ← hzero]
      exact congrArg _ (hiff0.2 (hB5.2 hedge))
    · rw [if_neg hedge]
      have hne : patternCode p.columns (p.F.column i) ≠ 0 := by
        intro h0
        rw [← hzero] at h0
        have := patternCode_inj p.columns _ _ (hmem i hi) (hmem 0 hpos) h0
        exact hedge (hB5.1 (hiff0.1 this))
      omega

end FirstFunction

/-- C23: for the cyclic group of order 4 generated by `(0 1 2 3)` on the points
0, 1, 2, 3, the six subsets of two points form the two orbits {0,1}, {1,2},
{2,3}, {0,3} and {0,2}, {1,3}. For every anchor set of two points, two of the
six subsets have the same frequency vector if and only if they are in the
same orbit, and the vectors take exactly two values. With `rho = 2`, whatever
the starting value of the code counters, `addGInvariant` of the anchor set
function on a new pruner over the six subsets returns and leaves the pruner
ready; `getNewReps` then returns the 2 representatives {0,1} and {0,2}, and
`getColumn` returns 0 on the subsets of the first orbit and 1 on those of the
second. -/
theorem AnchorSet.cyclic_group_two_orbits (nextIdx0 : Nat)
    (prunerData : Option (TablePrunerData AnchorSet)) :
    (∀ B, B ∈ twoSubsets4 →
      ((∃ g, g ∈ cyclicGroup4 ∧ AnchorSet.image g [0, 1] = B) ↔
        B ∈ [[0, 1], [1, 2], [2, 3], [0, 3]]) ∧
      ((∃ g, g ∈ cyclicGroup4 ∧ AnchorSet.image g [0, 2] = B) ↔ B ∈ [[0, 2], [1, 3]])) ∧
    ∀ f : AnchorSet, f.anchorSet ∈ twoSubsets4 →
      (∀ B, B ∈ twoSubsets4 → ∀ B1, B1 ∈ twoSubsets4 →
        (AnchorSetEvaluator (AnchorSet.imageSet cyclicGroup4 f.anchorSet) B =
            AnchorSetEvaluator (AnchorSet.imageSet cyclicGroup4 f.anchorSet) B1 ↔
          ∃ g, g ∈ cyclicGroup4 ∧ AnchorSet.image g B = B1)) ∧
      (twoSubsets4.map
        (AnchorSetEvaluator (AnchorSet.imageSet cyclicGroup4 f.anchorSet))).toFinset.card = 2 ∧
      ∃ (p : TablePruner AnchorSet) (w : AnchorSetEvalCache (List Nat)),
        (TablePruner.create twoSubsets4 2 2 prunerData false).addGInvariant
          (AnchorSet.evaluateOver cyclicGroup4 nextIdx0) MapType.empty f = (Except.ok (), p, w) ∧
        p.ready = true ∧
        (p.getNewReps (E := Unit)).1 = Except.ok [[0, 1], [0, 2]] ∧
        ∀ B, B ∈ twoSubsets4 →
          (p.getColumn (AnchorSet.evaluateOver cyclicGroup4 nextIdx0) w B).1 =
            Except.ok (if B ∈ [[0, 1], [1, 2], [2, 3], [0, 3]] then 0 else 1) := by
  refine ⟨by decide, fun f hf => ?_⟩
  have hdec : ∀ A, A ∈ twoSubsets4 →
      (∀ B, B ∈ twoSubsets4 → ∀ B1, B1 ∈ twoSubsets4 →
        (AnchorSetEvaluator (AnchorSet.imageSet cyclicGroup4 A) B =
            AnchorSetEvaluator (AnchorSet.imageSet cyclicGroup4 A) B1 ↔
          ∃ g, g ∈ cyclicGroup4 ∧ AnchorSet.image g B = B1)) ∧
      (twoSubsets4.map (AnchorSetEvaluator (AnchorSet.imageSet cyclicGroup4 A))).toFinset.card =
        2 ∧
      ((Finset.range twoSubsets4.length).image
        (fun i => AnchorSet.vector cyclicGroup4 A (twoSubsets4.getD i []))).card = 2 ∧
      ((List.range twoSubsets4.length).filter (fun i => decide (∀ j, j < i →
          AnchorSet.vector cyclicGroup4 A (twoSubsets4.getD j []) ≠
            AnchorSet.vector cyclicGroup4 A (twoSubsets4.getD i [])))).map
        (fun i => twoSubsets4.getD i []) = [[0, 1], [0, 2]] ∧
      ∀ i, i < twoSubsets4.length →
        (AnchorSet.vector cyclicGroup4 A (twoSubsets4.getD i []) =
            AnchorSet.vector cyclicGroup4 A (twoSubsets4.getD 0 []) ↔
          twoSubsets4.getD i [] ∈ [[0, 1], [1, 2], [2, 3], [0, 3]]) := by
    decide
  obtain ⟨d1, d2, d3, d4, d5⟩ := hdec f.anchorSet hf
  exact ⟨d1, d2, AnchorSet.first_function_two_classes cyclicGroup4 nextIdx0 twoSubsets4 2
    prunerData f 2 [[0, 1], [1, 2], [2, 3], [0, 3]] [[0, 1], [0, 2]] (by decide)
    (by simp [twoSubsets4]) (by decide) (by decide) d3 d4 d5⟩

/-! ## Equality and hashing of the evaluation tasks -/

mutual
theorem GInvariant.hash_of_equals (hash_combine : Nat → Nat → Nat) (hashGroup : Nat → Nat)
    (hashSubset : Subset → Nat) :
    ∀ f g : GInvariant, f.equals g = true →
      f.hash hash_combine hashGroup hashSubset = g.hash hash_combine hashGroup hashSubset
  | GInvariant.AnchorSet G A _, GInvariant.AnchorSet G1 A1 _, h => by
    simp only [GInvariant.equals, Bool.and_eq_true, decide_eq_true_eq] at h
    simp only [GInvariant.hash, h.1, h.2]
  | GInvariant.Taxonomy2 G phi, GInvariant.Taxonomy2 G1 phi1, h => by
    simp only [GInvariant.equals, Bool.and_eq_true, decide_eq_true_eq] at h
    simp only [GInvariant.hash, h.1,
      GInvariant.hash_of_equals hash_combine hashGroup hashSubset phi phi1 h.2]
  | GInvariant.Discriminator G fs _, GInvariant.Discriminator G1 fs1 _, h => by
    simp only [GInvariant.equals, Bool.and_eq_true, decide_eq_true_eq] at h
    simp only [GInvariant.hash, h.1]
    exact GInvariant.hash_range_of_equals hash_combine hashGroup hashSubset _ fs fs1 h.2.1 h.2.2
  | GInvariant.TrivialDiscriminator G, GInvariant.TrivialDiscriminator G1, h => by
    simp only [GInvariant.equals, decide_eq_true_eq] at h
    simp only [GInvariant.hash, h]
  | GInvariant.AnchorSet _ _ _, GInvariant.Taxonomy2 _ _, h => by
    simp [GInvariant.equals] at h
  | GInvariant.AnchorSet _ _ _, GInvariant.Discriminator _ _ _, h => by
    simp [GInvariant.equals] at h
  | GInvariant.AnchorSet _ _ _, GInvariant.TrivialDiscriminator _, h => by
    simp [GInvariant.equals] at h
  | GInvariant.Taxonomy2 _ _, GInvariant.AnchorSet _ _ _, h => by
    simp [GInvariant.equals] at h
  | GInvariant.Taxonomy2 _ _, GInvariant.Discriminator _ _ _, h => by
    simp [GInvariant.equals] at h
  | GInvariant.Taxonomy2 _ _, GInvariant.TrivialDiscriminator _, h => by
    simp [GInvariant.equals] at h
  | GInvariant.Discriminator _ _ _, GInvariant.AnchorSet _ _ _, h => by
    simp [GInvariant.equals] at h
  | GInvariant.Discriminator _ _ _, GInvariant.Taxonomy2 _ _, h => by
    simp [GInvariant.equals] at h
  | GInvariant.Discriminator _ _ _, GInvariant.TrivialDiscriminator _, h => by
    simp [GInvariant.equals] at h
  | GInvariant.TrivialDiscriminator _, GInvariant.AnchorSet _ _ _, h => by
    simp [GInvariant.equals] at h
  | GInvariant.TrivialDiscriminator _, GInvariant.Taxonomy2 _ _, h => by
    simp [GInvariant.equals] at h
  | GInvariant.TrivialDiscriminator _, GInvariant.Discriminator _ _ _, h => by
    simp [GInvariant.equals] at h
theorem GInvariant.hash_range_of_equals (hash_combine : Nat → Nat → Nat) (hashGroup : Nat → Nat)
    (hashSubset : Subset → Nat) :
    ∀ (seed : Nat) (fs gs : List GInvariant), fs.length = gs.length →
      GInvariant.equalsAll fs gs = true →
      GInvariant.hash_range hash_combine hashGroup hashSubset seed fs =
        GInvariant.hash_range hash_combine hashGroup hashSubset seed gs
  | _, [], [], _, _ => rfl
  | seed, f :: fs, g :: gs, hl, h => by
    simp only [GInvariant.equalsAll, Bool.and_eq_true] at h
    simp only [GInvariant.hash_range,
      GInvariant.hash_of_equals hash_combine hashGroup hashSubset f g h.1]
    exact GInvariant.hash_range_of_equals hash_combine hashGroup hashSubset _ fs gs
      (by simpa using hl) h.2
  | _, [], _ :: _, hl, _ => by simp at hl
  | _, _ :: _, [], hl, _ => by simp at hl
end

/-- C24: for all evaluation tasks `a` and `b` over functions of the four kinds,
`a == b` holds exactly when the function of `a` `equals` the function of `b` and
the input subsets are equal; and whenever `a == b`, the hash values of `a`
and `b` are the same, whatever `boost::hash_combine` and the hash values of groups,
subsets and sizes are. -/
theorem GInvariantEvaluationTask.equal_iff_and_hash (hash_combine : Nat → Nat → Nat)
    (hashGroup : Nat → Nat) (hashSubset : Subset → Nat) (hashSize : Nat → Nat)
    (a b : GInvariantEvaluationTask) :
    (a.equal b = true ↔ a.fn.equals b.fn = true ∧ a.B = b.B) ∧
      (a.equal b = true →
        a.hash_value hash_combine hashGroup hashSubset hashSize =
          b.hash_value hash_combine hashGroup hashSubset hashSize) := by
  have hiff : a.equal b = true ↔ a.fn.equals b.fn = true ∧ a.B = b.B := by
    unfold GInvariantEvaluationTask.equal
    rw [Bool.and_eq_true, decide_eq_true_eq]
  refine ⟨hiff, fun h => ?_⟩
  obtain ⟨h1, h2⟩ := hiff.1 h
  unfold GInvariantEvaluationTask.hash_value
  rw [GInvariant.hash_of_equals hash_combine hashGroup hashSubset a.fn b.fn h1, h2]

/-! ## Cycles, partitions and binomial coefficients -/

section Cycles

theorem cycleLoop_spec (g : Permutation) (v : Nat) (hg : g.Perm (List.range v))
    (R0 : List Nat) (hnodup : R0.Nodup) (hsub : ∀ x, x ∈ R0 → x < v)
    (hclosed : ∀ x, x ∈ R0 → Permutation.at g x ∈ R0) (first : Nat) (hfirst : first ∈ R0) :
    ∀ (fuel next : Nat) (cycle rem : List Nat), rem.length ≤ fuel →
      (cycle ++ rem).Perm R0 →
      (∀ j, j < cycle.length → cycle.getD j 0 = (Permutation.at g)^[j] first) →
      next = (Permutation.at g)^[cycle.length] first →
      (cycle = [] ∨ next ≠ first) →
      ∃ cycle1 rem1, cycleLoop g first fuel next cycle rem = some (cycle1, rem1) ∧
        (cycle1 ++ rem1).Perm R0 ∧ cycle1 ≠ [] ∧
        (∀ j, j < cycle1.length → cycle1.getD j 0 = (Permutation.at g)^[j] first) ∧
        (Permutation.at g)^[cycle1.length] first = first := by
  have hiter : ∀ j, (Permutation.at g)^[j] first ∈ R0 := by
    intro j
    induction j with
    | zero => exact hfirst
    | succ j ih =>
      rw [Function.iterate_succ_apply']
      exact hclosed _ ih
  intro fuel
  induction fuel with
  | zero =>
    intro next cycle rem hlen hperm hcyc hnext hstart
    exfalso
    have hrem : rem = [] := List.length_eq_zero.1 (Nat.le_zero.1 hlen)
    subst hrem
    rw [List.append_nil] at hperm
    have hmem : next ∈ cycle := by
      rw [hnext]
      exact hperm.symm.subset (hiter _)
    rcases hstart with h | h
    · subst h
      simp at hmem
    · obtain ⟨j, hj, hjn⟩ := List.mem_iff_getElem.1 hmem
      have hcj := hcyc j hj
      rw [List.getD_eq_getElem _ _ hj, hjn, hnext] at hcj
      have hnd : cycle.Nodup := hperm.nodup_iff.2 hnodup
      cases j with
      | zero => exact h (by rw [hnext, hcj]; rfl)
      | succ j =>
        have ht : cycle.length = (cycle.length - 1) + 1 := by omega
        rw [ht, Function.iterate_succ_apply', Function.iterate_succ_apply'] at hcj
        have heq := Permutation.at_inj g v hg _ _ (hsub _ (hiter _)) (hsub _ (hiter _)) hcj
        rw [← hcyc (cycle.length - 1) (by omega), ← hcyc j (by omega),
          List.getD_eq_getElem cycle 0 (show cycle.length - 1 < cycle.length by omega),
          List.getD_eq_getElem cycle 0 (show j < cycle.length by omega)] at heq
        have := (List.Nodup.getElem_inj_iff hnd).1 heq
        omega
  | succ fuel ih =>
    intro next cycle rem hlen hperm hcyc hnext hstart
    have hnd : (cycle ++ rem).Nodup := hperm.nodup_iff.2 hnodup
    have hndc : cycle.Nodup := (List.nodup_append.1 hnd).1
    have hmem : next ∈ rem := by
      have h1 : next ∈ cycle ++ rem := by
        rw [hnext]
        exact hperm.symm.subset (hiter _)
      rcases List.mem_append.1 h1 with hc | hr
      · exfalso
        rcases hstart with h | h
        · subst h
          simp at hc
        · obtain ⟨j, hj, hjn⟩ := List.mem_iff_getElem.1 hc
          have hcj := hcyc j hj
          rw [List.getD_eq_getElem _ _ hj, hjn, hnext] at hcj
          cases j with
          | zero => exact h (by rw [hnext, hcj]; rfl)
          | succ j =>
            have ht : cycle.length = (cycle.length - 1) + 1 := by omega
            rw [ht, Function.iterate_succ_apply', Function.iterate_succ_apply'] at hcj
            have heq := Permutation.at_inj g v hg _ _ (hsub _ (hiter _)) (hsub _ (hiter _)) hcj
            rw [← hcyc (cycle.length - 1) (by omega), ← hcyc j (by omega),
              List.getD_eq_getElem cycle 0 (show cycle.length - 1 < cycle.length by omega),
              List.getD_eq_getElem cycle 0 (show j < cycle.length by omega)] at heq
            have := (List.Nodup.getElem_inj_iff hndc).1 heq
            omega
      · exact hr
    have hperm1 : ((cycle ++ [next]) ++ rem.erase next).Perm R0 := by
      refine List.Perm.trans ?_ hperm
      rw [List.append_assoc]
      exact List.Perm.append_left _ (List.perm_cons_erase hmem).symm
    have hcyc1 : ∀ j, j < (cycle ++ [next]).length →
        (cycle ++ [next]).getD j 0 = (Permutation.at g)^[j] first := by
      intro j hj
      rw [List.length_append, List.length_singleton] at hj
      by_cases hjc : j < cycle.length
      · rw [List.getD_eq_getElem?_getD, List.getElem?_append_left hjc,
          ← List.getD_eq_getElem?_getD]
        exact hcyc j hjc
      · have : j = cycle.length := by omega
        subst this
        rw [List.getD_eq_getElem?_getD, List.getElem?_append_right (le_refl _)]
        simp [hnext]
    have hlen1 : (cycle ++ [next]).length = cycle.length + 1 := by simp
    have hnext1 : Permutation.at g next = (Permutation.at g)^[(cycle ++ [next]).length] first := by
      rw [hlen1, Function.iterate_succ_apply', hnext]
    unfold cycleLoop
    rw [if_pos hmem]
    by_cases hback : Permutation.at g next = first
    · rw [if_neg (by simpa using hback)]
      refine ⟨_, _, rfl, hperm1, by simp, hcyc1, ?_⟩
      rw [← hnext1, hback]
    · rw [if_pos hback]
      apply ih _ _ _ _ hperm1 hcyc1 hnext1 (Or.inr hback)
      rw [List.length_erase_of_mem hmem]
      omega

theorem isCycleOf_of_iterate (f : Nat → Nat) (first : Nat) (c : List Nat) (hne : c ≠ [])
    (hc : ∀ j, j < c.length → c.getD j 0 = f^[j] first) (hback : f^[c.length] first = first) :
    IsCycleOf f c := by
  refine ⟨hne, fun j hj => ?_⟩
  have hpos : 0 < c.length := List.length_pos.2 hne
  rw [hc j hj]
  by_cases hlast : j + 1 < c.length
  · rw [Nat.mod_eq_of_lt hlast, hc (j + 1) hlast, Function.iterate_succ_apply']
  · have hj1 : j + 1 = c.length := by omega
    have hstep : f (f^[j] first) = f^[j + 1] first := (Function.iterate_succ_apply' f j first).symm
    rw [hstep, hj1, Nat.mod_self, hc 0 hpos, hback]
    rfl

/-- Every entry of a cycle is the image of an entry of the cycle. -/
theorem IsCycleOf.exists_preimage {f : Nat → Nat} {c : List Nat} (h : IsCycleOf f c) (y : Nat)
    (hy : y ∈ c) : ∃ z, z ∈ c ∧ f z = y := by
  obtain ⟨hne, hc⟩ := h
  have hpos : 0 < c.length := List.length_pos.2 hne
  obtain ⟨j, hj, hjy⟩ := List.mem_iff_getElem.1 hy
  have hmemD : ∀ i, i < c.length → c.getD i 0 ∈ c := by
    intro i hi
    rw [List.getD_eq_getElem _ _ hi]
    exact List.getElem_mem _
  cases j with
  | zero =>
    refine ⟨c.getD (c.length - 1) 0, hmemD _ (by omega), ?_⟩
    rw [hc (c.length - 1) (by omega)]
    have : c.length - 1 + 1 = c.length := by omega
    rw [this, Nat.mod_self, List.getD_eq_getElem _ _ hpos, hjy]
  | succ j =>
    refine ⟨c.getD j 0, hmemD _ (by omega), ?_⟩
    rw [hc j (by omega), Nat.mod_eq_of_lt hj, List.getD_eq_getElem _ _ hj, hjy]

/-- The image of an entry of a cycle is an entry of the cycle. -/
theorem IsCycleOf.image_mem {f : Nat → Nat} {c : List Nat} (h : IsCycleOf f c) (x : Nat)
    (hx : x ∈ c) : f x ∈ c := by
  obtain ⟨hne, hc⟩ := h
  have hpos : 0 < c.length := List.length_pos.2 hne
  obtain ⟨j, hj, hjx⟩ := List.mem_iff_getElem.1 hx
  have := hc j hj
  rw [List.getD_eq_getElem _ _ hj, hjx] at this
  rw [this, List.getD_eq_getElem _ _ (Nat.mod_lt _ hpos)]
  exact List.getElem_mem _

theorem permutationCyclesLoop_spec (g : Permutation) (v : Nat) (hg : g.Perm (List.range v)) :
    ∀ (fuel : Nat) (rem : List Nat) (cycles : List (List Nat)), rem.length < fuel →
      (cycles.flatten ++ rem).Perm (List.range v) →
      (∀ x, x ∈ rem → Permutation.at g x ∈ rem) →
      (∀ c, c ∈ cycles → IsCycleOf (Permutation.at g) c) →
      ∃ cycles1, permutationCyclesLoop g fuel rem cycles = some cycles1 ∧
        cycles1.flatten.Perm (List.range v) ∧
        ∀ c, c ∈ cycles1 → IsCycleOf (Permutation.at g) c := by
  intro fuel
  induction fuel with
  | zero => intro rem cycles hlen; omega
  | succ fuel ih =>
    intro rem cycles hlen hperm hclosed hcyc
    cases rem with
    | nil =>
      refine ⟨cycles, rfl, ?_, hcyc⟩
      rwa [List.append_nil] at hperm
    | cons first rest =>
      have hnd : (cycles.flatten ++ first :: rest).Nodup := hperm.nodup_iff.2 (List.nodup_range v)
      have hndR : (first :: rest).Nodup := (List.nodup_append.1 hnd).2.1
      have hsub : ∀ x, x ∈ first :: rest → x < v := by
        intro x hx
        exact List.mem_range.1 (hperm.subset (List.mem_append_right _ hx))
      obtain ⟨cycle, rem1, h1, h2, h3, h4, h5⟩ := cycleLoop_spec g v hg (first :: rest) hndR hsub
        hclosed first (List.mem_cons_self _ _) (first :: rest).length first [] (first :: rest)
        (le_refl _) (by simp) (by simp) rfl (Or.inl rfl)
      have hcycle : IsCycleOf (Permutation.at g) cycle := isCycleOf_of_iterate _ first cycle h3 h4 h5
      have hnd2 : (cycle ++ rem1).Nodup := h2.nodup_iff.2 hndR
      have hlen2 : (cycle ++ rem1).length = (first :: rest).length := h2.length_eq
      have hcl : 0 < cycle.length := List.length_pos.2 h3
      obtain ⟨cycles1, k1, k2, k3⟩ := ih rem1 (cycles ++ [cycle])
        (by
          rw [List.length_append] at hlen2
          omega)
        (by
          rw [List.flatten_append, List.flatten_singleton, List.append_assoc]
          exact (List.Perm.append_left _ h2).trans hperm)
        (by
          intro x hx
          have hxR : x ∈ first :: rest := h2.subset (List.mem_append_right _ hx)
          have hgx : Permutation.at g x ∈ cycle ++ rem1 := h2.symm.subset (hclosed x hxR)
          rcases List.mem_append.1 hgx with hc | hr
          · exfalso
            obtain ⟨z, hz, hzx⟩ := hcycle.exists_preimage _ hc
            have hzR : z ∈ first :: rest := h2.subset (List.mem_append_left _ hz)
            have := Permutation.at_inj g v hg z x (hsub z hzR) (hsub x hxR) hzx
            subst this
            exact (List.nodup_append.1 hnd2).2.2 hz hx
          · exact hr)
        (by
          intro c hc
          rcases List.mem_append.1 hc with hc | hc
          · exact hcyc c hc
          · rw [List.mem_singleton.1 hc]
            exact hcycle)
      refine ⟨cycles1, ?_, k2, k3⟩
      simp only [permutationCyclesLoop, h1]
      exact k1

/-- For a permutation `g` of the points `0, ..., v - 1`, `permutationCycles(g, v)` returns: its cycles
are cycles of `g`, and together they hold every point once. -/
theorem permutationCycles_spec (g : Permutation) (v : Nat) (hg : g.Perm (List.range v)) :
    ∃ cycles, permutationCycles g v = some cycles ∧ cycles.flatten.Perm (List.range v) ∧
      ∀ c, c ∈ cycles → IsCycleOf (Permutation.at g) c := by
  apply permutationCyclesLoop_spec g v hg (v + 1) (generateX v) []
  · simp [generateX]
  · simp [generateX]
  · intro x hx
    unfold generateX at hx ⊢
    exact List.mem_range.2 (Permutation.at_lt g v hg x (List.mem_range.1 hx))
  · intro c hc
    simp at hc

end Cycles

section Partitions

/-- The loop of `partition` over `i`, when the recursive calls return. -/
theorem partition_foldl (f : Nat → Option (Finset (Multiset Nat))) (P : Nat → Finset (Multiset Nat))
    (m : Nat) (hf : ∀ j, j < m → f j = some (P j)) (r0 : Finset (Multiset Nat)) :
    ∃ r, (List.range m).foldl
        (fun (result : Option (Finset (Multiset Nat))) j =>
          match result, f j with
          | some result, some smaller =>
            some (result ∪ smaller.image (fun ms => (j + 1) ::ₘ ms))
          | _, _ => none) (some r0) = some r ∧
      ∀ ms, ms ∈ r ↔ ms ∈ r0 ∨ ∃ j, j < m ∧ ∃ ms1, ms1 ∈ P j ∧ ms = (j + 1) ::ₘ ms1 := by
  induction m with
  | zero => exact ⟨r0, rfl, fun ms => by simp⟩
  | succ m ih =>
    obtain ⟨r, h1, h2⟩ := ih (fun j hj => hf j (by omega))
    rw [List.range_succ, List.foldl_append, h1]
    simp only [List.foldl_cons, List.foldl_nil, hf m (Nat.lt_succ_self m)]
    refine ⟨_, rfl, fun ms => ?_⟩
    rw [Finset.mem_union, h2, Finset.mem_image]
    constructor
    · rintro ((h | ⟨j, hj, ms1, h3, h4⟩) | ⟨ms1, h3, h4⟩)
      · exact Or.inl h
      · exact Or.inr ⟨j, by omega, ms1, h3, h4⟩
      · exact Or.inr ⟨m, by omega, ms1, h3, h4.symm⟩
    · rintro (h | ⟨j, hj, ms1, h3, h4⟩)
      · exact Or.inl (Or.inl h)
      · by_cases hjm : j = m
        · subst hjm
          exact Or.inr ⟨ms1, h3, h4.symm⟩
        · exact Or.inl (Or.inr ⟨j, by omega, ms1, h3, h4⟩)

/-- A multiset of positive numbers with the sum `k`, for `k` at least 1, is the
multiset of `k` alone, or has an element `x` below `k` whose removal leaves a
multiset with the sum `k - x`. -/
theorem Multiset.split_part (ms : Multiset Nat) (k : Nat) (hk : 1 ≤ k)
    (hpos : ∀ x, x ∈ ms → 0 < x) (hsum : ms.sum = k) :
    ms = {k} ∨ ∃ x ms1, ms = x ::ₘ ms1 ∧ 0 < x ∧ x < k ∧ ms1.sum = k - x ∧
      ∀ y, y ∈ ms1 → 0 < y := by
  induction ms using Multiset.induction_on with
  | empty => simp at hsum; omega
  | cons x ms1 _ =>
    rw [Multiset.sum_cons] at hsum
    have hx : 0 < x := hpos x (Multiset.mem_cons_self x ms1)
    have hpos1 : ∀ y, y ∈ ms1 → 0 < y := fun y hy => hpos y (Multiset.mem_cons_of_mem hy)
    by_cases hempty : ms1 = 0
    · subst hempty
      left
      simp at hsum
      subst hsum
      rfl
    · right
      obtain ⟨y, hy⟩ := Multiset.exists_mem_of_ne_zero hempty
      have : y ≤ ms1.sum := Multiset.single_le_sum (fun _ _ => Nat.zero_le _) y hy
      have := hpos1 y hy
      exact ⟨x, ms1, rfl, hx, by omega, by omega, hpos1⟩

/-- The function `partition` returns, with enough fuel, and returns the set of the
multisets of positive numbers with the sum `k`, for `k` at least 1. -/
theorem partitionAux_spec (k : Nat) :
    ∀ fuel, 1 ≤ k → k ≤ fuel →
      ∃ P, partitionAux fuel k = some P ∧
        ∀ ms, ms ∈ P ↔ (∀ x, x ∈ ms → 0 < x) ∧ ms.sum = k := by
  induction k using Nat.strong_induction_on with
  | _ k ih =>
    intro fuel hk hfuel
    cases fuel with
    | zero => omega
    | succ fuel =>
      by_cases h1 : k = 1
      · subst h1
        refine ⟨{{1}}, by simp [partitionAux], fun ms => ?_⟩
        rw [Finset.mem_singleton]
        constructor
        · rintro rfl
          simp
        · rintro ⟨hpos, hsum⟩
          rcases Multiset.split_part ms 1 (le_refl 1) hpos hsum with h | ⟨x, ms1, -, hx, hx1, -⟩
          · exact h
          · omega
      · have hsmall : ∀ j, j < k - 1 → ∃ P, partitionAux fuel (k - (j + 1)) = some P ∧
            ∀ ms, ms ∈ P ↔ (∀ x, x ∈ ms → 0 < x) ∧ ms.sum = k - (j + 1) :=
          fun j hj => ih (k - (j + 1)) (by omega) fuel (by omega) (by omega)
        choose! P hP1 hP2 using hsmall
        obtain ⟨r, hr1, hr2⟩ := partition_foldl (fun j => partitionAux fuel (k - (j + 1))) P
          (k - 1) hP1 ∅
        refine ⟨insert {k} r, ?_, fun ms => ?_⟩
        · simp only [partitionAux, if_neg h1]
          rw [hr1]
          rfl
        · rw [Finset.mem_insert, hr2]
          constructor
          · rintro (rfl | h | ⟨j, hj, ms1, h3, rfl⟩)
            · refine ⟨fun x hx => ?_, by simp⟩
              rw [Multiset.mem_singleton] at hx
              omega
            · simp at h
            · obtain ⟨h4, h5⟩ := (hP2 j hj ms1).1 h3
              refine ⟨fun x hx => ?_, ?_⟩
              · rcases Multiset.mem_cons.1 hx with rfl | hx
                · omega
                · exact h4 x hx
              · rw [Multiset.sum_cons, h5]
                omega
          · rintro ⟨hpos, hsum⟩
            rcases Multiset.split_part ms k hk hpos hsum with h | ⟨x, ms1, rfl, hx, hxk, h5, h6⟩
            · exact Or.inl h
            · refine Or.inr (Or.inr ⟨x - 1, by omega, ms1, ?_, ?_⟩)
              · rw [hP2 (x - 1) (by omega)]
                refine ⟨h6, ?_⟩
                rw [h5]
                congr 1
                omega
              · congr 1
                omega

theorem partition_spec (k : Nat) (hk : 1 ≤ k) :
    ∃ P, partition k = some P ∧ ∀ ms, ms ∈ P ↔ (∀ x, x ∈ ms → 0 < x) ∧ ms.sum = k :=
  partitionAux_spec k (k + 1) hk (Nat.le_succ k)

end Partitions

section Combinat

theorem toUInt32_natCast (c : Nat) : toUInt32 (c : Int) = c % 2 ^ 32 := by
  unfold toUInt32
  have : ((c : Int) % 2 ^ 32) = ((c % 2 ^ 32 : Nat) : Int) := by
    push_cast
    rfl
  rw [this, Int.toNat_natCast]

theorem toInt32_of_lt (x : Nat) (h : x % 2 ^ 32 < 2 ^ 31) : toInt32 x = ((x % 2 ^ 32 : Nat) : Int) := by
  unfold toInt32
  rw [if_pos h]

theorem unsigned_sub (n j : Nat) (hn : n < 2 ^ 32) (hj : j < 2 ^ 32) :
    (n + 2 ^ 32 - j) % 2 ^ 32 = if j ≤ n then n - j else n + 2 ^ 32 - j := by
  split
  · rename_i h
    have : n + 2 ^ 32 - j = (n - j) + 2 ^ 32 := by omega
    rw [this, Nat.add_mod_right, Nat.mod_eq_of_lt (by omega)]
  · rename_i h
    rw [Nat.mod_eq_of_lt (by omega)]

theorem combinatLoop_succ (n m : Nat) :
    combinatLoop n (m + 1) =
      Int.tdiv (toInt32 (toUInt32 (combinatLoop n m) * ((n + 2 ^ 32 - m) % 2 ^ 32)))
        (toInt32 (m + 1)) := by
  unfold combinatLoop
  rw [List.range_succ, List.foldl_append]
  rfl

/-- When the products of the first iterations fit, a counter that has left the
range of `int` has passed `n`. -/
theorem combinat_small_of_fit (n : Nat) (hn : n < 2 ^ 32) (m : Nat) (hm : 2 ^ 31 ≤ m + 1)
    (hfit : ∀ j, j < m + 1 → n.choose j * ((n + 2 ^ 32 - j) % 2 ^ 32) < 2 ^ 31) : n < m := by
  by_contra hlt
  have h1 := hfit 1 (by omega)
  rw [Nat.choose_one_right, unsigned_sub n 1 hn (by norm_num), if_pos (by omega)] at h1
  have h2 : 2 ^ 31 - 1 ≤ n := by omega
  have h3 : (2 ^ 31 - 1) * (2 ^ 31 - 2) ≤ n * (n - 1) :=
    Nat.mul_le_mul h2 (by omega)
  norm_num at h3 h1
  omega

theorem combinat_loop (n : Nat) (hn : n < 2 ^ 32) (m : Nat) (hm : m < 2 ^ 32)
    (hfit : ∀ j, j < m → n.choose j * ((n + 2 ^ 32 - j) % 2 ^ 32) < 2 ^ 31) :
    combinatLoop n m = ((n.choose m : Nat) : Int) := by
  induction m with
  | zero => simp [combinatLoop]
  | succ m ih =>
    rw [combinatLoop_succ, ih (by omega) (fun j hj => hfit j (by omega))]
    have hf := hfit m (by omega)
    have hmod : (toUInt32 ((n.choose m : Nat) : Int) * ((n + 2 ^ 32 - m) % 2 ^ 32)) % 2 ^ 32 =
        n.choose m * ((n + 2 ^ 32 - m) % 2 ^ 32) := by
      rw [toUInt32_natCast, Nat.mod_mul_mod, Nat.mod_eq_of_lt (by omega)]
    rw [toInt32_of_lt _ (by rw [hmod]; exact hf), hmod]
    by_cases hsmall : m + 1 < 2 ^ 31
    · rw [toInt32_of_lt _ (by rw [Nat.mod_eq_of_lt (by omega)]; exact hsmall),
        Nat.mod_eq_of_lt (show m + 1 < 2 ^ 32 by omega)]
      have hdiv : n.choose m * ((n + 2 ^ 32 - m) % 2 ^ 32) / (m + 1) = n.choose (m + 1) := by
        rw [unsigned_sub n m hn (by omega)]
        split
        · rename_i h
          rw [← Nat.choose_succ_right_eq, Nat.mul_div_cancel _ (Nat.succ_pos m)]
        · rename_i h
          rw [Nat.choose_eq_zero_of_lt (by omega), Nat.choose_eq_zero_of_lt (by omega)]
          simp
      rw [← hdiv]
      norm_cast
    · have hnm : n < m := combinat_small_of_fit n hn m (by omega) hfit
      rw [Nat.choose_eq_zero_of_lt hnm, Nat.choose_eq_zero_of_lt (by omega)]
      simp

/-- The function `combinat` computes the binomial coefficient when none of its products
leaves the range of `int`. -/
theorem combinat_eq_choose (n k : Nat) (hn : n < 2 ^ 32) (hk : k < 2 ^ 32)
    (hfit : combinatFits n k) : combinat n k = n.choose k := by
  have hsteps : combinatSteps n k < 2 ^ 32 := by
    unfold combinatSteps
    split
    · omega
    · omega
  unfold combinat
  rw [combinat_loop n hn _ hsteps hfit, toUInt32_natCast]
  have hchoose : n.choose (combinatSteps n k) = n.choose k := by
    unfold combinatSteps
    rw [unsigned_sub n k hn hk]
    by_cases hkn : k ≤ n
    · rw [if_pos hkn]
      split
      · exact Nat.choose_symm hkn
      · rfl
    · rw [if_neg hkn]
      split
      · rw [Nat.choose_eq_zero_of_lt (by omega), Nat.choose_eq_zero_of_lt (by omega)]
      · rfl
  have hlt : n.choose (combinatSteps n k) < 2 ^ 32 := by
    cases hs : combinatSteps n k with
    | zero => simp
    | succ s =>
      have hf := hfit s (by omega)
      rw [unsigned_sub n s hn (by omega)] at hf
      split at hf
      · rename_i h
        rw [← Nat.choose_succ_right_eq] at hf
        have : n.choose (s + 1) ≤ n.choose (s + 1) * (s + 1) := Nat.le_mul_of_pos_right _ (by omega)
        omega
      · rename_i h
        rw [Nat.choose_eq_zero_of_lt (by omega)]
        norm_num
  rw [Nat.mod_eq_of_lt hlt, hchoose]

end Combinat

/-! ## The Burnside evaluator -/

section BurnsideTerm

theorem GroupBurnsideEvaluator.cycleLengths_foldl (k : Nat) (cycles : List (List Nat))
    (hne : ∀ c, c ∈ cycles → c ≠ []) (cl0 : List Nat) (hlen : cl0.length = k) :
    (cycles.foldl
        (fun cycleLengths c =>
          if c.length ≤ k then
            cycleLengths.set (c.length - 1) (cycleLengths.getD (c.length - 1) 0 + 1)
          else cycleLengths) cl0).length = k ∧
      ∀ i, i < k →
        (cycles.foldl
          (fun cycleLengths c =>
            if c.length ≤ k then
              cycleLengths.set (c.length - 1) (cycleLengths.getD (c.length - 1) 0 + 1)
            else cycleLengths) cl0).getD i 0 =
          cl0.getD i 0 + (cycles.map List.length).count (i + 1) := by
  induction cycles generalizing cl0 with
  | nil => exact ⟨hlen, fun i _ => by simp⟩
  | cons c cycles ih =>
    have hc : 0 < c.length := List.length_pos.2 (hne c (List.mem_cons_self _ _))
    have hne1 : ∀ c1, c1 ∈ cycles → c1 ≠ [] := fun c1 h => hne c1 (List.mem_cons_of_mem _ h)
    simp only [List.foldl_cons, List.map_cons]
    by_cases hck : c.length ≤ k
    · rw [if_pos hck]
      obtain ⟨h1, h2⟩ := ih hne1 (cl0.set (c.length - 1) (cl0.getD (c.length - 1) 0 + 1))
        (by rw [List.length_set]; exact hlen)
      refine ⟨h1, fun i hi => ?_⟩
      rw [h2 i hi, List.getD_set_succ _ _ _ (by omega), List.count_cons]
      by_cases hci : c.length - 1 = i
      · have : c.length = i + 1 := by omega
        simp [hci, this]
        omega
      · have : ¬ c.length = i + 1 := by omega
        simp [hci, this]
    · rw [if_neg hck]
      obtain ⟨h1, h2⟩ := ih hne1 cl0 hlen
      refine ⟨h1, fun i hi => ?_⟩
      rw [h2 i hi, List.count_cons]
      have : ¬ c.length = i + 1 := by omega
      simp [this]

theorem GroupBurnsideEvaluator.cycleLengths_spec (k : Nat) (cycles : List (List Nat))
    (hne : ∀ c, c ∈ cycles → c ≠ []) (i : Nat) (hi : i < k) :
    (GroupBurnsideEvaluator.cycleLengths cycles k).getD i 0 =
      (cycles.map List.length).count (i + 1) := by
  unfold GroupBurnsideEvaluator.cycleLengths
  rw [(GroupBurnsideEvaluator.cycleLengths_foldl k cycles hne (List.replicate k 0)
    (List.length_replicate _ _)).2 i hi]
  have h0 : (List.replicate k 0).getD i 0 = 0 := by
    rw [List.getD_eq_getElem?_getD]
    simp [hi]
  rw [h0, Nat.zero_add]

theorem GroupBurnsideEvaluator.tally_getD (ms : Multiset Nat) (k i : Nat) (hi : i < k) :
    (GroupBurnsideEvaluator.tally ms k).getD i 0 = ms.count (i + 1) := by
  unfold GroupBurnsideEvaluator.tally
  rw [List.getD_eq_getElem?_getD]
  simp [hi]

theorem GroupBurnsideEvaluator.intermediate_spec (cl tl : List Nat) (k : Nat) (a : Nat → Nat)
    (h : ∀ i, i < k → combinat (cl.getD i 0) (tl.getD i 0) = a i) :
    GroupBurnsideEvaluator.intermediate cl tl k = (∏ i in Finset.range k, a i) % 2 ^ 64 := by
  unfold GroupBurnsideEvaluator.intermediate
  induction k with
  | zero => simp
  | succ k ih =>
    rw [List.range_succ, List.foldl_append, ih (fun i hi => h i (by omega))]
    simp only [List.foldl_cons, List.foldl_nil]
    rw [h k (Nat.lt_succ_self k), Finset.prod_range_succ, Nat.mod_mul_mod]

theorem Multiset.sum_map_mod {A : Type} (ms : Multiset A) (f : A → Nat) (n : Nat) :
    (ms.map (fun x => f x % n)).sum % n = (ms.map f).sum % n := by
  induction ms using Multiset.induction_on with
  | empty => simp
  | cons x ms ih =>
    simp only [Multiset.map_cons, Multiset.sum_cons]
    rw [Nat.add_mod, ih, Nat.mod_mod, ← Nat.add_mod]

/-- What the body of the loop over the group elements adds to `s`, when the
binomial coefficients are computed without a product that leaves the range of
`int`: the sum over the partitions of the products of the binomial coefficients,
modulo `2 ^ 64`. -/
theorem GroupBurnsideEvaluator.addElement_spec (v k : Nat) (P : Finset (Multiset Nat)) (s : Nat)
    (g : Permutation) (cycles : List (List Nat)) (hcycles : permutationCycles g v = some cycles)
    (hne : ∀ c, c ∈ cycles → c ≠ [])
    (hsmall : ∀ ms, ms ∈ P → ∀ i, i < k →
      (cycles.map List.length).count (i + 1) < 2 ^ 32 ∧ ms.count (i + 1) < 2 ^ 32 ∧
        combinatFits ((cycles.map List.length).count (i + 1)) (ms.count (i + 1))) :
    GroupBurnsideEvaluator.addElement v k
        (P.val.map (fun ms => GroupBurnsideEvaluator.tally ms k)) s g =
      some ((s + ∑ ms in P, ∏ i in Finset.range k,
        ((cycles.map List.length).count (i + 1)).choose (ms.count (i + 1))) % 2 ^ 64) := by
  unfold GroupBurnsideEvaluator.addElement
  simp only [hcycles]
  congr 1
  rw [Multiset.map_map]
  have hterm : ∀ ms, ms ∈ P.val →
      ((fun tally => GroupBurnsideEvaluator.intermediate
          (GroupBurnsideEvaluator.cycleLengths cycles k) tally k) ∘
        (fun ms => GroupBurnsideEvaluator.tally ms k)) ms =
      (∏ i in Finset.range k,
        ((cycles.map List.length).count (i + 1)).choose (ms.count (i + 1))) % 2 ^ 64 := by
    intro ms hms
    apply GroupBurnsideEvaluator.intermediate_spec
    intro i hi
    obtain ⟨h1, h2, h3⟩ := hsmall ms (Finset.mem_val.1 hms) i hi
    rw [GroupBurnsideEvaluator.cycleLengths_spec k cycles hne i hi,
      GroupBurnsideEvaluator.tally_getD ms k i hi]
    exact combinat_eq_choose _ _ h1 h2 h3
  rw [Multiset.map_congr rfl hterm, Nat.add_mod, Multiset.sum_map_mod, ← Nat.add_mod]
  rfl

end BurnsideTerm

section Counting

theorem Saturated.of_cons {c : List Nat} {cs : List (List Nat)} {B : Finset Nat}
    (h : Saturated (c :: cs) B) : Saturated cs B :=
  fun c1 h1 => h c1 (List.mem_cons_of_mem _ h1)

/-- The number of the sets of `k` points that are unions of lists of a family
of pairwise disjoint lists without repetitions, none of them empty. -/
theorem saturated_card (cs : List (List Nat)) (hnd : cs.flatten.Nodup)
    (hne : ∀ c, c ∈ cs → c ≠ []) (k : Nat) :
    ((Finset.powersetCard k cs.flatten.toFinset).filter (fun B => Saturated cs B)).card =
      subsetSums (cs.map List.length) k := by
  induction cs generalizing k with
  | nil =>
    simp only [List.flatten_nil, List.toFinset_nil, List.map_nil, subsetSums]
    have hall : ∀ B : Finset Nat, Saturated [] B := fun B c hc => absurd hc (List.not_mem_nil c)
    rw [Finset.filter_true_of_mem (fun B _ => hall B), Finset.card_powersetCard,
      Finset.card_empty]
    cases k with
    | zero => simp
    | succ k => simp
  | cons c cs ih =>
    rw [List.flatten_cons] at hnd
    obtain ⟨hndc, hndcs, hdisj⟩ := List.nodup_append.1 hnd
    have hne1 : ∀ c1, c1 ∈ cs → c1 ≠ [] := fun c1 h => hne c1 (List.mem_cons_of_mem _ h)
    have hcne : c ≠ [] := hne c (List.mem_cons_self _ _)
    have hcard : c.toFinset.card = c.length := List.toFinset_card_of_nodup hndc
    have hD : Disjoint c.toFinset cs.flatten.toFinset := by
      rw [Finset.disjoint_left]
      intro x hx hx2
      exact hdisj (List.mem_toFinset.1 hx) (List.mem_toFinset.1 hx2)
    have hcs_disj : ∀ c1, c1 ∈ cs → ∀ x, x ∈ c1 → x ∉ c := by
      intro c1 hc1 x hx hxc
      exact hdisj hxc (List.mem_flatten.2 ⟨c1, hc1, hx⟩)
    obtain ⟨x0, hx0⟩ := List.exists_mem_of_ne_nil c hcne
    rw [List.flatten_cons, List.toFinset_append, List.map_cons, subsetSums,
      ← Finset.filter_card_add_filter_neg_card_eq_card (fun B => c.toFinset ⊆ B), Nat.add_comm]
    congr 1
    · rw [← ih hndcs hne1 k]
      congr 1
      ext B
      simp only [Finset.mem_filter, Finset.mem_powersetCard]
      constructor
      · rintro ⟨⟨⟨hsub, hk⟩, hsat⟩, hnot⟩
        have hnone : ∀ x, x ∈ c → x ∉ B := by
          rcases hsat c (List.mem_cons_self _ _) with h | h
          · exact absurd (fun x hx => h x (List.mem_toFinset.1 hx)) hnot
          · exact h
        refine ⟨⟨fun x hx => ?_, hk⟩, hsat.of_cons⟩
        rcases Finset.mem_union.1 (hsub hx) with h | h
        · exact absurd hx (hnone x (List.mem_toFinset.1 h))
        · exact h
      · rintro ⟨⟨hsub, hk⟩, hsat⟩
        have hnone : ∀ x, x ∈ c → x ∉ B := by
          intro x hx hxB
          exact hdisj hx (List.mem_toFinset.1 (hsub hxB))
        refine ⟨⟨⟨fun x hx => Finset.mem_union_right _ (hsub hx), hk⟩, ?_⟩, ?_⟩
        · intro c1 hc1
          rcases List.mem_cons.1 hc1 with rfl | h
          · exact Or.inr hnone
          · exact hsat c1 h
        · intro hcB
          exact hnone x0 hx0 (hcB (List.mem_toFinset.2 hx0))
    · by_cases hck : c.length ≤ k
      · rw [if_pos hck, ← ih hndcs hne1 (k - c.length)]
        apply Finset.card_nbij' (fun B => B \ c.toFinset) (fun B => B ∪ c.toFinset)
        · intro B hB
          simp only [Finset.mem_filter, Finset.mem_powersetCard] at hB ⊢
          obtain ⟨⟨⟨hsub, hk⟩, hsat⟩, hcB⟩ := hB
          refine ⟨⟨fun x hx => ?_, ?_⟩, ?_⟩
          · obtain ⟨h1, h2⟩ := Finset.mem_sdiff.1 hx
            rcases Finset.mem_union.1 (hsub h1) with h | h
            · exact absurd h h2
            · exact h
          · rw [Finset.card_sdiff hcB, hk, hcard]
          · intro c1 hc1
            rcases hsat c1 (List.mem_cons_of_mem _ hc1) with h | h
            · left
              intro x hx
              exact Finset.mem_sdiff.2 ⟨h x hx, fun hxc =>
                hcs_disj c1 hc1 x hx (List.mem_toFinset.1 hxc)⟩
            · right
              intro x hx hxB
              exact h x hx (Finset.mem_sdiff.1 hxB).1
        · intro B hB
          simp only [Finset.mem_filter, Finset.mem_powersetCard] at hB ⊢
          obtain ⟨⟨hsub, hk⟩, hsat⟩ := hB
          have hDB : Disjoint B c.toFinset :=
            Finset.disjoint_of_subset_left hsub hD.symm
          refine ⟨⟨⟨fun x hx => ?_, ?_⟩, ?_⟩, Finset.subset_union_right⟩
          · rcases Finset.mem_union.1 hx with h | h
            · exact Finset.mem_union_right _ (hsub h)
            · exact Finset.mem_union_left _ h
          · rw [Finset.card_union_of_disjoint hDB, hk, hcard]
            omega
          · intro c1 hc1
            rcases List.mem_cons.1 hc1 with rfl | h
            · left
              intro x hx
              exact Finset.mem_union_right _ (List.mem_toFinset.2 hx)
            · rcases hsat c1 h with h2 | h2
              · left
                intro x hx
                exact Finset.mem_union_left _ (h2 x hx)
              · right
                intro x hx hxB
                rcases Finset.mem_union.1 hxB with h3 | h3
                · exact h2 x hx h3
                · exact hcs_disj c1 h x hx (List.mem_toFinset.1 h3)
        · intro B hB
          simp only [Finset.mem_filter, Finset.mem_powersetCard] at hB
          exact Finset.sdiff_union_of_subset hB.2
        · intro B hB
          simp only [Finset.mem_filter, Finset.mem_powersetCard] at hB
          have hDB : Disjoint B c.toFinset :=
            Finset.disjoint_of_subset_left hB.1.1 hD.symm
          exact Finset.union_sdiff_cancel_right hDB
      · rw [if_neg hck, Finset.card_eq_zero, Finset.filter_eq_empty_iff]
        intro B hB hcB
        simp only [Finset.mem_filter, Finset.mem_powersetCard] at hB
        have := Finset.card_le_card hcB
        rw [hB.1.2, hcard] at this
        exact hck this

/-- In a cycle of `f`, a set closed under `f` that holds one entry holds all. -/
theorem IsCycleOf.subset_of_closed {f : Nat → Nat} {c : List Nat} (h : IsCycleOf f c)
    (B : Finset Nat) (hclosed : ∀ x, x ∈ B → f x ∈ B) (x : Nat) (hx : x ∈ c) (hxB : x ∈ B) :
    ∀ y, y ∈ c → y ∈ B := by
  obtain ⟨hne, hc⟩ := h
  have hpos : 0 < c.length := List.length_pos.2 hne
  obtain ⟨j, hj, hjx⟩ := List.mem_iff_getElem.1 hx
  have hstep : ∀ t, c.getD ((j + t) % c.length) 0 ∈ B := by
    intro t
    induction t with
    | zero =>
      rw [Nat.add_zero, Nat.mod_eq_of_lt hj, List.getD_eq_getElem _ _ hj, hjx]
      exact hxB
    | succ t ih =>
      have := hclosed _ ih
      rw [hc _ (Nat.mod_lt _ hpos), Nat.mod_add_mod] at this
      exact this
  intro y hy
  obtain ⟨i, hi, hiy⟩ := List.mem_iff_getElem.1 hy
  have := hstep (i + c.length - j)
  have hidx : (j + (i + c.length - j)) % c.length = i := by
    have : j + (i + c.length - j) = i + c.length := by omega
    rw [this, Nat.add_mod_right, Nat.mod_eq_of_lt hi]
  rw [hidx, List.getD_eq_getElem _ _ hi, hiy] at this
  exact this

/-- For cycles of `f` that together hold the points `0, ..., v - 1`, the sets of
points that `f` maps onto themselves are the unions of cycles. -/
theorem invariant_iff_saturated (f : Nat → Nat) (v : Nat) (cycles : List (List Nat))
    (hperm : cycles.flatten.Perm (List.range v)) (hcyc : ∀ c, c ∈ cycles → IsCycleOf f c)
    (B : Finset Nat) (hB : B ⊆ Finset.range v) :
    B.image f = B ↔ Saturated cycles B := by
  have hcover : ∀ x, x ∈ B → ∃ c, c ∈ cycles ∧ x ∈ c := by
    intro x hx
    have : x ∈ cycles.flatten := hperm.symm.subset (List.mem_range.2 (Finset.mem_range.1 (hB hx)))
    obtain ⟨c, hc, hxc⟩ := List.mem_flatten.1 this
    exact ⟨c, hc, hxc⟩
  constructor
  · intro himg c hc
    have hclosed : ∀ x, x ∈ B → f x ∈ B := by
      intro x hx
      rw [← himg]
      exact Finset.mem_image_of_mem f hx
    by_cases hex : ∃ x, x ∈ c ∧ x ∈ B
    · obtain ⟨x, hxc, hxB⟩ := hex
      exact Or.inl ((hcyc c hc).subset_of_closed B hclosed x hxc hxB)
    · right
      intro x hx hxB
      exact hex ⟨x, hx, hxB⟩
  · intro hsat
    ext y
    rw [Finset.mem_image]
    constructor
    · rintro ⟨x, hx, rfl⟩
      obtain ⟨c, hc, hxc⟩ := hcover x hx
      rcases hsat c hc with h | h
      · exact h _ ((hcyc c hc).image_mem x hxc)
      · exact absurd hx (h x hxc)
    · intro hy
      obtain ⟨c, hc, hyc⟩ := hcover y hy
      obtain ⟨z, hz, hzy⟩ := (hcyc c hc).exists_preimage y hyc
      rcases hsat c hc with h | h
      · exact ⟨z, h z hz, hzy⟩
      · exact absurd hy (h y hyc)

/-- The number of the sets of `k` of the points `0, ..., v - 1` that `f` maps onto
themselves, from the sizes of the cycles of `f`. -/
theorem invariant_card (f : Nat → Nat) (v : Nat) (cycles : List (List Nat))
    (hperm : cycles.flatten.Perm (List.range v)) (hcyc : ∀ c, c ∈ cycles → IsCycleOf f c)
    (k : Nat) :
    ((Finset.powersetCard k (Finset.range v)).filter (fun B => B.image f = B)).card =
      subsetSums (cycles.map List.length) k := by
  have hnd : cycles.flatten.Nodup := hperm.nodup_iff.2 (List.nodup_range v)
  have hU : cycles.flatten.toFinset = Finset.range v := by
    ext x
    rw [List.mem_toFinset, Finset.mem_range, ← List.mem_range]
    exact ⟨fun h => hperm.subset h, fun h => hperm.symm.subset h⟩
  rw [← saturated_card cycles hnd (fun c hc => (hcyc c hc).1) k, hU]
  congr 1
  apply Finset.filter_congr
  intro B hB
  exact invariant_iff_saturated f v cycles hperm hcyc B (Finset.mem_powersetCard.1 hB).1

end Counting

section PartitionSum

/-- The product of binomial coefficients for one more number `l` in the list:
the product without it, and for a multiset that holds `l` also the product
for the multiset with one `l` removed. -/
theorem prod_choose_cons (K l : Nat) (ls : List Nat) (ms : Multiset Nat) (hl : 0 < l)
    (hlK : l ≤ K) :
    (∏ i in Finset.range K, ((l :: ls).count (i + 1)).choose (ms.count (i + 1))) =
      (∏ i in Finset.range K, (ls.count (i + 1)).choose (ms.count (i + 1))) +
        if l ∈ ms then
          ∏ i in Finset.range K, (ls.count (i + 1)).choose ((ms.erase l).count (i + 1))
        else 0 := by
  have hi0 : l - 1 ∈ Finset.range K := Finset.mem_range.2 (by omega)
  have hl1 : l - 1 + 1 = l := by omega
  have hcount : ∀ i, i ∈ (Finset.range K).erase (l - 1) →
      (l :: ls).count (i + 1) = ls.count (i + 1) := by
    intro i hi
    have hne : i ≠ l - 1 := (Finset.mem_erase.1 hi).1
    rw [List.count_cons]
    have : ¬ l = i + 1 := by omega
    simp [this]
  have hcount0 : (l :: ls).count (l - 1 + 1) = ls.count l + 1 := by
    rw [hl1, List.count_cons]
    simp
  rw [← Finset.mul_prod_erase _ _ hi0, ← Finset.mul_prod_erase (Finset.range K) _ hi0,
    Finset.prod_congr rfl (fun i hi => by rw [hcount i hi]), hcount0, hl1]
  by_cases hmem : l ∈ ms
  · rw [if_pos hmem, ← Finset.mul_prod_erase (Finset.range K) _ hi0, hl1,
      Multiset.count_erase_self]
    have hrest : ∀ i, i ∈ (Finset.range K).erase (l - 1) →
        (ls.count (i + 1)).choose ((ms.erase l).count (i + 1)) =
          (ls.count (i + 1)).choose (ms.count (i + 1)) := by
      intro i hi
      have hne : i ≠ l - 1 := (Finset.mem_erase.1 hi).1
      rw [Multiset.count_erase_of_ne (by omega)]
    rw [Finset.prod_congr rfl hrest]
    have hm : 0 < ms.count l := Multiset.count_pos.2 hmem
    obtain ⟨m, hm1⟩ : ∃ m, ms.count l = m + 1 := ⟨ms.count l - 1, by omega⟩
    rw [hm1, Nat.add_sub_cancel, Nat.choose_succ_succ]
    ring
  · rw [if_neg hmem, Multiset.count_eq_zero_of_not_mem hmem]
    simp

/-- The number of ways to choose entries with the sum `k` from a list of
positive numbers is the sum, over the partitions of `k`, of the products over
the part sizes `i` of the binomial coefficients of the number of the entries
`i` in the list and the number of the parts `i` in the partition. -/
theorem subsetSums_eq_sum (K : Nat) (P : Nat → Finset (Multiset Nat))
    (hP : ∀ k ms, ms ∈ P k ↔ (∀ x, x ∈ ms → 0 < x) ∧ ms.sum = k) (ls : List Nat)
    (hpos : ∀ l, l ∈ ls → 0 < l) :
    ∀ k, k ≤ K →
      subsetSums ls k =
        ∑ ms in P k, ∏ i in Finset.range K, (ls.count (i + 1)).choose (ms.count (i + 1)) := by
  induction ls with
  | nil =>
    intro k hk
    simp only [subsetSums, List.count_nil]
    by_cases hk0 : k = 0
    · subst hk0
      have hP0 : P 0 = {0} := by
        ext ms
        rw [hP, Finset.mem_singleton]
        constructor
        · rintro ⟨h1, h2⟩
          by_contra hne
          obtain ⟨x, hx⟩ := Multiset.exists_mem_of_ne_zero hne
          have := Multiset.single_le_sum (fun _ _ => Nat.zero_le _) x hx
          have := h1 x hx
          omega
        · rintro rfl
          simp
      rw [hP0, Finset.sum_singleton]
      simp
    · rw [if_neg hk0]
      symm
      apply Finset.sum_eq_zero
      intro ms hms
      obtain ⟨h1, h2⟩ := (hP k ms).1 hms
      have hne : ms ≠ 0 := by
        rintro rfl
        simp at h2
        exact hk0 h2.symm
      obtain ⟨x, hx⟩ := Multiset.exists_mem_of_ne_zero hne
      have hxk : x ≤ k := by
        rw [← h2]
        exact Multiset.single_le_sum (fun _ _ => Nat.zero_le _) x hx
      have hx0 := h1 x hx
      apply Finset.prod_eq_zero (Finset.mem_range.2 (show x - 1 < K by omega))
      have hx1 : x - 1 + 1 = x := by omega
      rw [hx1]
      have : 0 < ms.count x := Multiset.count_pos.2 hx
      exact Nat.choose_eq_zero_of_lt this
  | cons l ls ih =>
    intro k hk
    have hl : 0 < l := hpos l (List.mem_cons_self _ _)
    have ih1 := ih (fun l1 h => hpos l1 (List.mem_cons_of_mem _ h))
    simp only [subsetSums]
    by_cases hlK : l ≤ K
    · rw [Finset.sum_congr rfl (fun ms _ => prod_choose_cons K l ls ms hl hlK),
        Finset.sum_add_distrib, ← ih1 k hk]
      congr 1
      rw [← Finset.sum_filter]
      by_cases hlk : l ≤ k
      · rw [if_pos hlk, ih1 (k - l) (by omega)]
        apply Finset.sum_nbij' (fun ms => l ::ₘ ms) (fun ms => ms.erase l)
        · intro ms hms
          obtain ⟨h3, h4⟩ := (hP (k - l) ms).1 hms
          rw [Finset.mem_filter, hP]
          refine ⟨⟨fun x hx => ?_, ?_⟩, Multiset.mem_cons_self l ms⟩
          · rcases Multiset.mem_cons.1 hx with rfl | h
            · exact hl
            · exact h3 x h
          · rw [Multiset.sum_cons, h4]
            omega
        · intro ms hms
          obtain ⟨h1, h2⟩ := Finset.mem_filter.1 hms
          obtain ⟨h3, h4⟩ := (hP k ms).1 h1
          rw [hP]
          refine ⟨fun x hx => h3 x (Multiset.mem_of_mem_erase hx), ?_⟩
          have := Multiset.sum_erase h2
          omega
        · intro ms _
          exact Multiset.erase_cons_head l ms
        · intro ms hms
          exact Multiset.cons_erase (Finset.mem_filter.1 hms).2
        · intro ms _
          rw [Multiset.erase_cons_head]
      · rw [if_neg hlk]
        symm
        apply Finset.sum_eq_zero
        intro ms hms
        exfalso
        obtain ⟨h1, h2⟩ := Finset.mem_filter.1 hms
        obtain ⟨-, h4⟩ := (hP k ms).1 h1
        have := Multiset.single_le_sum (fun _ _ => Nat.zero_le _) l h2
        omega
    · have hlk : ¬ l ≤ k := by omega
      rw [if_neg hlk, Nat.add_zero, ih1 k hk]
      apply Finset.sum_congr rfl
      intro ms _
      apply Finset.prod_congr rfl
      intro i hi
      have := Finset.mem_range.1 hi
      rw [List.count_cons]
      have : ¬ l = i + 1 := by omega
      simp [this]

end PartitionSum

section Burnside

theorem length_le_flatten (cs : List (List Nat)) (hne : ∀ c, c ∈ cs → c ≠ []) :
    cs.length ≤ cs.flatten.length := by
  induction cs with
  | nil => simp
  | cons c cs ih =>
    have hc : 0 < c.length := List.length_pos.2 (hne c (List.mem_cons_self _ _))
    have := ih (fun c1 h => hne c1 (List.mem_cons_of_mem _ h))
    simp only [List.length_cons, List.flatten_cons, List.length_append]
    omega

theorem Multiset.count_le_sum (ms : Multiset Nat) (hpos : ∀ x, x ∈ ms → 0 < x) (a : Nat) :
    ms.count a ≤ ms.sum := by
  induction ms using Multiset.induction_on with
  | empty => simp
  | cons x ms ih =>
    have hx : 0 < x := hpos x (Multiset.mem_cons_self x ms)
    have := ih (fun y hy => hpos y (Multiset.mem_cons_of_mem hy))
    rw [Multiset.count_cons, Multiset.sum_cons]
    split <;> omega

/-- The sets of all partitions: for every `k` a finite set of multisets that
holds exactly the multisets of positive numbers with the sum `k`. -/
theorem exists_partitions :
    ∃ P : Nat → Finset (Multiset Nat),
      (∀ k, 1 ≤ k → partition k = some (P k)) ∧
        ∀ k ms, ms ∈ P k ↔ (∀ x, x ∈ ms → 0 < x) ∧ ms.sum = k := by
  refine ⟨fun k => if k = 0 then {0} else (partition k).getD ∅, fun k hk => ?_, fun k ms => ?_⟩
  · obtain ⟨P, h1, -⟩ := partition_spec k hk
    simp only [if_neg (show ¬ k = 0 by omega), h1, Option.getD_some]
  · by_cases hk : k = 0
    · subst hk
      simp only [if_pos, Finset.mem_singleton]
      constructor
      · rintro rfl
        simp
      · rintro ⟨h1, h2⟩
        by_contra hne
        obtain ⟨x, hx⟩ := Multiset.exists_mem_of_ne_zero hne
        have := Multiset.single_le_sum (fun _ _ => Nat.zero_le _) x hx
        have := h1 x hx
        omega
    · obtain ⟨P, h1, h2⟩ := partition_spec k (by omega)
      simp only [if_neg hk, h1, Option.getD_some]
      exact h2 ms

/-- What the body of the loop over the group elements adds to `s` for a
permutation `g`: the number of the sets of `k` points that `g` maps onto
themselves, modulo `2 ^ 64`. -/
theorem GroupBurnsideEvaluator.addElement_count (g : Permutation) (v k : Nat)
    (P : Finset (Multiset Nat)) (hv : v < 2 ^ 31) (hk : 1 ≤ k) (hk32 : k < 2 ^ 32)
    (hg : g.Perm (List.range v)) (hP : partition k = some P)
    (hfit : ∀ ms, ms ∈ P → ∀ i, i < k →
      combinatFits (cycleCount g v (i + 1)) (ms.count (i + 1))) (s : Nat) :
    GroupBurnsideEvaluator.addElement v k
        (P.val.map (fun ms => GroupBurnsideEvaluator.tally ms k)) s g =
      some ((s + invariantSubsets g v k) % 2 ^ 64) := by
  obtain ⟨cycles, hc1, hc2, hc3⟩ := permutationCycles_spec g v hg
  obtain ⟨Ps, hPs1, hPs2⟩ := exists_partitions
  have hPk : Ps k = P := by
    have := hPs1 k hk
    rw [hP] at this
    exact (Option.some.inj this).symm
  have hne : ∀ c, c ∈ cycles → c ≠ [] := fun c hc => (hc3 c hc).1
  have hcount : ∀ i, cycleCount g v i = (cycles.map List.length).count i := by
    intro i
    unfold cycleCount
    rw [hc1, Option.getD_some]
  have hlen : cycles.length ≤ v := by
    have := length_le_flatten cycles hne
    rw [hc2.length_eq, List.length_range] at this
    exact this
  rw [GroupBurnsideEvaluator.addElement_spec v k P s g cycles hc1 hne]
  · congr 2
    unfold invariantSubsets
    rw [invariant_card (Permutation.at g) v cycles hc2 hc3 k,
      subsetSums_eq_sum k Ps hPs2 (cycles.map List.length) ?_ k (le_refl k), hPk]
    intro l hl
    obtain ⟨c, hc, rfl⟩ := List.mem_map.1 hl
    exact List.length_pos.2 (hne c hc)
  · intro ms hms i hi
    refine ⟨?_, ?_, ?_⟩
    · have := List.count_le_length (i + 1) (cycles.map List.length)
      rw [List.length_map] at this
      omega
    · rw [← hPk, hPs2] at hms
      have := Multiset.count_le_sum ms hms.1 (i + 1)
      omega
    · rw [← hcount]
      exact hfit ms hms i hi

theorem GroupBurnsideEvaluator.foldl_count (v k : Nat) (P : Finset (Multiset Nat))
    (hv : v < 2 ^ 31) (hk : 1 ≤ k) (hk32 : k < 2 ^ 32) (hP : partition k = some P)
    (elements : List Permutation) (hperm : ∀ g, g ∈ elements → g.Perm (List.range v))
    (hfit : ∀ g, g ∈ elements → ∀ ms, ms ∈ P → ∀ i, i < k →
      combinatFits (cycleCount g v (i + 1)) (ms.count (i + 1))) (s : Nat)
    (hsum : s + (elements.map (fun g => invariantSubsets g v k)).sum < 2 ^ 64) :
    elements.foldl
        (fun s g =>
          s.bind (fun s =>
            GroupBurnsideEvaluator.addElement v k
              (P.val.map (fun ms => GroupBurnsideEvaluator.tally ms k)) s g))
        (some s) =
      some (s + (elements.map (fun g => invariantSubsets g v k)).sum) := by
  induction elements generalizing s with
  | nil => simp
  | cons g elements ih =>
    simp only [List.map_cons, List.sum_cons] at hsum
    simp only [List.foldl_cons, Option.some_bind]
    rw [GroupBurnsideEvaluator.addElement_count g v k P hv hk hk32
      (hperm g (List.mem_cons_self _ _)) hP (hfit g (List.mem_cons_self _ _)) s,
      Nat.mod_eq_of_lt (by omega),
      ih (fun g1 h => hperm g1 (List.mem_cons_of_mem _ h))
        (fun g1 h => hfit g1 (List.mem_cons_of_mem _ h)) _ (by omega)]
    simp only [List.map_cons, List.sum_cons]
    congr 1
    omega

/-- The sum over the partitions of the products of the values of `combinat`, when
no product in `combinat` leaves the range of `int`, is the number of the sets of
`k` points that `g` maps onto themselves. -/
theorem GroupBurnsideEvaluator.term_eq_count (g : Permutation) (v k : Nat)
    (P : Finset (Multiset Nat)) (hv : v < 2 ^ 31) (hk : 1 ≤ k) (hk32 : k < 2 ^ 32)
    (hg : g.Perm (List.range v)) (hP : partition k = some P)
    (hfit : ∀ ms, ms ∈ P → ∀ i, i < k →
      combinatFits (cycleCount g v (i + 1)) (ms.count (i + 1))) :
    (∑ ms in P, ∏ i in Finset.range k,
      combinat (cycleCount g v (i + 1)) (ms.count (i + 1))) = invariantSubsets g v k := by
  obtain ⟨cycles, hc1, hc2, hc3⟩ := permutationCycles_spec g v hg
  obtain ⟨Ps, hPs1, hPs2⟩ := exists_partitions
  have hPk : Ps k = P := by
    have := hPs1 k hk
    rw [hP] at this
    exact (Option.some.inj this).symm
  have hne : ∀ c, c ∈ cycles → c ≠ [] := fun c hc => (hc3 c hc).1
  have hcount : ∀ i, cycleCount g v i = (cycles.map List.length).count i := by
    intro i
    unfold cycleCount
    rw [hc1, Option.getD_some]
  have hlen : cycles.length ≤ v := by
    have := length_le_flatten cycles hne
    rw [hc2.length_eq, List.length_range] at this
    exact this
  have hterm : ∀ ms, ms ∈ P → ∀ i, i ∈ Finset.range k →
      combinat (cycleCount g v (i + 1)) (ms.count (i + 1)) =
        ((cycles.map List.length).count (i + 1)).choose (ms.count (i + 1)) := by
    intro ms hms i hi
    rw [← hcount]
    apply combinat_eq_choose _ _ _ _ (hfit ms hms i (Finset.mem_range.1 hi))
    · rw [hcount]
      have := List.count_le_length (i + 1) (cycles.map List.length)
      rw [List.length_map] at this
      omega
    · rw [← hPk, hPs2] at hms
      have := Multiset.count_le_sum ms hms.1 (i + 1)
      omega
  rw [Finset.sum_congr rfl (fun ms hms => Finset.prod_congr rfl (hterm ms hms))]
  unfold invariantSubsets
  rw [invariant_card (Permutation.at g) v cycles hc2 hc3 k,
    subsetSums_eq_sum k Ps hPs2 (cycles.map List.length) ?_ k (le_refl k), hPk]
  intro l hl
  obtain ⟨c, hc, rfl⟩ := List.mem_map.1 hl
  exact List.length_pos.2 (hne c hc)

/-- The identity maps every set onto itself. -/
theorem invariantSubsets_identity (v k : Nat) :
    invariantSubsets (List.range v) v k = v.choose k := by
  unfold invariantSubsets
  rw [Finset.filter_true_of_mem, Finset.card_powersetCard, Finset.card_range]
  intro B hB
  have hsub := (Finset.mem_powersetCard.1 hB).1
  conv_rhs => rw [← Finset.image_id (s := B)]
  apply Finset.image_congr
  intro x hx
  have hxv : x < v := Finset.mem_range.1 (hsub hx)
  unfold Permutation.at
  rw [List.getD_eq_getElem _ _ (by simpa using hxv)]
  simp

end Burnside

/-- C27 fails on the code: for the identity on 47 points and `k = 8`, the loop of
`GroupBurnsideEvaluator::operator()` adds 4072553879 to `s`, while the number of the sets of 8
of the 47 points that the identity maps onto themselves is 314457495. In
`combinat(47, 8)` the product `result * (n - i)` of the last iteration leaves the
range of `int`. -/
theorem GroupBurnsideEvaluator.term_overflows :
    (partition 8).bind (fun P => GroupBurnsideEvaluator.addElement 47 8
      (P.val.map (fun ms => GroupBurnsideEvaluator.tally ms 8)) 0 (List.range 47)) =
        some 4072553879 ∧
      invariantSubsets (List.range 47) 47 8 = 314457495 := by
  refine ⟨by decide, ?_⟩
  rw [invariantSubsets_identity]
  decide

/-- C27, with the provisos that the code needs: let the enumeration of the group
consist of permutations of the points `0, ..., v - 1`, with `v` below `2 ^ 31` and
`k` from 1 to below `2 ^ 32`; let no product `result * (n - i)` leave the range of
`int` in any of the calls `combinat(c_i, m_i)` that are made, `c_i` being the number of
the cycles of size `i` of a group element and `m_i` the number of the parts `i`
of a partition of `k`; and let the sum over the group of the numbers of the
sets of `k` points that an element maps onto itself be below `2 ^ 64`. Then
`partition(k)` returns, and for every group element `g` the sum over the partitions
of the products of the values `combinat(c_i, m_i)` is the number of the sets of `k`
points that `g` maps onto themselves, and the loop adds this number to `s`;
and the evaluator returns the sum of these numbers over the group divided by
the order. For the cyclic group of order 4 on 4 points and `k = 2` it returns
2. -/
theorem GroupBurnsideEvaluator.counts_invariant_subsets (elements : List Permutation)
    (order v k : Nat) (hv : v < 2 ^ 31) (hk : 1 ≤ k) (hk32 : k < 2 ^ 32)
    (hperm : ∀ g, g ∈ elements → g.Perm (List.range v))
    (hfit : ∀ g, g ∈ elements → ∀ ms, ms ∈ (partition k).getD ∅ → ∀ i, i < k →
      combinatFits (cycleCount g v (i + 1)) (ms.count (i + 1)))
    (hsum : (elements.map (fun g => invariantSubsets g v k)).sum < 2 ^ 64) :
    (∃ P, partition k = some P ∧ ∀ g, g ∈ elements →
      (∑ ms in P, ∏ i in Finset.range k,
        combinat (cycleCount g v (i + 1)) (ms.count (i + 1))) = invariantSubsets g v k ∧
      ∀ s, s + invariantSubsets g v k < 2 ^ 64 →
        GroupBurnsideEvaluator.addElement v k
            (P.val.map (fun ms => GroupBurnsideEvaluator.tally ms k)) s g =
          some (s + invariantSubsets g v k)) ∧
      GroupBurnsideEvaluator elements order v k =
        some ((elements.map (fun g => invariantSubsets g v k)).sum / order) ∧
      GroupBurnsideEvaluator cyclicGroup4 4 4 2 = some 2 := by
  obtain ⟨P, hP, -⟩ := partition_spec k hk
  have hfit1 : ∀ g, g ∈ elements → ∀ ms, ms ∈ P → ∀ i, i < k →
      combinatFits (cycleCount g v (i + 1)) (ms.count (i + 1)) := by
    intro g hg ms hms i hi
    apply hfit g hg ms _ i hi
    rw [hP]
    exact hms
  refine ⟨⟨P, hP, fun g hg => ⟨?_, fun s hs => ?_⟩⟩, ?_, by decide⟩
  · exact GroupBurnsideEvaluator.term_eq_count g v k P hv hk hk32 (hperm g hg) hP (hfit1 g hg)
  · rw [GroupBurnsideEvaluator.addElement_count g v k P hv hk hk32 (hperm g hg) hP (hfit1 g hg) s,
      Nat.mod_eq_of_lt hs]
  · unfold GroupBurnsideEvaluator
    simp only [hP]
    rw [GroupBurnsideEvaluator.foldl_count v k P hv hk hk32 hP elements hperm hfit1 0
      (by omega)]
    simp

/-- C27, on the cyclic group of order 4 on 4 points with `k = 2`: the numbers of
the sets of 2 points mapped onto themselves are 6, 0, 2 and 0 for the four
elements, and the evaluator returns their sum 8 divided by 4. -/
theorem GroupBurnsideEvaluator.counts_invariant_subsets_witness :
    GroupBurnsideEvaluator cyclicGroup4 4 4 2 =
        some ((cyclicGroup4.map (fun g => invariantSubsets g 4 2)).sum / 4) ∧
      cyclicGroup4.map (fun g => invariantSubsets g 4 2) = [6, 0, 2, 0] :=
  ⟨(GroupBurnsideEvaluator.counts_invariant_subsets cyclicGroup4 4 4 2 (by decide) (by decide)
    (by decide) (by decide) (by decide) (by decide)).2.1, by decide⟩

theorem combinatSteps_lt (n k : Nat) (hk : k < 2 ^ 32) : combinatSteps n k < 2 ^ 32 := by
  unfold combinatSteps
  split
  · omega
  · omega

theorem choose_lt_of_fit (n : Nat) (hn : n < 2 ^ 32) (m : Nat) (hm : m < 2 ^ 32)
    (hfit : ∀ j, j < m → n.choose j * ((n + 2 ^ 32 - j) % 2 ^ 32) < 2 ^ 31) :
    n.choose m < 2 ^ 31 := by
  cases m with
  | zero => simp
  | succ s =>
    have hf := hfit s (by omega)
    rw [unsigned_sub n s hn (by omega)] at hf
    split at hf
    · rename_i h
      rw [← Nat.choose_succ_right_eq] at hf
      have : n.choose (s + 1) ≤ n.choose (s + 1) * (s + 1) := Nat.le_mul_of_pos_right _ (by omega)
      omega
    · rename_i h
      rw [Nat.choose_eq_zero_of_lt (by omega)]
      norm_num

theorem combinatFits_of_noOverflow (n k : Nat) (hn : n < 2 ^ 32) (hk : k < 2 ^ 32)
    (h : combinatNoOverflow n k) : combinatFits n k := by
  have hsteps := combinatSteps_lt n k hk
  have key : ∀ m, m ≤ combinatSteps n k →
      ∀ j, j < m → n.choose j * ((n + 2 ^ 32 - j) % 2 ^ 32) < 2 ^ 31 := by
    intro m
    induction m with
    | zero => intro _ j hj; omega
    | succ m ih =>
      intro hm j hj
      have ih1 := ih (by omega)
      by_cases hjm : j < m
      · exact ih1 j hjm
      · have hj1 : j = m := by omega
        subst hj1
        have hl := combinat_loop n hn j (by omega) ih1
        have hj2 := h j (by omega)
        rw [hl, toUInt32_natCast] at hj2
        have hc := choose_lt_of_fit n hn j (by omega) ih1
        rw [Nat.mod_eq_of_lt (by omega)] at hj2
        exact hj2
  exact key _ (le_refl _)


theorem combinatProduct_eq (n : Nat) (hn : n < 2 ^ 32) (i : Nat) (hi : i < 2 ^ 32)
    (hfit : ∀ j, j < i + 1 → n.choose j * ((n + 2 ^ 32 - j) % 2 ^ 32) < 2 ^ 31) :
    combinatProduct n i = ((n.choose (i + 1) * (i + 1) : Nat) : Int) := by
  unfold combinatProduct
  rw [combinat_loop n hn i hi (fun j hj => hfit j (by omega))]
  have hf := hfit i (by omega)
  have hmod : (toUInt32 ((n.choose i : Nat) : Int) * ((n + 2 ^ 32 - i) % 2 ^ 32)) % 2 ^ 32 =
      n.choose i * ((n + 2 ^ 32 - i) % 2 ^ 32) := by
    rw [toUInt32_natCast, Nat.mod_mul_mod, Nat.mod_eq_of_lt (by omega)]
  rw [toInt32_of_lt _ (by rw [hmod]; exact hf), hmod, unsigned_sub n i hn hi]
  split
  · rw [Nat.choose_succ_right_eq]
  · rw [Nat.choose_eq_zero_of_lt (by omega), Nat.choose_eq_zero_of_lt (by omega)]
    simp

/-- C32: for `unsigned int` arguments `n` and `k` such that no intermediate product
of `combinat(n, k)` exceeds the range of `int`, the function returns the binomial
coefficient of `n` and `k`; in every iteration `i` the product held by `result` is the
binomial coefficient of `n` and `i + 1` times `i + 1`, so the division by `i + 1` is
exact and leaves the binomial coefficient of `n` and `i + 1`; and for `k > n`, where
`n - k` and `n - i` wrap around, the result is 0. -/
theorem combinat_binomial (n k : Nat) (hn : n < 2 ^ 32) (hk : k < 2 ^ 32)
    (hfit : combinatNoOverflow n k) :
    combinat n k = n.choose k ∧
      (∀ i, i < combinatSteps n k →
        toInt32 (i + 1) ∣ combinatProduct n i ∧
        combinatProduct n i = combinatLoop n (i + 1) * toInt32 (i + 1) ∧
        combinatLoop n (i + 1) = ((n.choose (i + 1) : Nat) : Int)) ∧
      (n < k → combinat n k = 0) := by
  have hf := combinatFits_of_noOverflow n k hn hk hfit
  have hsteps := combinatSteps_lt n k hk
  have hc := combinat_eq_choose n k hn hk hf
  refine ⟨hc, fun i hi => ?_, fun hnk => ?_⟩
  · have hl := combinat_loop n hn (i + 1) (by omega) (fun j hj => hf j (by omega))
    have hp := combinatProduct_eq n hn i (by omega) (fun j hj => hf j (by omega))
    have hmul : combinatProduct n i = combinatLoop n (i + 1) * toInt32 (i + 1) := by
      rw [hp, hl]
      by_cases hsmall : i + 1 < 2 ^ 31
      · rw [toInt32_of_lt _ (by rw [Nat.mod_eq_of_lt (by omega)]; exact hsmall),
          Nat.mod_eq_of_lt (show i + 1 < 2 ^ 32 by omega)]
        push_cast
        ring
      · have hni : n < i := combinat_small_of_fit n hn i (by omega) (fun j hj => hf j (by omega))
        rw [Nat.choose_eq_zero_of_lt (by omega)]
        simp
    exact ⟨⟨combinatLoop n (i + 1), by rw [hmul, mul_comm]⟩, hmul, hl⟩
  · rw [hc, Nat.choose_eq_zero_of_lt hnk]

/-- C32 on `combinat(5, 2)` and on `combinat(3, 5)`: the results are 10 and 0. -/
theorem combinat_binomial_witness :
    combinat 5 2 = 10 ∧ combinat 3 5 = 0 ∧ combinatNoOverflow 3 5 ∧
      combinatProduct 5 1 = 20 :=
  ⟨(combinat_binomial 5 2 (by norm_num) (by norm_num) (by decide)).1,
    (combinat_binomial 3 5 (by norm_num) (by norm_num) (by decide)).2.2 (by decide),
    by decide, by decide⟩

/-- C33: for every `k` from 1 on, `partition(k)` returns, and a multiset of positive
numbers is in the result exactly when its sum is `k`: the result is the set of all
partitions of `k`. -/
theorem partition_all_partitions (k : Nat) (hk : 1 ≤ k) :
    ∃ P, partition k = some P ∧
      ∀ ms : Multiset Nat, ms ∈ P ↔ (∀ x, x ∈ ms → 0 < x) ∧ ms.sum = k :=
  partition_spec k hk

/-- C33 on `k = 4`: `partition(4)` returns the five partitions of 4, among them
`2 + 1 + 1` and not `3 + 2`. -/
theorem partition_all_partitions_witness :
    ∃ P, partition 4 = some P ∧ P.card = 5 ∧ ({2, 1, 1} : Multiset Nat) ∈ P ∧
      ({3, 2} : Multiset Nat) ∉ P := by
  obtain ⟨P, hP, hmem⟩ := partition_all_partitions 4 (by decide)
  refine ⟨P, hP, ?_, (hmem _).2 (by decide), fun h => ?_⟩
  · have h5 : ((partition 4).map Finset.card) = some 5 := by decide
    rw [hP] at h5
    exact Option.some.inj h5
  · exact absurd ((hmem _).1 h).2 (by decide)

section CycleOrder

/-- What the inner loop of `permutationCycles` returns, when it returns: the cycle
it was given with `nextPoint` and further points of the remaining ones appended, and
remaining points that do not hold `nextPoint`. -/
theorem cycleLoop_shape (g : Permutation) (first : Nat) :
    ∀ (fuel next : Nat) (cycle rem cycle1 rem1 : List Nat),
      cycleLoop g first fuel next cycle rem = some (cycle1, rem1) →
      ∃ added, cycle1 = cycle ++ next :: added ∧ (∀ x, x ∈ next :: added → x ∈ rem) ∧
        rem1.Sublist (rem.erase next) := by
  intro fuel
  induction fuel with
  | zero =>
    intro next cycle rem cycle1 rem1 h
    simp [cycleLoop] at h
  | succ fuel ih =>
    intro next cycle rem cycle1 rem1 h
    unfold cycleLoop at h
    by_cases hmem : next ∈ rem
    · rw [if_pos hmem] at h
      by_cases hne : Permutation.at g next ≠ first
      · rw [if_pos hne] at h
        obtain ⟨added, h1, h2, h3⟩ := ih _ _ _ _ _ h
        refine ⟨Permutation.at g next :: added, ?_, ?_, ?_⟩
        · rw [h1, List.append_assoc]
          rfl
        · intro x hx
          rcases List.mem_cons.1 hx with hx | hx
          · rw [hx]; exact hmem
          · exact List.mem_of_mem_erase (h2 x hx)
        · exact h3.trans (List.erase_sublist _ _)
      · rw [if_neg hne] at h
        simp only [Option.some.injEq, Prod.mk.injEq] at h
        refine ⟨[], h.1.symm, ?_, ?_⟩
        · intro x hx
          simp only [List.mem_singleton] at hx
          rw [hx]; exact hmem
        · rw [← h.2]
    · rw [if_neg hmem] at h
      exact absurd h (by simp)

/-- The outer loop of `permutationCycles` keeps the cycles in the order of their
first points, each first point being the least of its cycle. -/
theorem permutationCyclesLoop_ordered (g : Permutation) :
    ∀ (fuel : Nat) (rem : List Nat) (cycles cycles1 : List (List Nat)),
      permutationCyclesLoop g fuel rem cycles = some cycles1 →
      rem.Pairwise (· < ·) →
      (∀ c, c ∈ cycles → ∀ x, x ∈ c → c.getD 0 0 ≤ x) →
      (∀ c, c ∈ cycles → ∀ y, y ∈ rem → c.getD 0 0 < y) →
      (cycles.map (fun c => c.getD 0 0)).Pairwise (· < ·) →
      (∀ c, c ∈ cycles1 → ∀ x, x ∈ c → c.getD 0 0 ≤ x) ∧
        (cycles1.map (fun c => c.getD 0 0)).Pairwise (· < ·) := by
  intro fuel
  induction fuel with
  | zero =>
    intro rem cycles cycles1 h
    simp [permutationCyclesLoop] at h
  | succ fuel ih =>
    intro rem cycles cycles1 h hsorted hmin hlt hheads
    unfold permutationCyclesLoop at h
    cases rem with
    | nil =>
      simp only [Option.some.injEq] at h
      subst h
      exact ⟨hmin, hheads⟩
    | cons first rest =>
      simp only at h
      cases hc : cycleLoop g first (first :: rest).length first [] (first :: rest) with
      | none => rw [hc] at h; exact absurd h (by simp)
      | some pr =>
        obtain ⟨cycle, rem1⟩ := pr
        rw [hc] at h
        simp only at h
        obtain ⟨added, h1, h2, h3⟩ := cycleLoop_shape g first _ _ _ _ _ _ hc
        rw [List.nil_append] at h1
        have hfirst : cycle.getD 0 0 = first := by rw [h1]; rfl
        have hrest := (List.pairwise_cons.1 hsorted)
        have herase : (first :: rest).erase first = rest := by simp
        rw [herase] at h3
        apply ih rem1 (cycles ++ [cycle]) cycles1 h
        · exact hrest.2.sublist h3
        · intro c hc1 x hx
          rcases List.mem_append.1 hc1 with hc1 | hc1
          · exact hmin c hc1 x hx
          · simp only [List.mem_singleton] at hc1
            subst hc1
            rw [hfirst]
            have hx1 := h2 x (by rw [← h1]; exact hx)
            rcases List.mem_cons.1 hx1 with hx1 | hx1
            · omega
            · exact le_of_lt (hrest.1 x hx1)
        · intro c hc1 y hy
          rcases List.mem_append.1 hc1 with hc1 | hc1
          · exact hlt c hc1 y (List.mem_cons_of_mem _ (h3.subset hy))
          · simp only [List.mem_singleton] at hc1
            subst hc1
            rw [hfirst]
            exact hrest.1 y (h3.subset hy)
        · rw [List.map_append, List.pairwise_append]
          refine ⟨hheads, by simp, ?_⟩
          intro a ha b hb
          simp only [List.map_cons, List.map_nil, List.mem_singleton] at hb
          obtain ⟨c, hc1, rfl⟩ := List.mem_map.1 ha
          rw [hb, hfirst]
          exact hlt c hc1 first (List.mem_cons_self _ _)

end CycleOrder

/-- C34: for every `v` and every permutation `g` of the points `0, ..., v - 1`,
`permutationCycles(g, v)` returns; the cycles returned are pairwise disjoint and
hold every point below `v` exactly once; within each cycle `g` maps every entry to
the next one and the last entry to the first; the first entry of a cycle is its
least point; and the cycles are listed in the increasing order of these least
points. -/
theorem permutationCycles_ordered (g : Permutation) (v : Nat) (hg : g.Perm (List.range v)) :
    ∃ cycles, permutationCycles g v = some cycles ∧
      cycles.flatten.Perm (List.range v) ∧
      cycles.Pairwise List.Disjoint ∧
      (∀ c, c ∈ cycles → IsCycleOf (Permutation.at g) c) ∧
      (∀ c, c ∈ cycles → ∀ x, x ∈ c → c.getD 0 0 ≤ x) ∧
      (cycles.map (fun c => c.getD 0 0)).Pairwise (· < ·) := by
  obtain ⟨cycles, h1, h2, h3⟩ := permutationCycles_spec g v hg
  have hnodup : cycles.flatten.Nodup := h2.nodup_iff.2 (List.nodup_range v)
  have hord := permutationCyclesLoop_ordered g (v + 1) (generateX v) [] cycles h1
    (by
      unfold generateX
      exact List.pairwise_lt_range v)
    (by simp) (by simp) (by simp)
  exact ⟨cycles, h1, h2, (List.nodup_flatten.1 hnodup).2, h3, hord.1, hord.2⟩

/-- C34 on the permutation that exchanges 0 with 2 and 1 with 3: the cycles are
`(0 2)` and `(1 3)`, in this order. -/
theorem permutationCycles_ordered_witness :
    [2, 3, 0, 1].Perm (List.range 4) ∧
      permutationCycles [2, 3, 0, 1] 4 = some [[0, 2], [1, 3]] ∧
      ∃ cycles, permutationCycles [2, 3, 0, 1] 4 = some cycles ∧
        (cycles.map (fun c => c.getD 0 0)).Pairwise (· < ·) := by
  have hp : [2, 3, 0, 1].Perm (List.range 4) := by decide
  obtain ⟨cycles, h1, -, -, -, -, h6⟩ := permutationCycles_ordered [2, 3, 0, 1] 4 hp
  exact ⟨hp, by decide, cycles, h1, h6⟩

section QueryAll

variable {FV W E : Type} [DecidableEq FV]

/-- The queries of a coded lookup table for the subsets of a list all return, and
the values they return are the codes of the vectors of the subsets in the
table afterwards. -/
theorem LookupTable.queryAll_coded (eval : W → Subset → Except E FV × W) (vec : Subset → FV)
    (heval : ∀ w B, (eval w B).1 = Except.ok (vec B)) (Bs : List Subset) :
    ∀ (t : LookupTable FV) (w : W) (N : Nat), N + Bs.length ≤ 2 ^ 64 → t.Coded vec N →
      ∃ (codes : List Nat) (t1 : LookupTable FV) (w1 : W),
        LookupTable.queryAll eval t w Bs = (codes.map Except.ok, t1, w1) ∧
        codes.length = Bs.length ∧ t1.Coded vec (N + Bs.length) ∧
        (∀ i, i < Bs.length →
          t1.delegate.translator.find (vec (Bs.getD i [])) = some (codes.getD i 0)) ∧
        ∀ fv c, t.delegate.translator.find fv = some c →
          t1.delegate.translator.find fv = some c := by
  induction Bs with
  | nil =>
    intro t w N _ ht
    exact ⟨[], t, w, rfl, rfl, ht, fun i hi => absurd hi (Nat.not_lt_zero i), fun _ _ h => h⟩
  | cons B Bs ih =>
    intro t w N hN ht
    rw [List.length_cons] at hN
    obtain ⟨code, t1, w1, h1, -, h3, h4, h5⟩ :=
      LookupTable.query_coded_state eval vec heval t w B N (by omega) ht
    obtain ⟨codes, t2, w2, k1, k2, k3, k4, k5⟩ := ih t1 w1 (N + 1) (by omega) h3
    have hlen : N + 1 + Bs.length = N + (B :: Bs).length := by
      rw [List.length_cons]
      omega
    rw [hlen] at k3
    refine ⟨code :: codes, t2, w2, ?_, by simp [k2], k3, ?_, fun fv c h => k5 fv c (h5 fv c h)⟩
    · simp only [LookupTable.queryAll, h1, k1, List.map_cons]
    · intro i hi
      cases i with
      | zero => exact k5 _ _ h4
      | succ i =>
        simp only [List.getD_cons_succ]
        exact k4 i (by simpa using hi)

end QueryAll

/-- C39: let the evaluator of a lookup table have the frequency vector `vec B` on
every subset `B`, whatever the state it acts on. From a new table, whatever the
value `nextIdx0` that its code counter starts with, the queries for the subsets
of a list, in whatever order and with whatever repetitions, all return a code;
and the codes returned for two of the subsets are equal if and only if the
frequency vectors of the two subsets are equal. The counter is an
`unsigned long` that wraps around at `2 ^ 64`, and the list holds `2 ^ 64`
queries at most. -/
theorem LookupTable.codes_equal_iff_vectors_equal {FV W E : Type} [DecidableEq FV]
    (eval : W → Subset → Except E FV × W) (vec : Subset → FV)
    (heval : ∀ w B, (eval w B).1 = Except.ok (vec B)) (nextIdx0 : Nat) (w : W)
    (Bs : List Subset) (hlen : Bs.length ≤ 2 ^ 64) :
    ∃ codes : List Nat,
      (LookupTable.queryAll eval (LookupTable.create nextIdx0) w Bs).1 =
        codes.map Except.ok ∧
      codes.length = Bs.length ∧
      ∀ i, i < Bs.length → ∀ j, j < Bs.length →
        (codes.getD i 0 = codes.getD j 0 ↔ vec (Bs.getD i []) = vec (Bs.getD j [])) := by
  obtain ⟨codes, t1, w1, h1, h2, h3, h4, -⟩ := LookupTable.queryAll_coded eval vec heval Bs
    (LookupTable.create nextIdx0) w 0 (by omega) (LookupTable.create_coded vec nextIdx0 0)
  refine ⟨codes, by rw [h1], h2, fun i hi j hj => ?_⟩
  have hi1 := h4 i hi
  have hj1 := h4 j hj
  constructor
  · intro h
    rw [h] at hi1
    exact h3.2.1 _ _ _ hi1 hj1
  · intro h
    rw [h, hj1] at hi1
    exact (Option.some.inj hi1).symm

/-- C39 on a table whose counter starts with `2 ^ 64 - 1`, for an evaluator whose
vector is the size of the subset: the queries for {0}, {0,1}, {1} and {0}
return the codes `2 ^ 64 - 1`, 0, `2 ^ 64 - 1` and `2 ^ 64 - 1`. -/
theorem LookupTable.codes_equal_iff_vectors_equal_witness :
    (LookupTable.queryAll
        (fun (w : Unit) (B : Subset) => ((Except.ok B.length : Except Unit Nat), w))
        (LookupTable.create (2 ^ 64 - 1)) () [[0], [0, 1], [1], [0]]).1 =
      [Except.ok (2 ^ 64 - 1), Except.ok 0, Except.ok (2 ^ 64 - 1), Except.ok (2 ^ 64 - 1)] ∧
    ∃ codes : List Nat,
      (LookupTable.queryAll
          (fun (w : Unit) (B : Subset) => ((Except.ok B.length : Except Unit Nat), w))
          (LookupTable.create (2 ^ 64 - 1)) () [[0], [0, 1], [1], [0]]).1 =
        codes.map Except.ok ∧
      (codes.getD 0 0 = codes.getD 2 0 ↔ [0].length = [1].length) :=
  ⟨by decide,
    (LookupTable.codes_equal_iff_vectors_equal
      (fun (w : Unit) (B : Subset) => ((Except.ok B.length : Except Unit Nat), w))
      List.length (fun _ _ => rfl) (2 ^ 64 - 1) () [[0], [0, 1], [1], [0]]
      (by simp)).imp
      (fun _ h => ⟨h.1, h.2.2 0 (by decide) 2 (by decide)⟩)⟩

section Deterministic

variable {Fn W E : Type}

theorem TablePruner.evaluateAll_det (evaluate : W → Fn → Subset → Except E Nat × W)
    (val : Fn → Subset → Nat) (hdet : ∀ w f B, (evaluate w f B).1 = Except.ok (val f B))
    (fn : Fn) (Bs : List Subset) (w : W) :
    (TablePruner.evaluateAll evaluate fn Bs w).1 =
      (Bs.map (val fn)).map (Except.ok : Nat → Except E Nat) := by
  induction Bs generalizing w with
  | nil => rfl
  | cons B Bs ih =>
    simp only [TablePruner.evaluateAll, List.map_cons, hdet, ih]

theorem DiscriminatorEvaluator_det (evaluate : W → Fn → Subset → Except E Nat × W)
    (val : Fn → Subset → Nat) (hdet : ∀ w f B, (evaluate w f B).1 = Except.ok (val f B))
    (fns : List Fn) (w : W) (B : Subset) :
    (DiscriminatorEvaluator evaluate fns w B).1 = Except.ok (fns.map (fun f => val f B)) := by
  induction fns generalizing w with
  | nil => rfl
  | cons f fs ih =>
    unfold DiscriminatorEvaluator
    have h1 := hdet w f B
    cases he : evaluate w f B with
    | mk r w1 =>
      rw [he] at h1
      simp only at h1
      subst h1
      simp only []
      have h2 := ih w1
      cases hd : DiscriminatorEvaluator evaluate fs w1 B with
      | mk r2 w2 =>
        rw [hd] at h2
        simp only at h2
        subst h2
        rfl

theorem TablePruner.TableOf.of_sameTable {val : Fn → Subset → Nat} {p p1 : TablePruner Fn}
    (h : p.TableOf val) (hst : p.SameTable p1) : p1.TableOf val := by
  obtain ⟨a1, a2, a3, -⟩ := hst
  unfold TablePruner.TableOf
  rw [a1, a2, a3]
  exact h

theorem TablePruner.addGInvariant_tableOf (evaluate : W → Fn → Subset → Except E Nat × W)
    (val : Fn → Subset → Nat) (hdet : ∀ w f B, (evaluate w f B).1 = Except.ok (val f B))
    (p : TablePruner Fn) (w : W) (fn : Fn) (hshape : p.TableShape) (h : p.TableOf val) :
    (p.addGInvariant evaluate w fn).2.1.TableOf val := by
  by_cases hr : p.ready = true
  · rw [TablePruner.addGInvariant_ready evaluate p w fn hr]
    exact h
  · have hnot : p.ready = false := by simpa using hr
    obtain ⟨h1, h2⟩ := TablePruner.addGInvariant_table evaluate p w fn hnot hshape
    have hc := (TablePruner.addGInvariant_fields evaluate p w fn).1
    rw [TablePruner.evaluateAll_det evaluate val hdet, TablePruner.getAll_map_ok] at h2
    simp only [List.length_map, Nat.sub_self, List.replicate_zero, List.append_nil] at h2
    intro i hi
    rw [hc] at hi ⊢
    have hF : (p.addGInvariant evaluate w fn).2.1.F =
        Table.mk (p.F.rows ++ [p.candidates.map (val fn)]) := by
      cases hFF : (p.addGInvariant evaluate w fn).2.1.F with
      | mk rows =>
        rw [hFF] at h2
        simp only at h2
        rw [h2]
    rw [hF, Table.column_concat, h1, List.map_append, List.map_singleton]
    have hcol : (Table.mk p.F.rows).column i = p.F.column i := rfl
    rw [hcol, h i hi]
    congr 2
    rw [List.getD_eq_getElem _ _ (by simpa using hi), List.getElem_map,
      List.getD_eq_getElem _ _ hi]

theorem TablePruner.step_tableOf (evaluate : W → Fn → Subset → Except E Nat × W)
    (val : Fn → Subset → Nat) (hdet : ∀ w f B, (evaluate w f B).1 = Except.ok (val f B))
    (s : TablePruner Fn × W) (op : PrunerOp Fn) (hshape : s.1.TableShape)
    (h : s.1.TableOf val) : (TablePruner.step evaluate s op).1.TableOf val := by
  obtain ⟨p, w⟩ := s
  cases op with
  | addGInvariant fn => exact TablePruner.addGInvariant_tableOf evaluate val hdet p w fn hshape h
  | getNewReps => exact h.of_sameTable (TablePruner.getNewReps_sameTable p)
  | getNewData => exact h.of_sameTable (TablePruner.getNewData_sameTable p)
  | getColumn B => exact h.of_sameTable (TablePruner.getColumn_sameTable evaluate p w B)

theorem TablePruner.after_tableOf (evaluate : W → Fn → Subset → Except E Nat × W)
    (val : Fn → Subset → Nat) (hdet : ∀ w f B, (evaluate w f B).1 = Except.ok (val f B))
    (ops : List (PrunerOp Fn)) (p : TablePruner Fn) (w : W) (hshape : p.TableShape)
    (h : p.TableOf val) : (TablePruner.after evaluate p w ops).1.TableOf val := by
  induction ops generalizing p w with
  | nil => exact h
  | cons op ops ih =>
    exact ih (TablePruner.step evaluate (p, w) op).1 (TablePruner.step evaluate (p, w) op).2
      (TablePruner.step_shape evaluate (p, w) op hshape).1
      (TablePruner.step_tableOf evaluate val hdet (p, w) op hshape h)

/-- In every state reached by calls on a newly constructed pruner whose
functions have values that do not depend on the state of the evaluation
caches, every column of the table holds the values of the functions on its
candidate. -/
theorem TablePruner.reachable_tableOf (evaluate : W → Fn → Subset → Except E Nat × W)
    (val : Fn → Subset → Nat) (hdet : ∀ w f B, (evaluate w f B).1 = Except.ok (val f B))
    (candidates : List Subset) (k rho : Nat) (prunerData : Option (TablePrunerData Fn))
    (ready0 : Bool) (w0 : W) (ops : List (PrunerOp Fn)) :
    (TablePruner.after evaluate (TablePruner.create candidates k rho prunerData ready0) w0
      ops).1.TableOf val := by
  have h0 : (TablePruner.create candidates k rho prunerData ready0).TableShape ∧
      (TablePruner.create candidates k rho prunerData ready0).TableOf val := by
    unfold TablePruner.create
    split
    · exact ⟨⟨rfl, fun row hrow => by simp at hrow⟩, fun i _ => rfl⟩
    · exact ⟨⟨rfl, fun row hrow => by simp [Table.resize] at hrow⟩, fun i _ => rfl⟩
  exact TablePruner.after_tableOf evaluate val hdet ops _ w0 h0.1 h0.2

/-- What the discriminator of a ready pruner in a reachable state holds: the
function list of the pruner, the translation table and the starting cache of
`initOutputs`, and a candidate map over the starting cache. -/
theorem TablePruner.getNewData_outputs (evaluate : W → Fn → Subset → Except E Nat × W)
    (candidates : List Subset) (k rho : Nat) (prunerData : Option (TablePrunerData Fn))
    (ready0 : Bool) (w0 : W) (ops : List (PrunerOp Fn)) (p : TablePruner Fn)
    (hreach : p = (TablePruner.after evaluate
      (TablePruner.create candidates k rho prunerData ready0) w0 ops).1)
    (hrho : rho ≠ 1) (hnodup : candidates.Nodup) (hready : p.ready = true) :
    p.candidates = candidates ∧
    ∃ (cm : MapType Subset Nat) (d : Discriminator Fn),
      (p.getNewData (E := E)).1 = Except.ok ⟨DiscriminatorPtr.Discriminator d, false⟩ ∧
      (p.getNewData (E := E)).2.candidateMap = some cm ∧
      d.functions = p.fns ∧ d.lookupTable = p.outputsState.lookupTable ∧
      d.newCache = p.outputsState.candidateMap ∧
      ∀ c v, p.outputsState.candidateMap.find c = some v → cm.find c = some v := by
  obtain ⟨hc, hcands, -, -⟩ :=
    TablePruner.reachable_inv evaluate candidates k rho prunerData ready0 w0 ops hrho hnodup
  rw [← hreach] at hc hcands
  subst hcands
  obtain ⟨hst, cm, d, hset, hdata⟩ := TablePruner.getNewData_spec evaluate p hc hready hnodup
  obtain ⟨-, -, o3, -, o5, o6, o7, o8, -, -⟩ := hset
  have hos := hst.outputsState
  rw [hos] at o6 o7 o8
  rw [hst.2.2.1] at o5
  exact ⟨rfl, cm, d, hdata, o3, o5, o6,
    o7.trans (TablePruner.outputsState_counts p hnodup).2.2, o8⟩

theorem TablePruner.mem_columns_iff (p : TablePruner Fn) (fv : List Nat) :
    fv ∈ p.columns ↔ ∃ i, i < p.candidates.length ∧ fv = p.F.column i := by
  unfold TablePruner.columns
  rw [List.mem_map]
  constructor
  · rintro ⟨i, hi, h⟩
    exact ⟨i, List.mem_range.1 hi, h.symm⟩
  · rintro ⟨i, hi, h⟩
    exact ⟨i, List.mem_range.2 hi, h.symm⟩

end Deterministic

/-- C37: let a pruner with `rho` other than 1 and pairwise different candidates
be ready, in a state reached by calls on the newly constructed pruner, and let
every function have, on every subset, a value `val f B` that does not depend
on the state of the evaluation caches. Then `getNewData()` returns a
discriminator `d` over the function list, and for every candidate `c` there is
a code that the starting cache `newCache` of `d` and the candidate map of the
pruner hold for `c`, that the translation table of `d` holds for the
signature `(val f_0 c, ..., val f_(n-1) c)`, which is what the evaluator of `d`
computes on `c`, and that the evaluation delegate of `d` returns on `c` on
demand. -/
theorem TablePruner.preseeded_code_is_on_demand_code {Fn W E : Type}
    (evaluate : W → Fn → Subset → Except E Nat × W) (val : Fn → Subset → Nat)
    (candidates : List Subset) (k rho : Nat)
    (prunerData : Option (TablePrunerData Fn)) (ready0 : Bool) (w0 : W)
    (ops : List (PrunerOp Fn)) (p : TablePruner Fn)
    (hreach : p = (TablePruner.after evaluate
      (TablePruner.create candidates k rho prunerData ready0) w0 ops).1)
    (hrho : rho ≠ 1) (hnodup : candidates.Nodup) (hready : p.ready = true)
    (hdet : ∀ w f B, (evaluate w f B).1 = Except.ok (val f B)) :
    ∃ (cm : MapType Subset Nat) (d : Discriminator Fn),
      (p.getNewData (E := E)).1 = Except.ok ⟨DiscriminatorPtr.Discriminator d, false⟩ ∧
      (p.getNewData (E := E)).2.candidateMap = some cm ∧ d.functions = p.fns ∧
      ∀ c, c ∈ candidates → ∃ code,
        d.newCache.find c = some code ∧ cm.find c = some code ∧
        d.lookupTable.find (d.functions.map (fun f => val f c)) = some code ∧
        ∀ w, (DiscriminatorEvaluator evaluate d.functions w c).1 =
            Except.ok (d.functions.map (fun f => val f c)) ∧
          (DiscriminatorEvaluationDelegate evaluate d.functions d.lookupTable w c).1 =
            Except.ok code := by
  have htab : p.TableOf val := by
    rw [hreach]
    exact TablePruner.reachable_tableOf evaluate val hdet candidates k rho prunerData ready0 w0
      ops
  obtain ⟨hcands, cm, d, h1, h2, h3, h4, h5, h6⟩ := TablePruner.getNewData_outputs evaluate
    candidates k rho prunerData ready0 w0 ops p hreach hrho hnodup hready
  subst hcands
  refine ⟨cm, d, h1, h2, h3, fun c hc => ?_⟩
  obtain ⟨i, hi, hic⟩ := List.mem_iff_getElem.1 hc
  have hcol := htab i hi
  rw [List.getD_eq_getElem _ _ hi, hic] at hcol
  have hfind := TablePruner.outputsState_candidateMap p hnodup i hi
  rw [hic] at hfind
  have hl := TablePruner.outputsState_lookupTable p hnodup (p.F.column i)
  rw [if_pos (TablePruner.column_mem_columns p i hi)] at hl
  refine ⟨patternCode p.columns (p.F.column i), by rw [h5]; exact hfind, h6 _ _ hfind, ?_,
    fun w => ?_⟩
  · rw [h3, h4, ← hcol]
    exact hl
  · have hsig := DiscriminatorEvaluator_det evaluate val hdet p.fns w c
    rw [← hcol] at hsig
    rw [h3, h4]
    refine ⟨by rw [← hcol]; exact hsig, ?_⟩
    exact TablePruner.delegate_of_signature evaluate p hnodup w c i hi hsig

/-- C37, on the three candidates with `rho = 2` and the function that gives the
first element of a subset: the code that the starting cache holds for the
candidate {1,2} is the code of its signature in the translation table. -/
theorem TablePruner.preseeded_code_is_on_demand_code_witness :
    ∃ d : Discriminator Nat,
      ((TablePruner.after exampleEvaluate (TablePruner.create exampleCandidates 2 2 none false)
        () [PrunerOp.addGInvariant 0]).1.getNewData (E := Nat)).1 =
          Except.ok ⟨DiscriminatorPtr.Discriminator d, false⟩ ∧
      ∃ code, d.newCache.find [1, 2] = some code ∧
        d.lookupTable.find (d.functions.map (fun f => [1, 2].getD f 0)) = some code ∧
        (DiscriminatorEvaluationDelegate exampleEvaluate d.functions d.lookupTable () [1, 2]).1 =
          Except.ok code :=
  match TablePruner.preseeded_code_is_on_demand_code exampleEvaluate (fun f B => B.getD f 0)
    exampleCandidates 2 2 none false () [PrunerOp.addGInvariant 0]
    (TablePruner.after exampleEvaluate (TablePruner.create exampleCandidates 2 2 none false) ()
      [PrunerOp.addGInvariant 0]).1 rfl (by decide) (by decide) (by decide)
    (fun _ _ _ => rfl) with
  | ⟨_, d, h1, _, _, h4⟩ =>
    ⟨d, h1,
      match h4 [1, 2] (by decide) with
      | ⟨code, a1, _, a3, a4⟩ => ⟨code, a1, a3, (a4 ()).2⟩⟩

/-- C38: let a pruner with `rho` other than 1 and pairwise different candidates
be ready, in a state reached by calls on the newly constructed pruner, and let
`d` be the discriminator that `getNewData()` returns, built by `initOutputs`. For
every subset `B` whose signature `fv` the evaluator of `d` computes, the
translation table of `d` holds an entry for `fv` if and only if `fv` is the
column of a candidate in the table; the evaluation delegate returns a code in
exactly this case, and runs into the dereferencing of the end iterator
otherwise. When the values of the functions do not depend on the state of the
evaluation caches, the column of a candidate is its signature, and the lookup
finds an entry for every subset on which every function of the list has the
value it has on some candidate. -/
theorem Discriminator.lookup_finds_iff_candidate_column {Fn W E : Type}
    (evaluate : W → Fn → Subset → Except E Nat × W) (candidates : List Subset) (k rho : Nat)
    (prunerData : Option (TablePrunerData Fn)) (ready0 : Bool) (w0 : W)
    (ops : List (PrunerOp Fn)) (p : TablePruner Fn)
    (hreach : p = (TablePruner.after evaluate
      (TablePruner.create candidates k rho prunerData ready0) w0 ops).1)
    (hrho : rho ≠ 1) (hnodup : candidates.Nodup) (hready : p.ready = true) :
    ∃ d : Discriminator Fn,
      (p.getNewData (E := E)).1 = Except.ok ⟨DiscriminatorPtr.Discriminator d, false⟩ ∧
      d.functions = p.fns ∧
      (∀ w B fv w1, DiscriminatorEvaluator evaluate d.functions w B = (Except.ok fv, w1) →
        ((∃ code, d.lookupTable.find fv = some code) ↔
          ∃ i, i < candidates.length ∧ fv = p.F.column i) ∧
        ((∃ code, DiscriminatorEvaluationDelegate evaluate d.functions d.lookupTable w B =
            (Except.ok code, w1)) ↔ ∃ i, i < candidates.length ∧ fv = p.F.column i) ∧
        (DiscriminatorEvaluationDelegate evaluate d.functions d.lookupTable w B =
            (Except.error Failure.undefined, w1) ↔
          ¬ ∃ i, i < candidates.length ∧ fv = p.F.column i)) ∧
      ∀ val : Fn → Subset → Nat, (∀ w f B, (evaluate w f B).1 = Except.ok (val f B)) →
        (∀ i, i < candidates.length →
          p.F.column i = d.functions.map (fun f => val f (candidates.getD i []))) ∧
        ∀ B c, c ∈ candidates → (∀ f, f ∈ d.functions → val f B = val f c) →
          ∀ w, ∃ code,
            (DiscriminatorEvaluationDelegate evaluate d.functions d.lookupTable w B).1 =
              Except.ok code := by
  obtain ⟨hcands, cm, d, h1, -, h3, h4, -, -⟩ := TablePruner.getNewData_outputs evaluate
    candidates k rho prunerData ready0 w0 ops p hreach hrho hnodup hready
  subst hcands
  have hfind : ∀ fv, (∃ code, d.lookupTable.find fv = some code) ↔
      ∃ i, i < p.candidates.length ∧ fv = p.F.column i := by
    intro fv
    rw [h4, TablePruner.outputsState_lookupTable p hnodup fv, ← TablePruner.mem_columns_iff]
    by_cases hm : fv ∈ p.columns
    · rw [if_pos hm]
      exact ⟨fun _ => hm, fun _ => ⟨_, rfl⟩⟩
    · rw [if_neg hm]
      constructor
      · rintro ⟨c, hc⟩
        cases hc
      · intro h
        exact absurd h hm
  refine ⟨d, h1, h3, fun w B fv w1 hev => ⟨hfind fv, ?_, ?_⟩, fun val hdet => ?_⟩
  · rw [← hfind fv]
    unfold DiscriminatorEvaluationDelegate
    rw [hev]
    simp only []
    cases hf : d.lookupTable.find fv with
    | some code => exact ⟨fun _ => ⟨code, rfl⟩, fun _ => ⟨code, rfl⟩⟩
    | none =>
      constructor
      · rintro ⟨code, hc⟩
        simp at hc
      · rintro ⟨code, hc⟩
        cases hc
  · rw [← hfind fv]
    unfold DiscriminatorEvaluationDelegate
    rw [hev]
    simp only []
    cases hf : d.lookupTable.find fv with
    | some code =>
      constructor
      · intro hc
        simp at hc
      · intro hc
        exact absurd ⟨code, rfl⟩ hc
    | none =>
      constructor
      · rintro - ⟨code, hc⟩
        cases hc
      · intro _
        rfl
  · have htab : p.TableOf val := by
      rw [hreach]
      exact TablePruner.reachable_tableOf evaluate val hdet p.candidates k rho prunerData ready0
        w0 ops
    rw [h3]
    refine ⟨htab, fun B c hc hsame w => ?_⟩
    obtain ⟨i, hi, hic⟩ := List.mem_iff_getElem.1 hc
    have hcol := htab i hi
    rw [List.getD_eq_getElem _ _ hi, hic] at hcol
    have hsig := DiscriminatorEvaluator_det evaluate val hdet p.fns w B
    have hmap : p.fns.map (fun f => val f B) = p.F.column i := by
      rw [hcol]
      apply List.map_congr_left
      intro f hf
      exact hsame f hf
    rw [hmap] at hsig
    rw [h4]
    exact ⟨_, TablePruner.delegate_of_signature evaluate p hnodup w B i hi hsig⟩

/-- C38, on the three candidates with `rho = 2` and the function that gives the
first element of a subset: the columns of the candidates are `(0)`, `(0)` and
`(1)`; the lookup finds an entry for the subset {1,5}, whose signature is `(1)`,
and none for the subset {7,8}, whose signature is `(7)`. -/
theorem Discriminator.lookup_finds_iff_candidate_column_witness :
    ∃ d : Discriminator Nat,
      ((TablePruner.after exampleEvaluate (TablePruner.create exampleCandidates 2 2 none false)
        () [PrunerOp.addGInvariant 0]).1.getNewData (E := Nat)).1 =
          Except.ok ⟨DiscriminatorPtr.Discriminator d, false⟩ ∧
      (∃ code, DiscriminatorEvaluationDelegate exampleEvaluate d.functions d.lookupTable () [1, 5] =
        (Except.ok code, ())) ∧
      DiscriminatorEvaluationDelegate exampleEvaluate d.functions d.lookupTable () [7, 8] =
        (Except.error Failure.undefined, ()) :=
  match Discriminator.lookup_finds_iff_candidate_column exampleEvaluate
    exampleCandidates 2 2 none false () [PrunerOp.addGInvariant 0]
    (TablePruner.after exampleEvaluate (TablePruner.create exampleCandidates 2 2 none false) ()
      [PrunerOp.addGInvariant 0]).1 rfl (by decide) (by decide) (by decide) with
  | ⟨d, h1, hfn, h2, _⟩ =>
    have hfn0 : d.functions = [0] := hfn.trans (by decide)
    ⟨d, h1,
      ((h2 () [1, 5] [1] () (by rw [hfn0]; rfl)).2.1).2 ⟨2, by decide, by decide⟩,
      ((h2 () [7, 8] [7] () (by rw [hfn0]; rfl)).2.2).2 (by decide)⟩

/-- C31 fails on the code. For the groups generated by `(0 1)`, with base `(0)`,
and by `(1 2)`, with base `(1)`, `GroupWeakOrdering` puts each before the other: the
first has the smaller base and the second the smaller generating set, which is
compared whenever the base of the left group is not smaller, also when it is
greater. `AnchorSetWeakOrdering` compares the anchor sets whenever the left group is
not before the right one: for the groups generated by `(0 1)` and by `(0 2)`,
which `GroupWeakOrdering` orders one way only, it puts the anchor set {1} over the
former and the anchor set {0} over the latter each before the other. -/
theorem GroupWeakOrdering.not_asymmetric :
    GroupWeakOrdering (exampleGroups 0) (exampleGroups 1) = true ∧
      GroupWeakOrdering (exampleGroups 1) (exampleGroups 0) = true ∧
      GroupWeakOrdering (exampleGroups 0) (exampleGroups 2) = true ∧
      GroupWeakOrdering (exampleGroups 2) (exampleGroups 0) = false ∧
      AnchorSetWeakOrdering exampleGroups ⟨0, 0, [1]⟩ ⟨1, 2, [0]⟩ = true ∧
      AnchorSetWeakOrdering exampleGroups ⟨1, 2, [0]⟩ ⟨0, 0, [1]⟩ = true := by
  decide

/-! ## The Kramer-Mesner matrix of one round -/

section KMMatrix

variable {P E D : Type}

theorem Matrix.zero_shape (n m : Nat) : (Matrix.zero n m).Shape n m := by
  refine ⟨by simp [Matrix.zero], fun row hrow => ?_⟩
  unfold Matrix.zero at hrow
  rw [List.eq_of_mem_replicate hrow]
  simp

theorem Matrix.zero_at (n m r c : Nat) : Matrix.at (Matrix.zero n m) r c = 0 := by
  unfold Matrix.at Matrix.zero
  rw [List.getD_eq_getElem?_getD, List.getD_eq_getElem?_getD]
  by_cases hr : r < n
  · rw [List.getElem?_replicate, if_pos hr]
    simp only [Option.getD_some]
    by_cases hc : c < m
    · rw [List.getElem?_replicate, if_pos hc]
      rfl
    · rw [List.getElem?_replicate, if_neg hc]
      rfl
  · rw [List.getElem?_replicate, if_neg hr]
    rfl

theorem Matrix.Shape.row_length {A : Matrix} {n m : Nat} (h : A.Shape n m) (r : Nat)
    (hr : r < n) : (A.getD r []).length = m := by
  apply h.2
  rw [List.getD_eq_getElem _ _ (by rw [h.1]; exact hr)]
  exact List.getElem_mem _

theorem Matrix.assign_shape {A : Matrix} {n m : Nat} (h : A.Shape n m) (row col : Nat)
    (x : Int) (hrow : row < n) : (Matrix.assign A row col x).Shape n m := by
  unfold Matrix.assign
  refine ⟨by rw [List.length_set]; exact h.1, fun R hR => ?_⟩
  rcases List.mem_or_eq_of_mem_set hR with hR | hR
  · exact h.2 R hR
  · rw [hR, List.length_set]
    exact h.row_length row hrow

theorem Matrix.at_assign {A : Matrix} {n m : Nat} (h : A.Shape n m) (row col : Nat) (x : Int)
    (hrow : row < n) (hcol : col < m) (r c : Nat) :
    Matrix.at (Matrix.assign A row col x) r c =
      if r = row ∧ c = col then x else Matrix.at A r c := by
  have hlen : row < A.length := by rw [h.1]; exact hrow
  have hrl := h.row_length row hrow
  unfold Matrix.at Matrix.assign
  simp only [List.getD_eq_getElem?_getD]
  by_cases hr : r = row
  · subst hr
    rw [List.getElem?_set_self hlen]
    simp only [Option.getD_some]
    have hcl : col < (A[r]?.getD []).length := by
      rw [← List.getD_eq_getElem?_getD, hrl]
      exact hcol
    by_cases hc : c = col
    · subst hc
      rw [if_pos ⟨trivial, rfl⟩, List.getElem?_set_self hcl]
      rfl
    · rw [if_neg (fun hh => hc hh.2), List.getElem?_set_ne (fun hh => hc hh.symm)]
  · rw [if_neg (fun hh => hr hh.1), List.getElem?_set_ne (fun hh => hr hh.symm)]

theorem findFirst_some {A : Type} [DecidableEq A] (xs : List A) (x : A) (i : Nat)
    (h : findFirst xs x = some i) : xs[i]? = some x := by
  induction xs generalizing i with
  | nil => simp [findFirst] at h
  | cons y ys ih =>
    unfold findFirst at h
    by_cases hy : y = x
    · rw [if_pos hy] at h
      cases h
      simp [hy]
    · rw [if_neg hy] at h
      cases hf : findFirst ys x with
      | none => rw [hf] at h; simp at h
      | some j =>
        rw [hf] at h
        simp only [Option.map_some', Option.some.injEq] at h
        subst h
        simpa using ih j hf

theorem findFirst_of_nodup {A : Type} [DecidableEq A] (xs : List A) (x : A) (i : Nat)
    (hnodup : xs.Nodup) (h : xs[i]? = some x) : findFirst xs x = some i := by
  induction xs generalizing i with
  | nil => simp at h
  | cons y ys ih =>
    unfold findFirst
    cases i with
    | zero =>
      simp only [List.getElem?_cons_zero, Option.some.injEq] at h
      rw [if_pos h]
    | succ i =>
      simp only [List.getElem?_cons_succ] at h
      have hne : y ≠ x := by
        intro hyx
        subst hyx
        exact (List.nodup_cons.1 hnodup).1 (List.getElem?_mem h)
      rw [if_neg hne, ih i (List.nodup_cons.1 hnodup).2 h]
      rfl

theorem findFirst_lt {A : Type} [DecidableEq A] (xs : List A) (x : A) (i : Nat)
    (h : findFirst xs x = some i) : i < xs.length := by
  have := findFirst_some xs x i h
  by_contra hlt
  rw [List.getElem?_eq_none (by omega)] at this
  cases this

theorem KMBuilder.countGenerators_spec (getColumn : P → Subset → Except (Failure E) Nat × P)
    (col : Subset → Nat) (orbitReps : List Subset) (candidate : Subset) (rho : Nat)
    (hcol : ∀ s, (getColumn s candidate).1 = Except.ok (col candidate))
    (hlt : col candidate < rho) :
    ∀ (js : List Nat) (A : Matrix) (p : P), A.Shape orbitReps.length rho →
      (∀ r c, Matrix.at A r c + (KMBuilder.hits col orbitReps candidate js r c : Int) ≤
        2 ^ 31 - 1) →
      ∃ (A1 : Matrix) (p1 : P),
        KMBuilder.countGenerators getColumn orbitReps candidate js A p = (Except.ok A1, p1) ∧
        A1.Shape orbitReps.length rho ∧
        ∀ r c, Matrix.at A1 r c =
          Matrix.at A r c + (KMBuilder.hits col orbitReps candidate js r c : Int) := by
  intro js
  induction js with
  | nil =>
    intro A p hA _
    exact ⟨A, p, rfl, hA, fun r c => by simp [KMBuilder.hits]⟩
  | cons j js ih =>
    intro A p hA hbound
    unfold KMBuilder.countGenerators
    cases hf : findFirst orbitReps (candidate.erase j) with
    | none =>
      have hh : ∀ r c, KMBuilder.hits col orbitReps candidate (j :: js) r c =
          KMBuilder.hits col orbitReps candidate js r c := by
        intro r c
        unfold KMBuilder.hits
        rw [List.countP_cons_of_neg]
        simp [hf]
      simp only []
      obtain ⟨A1, p1, h1, h2, h3⟩ := ih A p hA (fun r c => by rw [← hh]; exact hbound r c)
      exact ⟨A1, p1, h1, h2, fun r c => by rw [hh]; exact h3 r c⟩
    | some row =>
      have hrow := findFirst_lt _ _ _ hf
      have hh : ∀ r c, KMBuilder.hits col orbitReps candidate (j :: js) r c =
          KMBuilder.hits col orbitReps candidate js r c +
            (if r = row ∧ c = col candidate then 1 else 0) := by
        intro r c
        unfold KMBuilder.hits
        rw [List.countP_cons, hf]
        congr 1
        by_cases hrc : r = row ∧ c = col candidate
        · have : (some row = some r ∧ col candidate = c) := ⟨by rw [hrc.1], hrc.2.symm⟩
          rw [if_pos hrc, if_pos (decide_eq_true this)]
        · have : ¬ (some row = some r ∧ col candidate = c) := by
            rintro ⟨h1, h2⟩
            exact hrc ⟨(Option.some.inj h1).symm, h2.symm⟩
          rw [if_neg hrc, if_neg (by rw [decide_eq_false this]; simp)]
      simp only []
      have hc := hcol p
      cases hg : getColumn p candidate with
      | mk res p1 =>
        rw [hg] at hc
        simp only at hc
        subst hc
        simp only []
        have hb := hbound row (col candidate)
        rw [hh, if_pos ⟨rfl, rfl⟩] at hb
        push_cast at hb
        have hcell : Matrix.at A row (col candidate) < 2 ^ 31 - 1 := by
          have : (0 : Int) ≤ (KMBuilder.hits col orbitReps candidate js row (col candidate) : Int) :=
            Int.natCast_nonneg _
          omega
        have hinc : Matrix.increment A row (col candidate) =
            some (Matrix.assign A row (col candidate) (Matrix.at A row (col candidate) + 1)) := by
          unfold Matrix.increment
          rw [if_pos ⟨by rw [hA.1]; exact hrow, by rw [hA.row_length row hrow]; exact hlt, hcell⟩]
        rw [hinc]
        simp only []
        have hA1 := Matrix.assign_shape hA row (col candidate)
          (Matrix.at A row (col candidate) + 1) hrow
        have hat := Matrix.at_assign hA row (col candidate)
          (Matrix.at A row (col candidate) + 1) hrow hlt
        obtain ⟨A2, p2, h1, h2, h3⟩ := ih _ p1 hA1 (fun r c => by
          rw [hat]
          have := hbound r c
          rw [hh] at this
          push_cast at this
          by_cases hrc : r = row ∧ c = col candidate
          · rw [if_pos hrc] at this ⊢
            rw [hrc.1, hrc.2] at this ⊢
            omega
          · rw [if_neg hrc] at this ⊢
            omega)
        refine ⟨A2, p2, h1, h2, fun r c => ?_⟩
        rw [h3, hat, hh]
        push_cast
        by_cases hrc : r = row ∧ c = col candidate
        · rw [if_pos hrc, if_pos hrc, hrc.1, hrc.2]
          omega
        · rw [if_neg hrc, if_neg hrc]
          omega

theorem KMBuilder.countCandidates_spec (getColumn : P → Subset → Except (Failure E) Nat × P)
    (col : Subset → Nat) (orbitReps : List Subset) (rho : Nat) :
    ∀ (candidates : List Subset) (A : Matrix) (p : P),
      (∀ s B, B ∈ candidates → (getColumn s B).1 = Except.ok (col B)) →
      (∀ B, B ∈ candidates → col B < rho) →
      A.Shape orbitReps.length rho →
      (∀ r c, Matrix.at A r c +
        (((candidates.map (fun B => KMBuilder.hits col orbitReps B B r c)).sum : Nat) : Int) ≤
          2 ^ 31 - 1) →
      ∃ (A1 : Matrix) (p1 : P),
        KMBuilder.countCandidates getColumn orbitReps candidates A p = (Except.ok A1, p1) ∧
        A1.Shape orbitReps.length rho ∧
        ∀ r c, Matrix.at A1 r c = Matrix.at A r c +
          (((candidates.map (fun B => KMBuilder.hits col orbitReps B B r c)).sum : Nat) : Int) := by
  intro candidates
  induction candidates with
  | nil =>
    intro A p _ _ hA _
    exact ⟨A, p, rfl, hA, fun r c => by simp⟩
  | cons B rest ih =>
    intro A p hcol hlt hA hbound
    obtain ⟨A1, p1, h1, h2, h3⟩ := KMBuilder.countGenerators_spec getColumn col orbitReps B rho
      (fun s => hcol s B (List.mem_cons_self _ _)) (hlt B (List.mem_cons_self _ _)) B A p hA
      (fun r c => by
        have := hbound r c
        rw [List.map_cons, List.sum_cons, Nat.cast_add] at this
        have h0 : (0 : Int) ≤
            (((rest.map (fun B => KMBuilder.hits col orbitReps B B r c)).sum : Nat) : Int) :=
          Int.natCast_nonneg _
        omega)
    obtain ⟨A2, p2, k1, k2, k3⟩ := ih A1 p1
      (fun s B1 hB1 => hcol s B1 (List.mem_cons_of_mem _ hB1))
      (fun B1 hB1 => hlt B1 (List.mem_cons_of_mem _ hB1)) h2
      (fun r c => by
        have := hbound r c
        rw [List.map_cons, List.sum_cons, Nat.cast_add] at this
        rw [h3]
        omega)
    refine ⟨A2, p2, ?_, k2, fun r c => ?_⟩
    · unfold KMBuilder.countCandidates
      rw [h1]
      exact k1
    · rw [k3, h3, List.map_cons, List.sum_cons, Nat.cast_add]
      omega

theorem Labels.mem_labels_insert (labels : List Subset) (label x : Subset) :
    x ∈ Labels.insert labels label ↔ x = label ∨ x ∈ labels := by
  unfold Labels.insert
  split
  · constructor
    · intro h; exact Or.inr h
    · rintro (h | h)
      · subst h; assumption
      · exact h
  · rw [List.mem_orderedInsert]

theorem Labels.nodup_labels_insert (labels : List Subset) (label : Subset) (h : labels.Nodup) :
    (Labels.insert labels label).Nodup := by
  unfold Labels.insert
  split
  · exact h
  · rename_i hmem
    rw [(List.perm_orderedInsert _ label labels).nodup_iff]
    exact List.nodup_cons.2 ⟨hmem, h⟩

theorem FullCandidateGenerator.inner_spec (rep : Subset) (ys : List Nat) :
    ∀ labels : List Subset,
      (∀ x, x ∈ ys.foldl (fun labels y => Labels.insert labels (Subset.insert rep y)) labels ↔
        x ∈ labels ∨ ∃ y, y ∈ ys ∧ x = Subset.insert rep y) ∧
      (labels.Nodup →
        (ys.foldl (fun labels y => Labels.insert labels (Subset.insert rep y)) labels).Nodup) := by
  induction ys with
  | nil =>
    intro labels
    exact ⟨fun x => by simp, fun h => h⟩
  | cons y ys ih =>
    intro labels
    obtain ⟨h1, h2⟩ := ih (Labels.insert labels (Subset.insert rep y))
    refine ⟨fun x => ?_, fun h => h2 (Labels.nodup_labels_insert _ _ h)⟩
    rw [List.foldl_cons, h1, Labels.mem_labels_insert]
    constructor
    · rintro ((h | h) | ⟨z, hz, h⟩)
      · exact Or.inr ⟨y, List.mem_cons_self _ _, h⟩
      · exact Or.inl h
      · exact Or.inr ⟨z, List.mem_cons_of_mem _ hz, h⟩
    · rintro (h | ⟨z, hz, h⟩)
      · exact Or.inl (Or.inr h)
      · rcases List.mem_cons.1 hz with hz | hz
        · subst hz
          exact Or.inl (Or.inl h)
        · exact Or.inr ⟨z, hz, h⟩

theorem FullCandidateGenerator.outer_spec (v : Nat) (reps : List Subset) :
    ∀ labels : List Subset,
      (∀ x, x ∈ reps.foldl
          (fun labels rep =>
            (xMinus v rep).foldl (fun labels y => Labels.insert labels (Subset.insert rep y))
              labels) labels ↔
        x ∈ labels ∨ ∃ rep, rep ∈ reps ∧ ∃ y, y ∈ xMinus v rep ∧ x = Subset.insert rep y) ∧
      (labels.Nodup → (reps.foldl
          (fun labels rep =>
            (xMinus v rep).foldl (fun labels y => Labels.insert labels (Subset.insert rep y))
              labels) labels).Nodup) := by
  induction reps with
  | nil =>
    intro labels
    exact ⟨fun x => by simp, fun h => h⟩
  | cons rep reps ih =>
    intro labels
    obtain ⟨i1, i2⟩ := FullCandidateGenerator.inner_spec rep (xMinus v rep) labels
    obtain ⟨h1, h2⟩ := ih ((xMinus v rep).foldl
      (fun labels y => Labels.insert labels (Subset.insert rep y)) labels)
    refine ⟨fun x => ?_, fun h => h2 (i2 h)⟩
    rw [List.foldl_cons, h1, i1]
    constructor
    · rintro ((h | ⟨y, hy, h⟩) | ⟨rep1, hrep1, h⟩)
      · exact Or.inl h
      · exact Or.inr ⟨rep, List.mem_cons_self _ _, y, hy, h⟩
      · exact Or.inr ⟨rep1, List.mem_cons_of_mem _ hrep1, h⟩
    · rintro (h | ⟨rep1, hrep1, h⟩)
      · exact Or.inl (Or.inl h)
      · rcases List.mem_cons.1 hrep1 with hr | hr
        · subst hr
          obtain ⟨y, hy, h⟩ := h
          exact Or.inl (Or.inr ⟨y, hy, h⟩)
        · exact Or.inr ⟨rep1, hr, h⟩

/-- The candidates of the `FullCandidateGenerator` are the old representatives with
one more point each. -/
theorem FullCandidateGenerator.mem_generateCandidates (v : Nat) (reps : List Subset)
    (x : Subset) :
    x ∈ FullCandidateGenerator.generateCandidates v reps ↔
      ∃ rep, rep ∈ reps ∧ ∃ y, y ∈ xMinus v rep ∧ x = Subset.insert rep y := by
  unfold FullCandidateGenerator.generateCandidates
  rw [(FullCandidateGenerator.outer_spec v reps []).1]
  simp

theorem FullCandidateGenerator.nodup_generateCandidates (v : Nat) (reps : List Subset) :
    (FullCandidateGenerator.generateCandidates v reps).Nodup :=
  (FullCandidateGenerator.outer_spec v reps []).2 List.nodup_nil

theorem mem_xMinus (v : Nat) (B : Subset) (y : Nat) : y ∈ xMinus v B ↔ y < v ∧ y ∉ B := by
  unfold xMinus
  simp [List.mem_filter]

theorem Subset.sorted_insert (B : Subset) (y : Nat) (h : B.Sorted (· < ·)) :
    (Subset.insert B y).Sorted (· < ·) := by
  apply List.Sorted.lt_of_le
  · unfold Subset.insert
    split
    · exact h.le_of_lt
    · exact h.le_of_lt.orderedInsert y B
  · exact Subset.nodup_insert B y h.nodup

theorem Subset.erase_insert (B : Subset) (y : Nat) (hy : y ∉ B) :
    (Subset.insert B y).erase y = B := by
  unfold Subset.insert
  rw [if_neg hy]
  exact List.erase_orderedInsert_of_not_mem hy

theorem Subset.insert_erase (B : Subset) (j : Nat) (h : B.Sorted (· < ·)) (hj : j ∈ B) :
    Subset.insert (B.erase j) j = B := by
  unfold Subset.insert
  rw [if_neg (fun hmem => (List.Nodup.mem_erase_iff h.nodup).1 hmem |>.1 rfl)]
  exact List.orderedInsert_erase j B hj h.le_of_lt

/-- The increments that one candidate brings to a cell: one for every point `y`
outside the old representative of the row with which the representative
makes up the candidate, when the candidate has the column of the cell. -/
theorem KMBuilder.hits_eq_card (col : Subset → Nat) (v : Nat) (reps : List Subset) (r c : Nat)
    (hr : r < reps.length) (hnodup : reps.Nodup) (cand : Subset)
    (hcand : cand.Sorted (· < ·)) (hcv : ∀ x, x ∈ cand → x < v) :
    KMBuilder.hits col reps cand cand r c =
      (((Finset.range v).filter (fun y => y ∉ reps.getD r [] ∧
        col (Subset.insert (reps.getD r []) y) = c)).filter
          (fun y => Subset.insert (reps.getD r []) y = cand)).card := by
  unfold KMBuilder.hits
  rw [List.countP_eq_length_filter,
    ← List.toFinset_card_of_nodup (hcand.nodup.filter _)]
  congr 1
  ext j
  simp only [List.mem_toFinset, List.mem_filter, decide_eq_true_eq, Finset.mem_filter,
    Finset.mem_range]
  have hget : reps[r]? = some (reps.getD r []) := by
    rw [List.getD_eq_getElem _ _ hr]
    exact List.getElem?_eq_getElem hr
  constructor
  · rintro ⟨hj, hf, hc⟩
    have h1 := findFirst_some _ _ _ hf
    rw [hget] at h1
    have h2 : reps.getD r [] = cand.erase j := Option.some.inj h1
    have h3 : Subset.insert (reps.getD r []) j = cand := by
      rw [h2]
      exact Subset.insert_erase cand j hcand hj
    refine ⟨⟨hcv j hj, ?_, by rw [h3]; exact hc⟩, h3⟩
    rw [h2]
    intro hmem
    exact ((List.Nodup.mem_erase_iff hcand.nodup).1 hmem).1 rfl
  · rintro ⟨⟨-, hnot, hc⟩, hins⟩
    refine ⟨?_, ?_, by rw [← hins]; exact hc⟩
    · rw [← hins, Subset.mem_insert]
      exact Or.inl rfl
    · apply findFirst_of_nodup _ _ _ hnodup
      rw [hget, ← hins, Subset.erase_insert _ _ hnot]

/-- The increments that the candidates of the `FullCandidateGenerator` bring to a cell,
counted by the points outside the old representative of the row. -/
theorem KMBuilder.sum_hits (col : Subset → Nat) (v : Nat) (reps : List Subset) (r c : Nat)
    (hr : r < reps.length) (hnodup : reps.Nodup)
    (hreps : ∀ rep, rep ∈ reps → rep.Sorted (· < ·) ∧ ∀ x, x ∈ rep → x < v) :
    ((FullCandidateGenerator.generateCandidates v reps).map
        (fun B => KMBuilder.hits col reps B B r c)).sum =
      ((Finset.range v).filter (fun y => y ∉ reps.getD r [] ∧
        col (Subset.insert (reps.getD r []) y) = c)).card := by
  have hrmem : reps.getD r [] ∈ reps := by
    rw [List.getD_eq_getElem _ _ hr]
    exact List.getElem_mem _
  rw [← List.sum_toFinset _ (FullCandidateGenerator.nodup_generateCandidates v reps)]
  rw [Finset.card_eq_sum_card_fiberwise (f := fun y => Subset.insert (reps.getD r []) y)
    (t := (FullCandidateGenerator.generateCandidates v reps).toFinset)]
  · apply Finset.sum_congr rfl
    intro cand hc
    rw [List.mem_toFinset, FullCandidateGenerator.mem_generateCandidates] at hc
    obtain ⟨rep, hrep, y, hy, rfl⟩ := hc
    obtain ⟨hs, hlt⟩ := hreps rep hrep
    apply KMBuilder.hits_eq_card col v reps r c hr hnodup _ (Subset.sorted_insert rep y hs)
    intro x hx
    rcases (Subset.mem_insert rep y x).1 hx with hx | hx
    · rw [hx]
      exact ((mem_xMinus v rep y).1 hy).1
    · exact hlt x hx
  · intro y hy
    simp only [Finset.mem_filter, Finset.mem_range] at hy
    simp only [Finset.mem_coe, List.mem_toFinset]
    rw [FullCandidateGenerator.mem_generateCandidates]
    exact ⟨_, hrmem, y, (mem_xMinus v _ y).2 ⟨hy.1, hy.2.1⟩, rfl⟩

theorem card_outside (v : Nat) (rep : Subset) (hnodup : rep.Nodup)
    (hlt : ∀ x, x ∈ rep → x < v) :
    ((Finset.range v).filter (fun y => y ∉ rep)).card = v - rep.length := by
  have h1 := Finset.filter_card_add_filter_neg_card_eq_card (s := Finset.range v)
    (fun y => y ∈ rep)
  have h2 : (Finset.range v).filter (fun y => y ∈ rep) = rep.toFinset := by
    ext y
    simp only [Finset.mem_filter, Finset.mem_range, List.mem_toFinset]
    exact ⟨fun h => h.2, fun h => ⟨hlt y h, h⟩⟩
  rw [h2, List.toFinset_card_of_nodup hnodup, Finset.card_range] at h1
  omega

end KMMatrix

/-- C35: let the old representatives `orbitReps` be pairwise different sets of
`k - 1` of the points `0, ..., v - 1`, with `v` below `2 ^ 31`, let `rho` be other than 1,
and let `getColumn` return on every candidate `B`, whatever the state of the
pruner, a value `col B` below `rho`. Then the two loops of the non-trivial branch
of `KMBuilder::build` end with a matrix `A` of `orbitReps.size()` rows and `rho` columns in
which every cell `A[r][c]` is the number of the points `y` outside `orbitReps[r]`
for which `orbitReps[r]` with `y` has the column `c`, and every row has the sum
`v - (k - 1)`. When there is an old representative and `k - 1 < v`, and `prune`,
`getNewReps` and `getNewData` return, `build` returns this matrix. -/
theorem KMBuilder.build_counts_extensions {P E D : Type} (pruner : Pruner P E D)
    (col : Subset → Nat) (v k rho : Nat) (orbitReps : List Subset) (p : P)
    (hrho : rho ≠ 1) (hv : v < 2 ^ 31) (hnodup : orbitReps.Nodup)
    (hreps : ∀ rep, rep ∈ orbitReps →
      rep.Sorted (· < ·) ∧ rep.length = k - 1 ∧ ∀ x, x ∈ rep → x < v)
    (hcol : ∀ s B, B ∈ FullCandidateGenerator.generateCandidates v orbitReps →
      (pruner.getColumn s B).1 = Except.ok (col B) ∧ col B < rho) :
    (∀ s, ∃ (A : Matrix) (s1 : P),
      KMBuilder.countCandidates pruner.getColumn orbitReps
        (FullCandidateGenerator.generateCandidates v orbitReps)
        (Matrix.zero orbitReps.length rho) s = (Except.ok A, s1) ∧
      A.Shape orbitReps.length rho ∧
      (∀ r, r < orbitReps.length → ∀ c, c < rho →
        Matrix.at A r c = (((Finset.range v).filter (fun y => y ∉ orbitReps.getD r [] ∧
          col (Subset.insert (orbitReps.getD r []) y) = c)).card : Int)) ∧
      ∀ r, r < orbitReps.length →
        ∑ c in Finset.range rho, Matrix.at A r c = ((v - (k - 1) : Nat) : Int)) ∧
    ∀ p1 p2 newReps, pruner.prune p = some (Except.ok (), p1) →
      pruner.getNewReps p1 = (Except.ok newReps, p2) →
      (∀ s, ∃ data s1, pruner.getNewData s = (Except.ok data, s1)) →
      orbitReps ≠ [] → k - 1 < v →
      ∃ (out : KMBuilderOutput D) (s : P),
        KMBuilder.build pruner v orbitReps rho p = some (Except.ok out, s) ∧
        out.newReps = newReps ∧
        (KMBuilder.countCandidates pruner.getColumn orbitReps
          (FullCandidateGenerator.generateCandidates v orbitReps)
          (Matrix.zero orbitReps.length rho) p2).1 = Except.ok out.A := by
  have hsum : ∀ r c, r < orbitReps.length →
      ((FullCandidateGenerator.generateCandidates v orbitReps).map
        (fun B => KMBuilder.hits col orbitReps B B r c)).sum =
      ((Finset.range v).filter (fun y => y ∉ orbitReps.getD r [] ∧
        col (Subset.insert (orbitReps.getD r []) y) = c)).card :=
    fun r c hr => KMBuilder.sum_hits col v orbitReps r c hr hnodup
      (fun rep hrep => ⟨(hreps rep hrep).1, (hreps rep hrep).2.2⟩)
  have hzero : ∀ r c, ¬ r < orbitReps.length →
      ((FullCandidateGenerator.generateCandidates v orbitReps).map
        (fun B => KMBuilder.hits col orbitReps B B r c)).sum = 0 := by
    intro r c hr
    apply List.sum_eq_zero
    intro x hx
    obtain ⟨B, -, rfl⟩ := List.mem_map.1 hx
    unfold KMBuilder.hits
    rw [List.countP_eq_zero]
    intro j _
    simp only [decide_eq_true_eq, not_and]
    intro hf
    exact absurd (findFirst_lt _ _ _ hf) hr
  have hle : ∀ r c, ((FullCandidateGenerator.generateCandidates v orbitReps).map
      (fun B => KMBuilder.hits col orbitReps B B r c)).sum ≤ v := by
    intro r c
    by_cases hr : r < orbitReps.length
    · rw [hsum r c hr]
      calc _ ≤ (Finset.range v).card := Finset.card_filter_le _ _
        _ = v := Finset.card_range v
    · rw [hzero r c hr]
      exact Nat.zero_le v
  have hloop : ∀ s, ∃ (A : Matrix) (s1 : P),
      KMBuilder.countCandidates pruner.getColumn orbitReps
        (FullCandidateGenerator.generateCandidates v orbitReps)
        (Matrix.zero orbitReps.length rho) s = (Except.ok A, s1) ∧
      A.Shape orbitReps.length rho ∧
      (∀ r, r < orbitReps.length → ∀ c, c < rho →
        Matrix.at A r c = (((Finset.range v).filter (fun y => y ∉ orbitReps.getD r [] ∧
          col (Subset.insert (orbitReps.getD r []) y) = c)).card : Int)) ∧
      ∀ r, r < orbitReps.length →
        ∑ c in Finset.range rho, Matrix.at A r c = ((v - (k - 1) : Nat) : Int) := by
    intro s
    obtain ⟨A, s1, h1, h2, h3⟩ := KMBuilder.countCandidates_spec pruner.getColumn col orbitReps
      rho (FullCandidateGenerator.generateCandidates v orbitReps)
      (Matrix.zero orbitReps.length rho) s (fun s B hB => (hcol s B hB).1)
      (fun B hB => (hcol s B hB).2) (Matrix.zero_shape _ _)
      (fun r c => by
        rw [Matrix.zero_at]
        have := hle r c
        omega)
    have hcell : ∀ r, r < orbitReps.length → ∀ c,
        Matrix.at A r c = (((Finset.range v).filter (fun y => y ∉ orbitReps.getD r [] ∧
          col (Subset.insert (orbitReps.getD r []) y) = c)).card : Int) := by
      intro r hr c
      rw [h3, Matrix.zero_at, hsum r c hr, zero_add]
    refine ⟨A, s1, h1, h2, fun r hr c _ => hcell r hr c, fun r hr => ?_⟩
    have hrmem : orbitReps.getD r [] ∈ orbitReps := by
      rw [List.getD_eq_getElem _ _ hr]
      exact List.getElem_mem _
    obtain ⟨hs, hlen, hlt⟩ := hreps _ hrmem
    rw [Finset.sum_congr rfl (fun c _ => hcell r hr c), ← Nat.cast_sum, ← hlen,
      ← card_outside v _ hs.nodup hlt]
    congr 1
    rw [Finset.card_eq_sum_card_fiberwise
      (f := fun y => col (Subset.insert (orbitReps.getD r []) y)) (t := Finset.range rho)]
    · apply Finset.sum_congr rfl
      intro c _
      rw [Finset.filter_filter]
    · intro y hy
      simp only [Finset.mem_filter, Finset.mem_range] at hy
      simp only [Finset.mem_coe, Finset.mem_range]
      apply (hcol p _ _).2
      rw [FullCandidateGenerator.mem_generateCandidates]
      exact ⟨_, hrmem, y, (mem_xMinus v _ y).2 hy, rfl⟩
  refine ⟨hloop, fun p1 p2 newReps hprune hnew hdata hne hkv => ?_⟩
  obtain ⟨A, s1, h1, -, -, -⟩ := hloop p2
  obtain ⟨data, s2, hd⟩ := hdata s1
  have hcands : (FullCandidateGenerator.generateCandidates v orbitReps).isEmpty = false := by
    cases horb : orbitReps with
    | nil => exact absurd horb hne
    | cons rep rest =>
      have hrep : rep ∈ orbitReps := by rw [horb]; exact List.mem_cons_self _ _
      obtain ⟨hs, hlen, hlt⟩ := hreps rep hrep
      have hcard := card_outside v rep hs.nodup hlt
      have hpos : 0 < ((Finset.range v).filter (fun y => y ∉ rep)).card := by
        rw [hcard, hlen]
        omega
      obtain ⟨y, hy⟩ := Finset.card_pos.1 hpos
      simp only [Finset.mem_filter, Finset.mem_range] at hy
      have hmem : Subset.insert rep y ∈ FullCandidateGenerator.generateCandidates v orbitReps := by
        rw [FullCandidateGenerator.mem_generateCandidates]
        exact ⟨rep, hrep, y, (mem_xMinus v rep y).2 hy, rfl⟩
      rw [← horb]
      cases hg : FullCandidateGenerator.generateCandidates v orbitReps with
      | nil => rw [hg] at hmem; cases hmem
      | cons _ _ => rfl
  refine ⟨⟨newReps, A, some data⟩, s2, ?_, rfl, by rw [h1]⟩
  unfold KMBuilder.build
  rw [if_neg hrho]
  simp only [hprune, hnew, h1, hcands, hd, Bool.false_eq_true, if_false]

/-- C35 on the three points 0, 1, 2 with the old representatives {0}, {1}, {2},
`rho = 2` and the parity of the sum of a subset as its column: the candidates
{0,1}, {0,2} and {1,2} have the columns 1, 0 and 1, and `build` returns the matrix
with the rows `(1, 1)`, `(0, 2)` and `(1, 1)`, each of the sum `3 - (2 - 1)`. -/
theorem KMBuilder.build_counts_extensions_witness :
    (KMBuilder.countCandidates (examplePruner (fun B => B.sum % 2)).getColumn [[0], [1], [2]]
        (FullCandidateGenerator.generateCandidates 3 [[0], [1], [2]]) (Matrix.zero 3 2) ()).1 =
      Except.ok [[1, 1], [0, 2], [1, 1]] ∧
    ∃ (out : KMBuilderOutput Unit) (s : Unit),
      KMBuilder.build (examplePruner (fun B => B.sum % 2)) 3 [[0], [1], [2]] 2 () =
        some (Except.ok out, s) ∧
      (KMBuilder.countCandidates (examplePruner (fun B => B.sum % 2)).getColumn [[0], [1], [2]]
        (FullCandidateGenerator.generateCandidates 3 [[0], [1], [2]]) (Matrix.zero 3 2) ()).1 =
          Except.ok out.A :=
  ⟨by decide,
    match (KMBuilder.build_counts_extensions (examplePruner (fun B => B.sum % 2))
      (fun B => B.sum % 2) 3 2 2 [[0], [1], [2]] () (by decide) (by norm_num) (by decide)
      (by decide) (fun _ B _ => ⟨rfl, Nat.mod_lt _ (by decide)⟩)).2 () () [] rfl rfl
      (fun s => ⟨(), s, rfl⟩) (by decide) (by decide) with
    | ⟨out, s, h1, _, h3⟩ => ⟨out, s, h1, h3⟩⟩

/-- C36 fails on the code: for a group on 4 points with one orbit of sets of 2
points (`rho = 1`) and the old representative {0}, the trivial branch of `build`
returns the matrix with the entry `4 - 2 = 2`, while the two loops of the other
branch, with every candidate in column 0, end with the entry 3, the number of
the sets of 2 of the 4 points that hold the point 0. -/
theorem KMBuilder.trivial_entry_one_short :
    (KMBuilder.build (examplePruner (fun _ => 0)) 4 [[0]] 1 ()).map
        (fun r => r.1.map (fun out => out.A)) = some (Except.ok [[2]]) ∧
      (KMBuilder.countCandidates (examplePruner (fun _ => 0)).getColumn [[0]]
        (FullCandidateGenerator.generateCandidates 4 [[0]]) (Matrix.zero 1 1) ()).1 =
          Except.ok [[3]] ∧
      ((Finset.range 4).powerset.filter (fun B => B.card = 2 ∧ 0 ∈ B)).card = 3 := by
  refine ⟨by decide, by decide, by decide⟩

end MatrixGenerator
